import Mathlib

/-!
ZAM: optimizer and execution engine of the compiled-script abstract machine

A shallow embedding of `src/ZAM.cc`.  Instructions live in a heap that is
addressed the way the C++ addresses them: a `ZInst*` is either an element of
`insts1` (named by its position there) or the end sentinel `pending_inst`.
Member variables of the C++ class `ZAM` become fields of the structure `ZAM`;
member functions become functions on that structure.  `ASSERT`s are compiled
out in release builds and are modelled as no-ops; nothing below relies on them.
-/

namespace Zeek

/-! ## Data model -/

/-- An identifier, `ID*` in the source; two identifiers are the same when the pointers are. -/
abbrev ID := Nat

/-- A pointer to an instruction, `ZInst*` in the source: an element of `insts1`, named by its
position in `insts1`, or the end sentinel `pending_inst`. -/
inductive InstRef where
  | inst (i : Nat)
  | pending
  deriving DecidableEq, Repr

/-- The opcodes that the parts of `ZAM.cc` modelled here name; every other member of the
generated enumeration is `OP_other` with its number. -/
inductive ZOp where
  | OP_NOP
  | OP_GOTO_V
  | OP_HOOK_BREAK_X
  | OP_NEXT_TABLE_ITER_VV
  | OP_NEXT_TABLE_ITER_VAL_VAR_VVV
  | OP_SYNC_GLOBALS_X
  | OP_INIT_TABLE_LOOP_VVC
  | OP_INIT_VECTOR_LOOP_VV
  | OP_INIT_STRING_LOOP_VV
  | OP_DIRTY_GLOBAL_V
  | OP_LOG_WRITE_VVV
  | OP_LOG_WRITE_VV
  | OP_LOG_WRITE_VVC
  | OP_LOG_WRITE_VC
  | OP_BROKER_FLUSH_LOGS_V
  | OP_BROKER_FLUSH_LOGS_X
  | OP_TO_LOWER_VV
  | OP_LOAD_GLOBAL_VVC
  | OP_ASSIGN_CONST_VC
  | OP_CALL0_V
  | OP_CALL0_X
  | OP_CALL1_VV
  | OP_CALL1_VC
  | OP_CALL1_V
  | OP_CALL1_C
  | OP_CALL2_Vc
  | OP_CALL2_c
  | OP_CALL3_Vc
  | OP_CALL3_c
  | OP_CALL4_Vc
  | OP_CALL4_c
  | OP_CALL5_Vc
  | OP_CALL5_c
  | OP_CALLN_Vc
  | OP_CALLN_c
  | OP_INDCALLN_VVc
  | OP_INDCALLN_Vc
  | OP_SWITCHI_VVV
  | OP_SWITCHU_VVV
  | OP_SWITCHD_VVV
  | OP_SWITCHS_VVV
  | OP_SWITCHA_VVV
  | OP_SWITCHN_VVV
  | OP_LOAD_VAL_VV
  | OP_STORE_VAL_VV
  | OP_STORE_ANY_VAL_VV
  | OP_END_LOOP_V
  | OP_other (code : Nat)
  deriving DecidableEq, Repr

/-- The operand-layout tags that `ZAM.cc` names; the others are `OP_other_type`. -/
inductive ZAMOpType where
  | OP_X
  | OP_V
  | OP_VV
  | OP_Vc
  | OP_V_I1
  | OP_VC
  | OP_VVV
  | OP_VVC
  | OP_VVVV
  | OP_VV_I2
  | OP_VVC_I2
  | OP_VVV_I3
  | OP_VVV_I2_I3
  | OP_VVVV_I4
  | OP_VVVV_I3_I4
  | OP_VVVC_I3
  | OP_VVVC_I2_I3
  | OP_ViC_ID
  | OP_VV_FRAME
  | OP_VVc
  | OP_c
  | OP_C
  | OP_other_type (code : Nat)
  deriving DecidableEq, Repr

/-- One instruction, `ZInst` in the source, with the fields `ZAM.cc` reads or writes.
`aux` holds `aux->slots` (of length `aux->n`) and `loop_vars` holds
`c.iter_info->loop_vars` of a table-iteration instruction. -/
structure ZInst where
  op : ZOp
  op_type : ZAMOpType
  v1 : Int
  v2 : Int
  v3 : Int
  v4 : Int
  target : Option InstRef
  target2 : Option InstRef
  target_slot : Int
  target2_slot : Int
  live : Bool
  num_labels : Int
  inst_num : Int
  loop_depth : Int
  loop_start : Bool
  is_managed : Bool
  aux : Option (List Int)
  loop_vars : List Int
  deriving DecidableEq, Repr

/-- An instruction as lowering creates it: live, without labels, without branch targets. -/
def ZInst.new (op : ZOp) : ZInst :=
  { op := op, op_type := ZAMOpType.OP_X, v1 := 0, v2 := 0, v3 := 0, v4 := 0,
    target := none, target2 := none, target_slot := 0, target2_slot := 0,
    live := true, num_labels := 0, inst_num := -1, loop_depth := 0,
    loop_start := false, is_managed := false, aux := none, loop_vars := [] }

/-- One jump table of a switch, `std::map<key, ZInst*>` in the source, as its entries in
iteration order. -/
abbrev CaseMap (κ : Type) := List (κ × InstRef)

/-- The descriptor of one post-optimization frame slot, `FrameSharingInfo` in the source. -/
structure FrameSharingInfo where
  ids : List ID
  id_start : List Int
  scope_end : Int
  is_managed : Bool
  deriving DecidableEq, Repr

/-- A frame value, `ZAMValUnion` in the source: a 64-bit payload read as an integer, a double
or a pointer to a managed value, by the type the instruction carries. -/
structure ZAMValUnion where
  bits : Nat
  deriving DecidableEq, Repr

/-- The value with `managed_val = nullptr`. -/
def ZAMValUnion.nil : ZAMValUnion := { bits := 0 }

/-- One entry of the globals table, `GlobalInfo` in the source. -/
structure GlobalInfo where
  id : ID
  slot : Int
  deriving DecidableEq, Repr

/-- The compile-time state of one function body: the member variables of the C++ class `ZAM`
that the code generator, the optimizer, the final assembly of `insts2` and the engine use.
Maps keyed by `ZInst*` are keyed by the position of the instruction in `insts1`; `insts2` holds
pointers to the very instruction objects of `insts1`.  The keys of the double jump tables are
the doubles up to the equality of doubles, each held as a bit pattern (`doubleKey`).
`fixed_frame` is the content of the reusable frame, `none` for the null pointer.
`pending_set` tells whether the pointer `pending_inst` is set, in which case `pending_inst` is
the object it points to.  `func` names the function of the body, `args`
is `scope->OrderedVars()` and `nparam` is `func->FType()->Args()->NumFields()`.  The stacks
`breaks`, `nexts`, `fallthroughs` and `catches` hold statement numbers, the last element being
the top. -/
structure ZAM where
  insts1 : List ZInst
  pending_inst : ZInst
  insts2 : List Nat
  int_cases : List (CaseMap Int)
  uint_cases : List (CaseMap Nat)
  double_cases : List (CaseMap Nat)
  str_cases : List (CaseMap String)
  frame_layout1 : List (ID × Int)
  frame_denizens : List ID
  frame_size : Int
  managed_slots : List Int
  globals : List GlobalInfo
  num_globals : Int
  modified_globals : List ID
  inst_beginnings : Nat → Option (List ID)
  inst_endings : Nat → Option (List ID)
  denizen_beginning : Int → Option Nat
  denizen_ending : Int → Option Nat
  frame1_to_frame2 : List Int
  shared_frame_denizens : List FrameSharingInfo
  shared_frame_denizens_final : List FrameSharingInfo
  non_recursive : Bool
  fixed_frame : Option (List ZAMValUnion)
  pending_set : Bool
  func : Nat
  args : List ID
  nparam : Int
  interpreter_locals : List ID
  global_id_to_info : List (ID × Int)
  mark_dirty : Int
  top_main_inst : Int
  breaks : List (List Int)
  nexts : List (List Int)
  fallthroughs : List (List Int)
  catches : List (List Int)

/-- Dereference an instruction pointer. -/
def ZAM.deref (m : ZAM) : InstRef → Option ZInst
  | InstRef.inst i => m.insts1[i]?
  | InstRef.pending => some m.pending_inst

/-- Apply `f` to the instruction a pointer designates, in place. -/
def ZAM.modifyInst (m : ZAM) (r : InstRef) (f : ZInst → ZInst) : ZAM :=
  match r with
  | InstRef.inst i => { m with insts1 := m.insts1.modify f i }
  | InstRef.pending => { m with pending_inst := f m.pending_inst }

/-- A pointer is valid when it designates an element of `insts1` or the sentinel. -/
def ZAM.validRef (m : ZAM) : InstRef → Prop
  | InstRef.inst i => i < m.insts1.length
  | InstRef.pending => True

instance (m : ZAM) (r : InstRef) : Decidable (m.validRef r) := by
  cases r <;> simp only [ZAM.validRef] <;> infer_instance

/-! ## The label tally at the start of `OptimizeInsts` -/

/-- The statement `++(t->num_labels)`. -/
def ZAM.bumpLabel (m : ZAM) (r : InstRef) : ZAM :=
  m.modifyInst r (fun z => { z with num_labels := z.num_labels + 1 })

/-- The statement `if ( t && t->live ) ++(t->num_labels);`. -/
def ZAM.tallyTarget (m : ZAM) (t : Option InstRef) : ZAM :=
  match t with
  | none => m
  | some r =>
    match m.deref r with
    | some z => if z.live then m.bumpLabel r else m
    | none => m

/-- The body of the first loop of `OptimizeInsts` for one instruction `z` of `insts1`. -/
def ZAM.tallyInst (m : ZAM) (z : ZInst) : ZAM :=
  (m.tallyTarget z.target).tallyTarget z.target2

/-- The `TALLY_SWITCH_TARGETS` loops over one vector of jump tables: every entry increments the
label count of the instruction it maps to, without a liveness test. -/
def ZAM.tallySwitchTargets {κ : Type} (m : ZAM) (switches : List (CaseMap κ)) : ZAM :=
  switches.foldl (fun m1 targs => targs.foldl (fun m2 targ => m2.bumpLabel targ.2) m1) m

/-- The accounting for targeted statements with which `OptimizeInsts` starts.  The loop
`for ( auto& i : insts1 )` increments `num_labels` only, so the `target`, `target2` of each
instruction are those of the state before the loop; `live` is read from the current state. -/
def ZAM.tallyLabels (m : ZAM) : ZAM :=
  let m1 := m.insts1.foldl ZAM.tallyInst m
  let m2 := m1.tallySwitchTargets m1.int_cases
  let m3 := m2.tallySwitchTargets m2.uint_cases
  let m4 := m3.tallySwitchTargets m3.double_cases
  m4.tallySwitchTargets m4.str_cases

/-- The instructions of `insts1` whose `target` is `r`, counted. -/
def ZAM.numTargeting (m : ZAM) (r : InstRef) : Nat :=
  (m.insts1.filter (fun z => decide (z.target = some r))).length

/-- The instructions of `insts1` whose `target2` is `r`, counted. -/
def ZAM.numTargeting2 (m : ZAM) (r : InstRef) : Nat :=
  (m.insts1.filter (fun z => decide (z.target2 = some r))).length

/-- The entries of one vector of jump tables that map to `r`, counted. -/
def caseEntriesTo {κ : Type} (switches : List (CaseMap κ)) (r : InstRef) : Nat :=
  (switches.map (fun targs => (targs.filter (fun targ => decide (targ.2 = r))).length)).sum

/-- The entries of one vector of jump tables, counted. -/
def caseEntries {κ : Type} (switches : List (CaseMap κ)) : Nat :=
  (switches.map List.length).sum

/-- The switch-table entries, over the four kinds of table, that map to `r`. -/
def ZAM.numCaseEntriesTo (m : ZAM) (r : InstRef) : Nat :=
  caseEntriesTo m.int_cases r + caseEntriesTo m.uint_cases r
    + caseEntriesTo m.double_cases r + caseEntriesTo m.str_cases r

/-- The switch-table entries over the four kinds of table. -/
def ZAM.numCaseEntries (m : ZAM) : Nat :=
  caseEntries m.int_cases + caseEntries m.uint_cases
    + caseEntries m.double_cases + caseEntries m.str_cases

/-- The branches of `insts1`: one for every set `target` and one for every set `target2`. -/
def ZAM.numBranches (m : ZAM) : Nat :=
  (m.insts1.filter (fun z => z.target.isSome)).length
    + (m.insts1.filter (fun z => z.target2.isSome)).length

/-- Every branch target and every jump-table entry designates an element of `insts1` or the
sentinel: the pointers of the source are valid. -/
def ZAM.targetsValid (m : ZAM) : Prop :=
  (∀ z ∈ m.insts1, ∀ r, z.target = some r ∨ z.target2 = some r → m.validRef r)
  ∧ (∀ targs ∈ m.int_cases, ∀ e ∈ targs, m.validRef e.2)
  ∧ (∀ targs ∈ m.uint_cases, ∀ e ∈ targs, m.validRef e.2)
  ∧ (∀ targs ∈ m.double_cases, ∀ e ∈ targs, m.validRef e.2)
  ∧ (∀ targs ∈ m.str_cases, ∀ e ∈ targs, m.validRef e.2)

/-! ## Label accounting -/

/-- The label count of the instruction a pointer designates (0 for a dangling pointer). -/
def ZAM.labelsOf (m : ZAM) (r : InstRef) : Int :=
  match m.deref r with
  | some z => z.num_labels
  | none => 0

/-- The sum of `num_labels` over `insts1` and the sentinel. -/
def ZAM.totalLabels (m : ZAM) : Int :=
  (m.insts1.map ZInst.num_labels).sum + m.pending_inst.num_labels

/-- Every instruction of `insts1` and the sentinel are live. -/
def ZAM.allLive (m : ZAM) : Prop :=
  (∀ z ∈ m.insts1, z.live = true) ∧ m.pending_inst.live = true

/-- Every instruction of `insts1` and the sentinel have `num_labels = 0`. -/
def ZAM.noLabels (m : ZAM) : Prop :=
  (∀ z ∈ m.insts1, z.num_labels = 0) ∧ m.pending_inst.num_labels = 0

/-- Apply `++(t->num_labels)` to each pointer of a list in turn. -/
def ZAM.bumpAll (m : ZAM) (rs : List InstRef) : ZAM :=
  rs.foldl ZAM.bumpLabel m

/-- The pointers held by one vector of jump tables, in iteration order. -/
def caseRefs {κ : Type} (switches : List (CaseMap κ)) : List InstRef :=
  switches.flatMap (fun targs => targs.map Prod.snd)

/-- The branch pointers of one instruction: `target`, then `target2`. -/
def ZInst.refs (z : ZInst) : List InstRef :=
  z.target.toList ++ z.target2.toList

/-- Every pointer the tally visits, in the order it visits them. -/
def ZAM.allRefs (m : ZAM) : List InstRef :=
  m.insts1.flatMap ZInst.refs ++ caseRefs m.int_cases ++ caseRefs m.uint_cases
    ++ caseRefs m.double_cases ++ caseRefs m.str_cases

/-! ## The end of `CompileBody`: branches to live code, `insts2`, concrete branch operands -/

/-- The loop `while ( idx < insts1.size() && ! insts1[idx]->live ) ++idx;` of `FindLiveTarget`:
the position the loop stops at when it starts at `idx`.  It does not move when
`idx >= insts1.size()`. -/
def skipDead (insts1 : List ZInst) (idx : Nat) : Nat :=
  idx + (insts1.drop idx).findIdx (fun z => z.live)

/-- The member function `FindLiveTarget`: the first live instruction at or after the given one,
or the sentinel when there is none.  A dangling pointer is returned as it is. -/
def ZAM.FindLiveTarget (m : ZAM) (goto_target : InstRef) : InstRef :=
  match goto_target with
  | InstRef.pending => InstRef.pending
  | InstRef.inst p =>
    match m.insts1[p]? with
    | none => InstRef.inst p
    | some t =>
      let idx := skipDead m.insts1 t.inst_num.toNat
      if idx = m.insts1.length then InstRef.pending else InstRef.inst idx

/-- The body of the loop "Move branches to dead code forward to their successor live code" for
one instruction: dead instructions and instructions without `target` stay as they are. -/
def ZAM.liveTargets (m : ZAM) (inst : ZInst) : ZInst :=
  if inst.live = false then inst
  else
    match inst.target with
    | none => inst
    | some t =>
      { inst with target := some (m.FindLiveTarget t),
                  target2 := inst.target2.map m.FindLiveTarget }

/-- One round of the loop "Move branches to dead code forward to their successor live code":
the instruction at position `i` is updated in place. -/
def ZAM.moveBranchStep (m : ZAM) (i : Nat) : ZAM :=
  { m with insts1 := m.insts1.modify m.liveTargets i }

/-- The loop "Move branches to dead code forward to their successor live code" of
`CompileBody`, over the positions of `insts1` in order. -/
def ZAM.moveBranchesToLive (m : ZAM) : ZAM :=
  (List.range m.insts1.length).foldl ZAM.moveBranchStep m

/-- The loop of `CompileBody` that fills `insts2` and the local `inst1_to_inst2`, from position
`i` on: a live instruction is appended to `insts2` and mapped to its position there, a dead one
is mapped to -1. -/
def fillInsts2 : List ZInst → Nat → List Nat → List Int → List Nat × List Int
  | [], _, insts2, inst1_to_inst2 => (insts2, inst1_to_inst2)
  | z :: rest, i, insts2, inst1_to_inst2 =>
    if z.live then
      fillInsts2 rest (i + 1) (insts2 ++ [i]) (inst1_to_inst2 ++ [(insts2.length : Int)])
    else
      fillInsts2 rest (i + 1) insts2 (inst1_to_inst2 ++ [-1])

/-- The loop `for i: insts2[i]->inst_num = i` of `CompileBody`, from position `i` of `insts2`
on: `ps` holds `insts2[i], insts2[i+1], ...`, pointers into `insts1`. -/
def renumberFrom : List Nat → Nat → List ZInst → List ZInst
  | [], _, insts1 => insts1
  | p :: ps, i, insts1 =>
    renumberFrom ps (i + 1) (insts1.modify (fun z => { z with inst_num := (i : Int) }) p)

/-- The loop `for i: insts2[i]->inst_num = i` of `CompileBody`. -/
def ZAM.renumberInsts2 (m : ZAM) : ZAM :=
  { m with insts1 := renumberFrom m.insts2 0 m.insts1 }

/-- The operand of an instruction that a target slot selects. -/
def ZInst.operand (z : ZInst) (slot : Int) : Option Int :=
  if slot = 1 then some z.v1
  else if slot = 2 then some z.v2
  else if slot = 3 then some z.v3
  else if slot = 4 then some z.v4
  else none

/-- The local `t` of `RetargetBranch`, the instruction number of the target: `insts2.size()` for the sentinel, the
`inst_num` of the instruction otherwise. -/
def ZAM.targetNum (m : ZAM) (target : InstRef) : Int :=
  match target with
  | InstRef.pending => (m.insts2.length : Int)
  | InstRef.inst q =>
    match m.insts1[q]? with
    | some tz => tz.inst_num
    | none => 0

/-- The member function `RetargetBranch`, applied to the instruction `inst`: the number of the
target is stored in the operand `target_slot` selects.  A slot other than 1..4 is an internal
error, which ends the compilation: `none`. -/
def ZAM.RetargetBranch (m : ZAM) (inst : ZInst) (target : InstRef) (target_slot : Int) :
    Option ZInst :=
  let t : Int := m.targetNum target
  if target_slot = 1 then some { inst with v1 := t }
  else if target_slot = 2 then some { inst with v2 := t }
  else if target_slot = 3 then some { inst with v3 := t }
  else if target_slot = 4 then some { inst with v4 := t }
  else none

/-- The body of the loop "concretize GoTo's" of `CompileBody` for the instruction `inst`. -/
def ZAM.concretizeInst (m : ZAM) (inst : ZInst) : Option ZInst :=
  match inst.target with
  | none => some inst
  | some t =>
    match m.RetargetBranch inst t inst.target_slot with
    | none => none
    | some inst1 =>
      match inst1.target2 with
      | none => some inst1
      | some t2 => m.RetargetBranch inst1 t2 inst1.target2_slot

/-- The loop "concretize GoTo's" of `CompileBody`: `ps` holds the pointers `insts2[i]`,
`insts2[i+1]`, ... still to visit; each instruction is updated in place. -/
def ZAM.concretizeGoTos (m : ZAM) : List Nat → Option ZAM
  | [] => some m
  | p :: ps =>
    match m.insts1[p]? with
    | none => ZAM.concretizeGoTos m ps
    | some inst =>
      match m.concretizeInst inst with
      | none => none
      | some inst1 => ZAM.concretizeGoTos { m with insts1 := m.insts1.set p inst1 } ps

/-- The loop "Update remapped frame denizens" of `CompileBody`: every `id_start` is replaced by
`inst1_to_inst2[start]` (in place) and the descriptor is appended to
`shared_frame_denizens_final`.  A start outside `inst1_to_inst2` reads as -1. -/
def ZAM.updateDenizens (m : ZAM) (inst1_to_inst2 : List Int) : ZAM :=
  let infos := m.shared_frame_denizens.map (fun info =>
    { info with id_start := info.id_start.map (fun start =>
        if start < 0 then (-1 : Int) else (inst1_to_inst2[start.toNat]?).getD (-1)) })
  { m with shared_frame_denizens := infos,
           shared_frame_denizens_final := m.shared_frame_denizens_final ++ infos }

/-- The part of `CompileBody` from "Move branches to dead code forward" to "Update remapped
frame denizens": it yields the final state and the local `inst1_to_inst2`, or `none` when
`RetargetBranch` reports an internal error. -/
def ZAM.assemble (m : ZAM) : Option (ZAM × List Int) :=
  let m1 := m.moveBranchesToLive
  let m2 := { m1 with pending_inst := { m1.pending_inst with live := false } }
  let filled := fillInsts2 m2.insts1 0 m2.insts2 []
  let m3 := { m2 with insts2 := filled.1 }
  let m4 := m3.renumberInsts2
  match m4.concretizeGoTos m4.insts2 with
  | none => none
  | some m5 => some (m5.updateDenizens filled.2, filled.2)

/-! Notions used to state and prove the properties of the assembly. -/

/-- What `FindLiveTarget` reads of an instruction. -/
def liveNum (z : ZInst) : Bool × Int := (z.live, z.inst_num)

/-- The positions, counted from `i`, of the live instructions of a list. -/
def livePositions : List ZInst → Nat → List Nat
  | [], _ => []
  | z :: rest, i => if z.live then i :: livePositions rest (i + 1) else livePositions rest (i + 1)

/-- A branch of the instruction `z` to `r` through the operand `slot` is resolved: `r` is the
end sentinel and the operand is `insts2.size()`, or `r` is a live instruction that `insts2`
holds at the position `inst_num`, and the operand is that `inst_num`. -/
def ZAM.branchResolved (m : ZAM) (z : ZInst) (r : InstRef) (slot : Int) : Prop :=
  match r with
  | InstRef.pending => z.operand slot = some (m.insts2.length : Int)
  | InstRef.inst q =>
    ∃ t, m.insts1[q]? = some t ∧ t.live = true ∧ 0 ≤ t.inst_num
      ∧ m.insts2[t.inst_num.toNat]? = some q ∧ z.operand slot = some t.inst_num

/-- A branch of the instruction `z` to `r` through the operand `slot` goes to a live
instruction whose `inst_num`, its position in `insts2`, the operand holds. -/
def ZAM.branchToLive (m : ZAM) (z : ZInst) (r : InstRef) (slot : Int) : Prop :=
  ∃ t, m.deref r = some t ∧ t.live = true ∧ z.operand slot = some t.inst_num

/-- Branch resolution as C1 states it: every instruction of `insts2` with a `target` branches
to a live instruction whose `inst_num` its operand `target_slot` holds, and the same for
`target2` with `target2_slot`. -/
def ZAM.branchesToLive (m : ZAM) : Prop :=
  ∀ p ∈ m.insts2, ∀ z, m.insts1[p]? = some z →
    (∀ r, z.target = some r → m.branchToLive z r z.target_slot)
    ∧ (∀ r, z.target2 = some r → m.branchToLive z r z.target2_slot)

/-- Every `target` and `target2` of `insts1` designates an element of `insts1` or the
sentinel. -/
def ZAM.branchesValid (m : ZAM) : Prop :=
  ∀ z ∈ m.insts1, ∀ r, z.target = some r ∨ z.target2 = some r → m.validRef r

/-- The instruction numbers of `insts1` are the positions, as `CompileBody` sets them before
it optimizes. -/
def ZAM.numbered (m : ZAM) : Prop :=
  ∀ (i : Nat) (z : ZInst), m.insts1[i]? = some z → z.inst_num = (i : Int)

/-- The target slots of the live branches are among 1..4, as `SetV1`..`SetV4` set them. -/
def ZAM.slotsInRange (m : ZAM) : Prop :=
  ∀ z ∈ m.insts1, z.live = true → z.target.isSome →
    (1 ≤ z.target_slot ∧ z.target_slot ≤ 4)
    ∧ (z.target2.isSome → 1 ≤ z.target2_slot ∧ z.target2_slot ≤ 4)

/-- The state of `assemble` before the loop "concretize GoTo's", with `insts2 = I`. -/
def ZAM.beforeConcretize (m : ZAM) (I : List Nat) : ZAM :=
  { m.moveBranchesToLive with
    pending_inst := { m.moveBranchesToLive.pending_inst with live := false },
    insts2 := I,
    insts1 := renumberFrom I 0 m.moveBranchesToLive.insts1 }

/-! ## Collaborators of the optimizer -/

/-- The member functions of `ZInst` that `ZAM.cc` calls and that are defined outside it. -/
structure ZInstMethods where
  AssignsToSlot1 : ZInst → Bool
  UsesSlots : ZInst → Option (Int × Int × Int × Int)
  UpdateSlots : ZInst → List Int → ZInst
  IsGlobalLoad : ZInst → Bool
  IsDirectAssignment : ZInst → Bool
  DoesNotContinue : ZInst → Bool
  IsUnconditionalBranch : ZInst → Bool
  HasSideEffects : ZInst → Bool
  IsFrameStore : ZInst → Bool
  IsLoad : ZInst → Bool
  UsesSlot : ZInst → Int → Bool

/-- What the optimizer asks of its collaborators about an identifier: `IsManagedType` of its
type, `reducer->IsTemporary`, `IsGlobal`; and the order in which a `std::unordered_set<ID*>`
with the given elements is iterated, which the C++ library leaves open. -/
structure Analyses where
  IsManagedType : ID → Bool
  IsTemporary : ID → Bool
  IsGlobal : ID → Bool
  setOrder : List ID → List ID

/-- The expression `frame_layout1[id]`: the slot of an identifier, 0 for one not in the map. -/
def ZAM.layoutSlot (m : ZAM) (id : ID) : Int :=
  (m.frame_layout1.lookup id).getD 0

/-- The expression `frame_denizens[slot]`; reads identifier 0 outside the vector. -/
def ZAM.denizen (m : ZAM) (slot : Int) : ID :=
  (m.frame_denizens[slot.toNat]?).getD 0

/-- The expression `frame1_to_frame2[slot]`; reads -1 outside the vector. -/
def remapSlot (frame1_to_frame2 : List Int) (slot : Int) : Int :=
  if slot < 0 then -1 else (frame1_to_frame2[slot.toNat]?).getD (-1)

/-- The member function `KillInst`. -/
def ZAM.KillInst (m : ZAM) (i : Nat) : ZAM :=
  match m.insts1[i]? with
  | none => m
  | some z =>
    let m1 := { m with insts1 := m.insts1.modify (fun z => { z with live := false }) i }
    let m2 := match z.target with
      | none => m1
      | some t => m1.modifyInst t (fun tz => { tz with num_labels := tz.num_labels - 1 })
    match z.target2 with
    | none => m2
    | some t2 => m2.modifyInst t2 (fun tz => { tz with num_labels := tz.num_labels - 1 })

/-! ## `ReMapVar` and `ReMapFrame` -/

/-- The search loop of `ReMapVar` from position `i` of `shared_frame_denizens` on, with the
current candidate `apt_slot`: a compatible slot whose scope ends exactly at `inst` ends the
search, the first compatible slot is kept as a candidate otherwise. -/
def aptSlotFrom : List FrameSharingInfo → Nat → Int → Bool → Int → Int
  | [], _, apt_slot, _, _ => apt_slot
  | s :: rest, i, apt_slot, is_managed, inst =>
    if s.scope_end ≤ inst ∧ s.is_managed = is_managed then
      if s.scope_end = inst then (i : Int)
      else if apt_slot < 0 then aptSlotFrom rest (i + 1) (i : Int) is_managed inst
      else aptSlotFrom rest (i + 1) apt_slot is_managed inst
    else aptSlotFrom rest (i + 1) apt_slot is_managed inst

/-- The expression `denizen_ending[slot]->inst_num`; 0 when the slot has no ending, a case in
which `ReMapFrame` does not call `ReMapVar`. -/
def ZAM.endingNum (m : ZAM) (slot : Int) : Int :=
  match m.denizen_ending slot with
  | none => 0
  | some e =>
    match m.insts1[e]? with
    | some z => z.inst_num
    | none => 0

/-- The member function `ReMapVar(id, slot, inst)`. -/
def ZAM.ReMapVar (m : ZAM) (an : Analyses) (id : ID) (slot : Int) (inst : Int) : ZAM :=
  let is_managed := an.IsManagedType id
  let apt_slot := aptSlotFrom m.shared_frame_denizens 0 (-1) is_managed inst
  let scope_end := m.endingNum slot
  let m1 : ZAM :=
    if apt_slot < 0 then
      { m with
        shared_frame_denizens := m.shared_frame_denizens ++
          [{ ids := [], id_start := [], scope_end := 0, is_managed := is_managed }],
        managed_slots :=
          if is_managed then m.managed_slots ++ [(m.shared_frame_denizens.length : Int)]
          else m.managed_slots }
    else m
  let apt : Nat := if apt_slot < 0 then m.shared_frame_denizens.length else apt_slot.toNat
  { m1 with
    shared_frame_denizens := m1.shared_frame_denizens.modify
      (fun s => { s with ids := s.ids ++ [id], id_start := s.id_start ++ [inst],
                         scope_end := scope_end }) apt,
    frame1_to_frame2 := m1.frame1_to_frame2.set slot.toNat (apt : Int) }

/-- The inner loop of `ReMapFrame` for the instruction at position `i`: the identifiers that
begin there, in iteration order; one whose value is never used is not remapped. -/
def ZAM.remapVarsAt (m : ZAM) (an : Analyses) (i : Nat) : List ID → ZAM
  | [] => m
  | v :: vars =>
    let slot := m.layoutSlot v
    let m1 := if (m.denizen_ending slot).isSome then m.ReMapVar an v slot (i : Int) else m
    ZAM.remapVarsAt m1 an i vars

/-- One round of the first loop of `ReMapFrame`. -/
def ZAM.remapAt (m : ZAM) (an : Analyses) (i : Nat) : ZAM :=
  match m.inst_beginnings i with
  | none => m
  | some vars => m.remapVarsAt an i (an.setOrder vars)

/-- The function `std::vector<int>::resize(n, v)`. -/
def resizeVec (l : List Int) (n : Nat) (v : Int) : List Int :=
  l.take n ++ List.replicate (n - l.length) v

/-- The first two statements of `ReMapFrame`: `frame1_to_frame2` is resized to the size of
`frame_layout1`, new elements being -1, and `managed_slots` is cleared. -/
def ZAM.remapStart (m : ZAM) : ZAM :=
  { m with frame1_to_frame2 := resizeVec m.frame1_to_frame2 m.frame_layout1.length (-1),
           managed_slots := [] }

/-- The first loop of `ReMapFrame`, after the resizing of `frame1_to_frame2` and the clearing
of `managed_slots`: every identifier is remapped at the instruction that begins its lifetime. -/
def ZAM.remapVars (m : ZAM) (an : Analyses) : ZAM :=
  (List.range m.insts1.length).foldl (fun m1 i => m1.remapAt an i) m.remapStart

/-- The loop of `ReMapFrame` over `globals`: the slots are remapped, the globals without a
remapped slot are dropped; it yields `used_globals` and `remapped_globals`. -/
def remapGlobals (frame1_to_frame2 : List Int) :
    List GlobalInfo → List GlobalInfo → List Int → List GlobalInfo × List Int
  | [], used_globals, remapped_globals => (used_globals, remapped_globals)
  | g :: rest, used_globals, remapped_globals =>
    let g1 : GlobalInfo := { g with slot := remapSlot frame1_to_frame2 g.slot }
    if g1.slot ≥ 0 then
      remapGlobals frame1_to_frame2 rest (used_globals ++ [g1])
        (remapped_globals ++ [(used_globals.length : Int)])
    else
      remapGlobals frame1_to_frame2 rest used_globals (remapped_globals ++ [-1])

/-- The rewriting of one live instruction in the last loop of `ReMapFrame`; the flag tells
whether the instruction has become a direct assignment of a slot to itself. -/
def rewriteSlots (zm : ZInstMethods) (frame1_to_frame2 remapped_globals : List Int)
    (inst : ZInst) : ZInst × Bool :=
  let inst1 := if zm.AssignsToSlot1 inst then { inst with v1 := remapSlot frame1_to_frame2 inst.v1 }
               else inst
  if inst1.op = ZOp.OP_DIRTY_GLOBAL_V then
    ({ inst1 with v1 := remapSlot remapped_globals inst1.v1 }, false)
  else
    let inst2 :=
      if inst1.op = ZOp.OP_NEXT_TABLE_ITER_VV ∨ inst1.op = ZOp.OP_NEXT_TABLE_ITER_VAL_VAR_VVV then
        { inst1 with loop_vars := inst1.loop_vars.map (remapSlot frame1_to_frame2) }
      else
        { inst1 with aux := inst1.aux.map (fun slots =>
            slots.map (fun slot => if slot < 0 then slot else remapSlot frame1_to_frame2 slot)) }
    if zm.IsGlobalLoad inst2 then
      ({ inst2 with v2 := remapSlot remapped_globals inst2.v2 }, false)
    else
      let inst3 := zm.UpdateSlots inst2 frame1_to_frame2
      (inst3, zm.IsDirectAssignment inst3 && decide (inst3.v1 = inst3.v2))

/-- One round of the last loop of `ReMapFrame`. -/
def ZAM.rewriteAt (m : ZAM) (zm : ZInstMethods) (remapped_globals : List Int) (i : Nat) : ZAM :=
  match m.insts1[i]? with
  | none => m
  | some inst =>
    if inst.live = false then m
    else
      let r := rewriteSlots zm m.frame1_to_frame2 remapped_globals inst
      let m1 := { m with insts1 := m.insts1.set i r.1 }
      if r.2 then m1.KillInst i else m1

/-- The member function `ReMapFrame`. -/
def ZAM.ReMapFrame (m : ZAM) (zm : ZInstMethods) (an : Analyses) : ZAM :=
  let m1 := m.remapVars an
  let gl := remapGlobals m1.frame1_to_frame2 m1.globals [] []
  let m2 := { m1 with globals := gl.1, num_globals := (gl.1.length : Int) }
  let m3 := (List.range m2.insts1.length).foldl (fun ma i => ma.rewriteAt zm gl.2 i) m2
  { m3 with frame_size := (m3.shared_frame_denizens.length : Int) }

/-! Notions used to state the properties of the remapping. -/

/-- The identifiers of a shared slot, each with the instruction at which it was placed. -/
def FrameSharingInfo.entries (s : FrameSharingInfo) : List (ID × Int) :=
  s.ids.zip s.id_start

/-- The instruction number at which the lifetime of an identifier ends:
`denizen_ending[frame_layout1[id]]->inst_num`. -/
def ZAM.endOf (m : ZAM) (id : ID) : Int :=
  m.endingNum (m.layoutSlot id)

/-- No identifier that `ReMapFrame` remaps begins its lifetime after the instruction at which
the lifetime ends. -/
def ZAM.startsBeforeEnds (m : ZAM) : Prop :=
  ∀ (i : Nat) (vars : List ID), m.inst_beginnings i = some vars →
    ∀ v ∈ vars, (m.denizen_ending (m.layoutSlot v)).isSome → (i : Int) ≤ m.endOf v

/-- The invariant of one shared slot during the remapping: `ids` and `id_start` run in
parallel, no identifier of the slot outlives `scope_end`, and every identifier is placed at or
after the end of the lifetimes of the identifiers placed before it. -/
def ZAM.slotInv (m : ZAM) (s : FrameSharingInfo) : Prop :=
  s.ids.length = s.id_start.length
  ∧ (∀ e ∈ s.entries, m.endOf e.1 ≤ s.scope_end)
  ∧ s.entries.Pairwise (fun a b => m.endOf a.1 ≤ b.2)

/-- The invariant of the first loop of `ReMapFrame`, run from the state `m0`: the loop leaves
the instructions, the lifetimes and the frame layout alone, and every shared slot satisfies
`slotInv`. -/
def ZAM.remapInv (m0 m : ZAM) : Prop :=
  m.insts1 = m0.insts1 ∧ m.denizen_ending = m0.denizen_ending
  ∧ m.denizen_beginning = m0.denizen_beginning
  ∧ m.inst_beginnings = m0.inst_beginnings ∧ m.frame_layout1 = m0.frame_layout1
  ∧ m.frame_denizens = m0.frame_denizens
  ∧ ∀ s ∈ m.shared_frame_denizens, m0.slotInv s

/-- The invariant of one shared slot while the first loop of `ReMapFrame` is at the instruction
`cur`: `ids` and `id_start` run in parallel, the lifetime of every identifier of the slot ends
by `scope_end` or by `cur`, and every identifier is placed at or after the end of the lifetimes
of the identifiers placed before it. -/
def ZAM.slotInvAt (m : ZAM) (cur : Int) (s : FrameSharingInfo) : Prop :=
  s.ids.length = s.id_start.length
  ∧ (∀ e ∈ s.entries, m.endOf e.1 ≤ max s.scope_end cur)
  ∧ s.entries.Pairwise (fun a b => m.endOf a.1 ≤ b.2)

/-- The invariant of the first loop of `ReMapFrame`, run from the state `m0`, at the
instruction `cur`: the loop leaves the instructions, the lifetimes and the frame layout alone,
and every shared slot satisfies `slotInvAt`. -/
def ZAM.remapInvAt (m0 : ZAM) (cur : Int) (m : ZAM) : Prop :=
  m.insts1 = m0.insts1 ∧ m.denizen_ending = m0.denizen_ending
  ∧ m.denizen_beginning = m0.denizen_beginning
  ∧ m.inst_beginnings = m0.inst_beginnings ∧ m.frame_layout1 = m0.frame_layout1
  ∧ m.frame_denizens = m0.frame_denizens
  ∧ ∀ s ∈ m.shared_frame_denizens, m0.slotInvAt cur s

/-- The indices, counted from `i`, of the managed descriptors of a list of shared slots. -/
def managedFrom : List FrameSharingInfo → Nat → List Int
  | [], _ => []
  | s :: rest, i =>
    if s.is_managed then (i : Int) :: managedFrom rest (i + 1) else managedFrom rest (i + 1)

/-! ## `ComputeFrameLifetimes` -/

/-- Insertion into a `std::unordered_set<ID*>`, held as the list of its elements. -/
def setInsert (s : List ID) (x : ID) : List ID :=
  if x ∈ s then s else s ++ [x]

/-- The expression `insts1[i]->loop_depth`; 0 outside `insts1`. -/
def ZAM.depthAt (m : ZAM) (i : Nat) : Int :=
  match m.insts1[i]? with
  | some z => z.loop_depth
  | none => 0

/-- The expression `insts1[i]->live`; false outside `insts1`. -/
def ZAM.liveAt (m : ZAM) (i : Nat) : Bool :=
  match m.insts1[i]? with
  | some z => z.live
  | none => false

/-- The expression `inst->inst_num` for the instruction at position `p`; 0 outside `insts1`. -/
def ZAM.numAt (m : ZAM) (p : Nat) : Int :=
  match m.insts1[p]? with
  | some z => z.inst_num
  | none => 0

/-- The loop `while ( i >= 0 && insts1[i]->loop_depth >= depth ) --i;` of `BeginningOfLoop`,
started at `i`: the value of `i` at which it stops, -1 when it runs off the front. -/
def ZAM.backWhileDeep (m : ZAM) (depth : Int) : Nat → Int
  | 0 => if m.depthAt 0 ≥ depth then -1 else 0
  | i + 1 => if m.depthAt (i + 1) ≥ depth then ZAM.backWhileDeep m depth i else ((i + 1 : Nat) : Int)

/-- The loop `while ( i != inst->inst_num && ! insts1[i]->live ) ++i;` of `BeginningOfLoop`,
started at `i`, with `fuel` bounding the rounds. -/
def ZAM.upToLive (m : ZAM) (stop : Nat) : Nat → Nat → Nat
  | 0, i => i
  | fuel + 1, i => if i ≠ stop ∧ m.liveAt i = false then ZAM.upToLive m stop fuel (i + 1) else i

/-- The member function `BeginningOfLoop(inst, depth)` for the instruction at position `p`;
it yields the position of the instruction it returns. -/
def ZAM.BeginningOfLoop (m : ZAM) (p : Nat) (depth : Int) : Nat :=
  let n := (m.numAt p).toNat
  let i := m.backWhileDeep depth n
  if i = (n : Int) then p
  else m.upToLive n (n - (i + 1).toNat) (i + 1).toNat

/-- The loop `while ( i < insts1.size() && insts1[i]->loop_depth >= depth ) ++i;` of
`EndOfLoop`, started at `i`: the value of `i` at which it stops. -/
def ZAM.forthWhileDeep (m : ZAM) (depth : Int) (i : Nat) : Nat :=
  i + (m.insts1.drop i).findIdx (fun z => decide (¬ (z.loop_depth ≥ depth)))

/-- The loop `while ( i != inst->inst_num && ! insts1[i]->live ) --i;` of `EndOfLoop`, started
at `i`. -/
def ZAM.downToLive (m : ZAM) (stop : Nat) : Nat → Nat
  | 0 => 0
  | i + 1 => if i + 1 ≠ stop ∧ m.liveAt (i + 1) = false then ZAM.downToLive m stop i else i + 1

/-- The member function `EndOfLoop(inst, depth)` for the instruction at position `p`; it
yields the position of the instruction it returns. -/
def ZAM.EndOfLoop (m : ZAM) (p : Nat) (depth : Int) : Nat :=
  let n := (m.numAt p).toNat
  let i := m.forthWhileDeep depth n
  if i = n then p
  else m.downToLive n (i - 1)

/-- The statements `if ( inst_endings.count(inst) == 0 ) inst_endings[inst] = {};` and
`inst_endings[inst].insert(id)`, for either of the two maps. -/
def mapInsert (f : Nat → Option (List ID)) (inst : Nat) (id : ID) : Nat → Option (List ID) :=
  fun k => if k = inst then some (setInsert ((f inst).getD []) id) else f k

/-- The statement `inst_endings[old_inst].erase(id)`; `operator[]` creates a missing entry. -/
def mapErase (f : Nat → Option (List ID)) (inst : Nat) (id : ID) : Nat → Option (List ID) :=
  fun k => if k = inst then some (((f inst).getD []).filter (fun x => decide (x ≠ id))) else f k

/-- The member function `ExtendLifetime(slot, inst)`, `inst` being the instruction at
position `p`. -/
def ZAM.ExtendLifetime (m : ZAM) (an : Analyses) (slot : Int) (p : Nat) : ZAM :=
  match m.denizen_ending slot with
  | some old_inst =>
    if m.depthAt p > 0 ∧ an.IsTemporary (m.denizen slot) = true ∧ m.numAt old_inst ≥ m.numAt p then
      m
    else if m.numAt old_inst < m.numAt p then
      { m with
        inst_endings := mapInsert (mapErase m.inst_endings old_inst (m.denizen slot)) p
          (m.denizen slot),
        denizen_ending := fun k => if k = slot then some p else m.denizen_ending k }
    else m
  | none =>
    { m with
      denizen_ending := fun k => if k = slot then some p else m.denizen_ending k,
      inst_endings := mapInsert m.inst_endings p (m.denizen slot) }

/-- The member function `SetLifetimeStart(slot, inst)`. -/
def ZAM.SetLifetimeStart (m : ZAM) (slot : Int) (p : Nat) : ZAM :=
  match m.denizen_beginning slot with
  | some _ => m
  | none =>
    { m with
      denizen_beginning := fun k => if k = slot then some p else m.denizen_beginning k,
      inst_beginnings := mapInsert m.inst_beginnings p (m.denizen slot) }

/-- The member function `CheckSlotAssignment(slot, inst)`. -/
def ZAM.CheckSlotAssignment (m : ZAM) (an : Analyses) (slot : Int) (p : Nat) : ZAM :=
  let p1 := if an.IsTemporary (m.denizen slot) = false then m.BeginningOfLoop p 1 else p
  m.SetLifetimeStart slot p1

/-- The member function `CheckSlotUse(slot, inst)`.  For a temporary without a recorded
beginning the depth of the definition reads as 0. -/
def ZAM.CheckSlotUse (m : ZAM) (an : Analyses) (slot : Int) (p : Nat) : ZAM :=
  if slot < 0 then m
  else
    let p1 :=
      if an.IsTemporary (m.denizen slot) = true then
        let definition_depth :=
          match m.denizen_beginning slot with
          | some b => m.depthAt b
          | none => 0
        if m.depthAt p > definition_depth then m.EndOfLoop p (m.depthAt p) else p
      else m.EndOfLoop p 1
    m.ExtendLifetime an slot p1

/-- The special-casing of `ComputeFrameLifetimes` for a table-iteration instruction: every
loop variable is assigned there and used throughout the loop. -/
def ZAM.iterVarLifetimes (m : ZAM) (an : Analyses) (p : Nat) (depth : Int) : List Int → ZAM
  | [] => m
  | v :: vs =>
    let m1 := m.CheckSlotAssignment an v p
    let m2 := m1.ExtendLifetime an v (m1.EndOfLoop p depth)
    ZAM.iterVarLifetimes m2 an p depth vs

/-- The special-casing of `ComputeFrameLifetimes` for `OP_SYNC_GLOBALS_X`: the lifetime of
every modified global that has been loaded is extended. -/
def ZAM.syncGlobalLifetimes (m : ZAM) (an : Analyses) (p : Nat) : List ID → ZAM
  | [] => m
  | g :: gs =>
    let slot := m.layoutSlot g
    let m1 := if (m.denizen_beginning slot).isSome then
        m.ExtendLifetime an slot (m.EndOfLoop p 1)
      else m
    ZAM.syncGlobalLifetimes m1 an p gs

/-- The default case of the special-casing of `ComputeFrameLifetimes`: the slots of the
auxiliary information are in use. -/
def ZAM.auxLifetimes (m : ZAM) (an : Analyses) (p : Nat) : List Int → ZAM
  | [] => m
  | slot :: slots =>
    let m1 := if slot < 0 then m else m.ExtendLifetime an slot (m.EndOfLoop p 1)
    ZAM.auxLifetimes m1 an p slots

/-- The part of the loop body of `ComputeFrameLifetimes` after the special-casing: the slots
that `UsesSlots` reports are in use. -/
def ZAM.usedSlotLifetimes (m : ZAM) (zm : ZInstMethods) (an : Analyses) (inst : ZInst)
    (p : Nat) : ZAM :=
  match zm.UsesSlots inst with
  | none => m
  | some (s1, s2, s3, s4) =>
    (((m.CheckSlotUse an s1 p).CheckSlotUse an s2 p).CheckSlotUse an s3 p).CheckSlotUse an s4 p

/-- One round of the loop of `ComputeFrameLifetimes`, for the instruction at position `i`. -/
def ZAM.lifetimesAt (m : ZAM) (zm : ZInstMethods) (an : Analyses) (i : Nat) : ZAM :=
  match m.insts1[i]? with
  | none => m
  | some inst =>
    if inst.live = false then m
    else
      let m1 := if zm.AssignsToSlot1 inst then m.CheckSlotAssignment an inst.v1 i else m
      if inst.op = ZOp.OP_NEXT_TABLE_ITER_VV ∨ inst.op = ZOp.OP_NEXT_TABLE_ITER_VAL_VAR_VVV then
        let m2 := m1.iterVarLifetimes an i inst.loop_depth inst.loop_vars
        let m3 := if inst.op = ZOp.OP_NEXT_TABLE_ITER_VAL_VAR_VVV then
            m2.ExtendLifetime an inst.v1 (m2.EndOfLoop i inst.loop_depth)
          else m2
        m3.usedSlotLifetimes zm an inst i
      else if inst.op = ZOp.OP_SYNC_GLOBALS_X then
        (m1.syncGlobalLifetimes an i (an.setOrder m1.modified_globals)).usedSlotLifetimes
          zm an inst i
      else if inst.op = ZOp.OP_INIT_TABLE_LOOP_VVC ∨ inst.op = ZOp.OP_INIT_VECTOR_LOOP_VV
          ∨ inst.op = ZOp.OP_INIT_STRING_LOOP_VV then
        m1.ExtendLifetime an inst.v2 (m1.EndOfLoop (i + 1) (m1.depthAt (i + 1)))
      else
        let m2 := match inst.aux with
          | none => m1
          | some slots => m1.auxLifetimes an i slots
        m2.usedSlotLifetimes zm an inst i

/-- The member function `ComputeFrameLifetimes`. -/
def ZAM.ComputeFrameLifetimes (m : ZAM) (zm : ZInstMethods) (an : Analyses) : ZAM :=
  let m0 := { m with inst_beginnings := fun _ => none, inst_endings := fun _ => none,
                     denizen_beginning := fun _ => none, denizen_ending := fun _ => none }
  (List.range m0.insts1.length).foldl (fun m1 i => m1.lifetimesAt zm an i) m0

/-! Notions used to state the properties of the lifetimes and of the remapping. -/

/-- The frame layout and the frame denizens are inverse to each other, as `AddToFrame` builds
them: as many entries, and `frame_layout1[frame_denizens[s]] = s`. -/
def ZAM.frameConsistent (m : ZAM) : Prop :=
  m.frame_layout1.length = m.frame_denizens.length
  ∧ ∀ (s : Nat) (v : ID), m.frame_denizens[s]? = some v → m.layoutSlot v = (s : Int)

/-- A slot of the pre-optimization frame: `slot >= 0 && slot < frame_denizens.size()`. -/
def ZAM.validSlot (m : ZAM) (s : Int) : Prop :=
  0 ≤ s ∧ s < (m.frame_denizens.length : Int)

/-- The operation codes of the table-iteration instructions. -/
def ZOp.isTableIter (op : ZOp) : Prop :=
  op = ZOp.OP_NEXT_TABLE_ITER_VV ∨ op = ZOp.OP_NEXT_TABLE_ITER_VAL_VAR_VVV

/-- The operation codes of the instructions that start a loop over an aggregate. -/
def ZOp.isInitLoop (op : ZOp) : Prop :=
  op = ZOp.OP_INIT_TABLE_LOOP_VVC ∨ op = ZOp.OP_INIT_VECTOR_LOOP_VV
    ∨ op = ZOp.OP_INIT_STRING_LOOP_VV

/-- Every slot that a live instruction assigns, as its first operand or as a loop variable of
a table iteration, is a slot of the frame: the assertion of `CheckSlotAssignment`. -/
def ZAM.assignedSlotsValid (m : ZAM) (zm : ZInstMethods) : Prop :=
  ∀ z ∈ m.insts1, z.live = true →
    (zm.AssignsToSlot1 z = true → m.validSlot z.v1)
    ∧ (z.op.isTableIter → ∀ v ∈ z.loop_vars, m.validSlot v)

/-- The lifetime analysis leaves the instructions and the frame layout alone. -/
def ZAM.sameCode (m0 m : ZAM) : Prop :=
  m.insts1 = m0.insts1 ∧ m.frame_denizens = m0.frame_denizens
  ∧ m.frame_layout1 = m0.frame_layout1 ∧ m.modified_globals = m0.modified_globals
  ∧ m.shared_frame_denizens = m0.shared_frame_denizens
  ∧ m.frame1_to_frame2 = m0.frame1_to_frame2

/-- The lifetime beginnings are unchanged. -/
def ZAM.sameBeginnings (m0 m : ZAM) : Prop :=
  m.denizen_beginning = m0.denizen_beginning ∧ m.inst_beginnings = m0.inst_beginnings

/-- The invariant of the lifetime beginnings while `ComputeFrameLifetimes` has visited the
instructions before position `k`: a slot with a beginning is a slot of the frame, begins before
`k`, and its identifier is listed at the instruction that begins it; the identifiers listed at
an instruction are distinct and each is the denizen of a slot that begins there. -/
def ZAM.beginInv (m : ZAM) (k : Nat) : Prop :=
  (∀ s p, m.denizen_beginning s = some p →
    m.validSlot s ∧ p < k ∧ ∃ vars, m.inst_beginnings p = some vars ∧ m.denizen s ∈ vars)
  ∧ (∀ p vars, m.inst_beginnings p = some vars →
    vars.Nodup ∧ ∀ v ∈ vars, ∃ s, m.denizen_beginning s = some p ∧ m.denizen s = v)

/-- The recorded lifetimes only grow: a slot keeps the beginning it has, and a slot with an
ending keeps having one. -/
def ZAM.lifetimesGrow (m0 m : ZAM) : Prop :=
  (∀ s b, m0.denizen_beginning s = some b → m.denizen_beginning s = some b)
  ∧ (∀ s, (m0.denizen_ending s).isSome = true → (m.denizen_ending s).isSome = true)

/-- What every step of `ComputeFrameLifetimes` keeps, with `k` bounding the beginnings. -/
def ZAM.stepOK (k : Nat) (m0 m : ZAM) : Prop :=
  m0.sameCode m ∧ m0.lifetimesGrow m ∧ (m0.beginInv k → m.beginInv k)

/-- The slots that `UsesSlots` reports for an instruction. -/
def ZInstMethods.usedSlots (zm : ZInstMethods) (inst : ZInst) : List Int :=
  match zm.UsesSlots inst with
  | none => []
  | some (s1, s2, s3, s4) => [s1, s2, s3, s4]

/-- What `ComputeFrameLifetimes` has recorded for the instruction at position `i` once it has
visited it: the slot it assigns has a beginning at or before `i`, and, unless the instruction
starts a loop over an aggregate, every slot it uses has an ending. -/
def ZAM.recordedAt (m : ZAM) (zm : ZInstMethods) (i : Nat) (inst : ZInst) : Prop :=
  (zm.AssignsToSlot1 inst = true → ∃ b, m.denizen_beginning inst.v1 = some b ∧ b ≤ i)
  ∧ (¬ inst.op.isInitLoop → ∀ s ∈ zm.usedSlots inst, 0 ≤ s →
      (m.denizen_ending s).isSome = true)

/-- The state in which `ComputeFrameLifetimes` starts its loop: the lifetimes are cleared. -/
def ZAM.clearLifetimes (m : ZAM) : ZAM :=
  { m with inst_beginnings := fun _ => none, inst_endings := fun _ => none,
           denizen_beginning := fun _ => none, denizen_ending := fun _ => none }

/-- The identifiers that begin their lifetime at an instruction: `inst_beginnings[inst]`, empty
when the map has no entry. -/
def ZAM.beginningsAt (m : ZAM) (i : Nat) : List ID :=
  (m.inst_beginnings i).getD []

/-- What the first loop of `ReMapFrame` leaves alone, and the length of `frame1_to_frame2`. -/
def ZAM.remapKeeps (m0 m : ZAM) : Prop :=
  m.insts1 = m0.insts1 ∧ m.denizen_ending = m0.denizen_ending
  ∧ m.denizen_beginning = m0.denizen_beginning
  ∧ m.inst_beginnings = m0.inst_beginnings ∧ m.frame_layout1 = m0.frame_layout1
  ∧ m.frame_denizens = m0.frame_denizens

/-- The slot `s` of the pre-optimization frame is mapped to a shared slot that lists the
identifier `v` with the start `b`. -/
def ZAM.mappedAt (m : ZAM) (s : Int) (v : ID) (b : Int) : Prop :=
  ∃ (k pos : Nat) (sh : FrameSharingInfo),
    m.frame1_to_frame2[s.toNat]? = some (k : Int) ∧ m.shared_frame_denizens[k]? = some sh
    ∧ sh.ids[pos]? = some v ∧ sh.id_start[pos]? = some b

/-- The invariant of the first loop of `ReMapFrame`, run on the lifetimes of the state `l`,
before the instruction at position `k` with the identifiers `done` of that instruction already
visited: every slot whose lifetime begins before `k`, and every visited identifier, is mapped
if its value is used. -/
def ZAM.mapInv (l m : ZAM) (k : Nat) (done : List ID) : Prop :=
  l.remapKeeps m ∧ m.frame1_to_frame2.length = l.frame_layout1.length
  ∧ (∀ sh ∈ m.shared_frame_denizens, sh.ids.length = sh.id_start.length)
  ∧ (∀ s b, l.denizen_beginning s = some b → b < k → (l.denizen_ending s).isSome = true →
      m.mappedAt s (l.denizen s) (b : Int))
  ∧ (∀ v ∈ done, (l.denizen_ending (l.layoutSlot v)).isSome = true →
      m.mappedAt (l.layoutSlot v) v (k : Int))

/-- The slot `s` of the pre-optimization frame of `m0` is covered at the instruction `i`:
`frame1_to_frame2` maps it to a post-optimization slot (a value >= 0) whose `ids` list holds
the identifier of the slot with an `id_start` not after `i`. -/
def ZAM.slotCovered (m m0 : ZAM) (s : Int) (i : Nat) : Prop :=
  ∃ (k pos : Nat) (sh : FrameSharingInfo) (st : Int),
    m.frame1_to_frame2[s.toNat]? = some (k : Int) ∧ m.shared_frame_denizens[k]? = some sh
    ∧ sh.ids[pos]? = some (m0.denizen s) ∧ sh.id_start[pos]? = some st ∧ st ≤ (i : Int)

/-- The remapped denizens whose lifetime contains the instruction `k`, the start counted in
and the end not: the identifier is placed at or before `k` and its lifetime ends after `k`. -/
def liveDenizens (endOf : ID → Int) (shared : List FrameSharingInfo) (k : Int) :
    List (ID × Int) :=
  (shared.flatMap FrameSharingInfo.entries).filter
    (fun e => decide (e.2 ≤ k ∧ k < endOf e.1))

/-- The remapped denizens whose lifetime interval `[start, end]` contains the instruction `k`,
both ends counted in. -/
def liveDenizensClosed (endOf : ID → Int) (shared : List FrameSharingInfo) (k : Int) :
    List (ID × Int) :=
  (shared.flatMap FrameSharingInfo.entries).filter
    (fun e => decide (e.2 ≤ k ∧ k ≤ endOf e.1))

/-- Coverage as C3 states it: every slot that a live instruction assigns (as its first operand)
or reads (as `UsesSlots` reports) is covered at that instruction. -/
def ZAM.liveSlotsCovered (m m0 : ZAM) (zm : ZInstMethods) : Prop :=
  ∀ (i : Nat) (inst : ZInst), m0.insts1[i]? = some inst → inst.live = true →
    ∀ s : Int, (zm.AssignsToSlot1 inst = true ∧ inst.v1 = s) ∨ (s ∈ zm.usedSlots inst ∧ 0 ≤ s) →
      m.slotCovered m0 s i

/-! ## The execution engine: `DoExec` -/

/-- The dynamic state of a global, `GlobalState` in the source. -/
inductive GlobalState where
  | GS_UNLOADED
  | GS_CLEAN
  | GS_DIRTY
  deriving DecidableEq, Repr

/-- The flow a statement ends with, `stmt_flow_type` of the host. -/
inductive stmt_flow_type where
  | FLOW_NEXT
  | FLOW_LOOP
  | FLOW_BREAK
  | FLOW_RETURN
  | FLOW_FALLTHROUGH
  deriving DecidableEq, Repr

/-- What the local `ret_u` of `DoExec` points to: a slot of the frame or a constant of an
instruction. -/
inductive RetRef where
  | slot (s : Int)
  | const (v : ZAMValUnion)
  deriving DecidableEq, Repr

/-- The variables of one invocation of `DoExec` that the dispatch reads and writes: the locals
`frame`, `pc`, `global_state`, `ret_u`, `ret_type`, the reference parameter `flow`, the
process-wide `ZAM_error`, and `host`, the state of the process outside the engine (interpreter
frame, global values, reporter), which the engine passes along.  `released` records, in order,
the values handed to `DeleteManagedType`. -/
structure ExecState where
  frame : List ZAMValUnion
  pc : Int
  global_state : List GlobalState
  ret_u : Option RetRef
  ret_type : Option Nat
  flow : stmt_flow_type
  ZAM_error : Bool
  released : List ZAMValUnion
  host : Nat
  deriving DecidableEq, Repr

/-- The code of `ZAM-OpsEvalDefs.h`, which `DoExec` includes as the cases of its dispatch and
which is not part of `ZAM.cc`: what the handler of an instruction does to the state, given the
members of the `ZAM` object, and whether it leaves through `continue`, which skips the `++pc`
at the end of the loop body. -/
abbrev OpsEval := ZAM → ZInst → ExecState → ExecState × Bool

/-- The expression `frame[s]`; reads nil outside the frame. -/
def ExecState.frameAt (st : ExecState) (s : Int) : ZAMValUnion :=
  if s < 0 then ZAMValUnion.nil else (st.frame[s.toNat]?).getD ZAMValUnion.nil

/-- The call `DeleteManagedType(v, t)`: the value is released. -/
def ExecState.DeleteManagedType (st : ExecState) (v : ZAMValUnion) : ExecState :=
  { st with released := st.released ++ [v] }

/-- The assignment `AssignV1T(v, t)` of `DoExec`, `v` being an expression over the state: for
a managed instruction the new value is latched in `v2`, the content of `frame[z.v1]` is
released, and `v2` is stored; otherwise the value is stored. -/
def AssignV1T (z : ZInst) (v : ExecState → ZAMValUnion) (st : ExecState) : ExecState :=
  if z.is_managed then
    let v2 := v st
    let st1 := st.DeleteManagedType (st.frameAt z.v1)
    { st1 with frame := st1.frame.set z.v1.toNat v2 }
  else
    { st with frame := st.frame.set z.v1.toNat (v st) }

/-- The loop `for ( auto s : managed_slots ) frame[s].managed_val = nullptr;`. -/
def clearManaged (frame : List ZAMValUnion) (managed_slots : List Int) : List ZAMValUnion :=
  managed_slots.foldl (fun f s => f.set s.toNat ZAMValUnion.nil) frame

/-- The end of `CompileBody`: a non-recursive function gets its reusable frame, a new array
(of content `fresh`) whose managed slots are cleared. -/
def ZAM.makeFixedFrame (m : ZAM) (fresh : List ZAMValUnion) : ZAM :=
  if m.non_recursive then { m with fixed_frame := some (clearManaged fresh m.managed_slots) }
  else m

/-- The state of `DoExec` when it enters its loop: the globals are unloaded; the frame is the
reusable frame if there is one, and a new array (of content `fresh`) whose managed slots are
cleared otherwise; no return value; `flow = FLOW_RETURN`. -/
def ZAM.startState (m : ZAM) (fresh : List ZAMValUnion) (start_pc : Int) (ZAM_error : Bool)
    (host : Nat) : ExecState :=
  { frame :=
      match m.fixed_frame with
      | some f => f
      | none => clearManaged fresh m.managed_slots,
    pc := start_pc,
    global_state := List.replicate m.num_globals.toNat GlobalState.GS_UNLOADED,
    ret_u := none, ret_type := none,
    flow := stmt_flow_type.FLOW_RETURN,
    ZAM_error := ZAM_error, released := [], host := host }

/-- The instruction `*insts2[pc]`. -/
def ZAM.instAt (m : ZAM) (pc : Int) : Option ZInst :=
  if pc < 0 then none
  else
    match m.insts2[pc.toNat]? with
    | none => none
    | some p => m.insts1[p]?

/-- The condition `pc < end_pc && ! ZAM_error` of the loop of `DoExec`. -/
def ZAM.loopContinues (m : ZAM) (st : ExecState) : Prop :=
  st.pc < (m.insts2.length : Int) ∧ st.ZAM_error = false

instance (m : ZAM) (st : ExecState) : Decidable (m.loopContinues st) := by
  unfold ZAM.loopContinues; infer_instance

/-- One round of the loop of `DoExec`: the instruction `z` is dispatched (`OP_NOP` does
nothing, every other operation has its handler), and `pc` is advanced unless the handler left
through `continue`.  The profiling is left out. -/
def ZAM.dispatchRound (m : ZAM) (ops : OpsEval) (z : ZInst) (st : ExecState) : ExecState :=
  let r := if z.op = ZOp.OP_NOP then (st, false) else ops m z st
  if r.2 then r.1 else { r.1 with pc := r.1.pc + 1 }

/-- The loop `while ( pc < end_pc && ! ZAM_error )` of `DoExec`, for at most `fuel`
dispatches; `trace` lists the values of `pc` at which an instruction was dispatched.  The
result is `none` when the dispatches are not over after `fuel` of them, or when `pc` leaves
`insts2` at the front. -/
def ZAM.execLoop (m : ZAM) (ops : OpsEval) : Nat → ExecState → List Int →
    Option (ExecState × List Int)
  | 0, st, trace => if m.loopContinues st then none else some (st, trace)
  | fuel + 1, st, trace =>
    if m.loopContinues st then
      match m.instAt st.pc with
      | none => none
      | some z => ZAM.execLoop m ops fuel (m.dispatchRound ops z st) (trace ++ [st.pc])
    else some (st, trace)

/-- What an invocation of `DoExec` leaves: the value it returns (`none` for null, else the
value `ret_u` points to with its type, for `ret_u->ToVal(ret_type)`), `flow`, the process-wide
error flag, the content of the reusable frame, the values released, the trace of the
dispatches and the state of the host. -/
structure ExecResult where
  result : Option (ZAMValUnion × Nat)
  flow : stmt_flow_type
  ZAM_error : Bool
  fixed_frame : Option (List ZAMValUnion)
  released : List ZAMValUnion
  dispatched : List Int
  host : Nat
  deriving DecidableEq, Repr

/-- The value `*ret_u`. -/
def ExecState.retVal (st : ExecState) : ZAMValUnion :=
  match st.ret_u with
  | some (RetRef.slot s) => st.frameAt s
  | some (RetRef.const v) => v
  | none => ZAMValUnion.nil

/-- The slots that `DoExec` releases after its loop, in order: under `if ( ! fixed_frame )`,
the slot `managed_slots[i]` for each `i`. -/
def ZAM.teardownSlots (m : ZAM) : List Int :=
  if m.fixed_frame.isSome then [] else m.managed_slots

/-- The values that the teardown of `DoExec` hands to `DeleteManagedType`: the contents of the
slots it releases. -/
def ZAM.teardownReleases (m : ZAM) (st : ExecState) : List ZAMValUnion :=
  m.teardownSlots.map st.frameAt

/-- The part of `DoExec` after its loop: the result is built, the managed slots of a
per-invocation frame are released, the error state is cleared. -/
def ZAM.finishExec (m : ZAM) (st : ExecState) (trace : List Int) : ExecResult :=
  { result :=
      match st.ret_type with
      | some t => some (st.retVal, t)
      | none => none,
    flow := st.flow,
    ZAM_error := false,
    fixed_frame := m.fixed_frame.map (fun _ => st.frame),
    released := st.released ++ m.teardownReleases st,
    dispatched := trace,
    host := st.host }

/-- The loop of `DoExec` and what follows it, from the state `st` at the head of the loop. -/
def ZAM.execFrom (m : ZAM) (ops : OpsEval) (fuel : Nat) (st : ExecState) (trace : List Int) :
    Option ExecResult :=
  match m.execLoop ops fuel st trace with
  | none => none
  | some r => some (m.finishExec r.1 r.2)

/-- The member function `DoExec(f, start_pc, flow)`, for at most `fuel` dispatches; `fresh` is
the content of the memory a new frame is allocated in, `ZAM_error` the value of the flag on
entry. -/
def ZAM.DoExec (m : ZAM) (ops : OpsEval) (fuel : Nat) (fresh : List ZAMValUnion)
    (start_pc : Int) (ZAM_error : Bool) (host : Nat) : Option ExecResult :=
  m.execFrom ops fuel (m.startState fresh start_pc ZAM_error host) []

/-! Notions used to state the properties of the engine. -/

/-- The states at the head of the loop of `DoExec` that an invocation started in `st0` goes
through, each with the values of `pc` at which an instruction has been dispatched so far. -/
inductive ZAM.reached (m : ZAM) (ops : OpsEval) (st0 : ExecState) :
    ExecState → List Int → Prop where
  | start : ZAM.reached m ops st0 st0 []
  | round (st : ExecState) (trace : List Int) (z : ZInst) :
      ZAM.reached m ops st0 st trace → m.loopContinues st → m.instAt st.pc = some z →
      ZAM.reached m ops st0 (m.dispatchRound ops z st) (trace ++ [st.pc])

/-- Modelled from the spec: the handlers of `ZAM-OpsEvalDefs.h`, which `ZAM.cc` includes in
the dispatch of `DoExec` and which are missing from the sources.  The spec gives the engine the
transitions "`Running → Running` per dispatch; terminal transitions are `Running → Returned`
(natural end-of-stream or return opcode) and `Running → Errored` (flag set)": a dispatch of
the loop that records a return value, where none was recorded, is the transition to `Returned`:
it does not set the error flag, and it ends the loop by moving `pc` to the end of `insts2`. -/
def ZAM.handlersAsSpecified (m : ZAM) (ops : OpsEval) : Prop :=
  ∀ (z : ZInst) (st : ExecState), m.loopContinues st → st.ret_type = none →
    (m.dispatchRound ops z st).ret_type.isSome = true →
    (m.dispatchRound ops z st).ZAM_error = false
    ∧ (m.insts2.length : Int) ≤ (m.dispatchRound ops z st).pc

/-- The error flag as C11 states it: an invocation whose loop ends with the error flag set
leaves the flag set when `DoExec` returns. -/
def ZAM.errorFlagKept (m : ZAM) (ops : OpsEval) (fuel : Nat) (fresh : List ZAMValUnion)
    (start_pc : Int) (ZAM_error : Bool) (host : Nat) : Prop :=
  ∀ st trace res,
    m.execLoop ops fuel (m.startState fresh start_pc ZAM_error host) [] = some (st, trace) →
    st.ZAM_error = true →
    m.DoExec ops fuel fresh start_pc ZAM_error host = some res → res.ZAM_error = true

/-! ## `AssignmentFlavor` -/

/-- The type tags, `TypeTag` of the host, that `ZAM.cc` names; every other member of the
enumeration is `TYPE_other` with its number. -/
inductive TypeTag where
  | TYPE_VOID
  | TYPE_BOOL
  | TYPE_INT
  | TYPE_COUNT
  | TYPE_COUNTER
  | TYPE_DOUBLE
  | TYPE_TIME
  | TYPE_INTERVAL
  | TYPE_STRING
  | TYPE_PATTERN
  | TYPE_ENUM
  | TYPE_PORT
  | TYPE_ADDR
  | TYPE_SUBNET
  | TYPE_ANY
  | TYPE_TABLE
  | TYPE_RECORD
  | TYPE_VECTOR
  | TYPE_TYPE
  | TYPE_other (code : Nat)
  deriving DecidableEq, Repr

/-- The static map `assignment_flavor`, from an assigning opcode to its flavors by type tag,
as `ZAM-AssignFlavorsDefs.h` fills it on the first call of `AssignmentFlavor`: a map, held as
the list of its entries, of maps. -/
abbrev FlavorMap := List (ZOp × List (TypeTag × ZOp))

/-- The switch "Map type tag to equivalent, as needed" of `AssignmentFlavor`. -/
def normalizeTag (tag : TypeTag) : TypeTag :=
  match tag with
  | TypeTag.TYPE_BOOL => TypeTag.TYPE_INT
  | TypeTag.TYPE_ENUM => TypeTag.TYPE_INT
  | TypeTag.TYPE_COUNTER => TypeTag.TYPE_COUNT
  | TypeTag.TYPE_PORT => TypeTag.TYPE_COUNT
  | TypeTag.TYPE_TIME => TypeTag.TYPE_DOUBLE
  | TypeTag.TYPE_INTERVAL => TypeTag.TYPE_DOUBLE
  | t => t

/-- The expression `assignment_flavor[orig][tag]`, for a copy of the inner map: a missing
opcode reads as the empty map and a missing tag as the value-initialized opcode, the member
of the enumeration with the number 0. -/
def flavorLookup (assignment_flavor : FlavorMap) (orig : ZOp) (tag : TypeTag) : ZOp :=
  ((((assignment_flavor.lookup orig).getD []).lookup tag).getD (ZOp.OP_other 0))

/-- The function `AssignmentFlavor(orig, tag)`, with the map `assignment_flavor` as it is after
its initialization. -/
def AssignmentFlavor (assignment_flavor : FlavorMap) (orig : ZOp) (tag : TypeTag) : ZOp :=
  flavorLookup assignment_flavor orig (normalizeTag tag)

/-! ## `ZAM_to_lower` -/

/-- The C library's `isascii`: the value fits in seven bits. -/
def isascii (c : Nat) : Bool := decide (c < 128)

/-- The C library's `isupper` in the "C" locale: one of the letters `A`..`Z`. -/
def isupper (c : Nat) : Bool := decide (65 ≤ c ∧ c ≤ 90)

/-- The C library's `tolower` in the "C" locale. -/
def tolower (c : Nat) : Nat := if isupper c then c + 32 else c

/-- The loop of `ZAM_to_lower` over the bytes `s[i], s[i+1], ...`: each byte is written,
lowered when it is an ASCII upper-case letter, to the next place of `lower_s`. -/
def lowerBytes : List Nat → List Nat
  | [] => []
  | c :: rest => (if isascii c && isupper c then tolower c else c) :: lowerBytes rest

/-- The function `ZAM_to_lower`, on the bytes of the string: the new string holds the `n` bytes
that the loop wrote (the terminating NUL is not part of it). -/
def ZAM_to_lower (sv : List Nat) : List Nat :=
  (lowerBytes sv).take sv.length

/-! ## The interpreter frame: `ReMapInterpreterFrame` and `finalize_functions` -/

/-- The state of the process outside the `ZAM` objects that the code modelled here reads and
writes: the global map `remapped_intrp_frame_sizes`, held as the list of its entries and keyed
by the function; the offset of every identifier in the interpreter frame (`id->Offset()`,
`id->SetOffset`); the frame size of every function (`func->SetFrameSize`). -/
structure Process where
  remapped_intrp_frame_sizes : List (Nat × Int)
  offset : ID → Int
  frame_size : Nat → Int

/-- The assignment `map[k] = v` for a map held as the list of its entries: the entry of `k` is
overwritten, or a new entry is added. -/
def mapSet {κ ν : Type} [DecidableEq κ] (f : List (κ × ν)) (k : κ) (v : ν) : List (κ × ν) :=
  if (f.lookup k).isSome then f.map (fun e => if e.1 = k then (k, v) else e)
  else f ++ [(k, v)]

/-- The locals `interpreter_slots`, `old_intrp_slot_to_new` and `next_interp_slot` of
`ReMapInterpreterFrame`. -/
structure IntrpLocals where
  interpreter_slots : List (ID × Int)
  old_intrp_slot_to_new : List (Int × Int)
  next_interp_slot : Int
  deriving DecidableEq, Repr

/-- The loop of `ReMapInterpreterFrame` over `args`, "First, track function parameters": the
first `nparam` arguments keep the leading slots. -/
def paramSlots (offset : ID → Int) : List ID → Int → IntrpLocals → IntrpLocals
  | [], _, L => L
  | a :: rest, nparam, L =>
    if nparam - 1 < 0 then L
    else
      paramSlots offset rest (nparam - 1)
        { interpreter_slots := mapSet L.interpreter_slots a L.next_interp_slot,
          old_intrp_slot_to_new := mapSet L.old_intrp_slot_to_new (offset a) L.next_interp_slot,
          next_interp_slot := L.next_interp_slot + 1 }

/-- The first loop over the identifiers of a shared slot: `cohort_slot` is the interpreter slot
of the last identifier of the slot that has one, -1 when none has. -/
def cohortSlot (interpreter_slots : List (ID × Int)) (ids : List ID) : Int :=
  ids.foldl (fun cohort_slot id =>
    match interpreter_slots.lookup id with
    | some s => s
    | none => cohort_slot) (-1)

/-- One round of the second loop over the identifiers of a shared slot: an interpreter local
without a slot gets the slot of the cohort, a new one if the cohort has none yet, and its
offset is set to it. -/
def cohortStep (interpreter_locals : List ID) (s : Int × IntrpLocals × (ID → Int)) (id : ID) :
    Int × IntrpLocals × (ID → Int) :=
  if id ∉ interpreter_locals then s
  else if (s.2.1.interpreter_slots.lookup id).isSome then s
  else
    let cohort_slot := if s.1 < 0 then s.2.1.next_interp_slot else s.1
    let next := if s.1 < 0 then s.2.1.next_interp_slot + 1 else s.2.1.next_interp_slot
    (cohort_slot,
      { interpreter_slots := mapSet s.2.1.interpreter_slots id cohort_slot,
        old_intrp_slot_to_new := mapSet s.2.1.old_intrp_slot_to_new (s.2.2 id) cohort_slot,
        next_interp_slot := next },
      fun x => if x = id then cohort_slot else s.2.2 x)

/-- One round of the loop of `ReMapInterpreterFrame` over `shared_frame_denizens`. -/
def sharedSlotStep (interpreter_locals : List ID) (s : IntrpLocals × (ID → Int))
    (sf : FrameSharingInfo) : IntrpLocals × (ID → Int) :=
  (sf.ids.foldl (cohortStep interpreter_locals)
    (cohortSlot s.1.interpreter_slots sf.ids, s.1, s.2)).2

/-- The loop of `ReMapInterpreterFrame` over `interpreter_locals`, in iteration order: a local
that lives only in the interpreter frame gets a slot of its own. -/
def localSlots (L : IntrpLocals) (ids : List ID) : IntrpLocals :=
  ids.foldl (fun L1 id =>
    if (L1.interpreter_slots.lookup id).isSome then L1
    else { L1 with interpreter_slots := mapSet L1.interpreter_slots id L1.next_interp_slot,
                   next_interp_slot := L1.next_interp_slot + 1 }) L

/-- The part of `ReMapInterpreterFrame` before "Update frame sizes": the locals it has
computed, `next_interp_slot` being the size of the remapped interpreter frame, and the offsets
of the identifiers. -/
def ZAM.intrpLocals (m : ZAM) (an : Analyses) (offset : ID → Int) :
    IntrpLocals × (ID → Int) :=
  let L0 : IntrpLocals :=
    { interpreter_slots := [], old_intrp_slot_to_new := [], next_interp_slot := 0 }
  let L1 := paramSlots offset m.args m.nparam L0
  let s2 := m.shared_frame_denizens.foldl (sharedSlotStep m.interpreter_locals) (L1, offset)
  (localSlots s2.1 (an.setOrder m.interpreter_locals), s2.2)

/-- The statement "Update frame sizes for functions that might have more than one body". -/
def recordFrameSize (sizes : List (Nat × Int)) (func : Nat) (next_interp_slot : Int) :
    List (Nat × Int) :=
  match sizes.lookup func with
  | none => mapSet sizes func next_interp_slot
  | some v => if v < next_interp_slot then mapSet sizes func next_interp_slot else sizes

/-- The last loop of `ReMapInterpreterFrame` for one instruction: the second operand of a live
instruction of type `OP_VV_FRAME` is mapped through `old_intrp_slot_to_new`, in which
`operator[]` reads 0 for a missing key. -/
def rewriteFrameSlot (old_intrp_slot_to_new : List (Int × Int)) (inst : ZInst) : ZInst :=
  if inst.live = true ∧ inst.op_type = ZAMOpType.OP_VV_FRAME then
    { inst with v2 := (old_intrp_slot_to_new.lookup inst.v2).getD 0 }
  else inst

/-- The member function `ReMapInterpreterFrame`. -/
def ZAM.ReMapInterpreterFrame (m : ZAM) (an : Analyses) (p : Process) : ZAM × Process :=
  let r := m.intrpLocals an p.offset
  ({ m with insts1 := m.insts1.map (rewriteFrameSlot r.1.old_intrp_slot_to_new) },
   { p with
     remapped_intrp_frame_sizes :=
       recordFrameSize p.remapped_intrp_frame_sizes m.func r.1.next_interp_slot,
     offset := r.2 })

/-- The function `finalize_functions(funcs)`, `funcs` holding the function of each
`FuncInfo`. -/
def finalize_functions (p : Process) (funcs : List Nat) : Process :=
  if p.remapped_intrp_frame_sizes.length = 0 then p
  else
    funcs.foldl (fun p1 func =>
      match p1.remapped_intrp_frame_sizes.lookup func with
      | none => p1
      | some n => { p1 with frame_size := fun g => if g = func then n else p1.frame_size g }) p

/-! Notions used to state the properties of the interpreter frame sizes. -/

/-- The process after `ReMapInterpreterFrame` has run for each body of a list in turn. -/
def remapBodies (an : Analyses) : List ZAM → Process → Process
  | [], p => p
  | b :: bs, p => remapBodies an bs (b.ReMapInterpreterFrame an p).2

/-- The function and the remapped interpreter-frame size (the final `next_interp_slot`) of each
body of a list, as `ReMapInterpreterFrame` computes them when it runs for each body in turn. -/
def remapSizes (an : Analyses) : List ZAM → Process → List (Nat × Int)
  | [], _ => []
  | b :: bs, p =>
    (b.func, (b.intrpLocals an p.offset).1.next_interp_slot)
      :: remapSizes an bs (b.ReMapInterpreterFrame an p).2

/-- The value `v` is the maximum of the sizes that a list records for the function `func`. -/
def maxSizeOf (sizes : List (Nat × Int)) (func : Nat) (v : Int) : Prop :=
  (func, v) ∈ sizes ∧ ∀ e ∈ sizes, e.1 = func → e.2 ≤ v

/-! ## The optimizer: `RemoveDeadCode`, `CollapseGoTos`, `PruneUnused`, `OptimizeInsts` -/

/-- The static maps `assignmentless_op` and `assignmentless_op_type`, which the absent
`ZAM-AssignFlavorsDefs.h` fills, as the lists of their entries. -/
structure OpTables where
  assignmentless_op : List (ZOp × ZOp)
  assignmentless_op_type : List (ZOp × ZAMOpType)

/-- One round of the loop of `RemoveDeadCode`, for the pair at the positions `i`, `i + 1`; the
flag is `did_removal`. -/
def ZAM.removeDeadAt (zm : ZInstMethods) (s : ZAM × Bool) (i : Nat) : ZAM × Bool :=
  match s.1.insts1[i]?, s.1.insts1[i + 1]? with
  | some i0, some i1 =>
    if i0.live = true ∧ i1.live = true ∧ zm.DoesNotContinue i0 = true
        ∧ i0.target ≠ some (InstRef.inst (i + 1)) ∧ i1.num_labels = 0 then
      (s.1.KillInst (i + 1), true)
    else s
  | _, _ => s

/-- The member function `RemoveDeadCode`; it yields the new state and `did_removal`. -/
def ZAM.RemoveDeadCode (m : ZAM) (zm : ZInstMethods) : ZAM × Bool :=
  (List.range (m.insts1.length - 1)).foldl (ZAM.removeDeadAt zm) (m, false)

/-- The loop "Collapse branch-to-branch" of `CollapseGoTos` for the instruction at position
`i`, whose target `t` is an unconditional branch: one label is taken from `t`, the target of
`t` becomes the target of the instruction and gets a label, until the target is not an
unconditional branch.  It yields the state and the final `t`; `none` when a target on the chain
is null or dangling, or when the chain is not over after `fuel` rounds. -/
def ZAM.collapseChain (m : ZAM) (zm : ZInstMethods) (i : Nat) : Nat → InstRef →
    Option (ZAM × InstRef)
  | 0, _ => none
  | fuel + 1, t =>
    let m1 := m.modifyInst t (fun z => { z with num_labels := z.num_labels - 1 })
    match m1.deref t with
    | none => none
    | some tz =>
      match tz.target with
      | none => none
      | some t1 =>
        let m2 := m1.modifyInst (InstRef.inst i) (fun z => { z with target := some t1 })
        let m3 := m2.modifyInst t1 (fun z => { z with num_labels := z.num_labels + 1 })
        match m3.deref t1 with
        | none => none
        | some tz1 =>
          if zm.IsUnconditionalBranch tz1 then ZAM.collapseChain m3 zm i fuel t1
          else some (m3, t1)

/-- The loop `while ( j < insts1.size() && ! insts1[j]->live )` of `CollapseGoTos` over the
instructions from position `j` on: it yields the final `j` and `branches_into_dead`. -/
def scanDead (t : InstRef) : List ZInst → Nat → Bool → Nat × Bool
  | [], j, branches_into_dead => (j, branches_into_dead)
  | z :: rest, j, branches_into_dead =>
    if z.live then (j, branches_into_dead)
    else scanDead t rest (j + 1) (branches_into_dead || decide (t = InstRef.inst j))

/-- The part "Collapse branch-to-next-statement" of the loop body of `CollapseGoTos` for the
instruction at position `i` with the target `t`. -/
def ZAM.collapseToNext (m : ZAM) (zm : ZInstMethods) (i : Nat) (t : InstRef) : ZAM :=
  let r := scanDead t (m.insts1.drop (i + 1)) (i + 1) false
  let j := r.1
  if r.2 = true ∨ (j < m.insts1.length ∧ t = InstRef.inst j)
      ∨ (j = m.insts1.length ∧ t = InstRef.pending) then
    let m1 := if t ≠ InstRef.pending then
        m.modifyInst t (fun z => { z with num_labels := z.num_labels - 1 })
      else m
    match m1.insts1[i]? with
    | none => m1
    | some i0 =>
      if zm.IsUnconditionalBranch i0 then
        m1.modifyInst (InstRef.inst i) (fun z => { z with live := false })
      else if j < m1.insts1.length then
        let m2 := m1.modifyInst (InstRef.inst i) (fun z => { z with target := some (InstRef.inst j) })
        m2.modifyInst (InstRef.inst j) (fun z => { z with num_labels := z.num_labels + 1 })
      else m1
  else m

/-- One round of the loop of `CollapseGoTos`, for the instruction at position `i`; the flag is
`did_collapse`.  `fuel` bounds the rounds of the chain-following loop. -/
def ZAM.collapseAt (zm : ZInstMethods) (fuel : Nat) (s : ZAM × Bool) (i : Nat) :
    Option (ZAM × Bool) :=
  match s.1.insts1[i]? with
  | none => some s
  | some i0 =>
    if i0.live = false then some s
    else
      match i0.target with
      | none => some s
      | some t =>
        match s.1.deref t with
        | none => none
        | some tz =>
          if zm.IsUnconditionalBranch tz then
            match s.1.collapseChain zm i fuel t with
            | none => none
            | some (m1, t1) => some (m1.collapseToNext zm i t1, true)
          else some (s.1.collapseToNext zm i t, s.2)

/-- The loop of a pass over the positions of `insts1`, one whose rounds may fail. -/
def foldPositions (f : ZAM × Bool → Nat → Option (ZAM × Bool)) :
    List Nat → ZAM × Bool → Option (ZAM × Bool)
  | [], s => some s
  | i :: is, s =>
    match f s i with
    | none => none
    | some s1 => foldPositions f is s1

/-- The member function `CollapseGoTos`; it yields the new state and `did_collapse`. -/
def ZAM.CollapseGoTos (m : ZAM) (zm : ZInstMethods) (fuel : Nat) : Option (ZAM × Bool) :=
  foldPositions (ZAM.collapseAt zm fuel) (List.range m.insts1.length) (m, false)

/-- The member function `VarIsAssigned(slot, i)`. -/
def VarIsAssignedBy (zm : ZInstMethods) (slot : Int) (i : ZInst) : Bool :=
  if (i.op = ZOp.OP_NEXT_TABLE_ITER_VAL_VAR_VVV ∨ i.op = ZOp.OP_NEXT_TABLE_ITER_VV)
      ∧ slot ∈ i.loop_vars then true
  else if i.op = ZOp.OP_NEXT_TABLE_ITER_VV then false
  else if i.op_type = ZAMOpType.OP_VV_FRAME then false
  else zm.AssignsToSlot1 i && decide (i.v1 = slot)

/-- The member function `VarIsAssigned(slot)`. -/
def ZAM.VarIsAssigned (m : ZAM) (zm : ZInstMethods) (slot : Int) : Bool :=
  m.insts1.any (fun inst => inst.live && VarIsAssignedBy zm slot inst)

/-- The member function `VarIsUsed(slot)`: the auxiliary slots of an instruction count whether
or not the instruction is live. -/
def ZAM.VarIsUsed (m : ZAM) (zm : ZInstMethods) (slot : Int) : Bool :=
  m.insts1.any (fun inst =>
    (inst.live && zm.UsesSlot inst slot)
      || (match inst.aux with
          | none => false
          | some slots => decide (slot ∈ slots)))

/-- The switch "Transform the instruction into its flavor that doesn't make an assignment" of
`PruneUnused`; `none` is the internal error for an opcode without such a flavor. -/
def reflavor (tb : OpTables) (inst : ZInst) : Option ZInst :=
  if inst.op = ZOp.OP_LOG_WRITE_VVV then
    some { inst with op := ZOp.OP_LOG_WRITE_VV, op_type := ZAMOpType.OP_VV,
                     v1 := inst.v2, v2 := inst.v3 }
  else if inst.op = ZOp.OP_LOG_WRITE_VVC then
    some { inst with op := ZOp.OP_LOG_WRITE_VC, op_type := ZAMOpType.OP_Vc, v1 := inst.v2 }
  else if inst.op = ZOp.OP_BROKER_FLUSH_LOGS_V then
    some { inst with op := ZOp.OP_BROKER_FLUSH_LOGS_X, op_type := ZAMOpType.OP_X }
  else
    match tb.assignmentless_op.lookup inst.op with
    | none => none
    | some op1 =>
      some { inst with
             op_type := (tb.assignmentless_op_type.lookup inst.op).getD (ZAMOpType.OP_other_type 0),
             op := op1, v1 := inst.v2, v2 := inst.v3, v3 := inst.v4 }

/-- One round of the loop of `PruneUnused`, for the instruction at position `i`; the flag is
`did_prune`.  The instruction `inst` is the object at position `i`, read in the current state
at each use. -/
def ZAM.pruneAt (zm : ZInstMethods) (an : Analyses) (tb : OpTables) (s : ZAM × Bool) (i : Nat) :
    Option (ZAM × Bool) :=
  match s.1.insts1[i]? with
  | none => some s
  | some inst0 =>
    if inst0.live = false then some s
    else
      let s1 : ZAM × Bool :=
        if zm.IsFrameStore inst0 = true ∧ s.1.VarIsAssigned zm inst0.v1 = false then
          (s.1.KillInst i, true)
        else s
      let inst1 := (s1.1.insts1[i]?).getD inst0
      let s2 : ZAM × Bool :=
        if zm.IsLoad inst1 = true ∧ s1.1.VarIsUsed zm inst1.v1 = false then
          (s1.1.KillInst i, true)
        else s1
      let inst2 := (s2.1.insts1[i]?).getD inst1
      if zm.AssignsToSlot1 inst2 = false then some s2
      else
        let slot := inst2.v1
        if (s2.1.denizen_ending slot).isSome = true ∨ an.IsGlobal (s2.1.denizen slot) = true then
          some s2
        else if zm.HasSideEffects inst2 = false then some (s2.1.KillInst i, true)
        else
          match reflavor tb inst2 with
          | none => none
          | some inst3 => some ({ s2.1 with insts1 := s2.1.insts1.set i inst3 }, true)

/-- The member function `PruneUnused`; it yields the new state and `did_prune`. -/
def ZAM.PruneUnused (m : ZAM) (zm : ZInstMethods) (an : Analyses) (tb : OpTables) :
    Option (ZAM × Bool) :=
  foldPositions (ZAM.pruneAt zm an tb) (List.range m.insts1.length) (m, false)

/-- The loops `while ( pass() ) something_changed = true;` of `OptimizeInsts`: the pass is
repeated until it reports no change; the flag tells whether a round reported one.  `none` when
the pass fails or is not over after `fuel` rounds. -/
def repeatPass (pass : ZAM → Option (ZAM × Bool)) : Nat → ZAM → Option (ZAM × Bool)
  | 0, _ => none
  | fuel + 1, m =>
    match pass m with
    | none => none
    | some (m1, false) => some (m1, false)
    | some (m1, true) =>
      match repeatPass pass fuel m1 with
      | none => none
      | some (m2, _) => some (m2, true)

/-- One round of the loop `do ... while ( something_changed )` of `OptimizeInsts`; the flag is
`something_changed`. -/
def ZAM.optimizeRound (m : ZAM) (zm : ZInstMethods) (an : Analyses) (tb : OpTables)
    (fuel : Nat) : Option (ZAM × Bool) :=
  match repeatPass (fun m1 => some (m1.RemoveDeadCode zm)) fuel m with
  | none => none
  | some (m1, c1) =>
    match repeatPass (fun m2 => m2.CollapseGoTos zm fuel) fuel m1 with
    | none => none
    | some (m2, c2) =>
      match (m2.ComputeFrameLifetimes zm an).PruneUnused zm an tb with
      | none => none
      | some (m3, c3) => some (m3, c1 || c2 || c3)

/-- The loop `do ... while ( something_changed )` of `OptimizeInsts`, for at most `fuel`
rounds. -/
def ZAM.optimizeLoop (zm : ZInstMethods) (an : Analyses) (tb : OpTables) (fuel : Nat) :
    Nat → ZAM → Option ZAM
  | 0, _ => none
  | rounds + 1, m =>
    match m.optimizeRound zm an tb fuel with
    | none => none
    | some (m1, true) => ZAM.optimizeLoop zm an tb fuel rounds m1
    | some (m1, false) => some m1

/-- The member function `OptimizeInsts`; `fuel` bounds the rounds of each of its loops, and
`none` is an internal error or a loop that is not over within the bound. -/
def ZAM.OptimizeInsts (m : ZAM) (zm : ZInstMethods) (an : Analyses) (tb : OpTables)
    (fuel : Nat) (p : Process) : Option (ZAM × Process) :=
  match ZAM.optimizeLoop zm an tb fuel fuel m.tallyLabels with
  | none => none
  | some m1 => some ((m1.ReMapFrame zm an).ReMapInterpreterFrame an p)

/-- The part of `CompileBody` from the call of `OptimizeInsts` on: the optimizer, unless it is
switched off (`analysis_options.no_ZAM_opt`), and the assembly of `insts2`. -/
def ZAM.optimizeAndAssemble (m : ZAM) (zm : ZInstMethods) (an : Analyses) (tb : OpTables)
    (no_ZAM_opt : Bool) (fuel : Nat) (p : Process) : Option (ZAM × Process) :=
  match (if no_ZAM_opt then some (m, p) else m.OptimizeInsts zm an tb fuel p) with
  | none => none
  | some (m1, p1) =>
    match m1.assemble with
    | none => none
    | some r => some (r.1, p1)

/-! Notions used to state what the passes of the optimizer change. -/

/-- An instruction without its label count: what is left of it when `num_labels` is ignored. -/
def ZInst.unlabelled (z : ZInst) : ZInst :=
  { z with num_labels := 0 }

/-- The state of `RemoveDeadCode`, with `did_removal`, when its loop reaches the pair at the
positions `i`, `i + 1`. -/
def ZAM.removeDeadBefore (m : ZAM) (zm : ZInstMethods) (i : Nat) : ZAM × Bool :=
  (List.range i).foldl (ZAM.removeDeadAt zm) (m, false)

/-- The pair at the positions `i`, `i + 1` is one whose second instruction is dead code: both
are live, the first does not continue and does not target the second, and the second has
`num_labels = 0`. -/
def ZAM.deadPair (m : ZAM) (zm : ZInstMethods) (i : Nat) : Bool :=
  match m.insts1[i]?, m.insts1[i + 1]? with
  | some i0, some i1 =>
    i0.live && i1.live && zm.DoesNotContinue i0
      && decide (i0.target ≠ some (InstRef.inst (i + 1))) && decide (i1.num_labels = 0)
  | _, _ => false

/-- An instruction without its label count and its `live` flag: what it does when it runs. -/
def ZInst.bare (z : ZInst) : ZInst :=
  { z with num_labels := 0, live := true }

/-- The state `r` is the state `s` but for the instruction at the position `i` and for label
counts: the lifetimes and the frame are the same, there are as many instructions, and every
instruction at another position is the same but for its label count. -/
def ZAM.keepsBut (s r : ZAM) (i : Nat) : Prop :=
  r.denizen_ending = s.denizen_ending ∧ r.frame_denizens = s.frame_denizens
  ∧ r.insts1.length = s.insts1.length
  ∧ ∀ (j : Nat) (z : ZInst), j ≠ i → s.insts1[j]? = some z →
      ∃ z1, r.insts1[j]? = some z1 ∧ z1.unlabelled = z.unlabelled

/-- The chain of unconditional branches from `t`: `t` and each pointer of `mids` designate an
unconditional branch whose target is the next pointer of `t :: mids ++ [last]`, and `last`
designates an instruction that is not an unconditional branch. -/
def ZAM.chainTo (m : ZAM) (zm : ZInstMethods) : InstRef → List InstRef → InstRef → Prop
  | t, [], last =>
    (∃ tz, m.deref t = some tz ∧ zm.IsUnconditionalBranch tz = true ∧ tz.target = some last)
    ∧ ∃ lz, m.deref last = some lz ∧ zm.IsUnconditionalBranch lz = false
  | t, c :: rest, last =>
    (∃ tz, m.deref t = some tz ∧ zm.IsUnconditionalBranch tz = true ∧ tz.target = some c)
    ∧ ZAM.chainTo m zm c rest last

/-- The state after one round of the loop "Collapse branch-to-branch" of `CollapseGoTos` for
the instruction at position `i`: a label is taken from `t`, the target of the instruction
becomes `t1`, the target of `t`, and `t1` gets a label. -/
def ZAM.chainRound (m : ZAM) (i : Nat) (t t1 : InstRef) : ZAM :=
  ((m.modifyInst t (fun z => { z with num_labels := z.num_labels - 1 })).modifyInst
    (InstRef.inst i) (fun z => { z with target := some t1 })).modifyInst t1
      (fun z => { z with num_labels := z.num_labels + 1 })

/-! Notions used to state the label-count invariant of the optimizer. -/

/-- The live instructions of `insts1` whose `target` is `r`, counted. -/
def ZAM.numLiveTargeting (m : ZAM) (r : InstRef) : Nat :=
  (m.insts1.filter (fun z => z.live && decide (z.target = some r))).length

/-- The live instructions of `insts1` whose `target2` is `r`, counted. -/
def ZAM.numLiveTargeting2 (m : ZAM) (r : InstRef) : Nat :=
  (m.insts1.filter (fun z => z.live && decide (z.target2 = some r))).length

/-- The branches to `r`: the live instructions whose `target` is `r`, those whose `target2`
is `r`, and the switch-table entries that map to `r`. -/
def ZAM.numBranchesTo (m : ZAM) (r : InstRef) : Nat :=
  m.numLiveTargeting r + m.numLiveTargeting2 r + m.numCaseEntriesTo r

/-- The label-count invariant as C26 states it: the label count of every instruction of
`insts1` is the number of the branches to it. -/
def ZAM.labelsExact (m : ZAM) : Prop :=
  ∀ k, k < m.insts1.length →
    m.labelsOf (InstRef.inst k) = (m.numBranchesTo (InstRef.inst k) : Int)

instance (m : ZAM) : Decidable m.labelsExact := by
  unfold ZAM.labelsExact; infer_instance

/-- The label-count invariant for the live instructions: the label count of every live
instruction of `insts1` is the number of the branches to it. -/
def ZAM.liveLabelsExact (m : ZAM) : Prop :=
  ∀ k, k < m.insts1.length → m.liveAt k = true →
    m.labelsOf (InstRef.inst k) = (m.numBranchesTo (InstRef.inst k) : Int)

instance (m : ZAM) : Decidable m.liveLabelsExact := by
  unfold ZAM.liveLabelsExact; infer_instance

/-- By how much the label count of the instruction at the position `k` exceeds the number of
the branches to it. -/
def ZAM.excess (m : ZAM) (k : Nat) : Int :=
  m.labelsOf (InstRef.inst k) - (m.numBranchesTo (InstRef.inst k) : Int)

/-- How many of `target` and `target2` of an instruction are `r`. -/
def ZInst.refsTo (z : ZInst) (r : InstRef) : Int :=
  (if z.target = some r then 1 else 0) + (if z.target2 = some r then 1 else 0)

/-- What an instruction adds to the number of the branches to `r`. -/
def ZInst.branchesTo (z : ZInst) (r : InstRef) : Int :=
  if z.live = true then z.refsTo r else 0

/-- The state `r` has the instructions of `m` with the live ones among those live in `m`, and
the label count of each instruction live in `r` exceeds the number of the branches to it by as
much as in `m`. -/
def ZAM.keepsLive (m r : ZAM) : Prop :=
  r.insts1.length = m.insts1.length
  ∧ ∀ k, r.liveAt k = true → m.liveAt k = true ∧ r.excess k = m.excess k

/-- The opcode and the second target of an instruction. -/
def ZInst.kind (z : ZInst) : ZOp × Option InstRef :=
  (z.op, z.target2)

/-! ## The code generator

While the body is generated, a pointer to an instruction (`InstLabel`) is `InstRef.inst k`,
`k` being the position of the instruction in `insts1`.  The object `pending_inst`, which
branches to the instruction that will be generated next point to, is the instruction that the
next `AddInst` places at the end of `insts1`: it is `InstRef.inst k` with `k = insts1.size()`.
The constant, the type and the function of an instruction are left out. -/

/-- A compiled statement, `CompiledStmt` in the source: the number of its last instruction. -/
structure CompiledStmt where
  stmt_num : Int
  deriving DecidableEq, Repr

/-- The flavors of the first operand, `ZAMOp1Flavor` in the source. -/
inductive ZAMOp1Flavor where
  | OP1_READ
  | OP1_WRITE
  | OP1_READ_WRITE
  | OP1_INTERNAL
  deriving DecidableEq, Repr

/-- A function value, `Func` of the host: its name, whether it is a built-in
(`GetKind() == BuiltinFunc::BUILTIN_FUNC`), and the function. -/
structure FuncVal where
  Name : String
  is_builtin : Bool
  func : Nat
  deriving DecidableEq, Repr

/-- What the generator asks of the host about an identifier: `IsGlobal()`, `AsType()`, the tag
of its type, and its value `ID_Val()` when that is a function. -/
structure IDInfo where
  IsGlobal : ID → Bool
  AsType : ID → Bool
  Tag : ID → TypeTag
  ID_Val : ID → Option FuncVal

/-- The expressions of the reduced AST that the code modelled here takes apart, by their
tags: `EXPR_NAME`, `EXPR_CONST`, `EXPR_CALL`, `EXPR_ASSIGN`, `EXPR_REF`; any other
expression is `other` with its tag. -/
inductive Expr where
  | name (id : ID)
  | const (value : Nat)
  | call (func : Expr) (args : List Expr)
  | assign (op1 : Expr) (op2 : Expr)
  | ref (op1 : Expr)
  | other (tag : Nat)

/-- The checked cast `AsNameExpr()`, with the identifier of the name; it fails on an expression
with another tag. -/
def Expr.AsNameExpr : Expr → Option ID
  | Expr.name id => some id
  | _ => none

/-- The constructor `ZInst(op, v1)` of the absent `ZInst.h`. -/
def ZInst.mkV (op : ZOp) (v1 : Int) : ZInst :=
  { ZInst.new op with op_type := ZAMOpType.OP_V, v1 := v1 }

/-- The constructor `ZInst(op, v1, v2)` of the absent `ZInst.h`. -/
def ZInst.mkVV (op : ZOp) (v1 v2 : Int) : ZInst :=
  { ZInst.new op with op_type := ZAMOpType.OP_VV, v1 := v1, v2 := v2 }

/-- The constructor `ZInst(op, v1, v2, v3)` of the absent `ZInst.h`. -/
def ZInst.mkVVV (op : ZOp) (v1 v2 v3 : Int) : ZInst :=
  { ZInst.new op with op_type := ZAMOpType.OP_VVV, v1 := v1, v2 := v2, v3 := v3 }

/-- The constructor `ZInst(op, v1, c)` of the absent `ZInst.h`, for a constant `c`. -/
def ZInst.mkVC (op : ZOp) (v1 : Int) : ZInst :=
  { ZInst.new op with op_type := ZAMOpType.OP_VC, v1 := v1 }

/-- The statements of `AddInst` up to `top_main_inst = insts1.size() - 1`: the instruction
object, `pending_inst` if it is set and a new one otherwise, receives `inst` and is appended to
`insts1`. -/
def ZAM.pushInst (m : ZAM) (inst : ZInst) : ZAM :=
  { m with insts1 := m.insts1 ++ [inst], pending_set := false,
           top_main_inst := (m.insts1.length : Int) }

/-- The member function `AddInst`: after the instruction, a pending `mark_dirty` adds the
marker `OP_DIRTY_GLOBAL_V` through a second call, which finds `mark_dirty` reset. -/
def ZAM.AddInst (m : ZAM) (inst : ZInst) : ZAM × CompiledStmt :=
  let m1 := m.pushInst inst
  if m1.mark_dirty < 0 then (m1, { stmt_num := m1.top_main_inst })
  else
    let dirty_inst : ZInst :=
      { ZInst.mkV ZOp.OP_DIRTY_GLOBAL_V m1.mark_dirty with op_type := ZAMOpType.OP_V_I1 }
    let m2 := ({ m1 with mark_dirty := -1 }).pushInst dirty_inst
    (m2, { stmt_num := m2.top_main_inst })

/-- The member function `LastInst`. -/
def ZAM.LastInst (m : ZAM) : CompiledStmt :=
  { stmt_num := (m.insts1.length : Int) - 1 }

/-- The member function `EmptyStmt`. -/
def ZAM.EmptyStmt (m : ZAM) : CompiledStmt :=
  { stmt_num := (m.insts1.length : Int) - 1 }

/-- The member function `RawSlot`; `none` is the internal error for an identifier missing from
the frame layout. -/
def ZAM.RawSlot (m : ZAM) (id : ID) : Option Int :=
  m.frame_layout1.lookup id

/-- The expression `global_id_to_info[id]`; `operator[]` reads 0 for a missing identifier. -/
def ZAM.globalIndex (m : ZAM) (id : ID) : Int :=
  (m.global_id_to_info.lookup id).getD 0

/-- The member function `LoadGlobal`. -/
def ZAM.LoadGlobal (m : ZAM) (ids : IDInfo) (fl : FlavorMap) (id : ID) :
    Option (ZAM × CompiledStmt) :=
  if ids.AsType id then some (m, m.EmptyStmt)
  else
    match m.RawSlot id with
    | none => none
    | some slot =>
      let op := AssignmentFlavor fl ZOp.OP_LOAD_GLOBAL_VVC (ids.Tag id)
      some (m.AddInst { ZInst.mkVV op slot (m.globalIndex id) with op_type := ZAMOpType.OP_ViC_ID })

/-- The member function `FrameSlot(id)`: a global is loaded first. -/
def ZAM.FrameSlot (m : ZAM) (ids : IDInfo) (fl : FlavorMap) (id : ID) : Option (ZAM × Int) :=
  match m.RawSlot id with
  | none => none
  | some slot =>
    if ids.IsGlobal id then
      match m.LoadGlobal ids fl (m.denizen slot) with
      | none => none
      | some r => some (r.1, slot)
    else some (m, slot)

/-- The member function `Frame1Slot(id, fl)`. -/
def ZAM.Frame1Slot (m : ZAM) (ids : IDInfo) (fl : FlavorMap) (id : ID) (flavor : ZAMOp1Flavor) :
    Option (ZAM × Int) :=
  match m.RawSlot id with
  | none => none
  | some slot =>
    match flavor with
    | ZAMOp1Flavor.OP1_READ =>
      if ids.IsGlobal id then
        match m.LoadGlobal ids fl (m.denizen slot) with
        | none => none
        | some r => some (r.1, slot)
      else some (m, slot)
    | ZAMOp1Flavor.OP1_WRITE =>
      if ids.IsGlobal id then some ({ m with mark_dirty := m.globalIndex id }, slot)
      else some (m, slot)
    | ZAMOp1Flavor.OP1_READ_WRITE =>
      if ids.IsGlobal id then
        match m.LoadGlobal ids fl (m.denizen slot) with
        | none => none
        | some r => some ({ r.1 with mark_dirty := r.1.globalIndex id }, slot)
      else some (m, slot)
    | ZAMOp1Flavor.OP1_INTERNAL => some (m, slot)

/-- The member function `BuiltIn_to_lower(n, args)`, `n` being the identifier of the name to
assign to, if any.  It yields the state and the value returned; `none` when the cast of the
argument to a name fails, `args` is empty, or an identifier is missing from the frame
layout. -/
def ZAM.BuiltIn_to_lower (m : ZAM) (ids : IDInfo) (fl : FlavorMap) (n : Option ID)
    (args : List Expr) : Option (ZAM × Bool) :=
  match n with
  | none => some (m, true)
  | some n =>
    match args[0]? with
    | none => none
    | some arg0 =>
      match arg0.AsNameExpr with
      | none => none
      | some arg_s =>
        match m.Frame1Slot ids fl n ZAMOp1Flavor.OP1_WRITE with
        | none => none
        | some (m1, nslot) =>
          match m1.FrameSlot ids fl arg_s with
          | none => none
          | some (m2, v2) => some ((m2.AddInst (ZInst.mkVV ZOp.OP_TO_LOWER_VV nslot v2)).1, true)

/-- The lowerings of the other built-ins that `IsZAM_BuiltIn` knows, each given the name to
assign to and the arguments. -/
structure OtherBuiltIns where
  BuiltIn_sub_bytes : ZAM → Option ID → List Expr → Option (ZAM × Bool)
  BuiltIn_Log__write : ZAM → Option ID → List Expr → Option (ZAM × Bool)
  BuiltIn_Broker__flush_logs : ZAM → Option ID → List Expr → Option (ZAM × Bool)
  BuiltIn_get_port_etc : ZAM → Option ID → List Expr → Option (ZAM × Bool)
  BuiltIn_reading_live_traffic : ZAM → Option ID → List Expr → Option (ZAM × Bool)
  BuiltIn_reading_traces : ZAM → Option ID → List Expr → Option (ZAM × Bool)
  BuiltIn_strstr : ZAM → Option ID → List Expr → Option (ZAM × Bool)

/-- The call `c` of `IsZAM_BuiltIn`: the expression itself when it is a call, its second
operand, cast to a call, otherwise.  It yields the function expression and the arguments. -/
def callOf (e : Expr) : Option (Expr × List Expr) :=
  match e with
  | Expr.call f args => some (f, args)
  | Expr.assign _ (Expr.call f args) => some (f, args)
  | _ => none

/-- The name `n` to assign to of `IsZAM_BuiltIn`:
`e->GetOp1()->AsRefExpr()->GetOp1()->AsNameExpr()` for an expression that is not a call. -/
def assignedName (e : Expr) : Option ID :=
  match e with
  | Expr.assign (Expr.ref (Expr.name id)) _ => some id
  | _ => none

/-- The member function `IsZAM_BuiltIn(e)`: it yields the state and the value returned;
`none` when a cast fails or the lowering of the built-in fails. -/
def ZAM.IsZAM_BuiltIn (m : ZAM) (ids : IDInfo) (fl : FlavorMap) (ob : OtherBuiltIns)
    (e : Expr) : Option (ZAM × Bool) :=
  match callOf e with
  | none => none
  | some (func_expr, args) =>
    match func_expr with
    | Expr.name fid =>
      match ids.ID_Val fid with
      | none => some (m, false)
      | some func =>
        if func.is_builtin = false then some (m, false)
        else
          let name_expr : Option (Option ID) :=
            match e with
            | Expr.call _ _ => some none
            | _ => (assignedName e).map some
          match name_expr with
          | none => none
          | some n =>
            if func.Name = "sub_bytes" then ob.BuiltIn_sub_bytes m n args
            else if func.Name = "to_lower" then m.BuiltIn_to_lower ids fl n args
            else if func.Name = "Log::__write" then ob.BuiltIn_Log__write m n args
            else if func.Name = "Broker::__flush_logs" then
              ob.BuiltIn_Broker__flush_logs m n args
            else if func.Name = "get_port_transport_proto" then ob.BuiltIn_get_port_etc m n args
            else if func.Name = "reading_live_traffic" then
              ob.BuiltIn_reading_live_traffic m n args
            else if func.Name = "reading_traces" then ob.BuiltIn_reading_traces m n args
            else if func.Name = "strstr" then ob.BuiltIn_strstr m n args
            else some (m, false)
    | _ => some (m, false)

/-- The member function `SyncGlobals(o)`; `dirty` lists, in iteration order, the globals whose
definition points at `o` differ from those at the entry of the body, which the absent
reaching-definitions analysis of the reducer tells. -/
def ZAM.SyncGlobals (m : ZAM) (dirty : List ID) : ZAM :=
  let m1 := { m with modified_globals := dirty.foldl setInsert m.modified_globals }
  if dirty = [] then m1 else (m1.AddInst (ZInst.new ZOp.OP_SYNC_GLOBALS_X)).1

/-- The loop of `DoCall` that fills the auxiliary block with the arguments: the slot of a name
(a global is loaded), -1 for a constant.  `none` when an argument is neither. -/
def ZAM.callArgs (m : ZAM) (ids : IDInfo) (fl : FlavorMap) :
    List Expr → List Int → Option (ZAM × List Int)
  | [], slots => some (m, slots)
  | Expr.name id :: rest, slots =>
    match m.FrameSlot ids fl id with
    | none => none
    | some (m1, slot) => ZAM.callArgs m1 ids fl rest (slots ++ [slot])
  | Expr.const _ :: rest, slots => ZAM.callArgs m ids fl rest (slots ++ [-1])
  | _ :: _, _ => none

/-- The member function `DoCall(c, n)`, `c` being the call of `func_expr` with `args` and `n`
the identifier of the name to assign to, if any; `dirty` is what `SyncGlobals(c)` learns from
the reducer.  `none` when a cast fails or an identifier is missing from the frame layout. -/
def ZAM.DoCall (m : ZAM) (ids : IDInfo) (fl : FlavorMap) (dirty : List ID) (func_expr : Expr)
    (args : List Expr) (n : Option ID) : Option (ZAM × CompiledStmt) :=
  let m0 := m.SyncGlobals dirty
  match func_expr.AsNameExpr with
  | none => none
  | some func_id =>
    let nargs := args.length
    let indirect := ! ids.IsGlobal func_id
    let call_case : Int := if indirect then -1 else (nargs : Int)
    let nt := match n with
      | some id => ids.Tag id
      | none => TypeTag.TYPE_VOID
    let slot1 : Option (ZAM × Int) := match n with
      | some id => m0.Frame1Slot ids fl id ZAMOp1Flavor.OP1_WRITE
      | none => some (m0, -1)
    match slot1 with
    | none => none
    | some (m1, n_slot) =>
      let built : Option (ZAM × ZInst) :=
        if call_case = 0 then
          match n with
          | some _ => some (m1, ZInst.mkV (AssignmentFlavor fl ZOp.OP_CALL0_V nt) n_slot)
          | none => some (m1, ZInst.new ZOp.OP_CALL0_X)
        else if call_case = 1 then
          match args[0]?, n with
          | some (Expr.name n0), some _ =>
            match m1.FrameSlot ids fl n0 with
            | none => none
            | some (m2, s0) =>
              some (m2, ZInst.mkVV (AssignmentFlavor fl ZOp.OP_CALL1_VV nt) n_slot s0)
          | some _, some _ =>
            some (m1, ZInst.mkVC (AssignmentFlavor fl ZOp.OP_CALL1_VC nt) n_slot)
          | some (Expr.name n0), none =>
            match m1.FrameSlot ids fl n0 with
            | none => none
            | some (m2, s0) => some (m2, ZInst.mkV ZOp.OP_CALL1_V s0)
          | some _, none =>
            some (m1, { ZInst.new ZOp.OP_CALL1_C with op_type := ZAMOpType.OP_C })
          | none, _ => none
        else
          match m1.callArgs ids fl args [] with
          | none => none
          | some (m2, slots) =>
            let op0 : ZOp :=
              if call_case = 2 then (if n.isSome then ZOp.OP_CALL2_Vc else ZOp.OP_CALL2_c)
              else if call_case = 3 then (if n.isSome then ZOp.OP_CALL3_Vc else ZOp.OP_CALL3_c)
              else if call_case = 4 then (if n.isSome then ZOp.OP_CALL4_Vc else ZOp.OP_CALL4_c)
              else if call_case = 5 then (if n.isSome then ZOp.OP_CALL5_Vc else ZOp.OP_CALL5_c)
              else if indirect then
                (if n.isSome then ZOp.OP_INDCALLN_VVc else ZOp.OP_INDCALLN_Vc)
              else (if n.isSome then ZOp.OP_CALLN_Vc else ZOp.OP_CALLN_c)
            match n with
            | some id =>
              let op := AssignmentFlavor fl op0 nt
              match m2.Frame1Slot ids fl id ZAMOp1Flavor.OP1_WRITE with
              | none => none
              | some (m3, n_slot1) =>
                if indirect then
                  match m3.FrameSlot ids fl func_id with
                  | none => none
                  | some (m4, fs) =>
                    some (m4, { ZInst.mkVV op n_slot1 fs with
                                op_type := ZAMOpType.OP_VVc, aux := some slots })
                else
                  some (m3, { ZInst.mkV op n_slot1 with
                              op_type := ZAMOpType.OP_Vc, aux := some slots })
            | none =>
              if indirect then
                match m2.FrameSlot ids fl func_id with
                | none => none
                | some (m4, fs) =>
                  some (m4, { ZInst.mkV op0 fs with
                              op_type := ZAMOpType.OP_Vc, aux := some slots })
              else
                some (m2, { ZInst.new op0 with op_type := ZAMOpType.OP_c, aux := some slots })
      match built with
      | none => none
      | some (m5, z) =>
        match n with
        | some id =>
          if ids.IsGlobal id then
            let m6 := (m5.AddInst z).1
            some (m6.AddInst
              { ZInst.mkV ZOp.OP_DIRTY_GLOBAL_V (m6.globalIndex id) with
                op_type := ZAMOpType.OP_V_I1 })
          else some (m5.AddInst z)
        | none => some (m5.AddInst z)

/-- The member function `AssignToCall(e)`, `e` being the expression of the statement: a
built-in that `IsZAM_BuiltIn` has lowered is not lowered as a call. -/
def ZAM.AssignToCall (m : ZAM) (ids : IDInfo) (fl : FlavorMap) (ob : OtherBuiltIns)
    (dirty : List ID) (e : Expr) : Option (ZAM × CompiledStmt) :=
  match m.IsZAM_BuiltIn ids fl ob e with
  | none => none
  | some (m1, true) => some (m1, m1.LastInst)
  | some (m1, false) =>
    match e with
    | Expr.assign (Expr.ref (Expr.name n)) (Expr.call func_expr args) =>
      m1.DoCall ids fl dirty func_expr args (some n)
    | _ => none

/-! Notions used to state the properties of the generator. -/

/-- The marker that `AddInst` adds for the global with the index `d`. -/
def dirtyMarker (d : Int) : ZInst :=
  { ZInst.mkV ZOp.OP_DIRTY_GLOBAL_V d with op_type := ZAMOpType.OP_V_I1 }

/-- The markers that `AddInst` adds after an instruction when `mark_dirty = d`. -/
def markersFor (d : Int) : List ZInst :=
  if d < 0 then [] else [dirtyMarker d]

/-- The instruction at position `k` of a stream assigns to the global with the index `d` and
is marked as C20 states it: the instruction right after it is the marker
`OP_DIRTY_GLOBAL_V` with the operand `d`, and it is the only marker that follows it
directly. -/
def markedOnce (insts : List ZInst) (k : Nat) (d : Int) : Bool :=
  (match insts[k + 1]? with
   | some z => decide (z.op = ZOp.OP_DIRTY_GLOBAL_V ∧ z.v1 = d)
   | none => false)
  && (match insts[k + 2]? with
      | some z => decide (z.op ≠ ZOp.OP_DIRTY_GLOBAL_V)
      | none => true)

/-! ### Branches and `ValueSwitch` -/

/-- The member function `GoToTargetBeyond(s)`: the instruction after the statement `s`, which
is the object `pending_inst`, created if it is not set, when `s` is the last instruction. -/
def ZAM.GoToTargetBeyond (m : ZAM) (s : CompiledStmt) : ZAM × InstRef :=
  if s.stmt_num = (m.insts1.length : Int) - 1 then
    (if m.pending_set then m
     else { m with pending_inst := ZInst.new ZOp.OP_NOP, pending_set := true },
     InstRef.inst m.insts1.length)
  else (m, InstRef.inst (s.stmt_num + 1).toNat)

/-- The member function `SetTarget(inst, l, slot)`. -/
def SetTarget (inst : ZInst) (l : InstRef) (slot : Int) : ZInst :=
  if inst.target.isSome then { inst with target2 := some l, target2_slot := slot }
  else { inst with target := some l, target_slot := slot }

/-- The member function `SetV1(s, l)`; `none` when `s` is not an instruction of `insts1`. -/
def ZAM.SetV1 (m : ZAM) (s : CompiledStmt) (l : InstRef) : Option ZAM :=
  if s.stmt_num < 0 then none
  else
    match m.insts1[s.stmt_num.toNat]? with
    | none => none
    | some inst =>
      let inst1 : ZInst := { SetTarget inst l 1 with op_type := ZAMOpType.OP_V_I1 }
      some { m with insts1 := m.insts1.set s.stmt_num.toNat inst1 }

/-- The member function `SetV3(s, l)`; `none` when `s` is not an instruction of `insts1`. -/
def ZAM.SetV3 (m : ZAM) (s : CompiledStmt) (l : InstRef) : Option ZAM :=
  if s.stmt_num < 0 then none
  else
    match m.insts1[s.stmt_num.toNat]? with
    | none => none
    | some inst =>
      let inst1 := SetTarget inst l 3
      let inst2 : ZInst :=
        if inst1.op_type ≠ ZAMOpType.OP_VVV_I2_I3 then
          { inst1 with op_type := ZAMOpType.OP_VVV_I3 }
        else inst1
      some { m with insts1 := m.insts1.set s.stmt_num.toNat inst2 }

/-- The function `SetGoTo(s, targ)` of the absent `ZAM.h`: the target of a branch made by
`GoToStub`, whose operand 1 holds the target. -/
def ZAM.SetGoTo (m : ZAM) (s : CompiledStmt) (targ : InstRef) : Option ZAM :=
  m.SetV1 s targ

/-- The loop of `ResolveGoTos` over one set of branches. -/
def ZAM.resolveSet (m : ZAM) (l : InstRef) : List Int → Option ZAM
  | [] => some m
  | g :: gs =>
    match m.SetGoTo { stmt_num := g } l with
    | none => none
    | some m1 => ZAM.resolveSet m1 l gs

/-- The function `PushFallThroughs()` of the absent `ZAM.h`: `PushGoTos(fallthroughs)`. -/
def ZAM.PushFallThroughs (m : ZAM) : ZAM :=
  { m with fallthroughs := m.fallthroughs ++ [[]] }

/-- The function `PushBreaks()` of the absent `ZAM.h`: `PushGoTos(breaks)`. -/
def ZAM.PushBreaks (m : ZAM) : ZAM :=
  { m with breaks := m.breaks ++ [[]] }

/-- The function `ResolveFallThroughs(l)` of the absent `ZAM.h`:
`ResolveGoTos(fallthroughs, l)`; `none` when the stack is empty. -/
def ZAM.ResolveFallThroughs (m : ZAM) (l : InstRef) : Option ZAM :=
  match m.fallthroughs.getLast? with
  | none => none
  | some g =>
    match m.resolveSet l g with
    | none => none
    | some m1 => some { m1 with fallthroughs := m1.fallthroughs.dropLast }

/-- The function `ResolveBreaks(l)` of the absent `ZAM.h`: `ResolveGoTos(breaks, l)`; `none`
when the stack is empty. -/
def ZAM.ResolveBreaks (m : ZAM) (l : InstRef) : Option ZAM :=
  match m.breaks.getLast? with
  | none => none
  | some g =>
    match m.resolveSet l g with
    | none => none
    | some m1 => some { m1 with breaks := m1.breaks.dropLast }

/-- The member function `AddToFrame`. -/
def ZAM.AddToFrame (m : ZAM) (id : ID) : ZAM × Int :=
  ({ m with frame_layout1 := mapSet m.frame_layout1 id m.frame_size,
            frame_denizens := m.frame_denizens ++ [id],
            frame_size := m.frame_size + 1 }, m.frame_size)

/-- The internal types of the host, `InternalTypeTag`, that `ValueSwitch` tells apart. -/
inductive InternalTypeTag where
  | TYPE_INTERNAL_INT
  | TYPE_INTERNAL_UNSIGNED
  | TYPE_INTERNAL_DOUBLE
  | TYPE_INTERNAL_STRING
  | TYPE_INTERNAL_ADDR
  | TYPE_INTERNAL_SUBNET
  | TYPE_INTERNAL_other (code : Nat)
  deriving DecidableEq, Repr

/-- The key of a `CaseMap<double>` for the double with the bit pattern `bits` (IEEE 754
binary64).  The map compares its keys as doubles, so 0.0 (bits 0) and -0.0 (bits 2^63) are
one key, held here as the bits of 0.0; every other number is a key of its own, held as its
bits.  A NaN, which the comparison of doubles neither orders nor finds equal to itself, has
no key: `none`. -/
def doubleKey (bits : Nat) : Option Nat :=
  let b := bits % 2 ^ 64
  if (b / 2 ^ 52) % 2 ^ 11 = 2047 ∧ b % 2 ^ 52 ≠ 0 then none
  else if b % 2 ^ 63 = 0 then some 0
  else some b

/-- A case value as `ValueSwitch` recovers it from the interpreted jump table: its internal
type with what `ValueSwitch` reads of it (`InternalInt()`, `InternalUnsigned()`,
`InternalDouble()` as the bit pattern of the double, `AsString()->Render()` of a string,
`AsString()` of an address or a subnet). -/
inductive CaseVal where
  | int (v : Int)
  | uint (v : Nat)
  | double (bits : Nat)
  | string (s : String)
  | addr (s : String)
  | subnet (s : String)
  | other (code : Nat)
  deriving DecidableEq, Repr

/-- The compilation of a statement, `Stmt::Compile` of the host, which calls back into the
generator: the new state and the compiled statement, or `none` for an internal error. -/
abbrev StmtCompile := ZAM → Option (ZAM × CompiledStmt)

/-- What `ValueSwitch` reads of a `SwitchStmt`: the bodies of `Cases()`, each by its
compilation; `DefaultCaseIndex()`; and the entries of `ValueMap()` in iteration order, each
with the values `RecoverVals` recovers from its key and the index of its case. -/
structure SwitchStmt where
  Cases : List StmtCompile
  DefaultCaseIndex : Int
  ValueMap : List (List CaseVal × Nat)

/-- The four local jump tables of `ValueSwitch`.  The keys of the table of doubles are the
values of `doubleKey`. -/
structure NewCases where
  new_int_cases : CaseMap Int
  new_uint_cases : CaseMap Nat
  new_double_cases : CaseMap Nat
  new_str_cases : CaseMap String

/-- The loop "Generate each of the cases" of `ValueSwitch`; it yields the state, `body_end`
and `case_start`. -/
def ZAM.switchCases (m : ZAM) : List StmtCompile → CompiledStmt → List InstRef →
    Option (ZAM × CompiledStmt × List InstRef)
  | [], body_end, case_start => some (m, body_end, case_start)
  | c :: cases, body_end, case_start =>
    let r := m.GoToTargetBeyond body_end
    match r.1.ResolveFallThroughs r.2 with
    | none => none
    | some m1 =>
      match c m1.PushFallThroughs with
      | none => none
      | some (m2, body_end1) => ZAM.switchCases m2 cases body_end1 (case_start ++ [r.2])

/-- The loop "fill out the corresponding jump table" of `ValueSwitch` over the entries of the
value map; `none` is an internal error, a case index outside `case_start`, or a double that
the table of doubles cannot hold as a key. -/
def fillCases (case_start : List InstRef) : List (List CaseVal × Nat) → NewCases →
    Option NewCases
  | [], nc => some nc
  | (case_vals, index) :: rest, nc =>
    match case_vals, case_start[index]? with
    | [cv], some case_body_start =>
      match cv with
      | CaseVal.int v =>
        fillCases case_start rest
          { nc with new_int_cases := mapSet nc.new_int_cases v case_body_start }
      | CaseVal.uint v =>
        fillCases case_start rest
          { nc with new_uint_cases := mapSet nc.new_uint_cases v case_body_start }
      | CaseVal.double v =>
        match doubleKey v with
        | none => none
        | some k =>
          fillCases case_start rest
            { nc with new_double_cases := mapSet nc.new_double_cases k case_body_start }
      | CaseVal.string s =>
        fillCases case_start rest
          { nc with new_str_cases := mapSet nc.new_str_cases s case_body_start }
      | CaseVal.addr s =>
        fillCases case_start rest
          { nc with new_str_cases := mapSet nc.new_str_cases s case_body_start }
      | CaseVal.subnet s =>
        fillCases case_start rest
          { nc with new_str_cases := mapSet nc.new_str_cases s case_body_start }
      | CaseVal.other _ => none
    | _, _ => none

/-- The opcode and the table index that `ValueSwitch` chooses for the internal type of the
switch expression; `none` is the internal error "bad switch type". -/
def ZAM.switchOp (m : ZAM) (t : InternalTypeTag) : Option (ZOp × Int) :=
  match t with
  | InternalTypeTag.TYPE_INTERNAL_INT => some (ZOp.OP_SWITCHI_VVV, (m.int_cases.length : Int))
  | InternalTypeTag.TYPE_INTERNAL_UNSIGNED =>
    some (ZOp.OP_SWITCHU_VVV, (m.uint_cases.length : Int))
  | InternalTypeTag.TYPE_INTERNAL_DOUBLE =>
    some (ZOp.OP_SWITCHD_VVV, (m.double_cases.length : Int))
  | InternalTypeTag.TYPE_INTERNAL_STRING => some (ZOp.OP_SWITCHS_VVV, (m.str_cases.length : Int))
  | InternalTypeTag.TYPE_INTERNAL_ADDR => some (ZOp.OP_SWITCHA_VVV, (m.str_cases.length : Int))
  | InternalTypeTag.TYPE_INTERNAL_SUBNET => some (ZOp.OP_SWITCHN_VVV, (m.str_cases.length : Int))
  | InternalTypeTag.TYPE_INTERNAL_other _ => none

/-- The switch "add the jump table to the set we're keeping for the corresponding type" of
`ValueSwitch`. -/
def ZAM.pushCases (m : ZAM) (t : InternalTypeTag) (nc : NewCases) : Option ZAM :=
  match t with
  | InternalTypeTag.TYPE_INTERNAL_INT =>
    some { m with int_cases := m.int_cases ++ [nc.new_int_cases] }
  | InternalTypeTag.TYPE_INTERNAL_UNSIGNED =>
    some { m with uint_cases := m.uint_cases ++ [nc.new_uint_cases] }
  | InternalTypeTag.TYPE_INTERNAL_DOUBLE =>
    some { m with double_cases := m.double_cases ++ [nc.new_double_cases] }
  | InternalTypeTag.TYPE_INTERNAL_STRING =>
    some { m with str_cases := m.str_cases ++ [nc.new_str_cases] }
  | InternalTypeTag.TYPE_INTERNAL_ADDR =>
    some { m with str_cases := m.str_cases ++ [nc.new_str_cases] }
  | InternalTypeTag.TYPE_INTERNAL_SUBNET =>
    some { m with str_cases := m.str_cases ++ [nc.new_str_cases] }
  | InternalTypeTag.TYPE_INTERNAL_other _ => none

/-- The first statements of `ValueSwitch`: the slot of the switch expression, that of the name
`v` (a global is loaded) or a new slot to which the constant is assigned. -/
def ZAM.switchSlot (m : ZAM) (ids : IDInfo) (fl : FlavorMap) (v : Option ID)
    (c : Option (Bool × ID)) : Option (ZAM × Int) :=
  let s0 : Option (ZAM × Int) := match v with
    | some id => m.FrameSlot ids fl id
    | none => some (m, 0)
  match s0 with
  | none => none
  | some (m0, slot0) =>
    match c with
    | some (managed, internal_reg) =>
      let a := m0.AddToFrame internal_reg
      some ((a.1.AddInst
        { ZInst.mkVC ZOp.OP_ASSIGN_CONST_VC a.2 with is_managed := managed }).1, a.2)
    | none => some (m0, slot0)

/-- The member function `ValueSwitch(sw, v, c)`: `v` is the identifier of the switch
expression when it is a name; `c` tells, for a constant switch expression, whether the
instruction that assigns it is managed (`CheckIfManaged`) and the new identifier that
`NewSlot` makes for it; `t` is the internal type of the switch expression. -/
def ZAM.ValueSwitch (m : ZAM) (ids : IDInfo) (fl : FlavorMap) (sw : SwitchStmt)
    (v : Option ID) (c : Option (Bool × ID)) (t : InternalTypeTag) :
    Option (ZAM × CompiledStmt) :=
  match m.switchSlot ids fl v c with
  | none => none
  | some s1 =>
    match s1.1.switchOp t with
    | none => none
    | some (op, tbl) =>
      let h := s1.1.AddInst
        { ZInst.mkVVV op s1.2 tbl 0 with op_type := ZAMOpType.OP_VVV_I2_I3 }
      let sw_head := h.2
      match h.1.PushFallThroughs.switchCases sw.Cases sw_head [] with
      | none => none
      | some (m2, body_end, case_start) =>
        let e := m2.GoToTargetBeyond body_end
        let sw_end := e.2
        match e.1.ResolveFallThroughs sw_end with
        | none => none
        | some m3 =>
          match m3.ResolveBreaks sw_end with
          | none => none
          | some m4 =>
            let def_target : Option InstRef :=
              if sw.DefaultCaseIndex ≥ 0 then case_start[sw.DefaultCaseIndex.toNat]?
              else some sw_end
            match def_target with
            | none => none
            | some l =>
              match m4.SetV3 sw_head l with
              | none => none
              | some m5 =>
                match fillCases case_start sw.ValueMap
                    { new_int_cases := [], new_uint_cases := [], new_double_cases := [],
                      new_str_cases := [] } with
                | none => none
                | some nc =>
                  match m5.pushCases t nc with
                  | none => none
                  | some m6 => some (m6, body_end)

/-- The member function `Switch(sw)` for a switch over values: `PushBreaks()`, then
`ValueSwitch`. -/
def ZAM.Switch (m : ZAM) (ids : IDInfo) (fl : FlavorMap) (sw : SwitchStmt)
    (v : Option ID) (c : Option (Bool × ID)) (t : InternalTypeTag) :
    Option (ZAM × CompiledStmt) :=
  m.PushBreaks.ValueSwitch ids fl sw v c t

/-! Notions used to state the properties of `ValueSwitch`. -/

/-- The key under which a case value enters a jump table, with the kind of the table. -/
inductive CaseKey where
  | int (v : Int)
  | uint (v : Nat)
  | double (bits : Nat)
  | str (s : String)
  deriving DecidableEq, Repr

/-- The key of a case value; none for a value of another internal type, and for a double
that has no key. -/
def CaseVal.key : CaseVal → Option CaseKey
  | CaseVal.int v => some (CaseKey.int v)
  | CaseVal.uint v => some (CaseKey.uint v)
  | CaseVal.double v => (doubleKey v).map CaseKey.double
  | CaseVal.string s => some (CaseKey.str s)
  | CaseVal.addr s => some (CaseKey.str s)
  | CaseVal.subnet s => some (CaseKey.str s)
  | CaseVal.other _ => none

/-- The four kinds of jump table that the generator keeps: `int_cases`, `uint_cases`,
`double_cases` and `str_cases`. -/
inductive TableKind where
  | int
  | uint
  | double
  | str
  deriving DecidableEq, Repr

/-- The kind of table that holds a key. -/
def CaseKey.kind : CaseKey → TableKind
  | CaseKey.int _ => TableKind.int
  | CaseKey.uint _ => TableKind.uint
  | CaseKey.double _ => TableKind.double
  | CaseKey.str _ => TableKind.str

/-- The kind of table to which `ValueSwitch` adds the jump table of a switch over an
expression of the internal type `t`; none for a type it rejects. -/
def InternalTypeTag.kind : InternalTypeTag → Option TableKind
  | InternalTypeTag.TYPE_INTERNAL_INT => some TableKind.int
  | InternalTypeTag.TYPE_INTERNAL_UNSIGNED => some TableKind.uint
  | InternalTypeTag.TYPE_INTERNAL_DOUBLE => some TableKind.double
  | InternalTypeTag.TYPE_INTERNAL_STRING => some TableKind.str
  | InternalTypeTag.TYPE_INTERNAL_ADDR => some TableKind.str
  | InternalTypeTag.TYPE_INTERNAL_SUBNET => some TableKind.str
  | InternalTypeTag.TYPE_INTERNAL_other _ => none

/-- What `Init` reads of the profile of the function, of the use-definitions of the body and
of the host: `pf->globals` and `pf->locals`, each in its iteration order; whether the body
uses an identifier (`uds && uds->HasID(id)`); whether the function is among
`non_recursive_funcs`; `IsAny` of the type of an identifier; and the order in which the map
`frame_layout1` is iterated. -/
structure ProfileInfo where
  globals : List ID
  locals : List ID
  HasID : ID → Bool
  non_recursive : Bool
  IsAny : ID → Bool
  layoutOrder : List (ID × Int) → List (ID × Int)

/-- The member function `HasFrameSlot`. -/
def ZAM.HasFrameSlot (m : ZAM) (id : ID) : Bool :=
  (m.frame_layout1.lookup id).isSome

/-- The member function `LoadOrStoreLocal(id, is_load, add)`; `offset` is `id->Offset()`, and
`none` is an internal error. -/
def ZAM.LoadOrStoreLocal (m : ZAM) (ids : IDInfo) (fl : FlavorMap) (pi : ProfileInfo)
    (offset : ID → Int) (id : ID) (is_load add : Bool) : Option (ZAM × CompiledStmt) :=
  if ids.AsType id then none
  else
    let m1 : ZAM :=
      if is_load then m else { m with interpreter_locals := setInsert m.interpreter_locals id }
    let op : ZOp :=
      if is_load then AssignmentFlavor fl ZOp.OP_LOAD_VAL_VV (ids.Tag id)
      else if pi.IsAny id then ZOp.OP_STORE_ANY_VAL_VV else ZOp.OP_STORE_VAL_VV
    let s : Option (ZAM × Int) :=
      if is_load && add then some (m1.AddToFrame id) else m1.FrameSlot ids fl id
    match s with
    | none => none
    | some (m2, slot) =>
      some (m2.AddInst { ZInst.mkVV op slot (offset id) with op_type := ZAMOpType.OP_VV_FRAME })

/-- The function `LoadParam(id)` of the absent `ZAM.h`: `LoadOrStoreLocal(id, true, true)`, the
load of a parameter from the interpreter frame into a new slot. -/
def ZAM.LoadParam (m : ZAM) (ids : IDInfo) (fl : FlavorMap) (pi : ProfileInfo)
    (offset : ID → Int) (id : ID) : Option (ZAM × CompiledStmt) :=
  m.LoadOrStoreLocal ids fl pi offset id true true

/-- One round of the loop of `Init` over `pf->globals`. -/
def ZAM.initGlobal (m : ZAM) (g : ID) : ZAM :=
  let a := m.AddToFrame g
  { a.1 with global_id_to_info := mapSet a.1.global_id_to_info g (a.1.globals.length : Int),
             globals := a.1.globals ++ [{ id := g, slot := a.2 }] }

/-- The loop of `Init` over `args`, with the local counter `nparam`: the used ones among the
first `nparam` identifiers of the scope are loaded. -/
def ZAM.initParams (ids : IDInfo) (fl : FlavorMap) (pi : ProfileInfo) (offset : ID → Int) :
    List ID → Int → ZAM → Option ZAM
  | [], _, m => some m
  | a :: rest, nparam, m =>
    if nparam - 1 < 0 then some m
    else if pi.HasID a then
      match m.LoadParam ids fl pi offset a with
      | none => none
      | some r => ZAM.initParams ids fl pi offset rest (nparam - 1) r.1
    else ZAM.initParams ids fl pi offset rest (nparam - 1) m

/-- One round of the loop of `Init` over `pf->locals`. -/
def ZAM.initLocal (m : ZAM) (l : ID) : ZAM :=
  if m.HasFrameSlot l then m else (m.AddToFrame l).1

/-- The member function `Init`, which the constructor calls after it has set `frame_size` to 0:
slots for the globals, for the used parameters and for the locals, then the managed slots.
`none` is an internal error. -/
def ZAM.Init (m : ZAM) (ids : IDInfo) (fl : FlavorMap) (an : Analyses) (pi : ProfileInfo)
    (offset : ID → Int) : Option ZAM :=
  let m1 : ZAM := { m with num_globals := (pi.globals.length : Int) }
  let m2 := pi.globals.foldl ZAM.initGlobal m1
  match ZAM.initParams ids fl pi offset m2.args m2.nparam m2 with
  | none => none
  | some m3 =>
    let m4 := pi.locals.foldl ZAM.initLocal m3
    some { m4 with
      managed_slots := m4.managed_slots ++
        ((pi.layoutOrder m4.frame_layout1).filter (fun e => an.IsManagedType e.1)).map Prod.snd,
      non_recursive := pi.non_recursive }

/-! Notions used to state the properties of `Init`. -/

/-- The frame layout as C21 states it: the parameters have the lowest slots, in the order of
their declaration. -/
def ZAM.paramsLowest (m : ZAM) (params : List ID) : Prop :=
  ∀ (k : Nat) (p : ID), params[k]? = some p → m.frame_layout1.lookup p = some (k : Int)

/-- The locals that the loop of `Init` over `pf->locals` adds to the frame, in order, when
`seen` are the identifiers that have a slot already. -/
def freshLocals : List ID → List ID → List ID
  | _, [] => []
  | seen, l :: ls =>
    if l ∈ seen then freshLocals seen ls else l :: freshLocals (seen ++ [l]) ls

/-- The parameters that `Init` loads: those among the first `nparam` identifiers of the scope
that the body uses. -/
def ZAM.usedParams (m : ZAM) (pi : ProfileInfo) : List ID :=
  (m.args.take m.nparam.toNat).filter pi.HasID

/-- The frame as `AddToFrame` builds it: `frame_size` is the number of denizens, no identifier
occurs twice, the layout maps every denizen to its position, and only denizens have a slot. -/
def ZAM.frameInv (m : ZAM) : Prop :=
  m.frame_size = (m.frame_denizens.length : Int)
  ∧ m.frame_denizens.Nodup
  ∧ (∀ (k : Nat) (id : ID), m.frame_denizens[k]? = some id →
      m.frame_layout1.lookup id = some (k : Int))
  ∧ (∀ id : ID, (m.frame_layout1.lookup id).isSome = true → id ∈ m.frame_denizens)

/-! ## Concrete states -/

/-- The state of a `ZAM` object without instructions, identifiers or jump tables. -/
def ZAM.empty : ZAM :=
  { insts1 := [], pending_inst := ZInst.new ZOp.OP_NOP, insts2 := [],
    int_cases := [], uint_cases := [], double_cases := [], str_cases := [],
    frame_layout1 := [], frame_denizens := [], frame_size := 0, managed_slots := [],
    globals := [], num_globals := 0, modified_globals := [],
    inst_beginnings := fun _ => none, inst_endings := fun _ => none,
    denizen_beginning := fun _ => none, denizen_ending := fun _ => none,
    frame1_to_frame2 := [], shared_frame_denizens := [], shared_frame_denizens_final := [],
    non_recursive := false, fixed_frame := none,
    pending_set := true, func := 0, args := [], nparam := 0, interpreter_locals := [],
    global_id_to_info := [], mark_dirty := -1, top_main_inst := -1,
    breaks := [], nexts := [], fallthroughs := [], catches := [] }

/-- A body of three instructions with two jump tables: a conditional branch to instruction 2,
an unconditional branch to the end, and an instruction with the two targets 0 and 2. -/
def tallyExample : ZAM :=
  { ZAM.empty with
    insts1 :=
      [ { ZInst.new (ZOp.OP_other 1) with target := some (InstRef.inst 2), target_slot := 2 },
        { ZInst.new ZOp.OP_GOTO_V with target := some InstRef.pending, target_slot := 1 },
        { ZInst.new (ZOp.OP_other 2) with
            target := some (InstRef.inst 0), target_slot := 2,
            target2 := some (InstRef.inst 2), target2_slot := 3 } ],
    int_cases := [[(1, InstRef.inst 1), (2, InstRef.inst 2)]],
    str_cases := [[("a", InstRef.pending)]] }

/-- A numbered body of four instructions after optimization: a conditional branch to the dead
instruction 1, the dead instruction, a live instruction, and a conditional branch to the end
of the body. -/
def branchExample : ZAM :=
  { ZAM.empty with
    insts1 :=
      [ { ZInst.new (ZOp.OP_other 1) with
            inst_num := 0, target := some (InstRef.inst 1), target_slot := 2 },
        { ZInst.new (ZOp.OP_other 2) with inst_num := 1, live := false },
        { ZInst.new (ZOp.OP_other 3) with inst_num := 2 },
        { ZInst.new (ZOp.OP_other 1) with
            inst_num := 3, target := some InstRef.pending, target_slot := 2 } ] }

/-- A reading of the `ZInst` member functions by operand layout, for the concrete bodies
below: an instruction of layout `VC`, `VV` or `VVV` assigns its first operand; the slots used
are the second (and third) operand of `VV` (`VVV`) and the operand of `V`; a `VV` instruction
is a direct assignment; `OP_GOTO_V` is the unconditional branch, and it and the return
`OP_other 3` do not continue; no instruction has side effects, stores to or loads from the
interpreter frame. -/
def exampleMethods : ZInstMethods :=
  { AssignsToSlot1 := fun z =>
      decide (z.op_type = ZAMOpType.OP_VC ∨ z.op_type = ZAMOpType.OP_VV
        ∨ z.op_type = ZAMOpType.OP_VVV),
    UsesSlots := fun z =>
      if z.op_type = ZAMOpType.OP_VVV then some (z.v2, z.v3, -1, -1)
      else if z.op_type = ZAMOpType.OP_VV then some (z.v2, -1, -1, -1)
      else if z.op_type = ZAMOpType.OP_V then some (z.v1, -1, -1, -1)
      else none,
    UpdateSlots := fun z f =>
      if z.op_type = ZAMOpType.OP_VVV then
        { z with v2 := remapSlot f z.v2, v3 := remapSlot f z.v3 }
      else if z.op_type = ZAMOpType.OP_VV then { z with v2 := remapSlot f z.v2 }
      else if z.op_type = ZAMOpType.OP_V then { z with v1 := remapSlot f z.v1 }
      else z,
    IsGlobalLoad := fun _ => false,
    IsDirectAssignment := fun z => decide (z.op_type = ZAMOpType.OP_VV),
    DoesNotContinue := fun z => decide (z.op = ZOp.OP_GOTO_V ∨ z.op = ZOp.OP_other 3),
    IsUnconditionalBranch := fun z => decide (z.op = ZOp.OP_GOTO_V),
    HasSideEffects := fun _ => false,
    IsFrameStore := fun _ => false,
    IsLoad := fun _ => false,
    UsesSlot := fun z slot =>
      if z.op_type = ZAMOpType.OP_VVV then decide (z.v2 = slot ∨ z.v3 = slot)
      else if z.op_type = ZAMOpType.OP_VV then decide (z.v2 = slot)
      else if z.op_type = ZAMOpType.OP_V then decide (z.v1 = slot)
      else false }

/-- Collaborators for the concrete bodies below: unmanaged source-level locals, sets iterated
in insertion order. -/
def exampleAnalyses : Analyses :=
  { IsManagedType := fun _ => false, IsTemporary := fun _ => false,
    IsGlobal := fun _ => false, setOrder := fun l => l }

/-- The body `local a = 1; local b = 2; local c = a + b; return c;` with the identifiers
`a = 10`, `b = 11`, `c = 12` in the slots 0, 1, 2. -/
def remapExample : ZAM :=
  { ZAM.empty with
    insts1 :=
      [ { ZInst.new (ZOp.OP_other 1) with inst_num := 0, op_type := ZAMOpType.OP_VC, v1 := 0 },
        { ZInst.new (ZOp.OP_other 1) with inst_num := 1, op_type := ZAMOpType.OP_VC, v1 := 1 },
        { ZInst.new (ZOp.OP_other 2) with
            inst_num := 2, op_type := ZAMOpType.OP_VVV, v1 := 2, v2 := 0, v3 := 1 },
        { ZInst.new (ZOp.OP_other 3) with inst_num := 3, op_type := ZAMOpType.OP_V, v1 := 2 } ],
    frame_layout1 := [(10, 0), (11, 1), (12, 2)],
    frame_denizens := [10, 11, 12],
    frame_size := 3 }

/-- The body `remapExample` with its lifetimes: `a` = [0, 2], `b` = [1, 2], `c` = [2, 3]. -/
def lifetimeExample : ZAM :=
  { remapExample with
    inst_beginnings := fun i =>
      if i = 0 then some [10] else if i = 1 then some [11] else if i = 2 then some [12]
      else none,
    denizen_beginning := fun s =>
      if s = 0 then some 0 else if s = 1 then some 1 else if s = 2 then some 2 else none,
    denizen_ending := fun s =>
      if s = 0 then some 2 else if s = 1 then some 2 else if s = 2 then some 3 else none }

/-- The body `local x: count; return x;`: the one instruction reads slot 0, which no
instruction assigns. -/
def useExample : ZAM :=
  { ZAM.empty with
    insts1 :=
      [ { ZInst.new (ZOp.OP_other 3) with inst_num := 0, op_type := ZAMOpType.OP_V, v1 := 0 } ],
    frame_layout1 := [(10, 0)],
    frame_denizens := [10],
    frame_size := 1 }

/-- Handlers for four instructions, for the concrete runs below: `OP_other 10` assigns the
constant `v2` to `frame[v1]` through `AssignV1T`; `OP_other 11` signals a run-time error, as
`ZAM_run_time_error` does; `OP_other 12` returns `frame[v1]`, moving `pc` to the end and
leaving through `continue`; every other instruction does nothing. -/
def exampleOps : OpsEval := fun m z st =>
  if z.op = ZOp.OP_other 10 then
    (AssignV1T z (fun _ => { bits := z.v2.toNat }) st, false)
  else if z.op = ZOp.OP_other 11 then
    ({ st with ZAM_error := true }, false)
  else if z.op = ZOp.OP_other 12 then
    ({ st with ret_u := some (RetRef.slot z.v1), ret_type := some 0,
               pc := (m.insts2.length : Int) }, true)
  else (st, false)

/-- A compiled body of a recursive function with one managed slot: it assigns the managed
value 7 to slot 0, then 8, and returns slot 0. -/
def execExample : ZAM :=
  { ZAM.empty with
    insts1 :=
      [ { ZInst.new (ZOp.OP_other 10) with inst_num := 0, v1 := 0, v2 := 7, is_managed := true },
        { ZInst.new (ZOp.OP_other 10) with inst_num := 1, v1 := 0, v2 := 8, is_managed := true },
        { ZInst.new (ZOp.OP_other 12) with inst_num := 2, v1 := 0 } ],
    insts2 := [0, 1, 2],
    frame_size := 1,
    managed_slots := [0] }

/-- The body `execExample` for a non-recursive function, before its reusable frame exists. -/
def fixedExample : ZAM :=
  { execExample with non_recursive := true }

/-- A compiled body whose first instruction signals a run-time error; an assignment
follows. -/
def errorExample : ZAM :=
  { ZAM.empty with
    insts1 :=
      [ { ZInst.new (ZOp.OP_other 11) with inst_num := 0 },
        { ZInst.new (ZOp.OP_other 10) with inst_num := 1, v1 := 0, v2 := 7, is_managed := true } ],
    insts2 := [0, 1],
    frame_size := 1,
    managed_slots := [0] }

/-- A body of the function 1 whose two parameters and one shared local need three interpreter
slots. -/
def intrpExampleA : ZAM :=
  { ZAM.empty with
    func := 1, args := [20, 21], nparam := 2, interpreter_locals := [22],
    shared_frame_denizens :=
      [{ ids := [22], id_start := [0], scope_end := 1, is_managed := false }] }

/-- Another body of the function 1, with one parameter and no interpreter locals. -/
def intrpExampleB : ZAM :=
  { ZAM.empty with func := 1, args := [23], nparam := 1 }

/-- A process in which no body has been remapped yet: every identifier has the offset 0 and
every function the frame size 9. -/
def exampleProcess : Process :=
  { remapped_intrp_frame_sizes := [], offset := fun _ => 0, frame_size := fun _ => 9 }

/-- Tables without an assignmentless flavor, for bodies whose instructions have no side
effects. -/
def exampleTables : OpTables :=
  { assignmentless_op := [], assignmentless_op_type := [] }

/-- Identifiers for the generator: the global strings `g` = 30 and `x` = 31, the local
strings `y` = 32 and `n` = 33, the built-in function `to_lower` = 40 and the script function
`f` = 41. -/
def exampleIDs : IDInfo :=
  { IsGlobal := fun id => decide (id = 30 ∨ id = 31 ∨ id = 40 ∨ id = 41),
    AsType := fun _ => false,
    Tag := fun id => if id = 40 ∨ id = 41 then TypeTag.TYPE_other 20 else TypeTag.TYPE_STRING,
    ID_Val := fun id =>
      if id = 40 then some { Name := "to_lower", is_builtin := true, func := 40 }
      else if id = 41 then some { Name := "f", is_builtin := false, func := 41 }
      else none }

/-- The state of the generator after `Init` for a body with the globals `g`, `x` and the
locals `y`, `n`, before any instruction. -/
def genExample : ZAM :=
  { ZAM.empty with
    pending_set := false,
    frame_layout1 := [(30, 0), (31, 1), (32, 2), (33, 3)],
    frame_denizens := [30, 31, 32, 33],
    frame_size := 4,
    globals := [{ id := 30, slot := 0 }, { id := 31, slot := 1 }],
    num_globals := 2,
    global_id_to_info := [(30, 0), (31, 1)] }

/-- Flavors for strings: of the global load, opcode 40, and of the call without arguments,
opcode 41. -/
def exampleFlavors : FlavorMap :=
  [(ZOp.OP_LOAD_GLOBAL_VVC, [(TypeTag.TYPE_STRING, ZOp.OP_other 40)]),
   (ZOp.OP_CALL0_V, [(TypeTag.TYPE_STRING, ZOp.OP_other 41)])]

/-- Lowerings of the other built-ins that decline every call. -/
def exampleBuiltIns : OtherBuiltIns :=
  { BuiltIn_sub_bytes := fun m _ _ => some (m, false),
    BuiltIn_Log__write := fun m _ _ => some (m, false),
    BuiltIn_Broker__flush_logs := fun m _ _ => some (m, false),
    BuiltIn_get_port_etc := fun m _ _ => some (m, false),
    BuiltIn_reading_live_traffic := fun m _ _ => some (m, false),
    BuiltIn_reading_traces := fun m _ _ => some (m, false),
    BuiltIn_strstr := fun m _ _ => some (m, false) }

/-- The expression `lhs = fn(args)` of an assignment of a call to a name. -/
def assignCall (lhs fn : ID) (args : List Expr) : Expr :=
  Expr.assign (Expr.ref (Expr.name lhs)) (Expr.call (Expr.name fn) args)

/-- The compilation of `return c` for a constant `c` in a body without modified globals: the
one instruction of the return, whose opcode `code` stands for the flavor of the constant. -/
def returnConst (code : Nat) : StmtCompile :=
  fun m => some (m.AddInst (ZInst.new (ZOp.OP_other code)))

/-- The state of `genExample` with one more local, the integer `k` = 34 in the slot 4. -/
def switchExample : ZAM :=
  { genExample with
    frame_layout1 := [(30, 0), (31, 1), (32, 2), (33, 3), (34, 4)],
    frame_denizens := [30, 31, 32, 33, 34],
    frame_size := 5 }

/-- The body `lifetimeExample` while `ReMapFrame` is at the instruction 2: `a` and `b` have
their shared slots 0 and 1, both with the scope ending at the instruction 2, and `c` is not
placed yet. -/
def remapVarExample : ZAM :=
  { lifetimeExample with
    shared_frame_denizens :=
      [ { ids := [10], id_start := [0], scope_end := 2, is_managed := false },
        { ids := [11], id_start := [1], scope_end := 2, is_managed := false } ],
    frame1_to_frame2 := [0, 1, -1] }

/-- Collaborators as `exampleAnalyses`, but with the identifier `b` = 11 of a managed type. -/
def managedAnalyses : Analyses :=
  { exampleAnalyses with IsManagedType := fun id => decide (id = 11) }

/-- The reading `exampleMethods` of the `ZInst` member functions, but with the direct
assignment told by its opcode: `OP_other 7` stands for the assignment of a slot to a slot. -/
def directMethods : ZInstMethods :=
  { exampleMethods with IsDirectAssignment := fun z => decide (z.op = ZOp.OP_other 7) }

/-- The body `local a = 1; local b = a; return b;` with the identifiers `a = 10`, `b = 11` in
the slots 0, 1 and with its lifetimes: `a` = [0, 1], `b` = [1, 2]. -/
def selfAssignExample : ZAM :=
  { ZAM.empty with
    insts1 :=
      [ { ZInst.new (ZOp.OP_other 1) with inst_num := 0, op_type := ZAMOpType.OP_VC, v1 := 0 },
        { ZInst.new (ZOp.OP_other 7) with
            inst_num := 1, op_type := ZAMOpType.OP_VV, v1 := 1, v2 := 0 },
        { ZInst.new (ZOp.OP_other 3) with inst_num := 2, op_type := ZAMOpType.OP_V, v1 := 1 } ],
    frame_layout1 := [(10, 0), (11, 1)],
    frame_denizens := [10, 11],
    frame_size := 2,
    inst_beginnings := fun i => if i = 0 then some [10] else if i = 1 then some [11] else none,
    denizen_beginning := fun s => if s = 0 then some 0 else if s = 1 then some 1 else none,
    denizen_ending := fun s => if s = 0 then some 1 else if s = 1 then some 2 else none }

/-- The profile of a function with the global `g` = 30, the parameter `y` = 32 and the local
`n` = 33, all used; maps are iterated in insertion order. -/
def exampleProfile : ProfileInfo :=
  { globals := [30], locals := [32, 33], HasID := fun _ => true, non_recursive := false,
    IsAny := fun _ => false, layoutOrder := fun l => l }

/-- The state in which the constructor calls `Init` for a function with the one parameter
`y` = 32. -/
def initExample : ZAM :=
  { ZAM.empty with pending_set := false, args := [32, 33], nparam := 1 }

/-- The body `switch ( x ) { case 1: break; case 2: break; } return;` as `ValueSwitch`
generates it, numbered: the head, whose default branch goes to the instruction after the
switch, the two `break`s, each an unconditional branch to that instruction, and the return; the
jump table maps the two literals to the two `break`s. -/
def switchBreakExample : ZAM :=
  { ZAM.empty with
    insts1 :=
      [ { ZInst.new ZOp.OP_SWITCHI_VVV with
            inst_num := 0, op_type := ZAMOpType.OP_VVV_I2_I3, v1 := 0, v2 := 0,
            target := some (InstRef.inst 3), target_slot := 3 },
        { ZInst.new ZOp.OP_GOTO_V with
            inst_num := 1, op_type := ZAMOpType.OP_V_I1,
            target := some (InstRef.inst 3), target_slot := 1 },
        { ZInst.new ZOp.OP_GOTO_V with
            inst_num := 2, op_type := ZAMOpType.OP_V_I1,
            target := some (InstRef.inst 3), target_slot := 1 },
        { ZInst.new (ZOp.OP_other 3) with inst_num := 3 } ],
    int_cases := [[(1, InstRef.inst 1), (2, InstRef.inst 2)]],
    frame_layout1 := [(10, 0)],
    frame_denizens := [10],
    frame_size := 1 }

/-- A conditional branch (`OP_other 1`) to a chain of two unconditional branches: `if ( c )
goto A; return; A: goto B; B: goto C; C: return;`, with the label counts of the tally. -/
def chainExample : ZAM :=
  { ZAM.empty with
    insts1 :=
      [ { ZInst.new (ZOp.OP_other 1) with
            inst_num := 0, target := some (InstRef.inst 2), target_slot := 2 },
        { ZInst.new (ZOp.OP_other 3) with inst_num := 1 },
        { ZInst.new ZOp.OP_GOTO_V with
            inst_num := 2, op_type := ZAMOpType.OP_V_I1, num_labels := 1,
            target := some (InstRef.inst 3), target_slot := 1 },
        { ZInst.new ZOp.OP_GOTO_V with
            inst_num := 3, op_type := ZAMOpType.OP_V_I1, num_labels := 1,
            target := some (InstRef.inst 4), target_slot := 1 },
        { ZInst.new (ZOp.OP_other 3) with inst_num := 4, num_labels := 1 } ] }

/-- The body `if ( c ) y = 2; x = 1;` at the end of a function, where no instruction uses `x`
or `y`: a conditional branch (`OP_other 4`) over the first assignment to the second. -/
def condExample : ZAM :=
  { ZAM.empty with
    insts1 :=
      [ { ZInst.new (ZOp.OP_other 4) with
            inst_num := 0, op_type := ZAMOpType.OP_VV_I2, v1 := 0,
            target := some (InstRef.inst 2), target_slot := 2 },
        { ZInst.new (ZOp.OP_other 1) with inst_num := 1, op_type := ZAMOpType.OP_VC, v1 := 1 },
        { ZInst.new (ZOp.OP_other 1) with inst_num := 2, op_type := ZAMOpType.OP_VC, v1 := 2 } ],
    frame_layout1 := [(10, 0), (11, 1), (12, 2)],
    frame_denizens := [10, 11, 12],
    frame_size := 3 }

/-! ## `CompileBody`: instruction numbers and loop depths -/

/-- The loop "Concretize instruction numbers in inst1" of `CompileBody`, from the position
`i` on. -/
def numberFrom : Nat → List ZInst → List ZInst
  | _, [] => []
  | i, z :: rest => { z with inst_num := (i : Int) } :: numberFrom (i + 1) rest

/-- The loop `while ( j < i && insts1[j]->loop_depth == depth ) ++j;` of `CompileBody`, which
looks for the current end of a loop; `fuel` bounds its rounds. -/
def ZAM.skipSameDepth (m : ZAM) (i : Nat) (depth : Int) : Nat → Nat → Nat
  | 0, j => j
  | fuel + 1, j =>
    if j < i ∧ m.depthAt j = depth then ZAM.skipSameDepth m i depth fuel (j + 1) else j

/-- The loop `while ( j <= i ) { ++insts1[j]->loop_depth; ++j; }` of `CompileBody`. -/
def ZAM.bumpDepths (m : ZAM) (j i : Nat) : ZAM :=
  (List.range' j (i + 1 - j)).foldl
    (fun m1 k => m1.modifyInst (InstRef.inst k)
      (fun z => { z with loop_depth := z.loop_depth + 1 })) m

/-- The position from which the round of the loop "Compute which instructions are inside
loops" for a backward branch at the position `i` to the instruction `t` bumps the depths, and
the state in which it does: the start of a newly discovered loop, which is marked, or the
current end of an existing one. -/
def ZAM.loopExtent (m : ZAM) (i k : Nat) (t : ZInst) : ZAM × Nat :=
  if t.loop_start = false then
    (m.modifyInst (InstRef.inst k) (fun z => { z with loop_start := true }), t.inst_num.toNat)
  else
    (m, m.skipSameDepth i t.loop_depth (i - t.inst_num.toNat) t.inst_num.toNat)

/-- One round of the loop "Compute which instructions are inside loops" of `CompileBody`, for
the instruction at the position `i`. -/
def ZAM.loopDepthAt (m : ZAM) (i : Nat) : ZAM :=
  match m.insts1[i]? with
  | none => m
  | some inst =>
    match inst.target with
    | none => m
    | some InstRef.pending => m
    | some (InstRef.inst k) =>
      match m.insts1[k]? with
      | none => m
      | some t =>
        if t.inst_num < (i : Int) then
          (m.loopExtent i k t).1.bumpDepths (m.loopExtent i k t).2 i
        else m

/-- The loops "Concretize instruction numbers" and "Compute which instructions are inside
loops" of `CompileBody`. -/
def ZAM.computeLoopDepths (m : ZAM) : ZAM :=
  (List.range m.insts1.length).foldl ZAM.loopDepthAt
    { m with insts1 := numberFrom 0 m.insts1 }

/-- The state of the loop "Compute which instructions are inside loops" when it reaches the
position `i`. -/
def ZAM.loopDepthsBefore (m : ZAM) (i : Nat) : ZAM :=
  (List.range i).foldl ZAM.loopDepthAt { m with insts1 := numberFrom 0 m.insts1 }

/-- The assertion `ASSERT(insts1[j]->loop_depth == depth - 1)` of the round for the position
`i`, in the state `m` in which the round starts: true when the round does not reach it. -/
def ZAM.loopDepthAssert (m : ZAM) (i : Nat) : Bool :=
  match m.insts1[i]? with
  | none => true
  | some inst =>
    match inst.target with
    | none => true
    | some InstRef.pending => true
    | some (InstRef.inst k) =>
      match m.insts1[k]? with
      | none => true
      | some t =>
        if t.inst_num < (i : Int) ∧ t.loop_start = true then
          decide (m.depthAt (m.loopExtent i k t).2 = t.loop_depth - 1)
        else true

/-! Notions used to state the property of the loop depths. -/

/-- The positions of the backward branches to the instruction at the position `t`. -/
def ZAM.backBranchesTo (m : ZAM) (t : Nat) : List Nat :=
  (List.range m.insts1.length).filter (fun j =>
    decide (t < j) && decide ((m.insts1[j]?).bind ZInst.target = some (InstRef.inst t)))

/-- The instruction at the position `i` is in the loop of `t`: the range from `t`, a target of
a backward branch, to the last backward branch to `t`. -/
def ZAM.inLoopOf (m : ZAM) (t i : Nat) : Bool :=
  match (m.backBranchesTo t).getLast? with
  | some e => decide (t ≤ i ∧ i ≤ e)
  | none => false

/-- The number of the distinct loops that enclose the instruction at the position `i`. -/
def ZAM.loopsEnclosing (m : ZAM) (i : Nat) : Nat :=
  ((List.range m.insts1.length).filter (fun t => m.inLoopOf t i)).length

/-! ## The assertion of the chain-following loop of `CollapseGoTos` -/

/-- The assertion `ASSERT(t->live)` of the loop "Collapse branch-to-branch" of `CollapseGoTos`
for the instruction at the position `i` with the target `t`: `some true` when it holds in
every round, `some false` when it fails in one; `none` as for `collapseChain`, whose rounds
it follows. -/
def ZAM.chainAsserts (m : ZAM) (zm : ZInstMethods) (i : Nat) : Nat → InstRef → Option Bool
  | 0, _ => none
  | fuel + 1, t =>
    match m.deref t with
    | none => none
    | some tz =>
      match tz.target with
      | none => none
      | some t1 =>
        match (m.chainRound i t t1).deref t1 with
        | none => none
        | some tz1 =>
          if zm.IsUnconditionalBranch tz1 then
            (ZAM.chainAsserts (m.chainRound i t t1) zm i fuel t1).map (fun b => tz.live && b)
          else some tz.live

/-- The state of `CollapseGoTos`, with `did_collapse`, when its loop reaches the position
`i`. -/
def ZAM.collapseBefore (m : ZAM) (zm : ZInstMethods) (fuel i : Nat) : Option (ZAM × Bool) :=
  foldPositions (ZAM.collapseAt zm fuel) (List.range i) (m, false)

/-- The assertions of the round of the loop of `CollapseGoTos` for the position `i`, in the
state `m` in which the round starts: `some true` when every `ASSERT(t->live)` holds or none is
reached. -/
def ZAM.collapseAsserts (m : ZAM) (zm : ZInstMethods) (fuel i : Nat) : Option Bool :=
  match m.insts1[i]? with
  | none => some true
  | some i0 =>
    if i0.live = false then some true
    else
      match i0.target with
      | none => some true
      | some t =>
        match m.deref t with
        | none => none
        | some tz =>
          if zm.IsUnconditionalBranch tz then m.chainAsserts zm i fuel t else some true

/-- The target `t` of an instruction, when there is one, is a live instruction. -/
def ZAM.targetLive (m : ZAM) (t : Option InstRef) : Bool :=
  match t with
  | none => true
  | some r =>
    match m.deref r with
    | some tz => tz.live
    | none => false

/-- Every live instruction of `insts1` with a target or a second target targets live
instructions. -/
def ZAM.liveBranchesToLive (m : ZAM) : Bool :=
  m.insts1.all (fun z => !z.live || (m.targetLive z.target && m.targetLive z.target2))

/-! Notions used to state how far `ComputeFrameLifetimes` extends a lifetime. -/

/-- The state of `ComputeFrameLifetimes` when its loop reaches the position `k`. -/
def ZAM.lifetimesBefore (m : ZAM) (zm : ZInstMethods) (an : Analyses) (k : Nat) : ZAM :=
  (List.range k).foldl (fun m1 i => m1.lifetimesAt zm an i) m.clearLifetimes

/-- The end of a lifetime after `ExtendLifetime(slot, inst)` for the instruction at the
position `p` outside every loop: `inst`, unless the lifetime ended at `inst` or later. -/
def ZAM.extendedTo (m : ZAM) (p : Nat) (old : Option Nat) : Option Nat :=
  match old with
  | some e => if m.numAt e < m.numAt p then some p else some e
  | none => some p

/-- The lifetimes of `m` are those of `m0`, or longer: the code is the same, a slot keeps the
beginning it has, and a slot with an end has one that is not earlier. -/
def ZAM.lifetimesExtend (m0 m : ZAM) : Prop :=
  m0.sameCode m
  ∧ (∀ s b, m0.denizen_beginning s = some b → m.denizen_beginning s = some b)
  ∧ ∀ s e, m0.denizen_ending s = some e →
      ∃ e1, m.denizen_ending s = some e1 ∧ m0.numAt e ≤ m0.numAt e1

/-- The position of the last live instruction of `insts1`, 0 when there is none. -/
def ZAM.lastLive (m : ZAM) : Nat :=
  ((List.range m.insts1.length).filter (fun i => m.liveAt i)).getLast?.getD 0

/-- The lifetimes of modified globals as C35 states them: for every live `SYNC_GLOBALS`
instruction outside every loop, the lifetime of each modified global that has been loaded when
the loop of `ComputeFrameLifetimes` reaches the instruction ends, after
`ComputeFrameLifetimes`, at the last live instruction. -/
def ZAM.syncExtendsToEnd (m : ZAM) (zm : ZInstMethods) (an : Analyses) : Prop :=
  ∀ (i : Nat) (inst : ZInst) (g : ID), m.insts1[i]? = some inst → inst.live = true →
    inst.op = ZOp.OP_SYNC_GLOBALS_X → inst.loop_depth = 0 → g ∈ an.setOrder m.modified_globals →
    ((m.lifetimesBefore zm an i).denizen_beginning (m.layoutSlot g)).isSome = true →
    (m.ComputeFrameLifetimes zm an).denizen_ending (m.layoutSlot g) = some m.lastLive

/-! Notions used to state the property of the code that is left at the exit of the
optimisation loop. -/

/-- The position of the closest live instruction before the position `i`, if there is one. -/
def ZAM.prevLive (m : ZAM) (i : Nat) : Option Nat :=
  ((List.range i).reverse).find? (fun j => m.liveAt j)

/-- The instruction at the position `i` is unreachable straight-line code as C38 states it:
it is live, it has `num_labels = 0`, and its closest preceding live instruction does not
continue and does not target it. -/
def ZAM.unreachableAt (m : ZAM) (zm : ZInstMethods) (i : Nat) : Bool :=
  match m.insts1[i]?, (m.prevLive i).bind (fun j => m.insts1[j]?) with
  | some i1, some i0 =>
    i1.live && decide (i1.num_labels = 0) && zm.DoesNotContinue i0
      && decide (i0.target ≠ some (InstRef.inst i))
  | _, _ => false

/-! Notions used to state the properties of the offsets that `ReMapInterpreterFrame` sets. -/

/-- The parameters of the body: the arguments that the loop "track function parameters" of
`ReMapInterpreterFrame` visits, the first `nparam` of `args`. -/
def ZAM.params (m : ZAM) : List ID := m.args.take m.nparam.toNat

/-- The slot `c` is the slot of the cohort in a state of the second loop over the identifiers
of a shared slot: either `cohort_slot` is still negative and `c` is the slot that the loop
would allocate, or `cohort_slot` is `c`, a slot in use. -/
def cohortHas (s : Int × IntrpLocals × (ID → Int)) (c : Int) : Prop :=
  (s.1 < 0 ∧ c = s.2.1.next_interp_slot) ∨ (s.1 = c ∧ 0 ≤ c ∧ c < s.2.1.next_interp_slot)

/-- The invariant of the loop of `ReMapInterpreterFrame` over `shared_frame_denizens`, when it
has visited the shared slots `done`: the identifiers with an interpreter slot have it as their
offset, and they are parameters or identifiers of `done`; the k-th parameter has the slot `k`;
the identifiers of a visited shared slot that are interpreter locals or parameters have one
slot, at or after the number of parameters when none of them is a parameter; and the slot of
a visited shared slot without a parameter is the slot of no other. -/
def intrpInv (params locals : List ID) (done : List FrameSharingInfo)
    (s : IntrpLocals × (ID → Int)) : Prop :=
  (∀ (id : ID) (v : Int), s.1.interpreter_slots.lookup id = some v →
      s.2 id = v ∧ 0 ≤ v ∧ v < s.1.next_interp_slot)
  ∧ (∀ id : ID, (s.1.interpreter_slots.lookup id).isSome = true →
      id ∈ params ∨ ∃ sf ∈ done, id ∈ sf.ids)
  ∧ (∀ (k : Nat) (a : ID), params[k]? = some a →
      s.1.interpreter_slots.lookup a = some (k : Int))
  ∧ (params.length : Int) ≤ s.1.next_interp_slot
  ∧ (∀ sf ∈ done, ∃ c : Int,
      (∀ id ∈ sf.ids, id ∈ locals ∨ id ∈ params → s.1.interpreter_slots.lookup id = some c)
      ∧ ((∀ a ∈ sf.ids, a ∉ params) → (params.length : Int) ≤ c))
  ∧ (∀ (j1 j2 : Nat) (sf1 sf2 : FrameSharingInfo), j1 < j2 → done[j1]? = some sf1 →
      done[j2]? = some sf2 → ((∀ a ∈ sf1.ids, a ∉ params) ∨ (∀ a ∈ sf2.ids, a ∉ params)) →
      ∀ id1 ∈ sf1.ids, ∀ id2 ∈ sf2.ids, id1 ∈ locals → id2 ∈ locals →
        s.1.interpreter_slots.lookup id1 ≠ s.1.interpreter_slots.lookup id2)

/-! ### Loops: `FinishLoop` -/

/-- The member function `StartingBlock`. -/
def ZAM.StartingBlock (m : ZAM) : CompiledStmt :=
  { stmt_num := (m.insts1.length : Int) }

/-- The member function `GoToTarget(s)`: the instruction of the statement `s`; `none` when `s`
is not an instruction of `insts1`. -/
def ZAM.GoToTarget (m : ZAM) (s : CompiledStmt) : Option InstRef :=
  if 0 ≤ s.stmt_num ∧ s.stmt_num < (m.insts1.length : Int) then
    some (InstRef.inst s.stmt_num.toNat)
  else none

/-- The member function `GoTo(l)`. -/
def ZAM.GoTo (m : ZAM) (l : InstRef) : ZAM × CompiledStmt :=
  m.AddInst { ZInst.mkV ZOp.OP_GOTO_V 0 with
              target := some l, target_slot := 1, op_type := ZAMOpType.OP_V_I1 }

/-- The member function `SetV2(s, l)`; `none` when `s` is not an instruction of `insts1`. -/
def ZAM.SetV2 (m : ZAM) (s : CompiledStmt) (l : InstRef) : Option ZAM :=
  if s.stmt_num < 0 then none
  else
    match m.insts1[s.stmt_num.toNat]? with
    | none => none
    | some inst =>
      let inst1 := SetTarget inst l 2
      let inst2 : ZInst :=
        if inst1.op_type = ZAMOpType.OP_VV then { inst1 with op_type := ZAMOpType.OP_VV_I2 }
        else if inst1.op_type = ZAMOpType.OP_VVC then
          { inst1 with op_type := ZAMOpType.OP_VVC_I2 }
        else inst1
      some { m with insts1 := m.insts1.set s.stmt_num.toNat inst2 }

/-- The function `PushNexts()` of the absent `ZAM.h`: `PushGoTos(nexts)`. -/
def ZAM.PushNexts (m : ZAM) : ZAM :=
  { m with nexts := m.nexts ++ [[]] }

/-- The function `ResolveNexts(l)` of the absent `ZAM.h`: `ResolveGoTos(nexts, l)`; `none`
when the stack is empty. -/
def ZAM.ResolveNexts (m : ZAM) (l : InstRef) : Option ZAM :=
  match m.nexts.getLast? with
  | none => none
  | some g =>
    match m.resolveSet l g with
    | none => none
    | some m1 => some { m1 with nexts := m1.nexts.dropLast }

/-- The member function `FinishLoop(iter_head, iter_stmt, body, info_slot)`, `body` being the
compilation of the loop body. -/
def ZAM.FinishLoop (m : ZAM) (iter_head : CompiledStmt) (iter_stmt : ZInst)
    (body : StmtCompile) (info_slot : Int) : Option (ZAM × CompiledStmt) :=
  let r1 := m.AddInst iter_stmt
  let loop_iter := r1.2
  match body r1.1 with
  | none => none
  | some r2 =>
    match r2.1.GoToTarget iter_head with
    | none => none
    | some head =>
      let r3 := r2.1.GoTo head
      let r4 := r3.1.AddInst (ZInst.mkV ZOp.OP_END_LOOP_V info_slot)
      let final_stmt := r4.2
      match r4.1.GoToTarget final_stmt with
      | none => none
      | some fin =>
        match (if iter_stmt.op_type = ZAMOpType.OP_VVV_I3 then r4.1.SetV3 loop_iter fin
               else r4.1.SetV2 loop_iter fin) with
        | none => none
        | some m5 =>
          match m5.GoToTarget iter_head with
          | none => none
          | some head1 =>
            match m5.ResolveNexts head1 with
            | none => none
            | some m6 =>
              match m6.GoToTarget final_stmt with
              | none => none
              | some fin1 =>
                match m6.ResolveBreaks fin1 with
                | none => none
                | some m7 => some (m7, final_stmt)

/-! Notions used to state the property of the lowering of a loop. -/

/-- What the properties of the lowering of a loop assume of the compilation of the loop body,
which calls back into the generator from the host: run in a state inside a loop, which has
pushed a set of nexts and a set of breaks, with no marker of a dirty global pending, it
appends `k` instructions to `insts1`; it leaves the stacks of nexts and breaks as they are but
for branches among the instructions it has appended, which it may add to the sets on top; and
it leaves no marker pending. -/
def loopBodyContract (c : StmtCompile) (k : Nat) : Prop :=
  ∀ (m : ZAM) (r : ZAM × CompiledStmt) (N B : List (List Int)) (n0 b0 : List Int),
    m.mark_dirty < 0 → m.nexts = N ++ [n0] → m.breaks = B ++ [b0] → c m = some r →
    ∃ (added : List ZInst) (nx bs : List Int),
      added.length = k ∧ r.1.insts1 = m.insts1 ++ added
      ∧ r.1.nexts = N ++ [n0 ++ nx]
      ∧ r.1.breaks = B ++ [b0 ++ bs]
      ∧ (∀ g ∈ nx ++ bs, (m.insts1.length : Int) ≤ g ∧ g < (r.1.insts1.length : Int))
      ∧ r.1.mark_dirty < 0

/-- The target of the exit branch of the iteration instruction at the position `p`, the
instruction that `FinishLoop` adds first. -/
def ZAM.exitTarget (m : ZAM) (p : Nat) : Option InstRef :=
  (m.insts1[p]?).bind ZInst.target

/-- The position of the first `END_LOOP` instruction after the position `p`, if any. -/
def ZAM.endLoopAfter (m : ZAM) (p : Nat) : Option Nat :=
  ((List.range m.insts1.length).filter (fun j => decide (p < j)
    && decide ((m.insts1[j]?).map ZInst.op = some ZOp.OP_END_LOOP_V))).head?

/-! Notions used to state the properties of the jump table of a value switch. -/

/-- The instruction assigns the slot `s` in the eyes of `ComputeFrameLifetimes`, which calls
`CheckSlotAssignment` for it: `s` is the first operand and `AssignsToSlot1` holds, or the
instruction is a table iteration and `s` is one of its loop variables. -/
def ZInstMethods.assignsSlot (zm : ZInstMethods) (inst : ZInst) (s : Int) : Prop :=
  (zm.AssignsToSlot1 inst = true ∧ inst.v1 = s) ∨ (inst.op.isTableIter ∧ s ∈ inst.loop_vars)

/-- The instruction at which `CheckSlotAssignment(slot, inst)` lets the lifetime of the slot
begin, `inst` being the instruction at the position `p`: the instruction itself for a
temporary, and `BeginningOfLoop(inst, 1)`, the beginning of the outermost loop around it, for
another denizen. -/
def ZAM.lifetimeStart (m : ZAM) (an : Analyses) (slot : Int) (p : Nat) : Nat :=
  if an.IsTemporary (m.denizen slot) = false then m.BeginningOfLoop p 1 else p

/-- Some live instruction assigns the slot `s`, and the lifetime that `CheckSlotAssignment`
begins for that assignment begins at or before the position `i`.  In a numbered instruction
list an assignment at or before `i` is such a one. -/
def ZAM.assignedBy (m : ZAM) (zm : ZInstMethods) (an : Analyses) (s : Int) (i : Nat) : Prop :=
  ∃ (i0 : Nat) (a : ZInst), m.insts1[i0]? = some a ∧ a.live = true
    ∧ zm.assignsSlot a s ∧ m.lifetimeStart an s i0 ≤ i

/-- The instruction `r` at the position `i1` uses the slot `s` in the eyes of
`ComputeFrameLifetimes`, which extends the lifetime of the slot for it.  Either `UsesSlots`
reports the slot, for an instruction other than one that starts a loop over an aggregate; or
the instruction starts a loop over an aggregate, the slot is its second operand, the aggregate,
and the next instruction is there and live, as the code asserts; or the instruction is a
table iteration and the slot is one of its loop variables, or its first operand when it is
`OP_NEXT_TABLE_ITER_VAL_VAR_VVV`; or the instruction is of none of the special-cased kinds and
the slot is one of those of its auxiliary information; or the instruction is
`OP_SYNC_GLOBALS_X`, the slot is that of a modified global, and a live instruction at or before
`i1` assigns it. -/
def ZAM.usedAt (m : ZAM) (zm : ZInstMethods) (s : Int) (i1 : Nat) (r : ZInst) : Prop :=
  (¬ r.op.isInitLoop ∧ s ∈ zm.usedSlots r ∧ 0 ≤ s)
  ∨ (r.op.isInitLoop ∧ r.v2 = s ∧ ∃ succ, m.insts1[i1 + 1]? = some succ ∧ succ.live = true)
  ∨ (r.op.isTableIter
      ∧ (s ∈ r.loop_vars ∨ (r.op = ZOp.OP_NEXT_TABLE_ITER_VAL_VAR_VVV ∧ r.v1 = s)))
  ∨ (¬ r.op.isTableIter ∧ r.op ≠ ZOp.OP_SYNC_GLOBALS_X ∧ ¬ r.op.isInitLoop
      ∧ ∃ slots, r.aux = some slots ∧ s ∈ slots ∧ 0 ≤ s)
  ∨ (r.op = ZOp.OP_SYNC_GLOBALS_X ∧ (∃ g ∈ m.modified_globals, m.layoutSlot g = s)
      ∧ ∃ (i0 : Nat) (a : ZInst), i0 ≤ i1 ∧ m.insts1[i0]? = some a ∧ a.live = true
          ∧ zm.assignsSlot a s)

/-- Some live instruction uses the slot `s` in the eyes of `ComputeFrameLifetimes`. -/
def ZAM.usedSomewhere (m : ZAM) (zm : ZInstMethods) (s : Int) : Prop :=
  ∃ (i1 : Nat) (r : ZInst), m.insts1[i1]? = some r ∧ r.live = true ∧ m.usedAt zm s i1 r

/-- The beginnings of the lifetimes of `m` are those of `m0` and beginnings that
`CheckSlotAssignment` sets for the instruction at the position `p`. -/
def ZAM.beginsVia (m0 m : ZAM) (an : Analyses) (p : Nat) : Prop :=
  ∀ s b, m.denizen_beginning s = some b →
    m0.denizen_beginning s = some b ∨ b = m0.lifetimeStart an s p

/-! ## More concrete bodies -/

/-- The state of `switchExample` with one more local, the integer `j` = 35 in the slot 5. -/
def nestedSwitchState : ZAM :=
  { switchExample with
    frame_layout1 := [(30, 0), (31, 1), (32, 2), (33, 3), (34, 4), (35, 5)],
    frame_denizens := [30, 31, 32, 33, 34, 35],
    frame_size := 6 }

/-- The statement `switch j { case 5: return "a"; default: return "b"; }`. -/
def innerSwitch : SwitchStmt :=
  { Cases := [returnConst 51, returnConst 52],
    DefaultCaseIndex := 1,
    ValueMap := [([CaseVal.int 5], 0)] }

/-- The statement `switch k { case 1: switch j { case 5: return "a"; default: return "b"; }
default: return "z"; }`: the body of the first case is a switch over an integer, as the outer
switch is. -/
def outerSwitch : SwitchStmt :=
  { Cases :=
      [ fun m => m.Switch exampleIDs exampleFlavors innerSwitch (some 35) none
          InternalTypeTag.TYPE_INTERNAL_INT,
        returnConst 53 ],
    DefaultCaseIndex := 1,
    ValueMap := [([CaseVal.int 1], 0)] }

/-- A body after `ReMapFrame` in which the locals `a` = 10 and `b` = 11 share the one
post-optimization slot, and the local `w` = 12 is in no shared slot; all three are among the
locals stored to the interpreter frame. -/
def intrpOnlyExample : ZAM :=
  { ZAM.empty with
    func := 7,
    interpreter_locals := [10, 11, 12],
    shared_frame_denizens :=
      [ { ids := [10, 11], id_start := [0, 2], scope_end := 3, is_managed := false } ] }

/-- A process in which the locals `a` = 10, `b` = 11 and `w` = 12 have the offsets 0, 1 and 2 in
the interpreter frame, and no body has been remapped yet. -/
def intrpOnlyProcess : Process :=
  { remapped_intrp_frame_sizes := [],
    offset := fun id => if id = 10 then 0 else if id = 11 then 1 else if id = 12 then 2 else 0,
    frame_size := fun _ => 3 }

/-- A loop whose first instruction is an unconditional branch to the instruction after it:
`L: goto M; M: x; if ( c ) goto L; return;`, with the label counts of the tally. -/
def backBranchExample : ZAM :=
  { ZAM.empty with
    insts1 :=
      [ { ZInst.new ZOp.OP_GOTO_V with
            inst_num := 0, op_type := ZAMOpType.OP_V_I1, num_labels := 1,
            target := some (InstRef.inst 1), target_slot := 1 },
        { ZInst.new (ZOp.OP_other 2) with inst_num := 1, num_labels := 1 },
        { ZInst.new (ZOp.OP_other 4) with
            inst_num := 2, op_type := ZAMOpType.OP_VV_I2,
            target := some (InstRef.inst 0), target_slot := 2 },
        { ZInst.new (ZOp.OP_other 3) with inst_num := 3 } ] }

/-- The body `for ( k in t ) { for ( j in u ) { } if ( c ) next; foo(); }` as `FinishLoop`
lowers its two loops, before the instructions are numbered: each loop is an
`INIT_TABLE_LOOP`, the `NEXT` instruction with its exit branch, the body, the `goto` back to
the `NEXT` instruction and `END_LOOP`; the `next` statement is a `goto` to the `NEXT`
instruction of the outer loop, behind a conditional branch (`OP_other 4`). -/
def nestedLoopExample : ZAM :=
  { ZAM.empty with
    insts1 :=
      [ { ZInst.new ZOp.OP_INIT_TABLE_LOOP_VVC with op_type := ZAMOpType.OP_VVc },
        { ZInst.new ZOp.OP_NEXT_TABLE_ITER_VV with
            op_type := ZAMOpType.OP_VV_I2, target := some (InstRef.inst 10), target_slot := 2 },
        { ZInst.new ZOp.OP_INIT_TABLE_LOOP_VVC with op_type := ZAMOpType.OP_VVc },
        { ZInst.new ZOp.OP_NEXT_TABLE_ITER_VV with
            op_type := ZAMOpType.OP_VV_I2, target := some (InstRef.inst 5), target_slot := 2 },
        { ZInst.new ZOp.OP_GOTO_V with
            op_type := ZAMOpType.OP_V_I1, target := some (InstRef.inst 3), target_slot := 1 },
        { ZInst.new ZOp.OP_END_LOOP_V with op_type := ZAMOpType.OP_V },
        { ZInst.new (ZOp.OP_other 4) with
            op_type := ZAMOpType.OP_VV_I2, target := some (InstRef.inst 8), target_slot := 2 },
        { ZInst.new ZOp.OP_GOTO_V with
            op_type := ZAMOpType.OP_V_I1, target := some (InstRef.inst 1), target_slot := 1 },
        { ZInst.new (ZOp.OP_other 2) with op_type := ZAMOpType.OP_X },
        { ZInst.new ZOp.OP_GOTO_V with
            op_type := ZAMOpType.OP_V_I1, target := some (InstRef.inst 1), target_slot := 1 },
        { ZInst.new ZOp.OP_END_LOOP_V with op_type := ZAMOpType.OP_V } ] }

/-- The body `g = 1; f(); local x = 2; return x;` with the global `g` = 30 in the slot 0 and
the local `x` = 10 in the slot 1: the assignment to `g`, the `SYNC_GLOBALS` before the call
(the call itself left out), the assignment to `x` and the return.  No instruction is in a
loop. -/
def syncExample : ZAM :=
  { ZAM.empty with
    insts1 :=
      [ { ZInst.new (ZOp.OP_other 1) with inst_num := 0, op_type := ZAMOpType.OP_VC, v1 := 0 },
        { ZInst.new ZOp.OP_SYNC_GLOBALS_X with inst_num := 1 },
        { ZInst.new (ZOp.OP_other 1) with inst_num := 2, op_type := ZAMOpType.OP_VC, v1 := 1 },
        { ZInst.new (ZOp.OP_other 3) with inst_num := 3, op_type := ZAMOpType.OP_V, v1 := 1 } ],
    frame_layout1 := [(30, 0), (10, 1)],
    frame_denizens := [30, 10],
    frame_size := 2,
    modified_globals := [30] }

/-- The body `for ( k in t ) { print k; } return;` with the table `t` = 10 in the slot 0, the
loop variable `k` = 11 in the slot 1 and the iteration information in the slot 2 (`info` = 12),
numbered and with its loop depths: the assignment of the table, `INIT_TABLE_LOOP`, the `NEXT`
instruction with its exit branch, the use of `k`, the `goto` back, `END_LOOP` and the
return. -/
def tableLoopExample : ZAM :=
  { ZAM.empty with
    insts1 :=
      [ { ZInst.new (ZOp.OP_other 1) with inst_num := 0, op_type := ZAMOpType.OP_VC, v1 := 0 },
        { ZInst.new ZOp.OP_INIT_TABLE_LOOP_VVC with
            inst_num := 1, op_type := ZAMOpType.OP_VVc, v1 := 2, v2 := 0 },
        { ZInst.new ZOp.OP_NEXT_TABLE_ITER_VV with
            inst_num := 2, op_type := ZAMOpType.OP_VV_I2, v1 := 2, loop_vars := [1],
            loop_depth := 1, loop_start := true,
            target := some (InstRef.inst 5), target_slot := 2 },
        { ZInst.new (ZOp.OP_other 5) with
            inst_num := 3, op_type := ZAMOpType.OP_V, v1 := 1, loop_depth := 1 },
        { ZInst.new ZOp.OP_GOTO_V with
            inst_num := 4, op_type := ZAMOpType.OP_V_I1, loop_depth := 1,
            target := some (InstRef.inst 2), target_slot := 1 },
        { ZInst.new ZOp.OP_END_LOOP_V with inst_num := 5, op_type := ZAMOpType.OP_V, v1 := 2 },
        { ZInst.new (ZOp.OP_other 3) with inst_num := 6 } ],
    frame_layout1 := [(10, 0), (11, 1), (12, 2)],
    frame_denizens := [10, 11, 12],
    frame_size := 3 }

/-- A body with the parameter `x` = 20 and the locals `a` = 10, `b` = 11, `c` = 12, of which
`a`, `b` and `c` are interpreter locals; `x` and `a` share a post-optimization slot, and so do
`b` and `c`. -/
def cohortExample : ZAM :=
  { ZAM.empty with
    func := 7,
    args := [20, 10, 11, 12],
    nparam := 1,
    interpreter_locals := [10, 11, 12],
    shared_frame_denizens :=
      [ { ids := [20, 10], id_start := [0, 2], scope_end := 3, is_managed := false },
        { ids := [11, 12], id_start := [1, 3], scope_end := 4, is_managed := false } ] }

/-- The process in which `ReMapInterpreterFrame` runs for `cohortExample`: the identifiers have
the offsets 0 to 3 of the interpreter frame, in the order of the scope. -/
def cohortProcess : Process :=
  { remapped_intrp_frame_sizes := [],
    offset := fun id => if id = 20 then 0 else if id = 10 then 1 else if id = 11 then 2
      else if id = 12 then 3 else 0,
    frame_size := fun _ => 4 }

/-- The body `local x = 1; return x; print x; print x;` with the local `x` = 10 in the slot 0:
two instructions follow the return. -/
def deadTailExample : ZAM :=
  { ZAM.empty with
    insts1 :=
      [ { ZInst.new (ZOp.OP_other 1) with inst_num := 0, op_type := ZAMOpType.OP_VC, v1 := 0 },
        { ZInst.new (ZOp.OP_other 3) with inst_num := 1, op_type := ZAMOpType.OP_V, v1 := 0 },
        { ZInst.new (ZOp.OP_other 5) with inst_num := 2, op_type := ZAMOpType.OP_V, v1 := 0 },
        { ZInst.new (ZOp.OP_other 5) with inst_num := 3, op_type := ZAMOpType.OP_V, v1 := 0 } ],
    frame_layout1 := [(10, 0)],
    frame_denizens := [10],
    frame_size := 1 }

/-- The compilation of a statement that is lowered to one instruction without a branch, whose
opcode `code` stands for the statement, in a body without modified globals. -/
def simpleStmt (code : Nat) : StmtCompile :=
  fun m => some (m.AddInst (ZInst.mkV (ZOp.OP_other code) 2))

/-- The state in which `LoopOverTable` calls `FinishLoop` for `for ( y in n ) print y;`, the
local `y` in the slot 2, the table `n` in the slot 3 and the iteration information in the
slot 4: `For` has pushed a set of nexts and a set of breaks, and `INIT_TABLE_LOOP` is the one
instruction so far. -/
def loopExample : ZAM :=
  (genExample.PushNexts.PushBreaks.AddInst
    { ZInst.mkVV ZOp.OP_INIT_TABLE_LOOP_VVC 4 3 with
      op_type := ZAMOpType.OP_VVc, loop_vars := [2] }).1

/-- The iteration instruction that `LoopOverTable` hands to `FinishLoop` for `loopExample`. -/
def iterExample : ZInst :=
  { ZInst.mkVV ZOp.OP_NEXT_TABLE_ITER_VV 4 0 with
    op_type := ZAMOpType.OP_VV_I2, loop_vars := [2] }

/-! ## A second run of the optimizer -/

/-- Where a pointer to an instruction points once the instructions of `insts2` are the
instruction list: to the position in `insts2` of the first live instruction at or after the
one it points to, and beyond the end when there is none. -/
def ZAM.optimizedRef (m : ZAM) : InstRef → InstRef
  | InstRef.pending => InstRef.pending
  | InstRef.inst q => InstRef.inst (m.insts2.indexOf (skipDead m.insts1 q))

/-- The body on which C13 lets the optimizer run a second time, given the state `m` that a
first run of the optimizer and the concretization has left: a body in the state in which
`CompileBody` calls the optimizer, whose instruction list is the optimized one.  `insts1`
holds the instructions of `insts2`, in order, numbered by their positions there, live, with
the operands that the first run has left and without labels tallied; the branch targets and
the entries of the jump tables point to the same instructions as before, at their new
positions; the pending instruction is live and without labels; the frame is the remapped
frame, each shared slot being the slot of the first identifier placed in it; and `insts2`,
the remapping of the frame and the lifetimes are empty, as they are before a first run. -/
def ZAM.optimizedBody (m : ZAM) : ZAM :=
  { m with
    insts1 := m.insts2.filterMap (fun p => (m.insts1[p]?).map (fun z =>
      { z with num_labels := 0, target := z.target.map m.optimizedRef,
               target2 := z.target2.map m.optimizedRef })),
    pending_inst := { m.pending_inst with live := true, num_labels := 0 },
    insts2 := [],
    int_cases := m.int_cases.map (fun tb => tb.map (fun e => (e.1, m.optimizedRef e.2))),
    uint_cases := m.uint_cases.map (fun tb => tb.map (fun e => (e.1, m.optimizedRef e.2))),
    double_cases := m.double_cases.map (fun tb => tb.map (fun e => (e.1, m.optimizedRef e.2))),
    str_cases := m.str_cases.map (fun tb => tb.map (fun e => (e.1, m.optimizedRef e.2))),
    frame_denizens := m.shared_frame_denizens.map (fun sh => sh.ids.headD 0),
    frame_layout1 := (m.shared_frame_denizens.map (fun sh => sh.ids.headD 0)).enum.map
      (fun e => (e.2, (e.1 : Int))),
    managed_slots := [],
    inst_beginnings := fun _ => none, inst_endings := fun _ => none,
    denizen_beginning := fun _ => none, denizen_ending := fun _ => none,
    frame1_to_frame2 := [], shared_frame_denizens := [], shared_frame_denizens_final := [] }

/-- What an instruction does once the branches are concrete: its opcode and its operands,
among them the positions in `insts2` of the branch targets. -/
def ZInst.operands (z : ZInst) : ZOp × Int × Int × Int × Int :=
  (z.op, z.v1, z.v2, z.v3, z.v4)

/-- The instructions of `insts2`, in order, each as what it does. -/
def ZAM.program2 (m : ZAM) : List (Option (ZOp × Int × Int × Int × Int)) :=
  m.insts2.map (fun p => (m.insts1[p]?).map ZInst.operands)

/-- What `insts2` holds after a first run of the optimizer and the concretization on the body
`m`, and after a second run on the optimized body. -/
def ZAM.rerunCode (m : ZAM) (zm : ZInstMethods) (an : Analyses) (tb : OpTables)
    (fuel : Nat) (p : Process) :
    Option (List (Option (ZOp × Int × Int × Int × Int))
      × List (Option (ZOp × Int × Int × Int × Int))) :=
  match m.optimizeAndAssemble zm an tb false fuel p with
  | none => none
  | some r1 =>
    match r1.1.optimizedBody.optimizeAndAssemble zm an tb false fuel r1.2 with
    | none => none
    | some r2 => some (r1.1.program2, r2.1.program2)

/-- The reading `exampleMethods` of the `ZInst` member functions, extended to the head of a
switch (operand layout `VVV_I2_I3`), which reads its first operand. -/
def switchMethods : ZInstMethods :=
  { exampleMethods with
    UsesSlots := fun z =>
      if z.op_type = ZAMOpType.OP_VVV_I2_I3 then some (z.v1, -1, -1, -1)
      else exampleMethods.UsesSlots z,
    UpdateSlots := fun z f =>
      if z.op_type = ZAMOpType.OP_VVV_I2_I3 then { z with v1 := remapSlot f z.v1 }
      else exampleMethods.UpdateSlots z f,
    UsesSlot := fun z slot =>
      if z.op_type = ZAMOpType.OP_VVV_I2_I3 then decide (z.v1 = slot)
      else exampleMethods.UsesSlot z slot }

/-- The body `local y = 1; local x = 2; switch ( x ) { case 1: break; case 2: break; }
return y;` with `x` = 10 in the slot 0 and `y` = 11 in the slot 1, as `ValueSwitch` generates
the switch, numbered: the two assignments, the head, whose default branch goes to the
instruction after the switch, the two `break`s, each an unconditional branch to that
instruction, and the return; the jump table maps the two literals to the two `break`s. -/
def assignSwitchExample : ZAM :=
  { ZAM.empty with
    insts1 :=
      [ { ZInst.new (ZOp.OP_other 1) with inst_num := 0, op_type := ZAMOpType.OP_VC, v1 := 1 },
        { ZInst.new (ZOp.OP_other 1) with inst_num := 1, op_type := ZAMOpType.OP_VC, v1 := 0 },
        { ZInst.new ZOp.OP_SWITCHI_VVV with
            inst_num := 2, op_type := ZAMOpType.OP_VVV_I2_I3, v1 := 0, v2 := 0,
            target := some (InstRef.inst 5), target_slot := 3 },
        { ZInst.new ZOp.OP_GOTO_V with
            inst_num := 3, op_type := ZAMOpType.OP_V_I1,
            target := some (InstRef.inst 5), target_slot := 1 },
        { ZInst.new ZOp.OP_GOTO_V with
            inst_num := 4, op_type := ZAMOpType.OP_V_I1,
            target := some (InstRef.inst 5), target_slot := 1 },
        { ZInst.new (ZOp.OP_other 3) with inst_num := 5, op_type := ZAMOpType.OP_V, v1 := 1 } ],
    int_cases := [[(1, InstRef.inst 3), (2, InstRef.inst 4)]],
    frame_layout1 := [(10, 0), (11, 1)],
    frame_denizens := [10, 11],
    frame_size := 2 }

/-! # Theorems -/

theorem bumpLabel_validRef (m : ZAM) (r r1 : InstRef) :
    (m.bumpLabel r).validRef r1 ↔ m.validRef r1 := by
  cases r <;> cases r1 <;> simp [ZAM.bumpLabel, ZAM.modifyInst, ZAM.validRef]

theorem mem_modify_bump {l : List ZInst} {i : Nat} {z : ZInst}
    (h : z ∈ l.modify (fun z => { z with num_labels := z.num_labels + 1 }) i) :
    ∃ z0 ∈ l, z.live = z0.live := by
  induction l generalizing i with
  | nil => simp at h
  | cons a t ih =>
    cases i with
    | zero =>
      simp only [List.modify_zero_cons, List.mem_cons] at h
      rcases h with h | h
      · exact ⟨a, by simp, by simp [h]⟩
      · exact ⟨z, by simp [h], rfl⟩
    | succ i =>
      simp only [List.modify_succ_cons, List.mem_cons] at h
      rcases h with h | h
      · exact ⟨a, by simp, by simp [h]⟩
      · obtain ⟨z0, hz0, e⟩ := ih h
        exact ⟨z0, by simp [hz0], e⟩

theorem bumpLabel_allLive (m : ZAM) (r : InstRef) (h : m.allLive) : (m.bumpLabel r).allLive := by
  cases r with
  | inst i =>
    refine ⟨?_, h.2⟩
    intro z hz
    obtain ⟨z0, hz0, e⟩ := mem_modify_bump hz
    rw [e]; exact h.1 z0 hz0
  | pending => exact ⟨h.1, h.2⟩

theorem bumpLabel_cases (m : ZAM) (r : InstRef) :
    (m.bumpLabel r).int_cases = m.int_cases ∧ (m.bumpLabel r).uint_cases = m.uint_cases
    ∧ (m.bumpLabel r).double_cases = m.double_cases ∧ (m.bumpLabel r).str_cases = m.str_cases := by
  cases r <;> simp [ZAM.bumpLabel, ZAM.modifyInst]

theorem bumpAll_allLive (rs : List InstRef) (m : ZAM) (h : m.allLive) : (m.bumpAll rs).allLive := by
  induction rs generalizing m with
  | nil => exact h
  | cons r t ih => exact ih _ (bumpLabel_allLive m r h)

theorem bumpAll_cases (rs : List InstRef) (m : ZAM) :
    (m.bumpAll rs).int_cases = m.int_cases ∧ (m.bumpAll rs).uint_cases = m.uint_cases
    ∧ (m.bumpAll rs).double_cases = m.double_cases ∧ (m.bumpAll rs).str_cases = m.str_cases := by
  induction rs generalizing m with
  | nil => simp [ZAM.bumpAll]
  | cons r t ih =>
    have h1 := ih (m.bumpLabel r)
    have h2 := bumpLabel_cases m r
    simp only [ZAM.bumpAll, List.foldl_cons] at h1 ⊢
    rw [h1.1, h1.2.1, h1.2.2.1, h1.2.2.2, h2.1, h2.2.1, h2.2.2.1, h2.2.2.2]
    simp

theorem bumpAll_validRef (rs : List InstRef) (m : ZAM) (r1 : InstRef) :
    (m.bumpAll rs).validRef r1 ↔ m.validRef r1 := by
  induction rs generalizing m with
  | nil => simp [ZAM.bumpAll]
  | cons r t ih =>
    have := ih (m.bumpLabel r)
    simp only [ZAM.bumpAll, List.foldl_cons] at this ⊢
    rw [this, bumpLabel_validRef]

theorem bumpAll_append (m : ZAM) (rs ss : List InstRef) :
    m.bumpAll (rs ++ ss) = (m.bumpAll rs).bumpAll ss := by
  simp [ZAM.bumpAll, List.foldl_append]

theorem tallyTarget_eq_bumpAll (m : ZAM) (t : Option InstRef) (h : m.allLive) :
    m.tallyTarget t = m.bumpAll t.toList := by
  cases t with
  | none => simp [ZAM.tallyTarget, ZAM.bumpAll]
  | some r =>
    cases r with
    | pending =>
      simp [ZAM.tallyTarget, ZAM.bumpAll, ZAM.deref, h.2]
    | inst i =>
      simp only [ZAM.tallyTarget, ZAM.deref, ZAM.bumpAll, Option.toList, List.foldl_cons,
        List.foldl_nil]
      cases hz : m.insts1[i]? with
      | none =>
        simp only [ZAM.bumpLabel, ZAM.modifyInst]
        rw [List.modify_eq_self (by simpa [List.getElem?_eq_none_iff] using hz)]
      | some z =>
        have : z ∈ m.insts1 := List.getElem?_mem hz
        simp [h.1 z this]

theorem tallyInst_eq_bumpAll (m : ZAM) (z : ZInst) (h : m.allLive) :
    m.tallyInst z = m.bumpAll z.refs := by
  unfold ZAM.tallyInst ZInst.refs
  rw [tallyTarget_eq_bumpAll m _ h, tallyTarget_eq_bumpAll _ _ (bumpAll_allLive _ m h),
    bumpAll_append]

theorem foldl_tallyInst_eq_bumpAll (l : List ZInst) (m : ZAM) (h : m.allLive) :
    l.foldl ZAM.tallyInst m = m.bumpAll (l.flatMap ZInst.refs) := by
  induction l generalizing m with
  | nil => simp [ZAM.bumpAll]
  | cons z t ih =>
    simp only [List.foldl_cons, List.flatMap_cons]
    rw [tallyInst_eq_bumpAll m z h, ih _ (bumpAll_allLive _ m h), bumpAll_append]

theorem tallySwitchTargets_eq_bumpAll {κ : Type} (sw : List (CaseMap κ)) (m : ZAM) :
    m.tallySwitchTargets sw = m.bumpAll (caseRefs sw) := by
  unfold ZAM.tallySwitchTargets caseRefs
  induction sw generalizing m with
  | nil => simp [ZAM.bumpAll]
  | cons targs t ih =>
    simp only [List.foldl_cons, List.flatMap_cons]
    rw [ih, bumpAll_append]
    congr 1
    simp [ZAM.bumpAll, List.foldl_map]

theorem tallyLabels_eq_bumpAll (m : ZAM) (h : m.allLive) :
    m.tallyLabels = m.bumpAll m.allRefs := by
  unfold ZAM.tallyLabels ZAM.allRefs
  simp only [tallySwitchTargets_eq_bumpAll, foldl_tallyInst_eq_bumpAll _ m h, bumpAll_append]
  simp only [(bumpAll_cases _ _).1, (bumpAll_cases _ _).2.1, (bumpAll_cases _ _).2.2.1,
    (bumpAll_cases _ _).2.2.2]

theorem labelsOf_bumpLabel (m : ZAM) (r r1 : InstRef) (hv : m.validRef r1) :
    (m.bumpLabel r).labelsOf r1 = m.labelsOf r1 + (if r = r1 then 1 else 0) := by
  cases r with
  | pending =>
    cases r1 with
    | pending => simp [ZAM.labelsOf, ZAM.deref, ZAM.bumpLabel, ZAM.modifyInst]
    | inst j => simp [ZAM.labelsOf, ZAM.deref, ZAM.bumpLabel, ZAM.modifyInst]
  | inst i =>
    cases r1 with
    | pending => simp [ZAM.labelsOf, ZAM.deref, ZAM.bumpLabel, ZAM.modifyInst]
    | inst j =>
      simp only [ZAM.validRef] at hv
      simp only [ZAM.labelsOf, ZAM.deref, ZAM.bumpLabel, ZAM.modifyInst, List.getElem?_modify,
        InstRef.inst.injEq]
      rw [List.getElem?_eq_getElem hv]
      by_cases hij : i = j <;> simp [hij]

theorem labelsOf_bumpAll (rs : List InstRef) (m : ZAM) (r1 : InstRef) (hv : m.validRef r1) :
    (m.bumpAll rs).labelsOf r1 = m.labelsOf r1 + (rs.count r1 : Int) := by
  induction rs generalizing m with
  | nil => simp [ZAM.bumpAll]
  | cons r t ih =>
    have h1 := ih (m.bumpLabel r) ((bumpLabel_validRef m r r1).2 hv)
    simp only [ZAM.bumpAll, List.foldl_cons] at h1 ⊢
    rw [h1, labelsOf_bumpLabel m r r1 hv, List.count_cons]
    by_cases e : r = r1
    · subst e; simp; ring
    · have : (r == r1) = false := by simpa using e
      simp [e, this]

theorem sum_map_modify_bump (l : List ZInst) (i : Nat) (h : i < l.length) :
    ((l.modify (fun z => { z with num_labels := z.num_labels + 1 }) i).map
      ZInst.num_labels).sum = (l.map ZInst.num_labels).sum + 1 := by
  induction l generalizing i with
  | nil => simp at h
  | cons a t ih =>
    cases i with
    | zero => simp; ring
    | succ i =>
      have := ih i (by simpa using h)
      simp only [List.modify_succ_cons, List.map_cons, List.sum_cons, this]
      ring

theorem totalLabels_bumpLabel (m : ZAM) (r : InstRef) (hv : m.validRef r) :
    (m.bumpLabel r).totalLabels = m.totalLabels + 1 := by
  cases r with
  | pending => simp [ZAM.totalLabels, ZAM.bumpLabel, ZAM.modifyInst]; ring
  | inst i =>
    simp only [ZAM.validRef] at hv
    simp only [ZAM.totalLabels, ZAM.bumpLabel, ZAM.modifyInst, sum_map_modify_bump _ _ hv]
    ring

theorem totalLabels_bumpAll (rs : List InstRef) (m : ZAM) (hv : ∀ r ∈ rs, m.validRef r) :
    (m.bumpAll rs).totalLabels = m.totalLabels + (rs.length : Int) := by
  induction rs generalizing m with
  | nil => simp [ZAM.bumpAll]
  | cons r t ih =>
    have h1 := ih (m.bumpLabel r)
      (fun r1 h1 => (bumpLabel_validRef m r r1).2 (hv r1 (List.mem_cons_of_mem _ h1)))
    simp only [ZAM.bumpAll, List.foldl_cons] at h1 ⊢
    rw [h1, totalLabels_bumpLabel m r (hv r (List.mem_cons_self _ _))]
    simp; ring

theorem count_refs (l : List ZInst) (r : InstRef) :
    (l.flatMap ZInst.refs).count r
      = (l.filter (fun z => decide (z.target = some r))).length
        + (l.filter (fun z => decide (z.target2 = some r))).length := by
  induction l with
  | nil => simp
  | cons z t ih =>
    simp only [List.flatMap_cons, List.count_append, ih, List.filter_cons, ZInst.refs]
    cases h1 : z.target <;> cases h2 : z.target2 <;>
      simp [Option.toList, List.count_cons] <;> split_ifs <;> simp_all <;> omega

theorem length_refs (l : List ZInst) :
    (l.flatMap ZInst.refs).length
      = (l.filter (fun z => z.target.isSome)).length
        + (l.filter (fun z => z.target2.isSome)).length := by
  induction l with
  | nil => simp
  | cons z t ih =>
    simp only [List.flatMap_cons, List.length_append, ih, List.filter_cons, ZInst.refs]
    cases h1 : z.target <;> cases h2 : z.target2 <;> simp [Option.toList] <;> omega

theorem count_caseRefs {κ : Type} (sw : List (CaseMap κ)) (r : InstRef) :
    (caseRefs sw).count r = caseEntriesTo sw r := by
  unfold caseRefs caseEntriesTo
  induction sw with
  | nil => simp
  | cons targs t ih =>
    simp only [List.flatMap_cons, List.count_append, ih, List.map_cons, List.sum_cons]
    congr 1
    induction targs with
    | nil => simp
    | cons e es ihe =>
      simp only [List.map_cons, List.count_cons, ihe, List.filter_cons]
      by_cases h : e.2 = r <;> simp [h]

theorem length_caseRefs {κ : Type} (sw : List (CaseMap κ)) :
    (caseRefs sw).length = caseEntries sw := by
  unfold caseRefs caseEntries
  induction sw with
  | nil => simp
  | cons targs t ih => simp [List.flatMap_cons, ih]

theorem mem_caseRefs {κ : Type} {sw : List (CaseMap κ)} {r : InstRef} (h : r ∈ caseRefs sw) :
    ∃ targs ∈ sw, ∃ e ∈ targs, e.2 = r := by
  unfold caseRefs at h
  simp only [List.mem_flatMap, List.mem_map] at h
  obtain ⟨targs, ht, e, he, rfl⟩ := h
  exact ⟨targs, ht, e, he, rfl⟩

theorem allRefs_valid (m : ZAM) (h : m.targetsValid) : ∀ r ∈ m.allRefs, m.validRef r := by
  intro r hr
  obtain ⟨h1, h2, h3, h4, h5⟩ := h
  simp only [ZAM.allRefs, List.mem_append] at hr
  rcases hr with (((hr | hr) | hr) | hr) | hr
  · simp only [List.mem_flatMap, ZInst.refs, List.mem_append] at hr
    obtain ⟨z, hz, hzr⟩ := hr
    refine h1 z hz r ?_
    rcases hzr with e | e
    · left; cases ht : z.target <;> simp_all [Option.toList]
    · right; cases ht : z.target2 <;> simp_all [Option.toList]
  · obtain ⟨targs, ht, e, he, rfl⟩ := mem_caseRefs hr; exact h2 targs ht e he
  · obtain ⟨targs, ht, e, he, rfl⟩ := mem_caseRefs hr; exact h3 targs ht e he
  · obtain ⟨targs, ht, e, he, rfl⟩ := mem_caseRefs hr; exact h4 targs ht e he
  · obtain ⟨targs, ht, e, he, rfl⟩ := mem_caseRefs hr; exact h5 targs ht e he

theorem labelsOf_of_noLabels (m : ZAM) (h : m.noLabels) (r : InstRef) : m.labelsOf r = 0 := by
  cases r with
  | pending => simpa [ZAM.labelsOf, ZAM.deref] using h.2
  | inst i =>
    simp only [ZAM.labelsOf, ZAM.deref]
    cases hz : m.insts1[i]? with
    | none => rfl
    | some z => exact h.1 z (List.getElem?_mem hz)

theorem totalLabels_of_noLabels (m : ZAM) (h : m.noLabels) : m.totalLabels = 0 := by
  have : m.insts1.map ZInst.num_labels = m.insts1.map (fun _ => (0 : Int)) :=
    List.map_congr_left (fun z hz => h.1 z hz)
  simp [ZAM.totalLabels, this, h.2]

/-- C6: immediately after the label tally with which `OptimizeInsts` starts, run on a state in
which every instruction and the end sentinel are live with `num_labels = 0`, the label count of
every instruction (and of the sentinel) is the number of instructions whose `target` it is, plus
the number whose `target2` it is, plus the number of switch-table entries, over the int, uint,
double and string tables, that map to it; and the sum of `num_labels` over all instructions and
the sentinel is the number of branches plus the total number of switch-table entries. -/
theorem tallyLabels_num_labels (m : ZAM) (hlive : m.allLive) (hzero : m.noLabels)
    (hvalid : m.targetsValid) :
    (∀ r, m.validRef r →
      m.tallyLabels.labelsOf r
        = (m.numTargeting r + m.numTargeting2 r + m.numCaseEntriesTo r : Nat))
    ∧ m.tallyLabels.totalLabels = (m.numBranches + m.numCaseEntries : Nat) := by
  rw [tallyLabels_eq_bumpAll m hlive]
  constructor
  · intro r hr
    rw [labelsOf_bumpAll _ m r hr, labelsOf_of_noLabels m hzero]
    simp only [ZAM.allRefs, List.count_append, count_refs, count_caseRefs, ZAM.numTargeting,
      ZAM.numTargeting2, ZAM.numCaseEntriesTo]
    push_cast; ring
  · rw [totalLabels_bumpAll _ m (allRefs_valid m hvalid), totalLabels_of_noLabels m hzero]
    simp only [ZAM.allRefs, List.length_append, length_refs, length_caseRefs, ZAM.numBranches,
      ZAM.numCaseEntries]
    push_cast; ring

/-- Witness for C6: in `tallyExample` instruction 2 gets three labels (one `target`, one
`target2`, one table entry) and the labels add up to the four branches and three entries. -/
theorem tallyLabels_num_labels_witness :
    tallyExample.tallyLabels.labelsOf (InstRef.inst 2) = 3
    ∧ tallyExample.tallyLabels.totalLabels = 7 := by
  have h := tallyLabels_num_labels tallyExample
    (by simp [ZAM.allLive, tallyExample, ZAM.empty, ZInst.new])
    (by simp [ZAM.noLabels, tallyExample, ZAM.empty, ZInst.new])
    (by
      simp only [ZAM.targetsValid, tallyExample, ZAM.empty, ZInst.new, ZAM.validRef]
      refine ⟨?_, ?_, ?_, ?_, ?_⟩
      · intro z hz r hr
        simp only [List.mem_cons, List.mem_singleton, List.not_mem_nil, or_false] at hz
        rcases hz with rfl | rfl | rfl <;> simp at hr <;> rcases hr with rfl | rfl <;> simp
      · intro targs ht e he
        simp only [List.mem_singleton] at ht
        subst ht
        simp only [List.mem_cons, List.mem_singleton, List.not_mem_nil, or_false] at he
        rcases he with rfl | rfl <;> simp
      · simp
      · simp
      · intro targs ht e he
        simp only [List.mem_singleton] at ht
        subst ht
        simp only [List.mem_singleton] at he
        subst he
        trivial)
  refine ⟨?_, ?_⟩
  · rw [h.1 (InstRef.inst 2) (by simp [ZAM.validRef, tallyExample])]
    decide
  · rw [h.2]
    decide

/-! ## Branch resolution at the end of `CompileBody` -/

theorem findIdx_live_map (l : List ZInst) :
    l.findIdx (fun z => z.live) = (l.map ZInst.live).findIdx id := by
  induction l with
  | nil => rfl
  | cons a t ih => simp [List.findIdx_cons, ih]

theorem skipDead_congr (l l1 : List ZInst) (h : l1.map liveNum = l.map liveNum) (idx : Nat) :
    skipDead l1 idx = skipDead l idx := by
  have h1 : l1.map ZInst.live = l.map ZInst.live := by
    have := congrArg (List.map Prod.fst) h
    simpa [List.map_map, Function.comp_def, liveNum] using this
  unfold skipDead
  rw [findIdx_live_map, findIdx_live_map, List.map_drop, List.map_drop, h1]

theorem FindLiveTarget_congr (m m1 : ZAM) (h : m1.insts1.map liveNum = m.insts1.map liveNum)
    (t : InstRef) : m1.FindLiveTarget t = m.FindLiveTarget t := by
  cases t with
  | pending => rfl
  | inst p =>
    have hlen : m1.insts1.length = m.insts1.length := by
      simpa using congrArg List.length h
    have hp : (m1.insts1[p]?).map liveNum = (m.insts1[p]?).map liveNum := by
      rw [← List.getElem?_map, ← List.getElem?_map, h]
    cases h1 : m1.insts1[p]? with
    | none =>
      cases h0 : m.insts1[p]? with
      | none => simp only [ZAM.FindLiveTarget, h1, h0]
      | some z => simp [h1, h0] at hp
    | some z1 =>
      cases h0 : m.insts1[p]? with
      | none => simp [h1, h0] at hp
      | some z =>
        simp only [h1, h0, Option.map_some', Option.some.injEq, liveNum, Prod.mk.injEq] at hp
        simp only [ZAM.FindLiveTarget, h1, h0, hp.2, skipDead_congr _ _ h, hlen]

theorem liveTargets_congr (m m1 : ZAM) (h : m1.insts1.map liveNum = m.insts1.map liveNum)
    (z : ZInst) : m1.liveTargets z = m.liveTargets z := by
  have : m1.FindLiveTarget = m.FindLiveTarget := funext (FindLiveTarget_congr m m1 h)
  unfold ZAM.liveTargets
  rw [this]

theorem liveTargets_liveNum (m : ZAM) (z : ZInst) : liveNum (m.liveTargets z) = liveNum z := by
  unfold ZAM.liveTargets liveNum
  split
  · rfl
  · split <;> rfl

theorem map_liveNum_modify (m : ZAM) (l : List ZInst) (i : Nat) :
    (l.modify m.liveTargets i).map liveNum = l.map liveNum := by
  apply List.ext_getElem?
  intro j
  simp only [List.getElem?_map, List.getElem?_modify]
  by_cases h : i = j
  · simp only [h, if_true]
    cases l[j]? <;> simp [liveTargets_liveNum]
  · simp [h]

/-- The state after the first `k` rounds of the loop of `moveBranchesToLive`. -/
theorem moveBranches_prefix (m : ZAM) (k : Nat) :
    ((List.range k).foldl ZAM.moveBranchStep m).insts1.map liveNum = m.insts1.map liveNum
    ∧ (∀ j : Nat, ((List.range k).foldl ZAM.moveBranchStep m).insts1[j]?
        = if j < k then (m.insts1[j]?).map m.liveTargets else m.insts1[j]?)
    ∧ ((List.range k).foldl ZAM.moveBranchStep m).pending_inst = m.pending_inst
    ∧ ((List.range k).foldl ZAM.moveBranchStep m).insts2 = m.insts2
    ∧ ((List.range k).foldl ZAM.moveBranchStep m).shared_frame_denizens
        = m.shared_frame_denizens
    ∧ ((List.range k).foldl ZAM.moveBranchStep m).shared_frame_denizens_final
        = m.shared_frame_denizens_final := by
  induction k with
  | zero => simp
  | succ k ih =>
    simp only [List.range_succ, List.foldl_append, List.foldl_cons, List.foldl_nil]
    obtain ⟨h1, h2, h3, h4, h5, h6⟩ := ih
    generalize (List.range k).foldl ZAM.moveBranchStep m = mk at h1 h2 h3 h4 h5 h6
    refine ⟨?_, ?_, h3, h4, h5, h6⟩
    · simp only [ZAM.moveBranchStep]
      rw [map_liveNum_modify]; exact h1
    · intro j
      simp only [ZAM.moveBranchStep]
      rw [List.getElem?_modify, h2 j]
      by_cases hj : k = j
      · subst hj
        simp only [if_true, lt_irrefl, if_false, Nat.lt_succ_self]
        cases m.insts1[k]? with
        | none => rfl
        | some z => simp [liveTargets_congr m mk h1 z]
      · by_cases hjk : j < k
        · have : j < k + 1 := by omega
          simp [hj, hjk, this]
        · have : ¬ j < k + 1 := by omega
          simp [hj, hjk, this]

theorem moveBranchesToLive_spec (m : ZAM) :
    (∀ j : Nat, m.moveBranchesToLive.insts1[j]? = (m.insts1[j]?).map m.liveTargets)
    ∧ m.moveBranchesToLive.pending_inst = m.pending_inst
    ∧ m.moveBranchesToLive.insts2 = m.insts2
    ∧ m.moveBranchesToLive.shared_frame_denizens = m.shared_frame_denizens
    ∧ m.moveBranchesToLive.shared_frame_denizens_final = m.shared_frame_denizens_final := by
  obtain ⟨_, h2, h3, h4, h5, h6⟩ := moveBranches_prefix m m.insts1.length
  refine ⟨?_, h3, h4, h5, h6⟩
  intro j
  have := h2 j
  unfold ZAM.moveBranchesToLive
  rw [this]
  by_cases hj : j < m.insts1.length
  · simp [hj]
  · simp only [hj, if_false]
    rw [List.getElem?_eq_none (by omega)]
    rfl

theorem fillInsts2_fst (l : List ZInst) (i : Nat) (a : List Nat) (b : List Int) :
    (fillInsts2 l i a b).1 = a ++ livePositions l i := by
  induction l generalizing i a b with
  | nil => simp [fillInsts2, livePositions]
  | cons z t ih =>
    unfold fillInsts2 livePositions
    by_cases hz : z.live = true
    · simp [hz, ih]
    · simp [hz, ih]

theorem mem_livePositions (l : List ZInst) (i p : Nat) :
    p ∈ livePositions l i ↔ ∃ j z, p = i + j ∧ l[j]? = some z ∧ z.live = true := by
  induction l generalizing i with
  | nil => simp [livePositions]
  | cons a t ih =>
    unfold livePositions
    constructor
    · intro h
      by_cases ha : a.live = true
      · simp only [ha, if_true, List.mem_cons] at h
        rcases h with h | h
        · exact ⟨0, a, by omega, by simp, ha⟩
        · obtain ⟨j, z, e, hz, hl⟩ := (ih (i + 1)).1 h
          exact ⟨j + 1, z, by omega, by simpa using hz, hl⟩
      · simp only [ha] at h
        obtain ⟨j, z, e, hz, hl⟩ := (ih (i + 1)).1 h
        exact ⟨j + 1, z, by omega, by simpa using hz, hl⟩
    · rintro ⟨j, z, e, hz, hl⟩
      cases j with
      | zero =>
        simp only [List.getElem?_cons_zero, Option.some.injEq] at hz
        subst hz
        simp [hl, e]
      | succ j =>
        simp only [List.getElem?_cons_succ] at hz
        have : p ∈ livePositions t (i + 1) := (ih (i + 1)).2 ⟨j, z, by omega, hz, hl⟩
        by_cases ha : a.live = true
        · simp [ha, this]
        · simp [ha, this]

theorem livePositions_nodup (l : List ZInst) (i : Nat) : (livePositions l i).Nodup := by
  induction l generalizing i with
  | nil => simp [livePositions]
  | cons a t ih =>
    unfold livePositions
    by_cases ha : a.live = true
    · simp only [ha, if_true, List.nodup_cons]
      refine ⟨?_, ih (i + 1)⟩
      intro h
      obtain ⟨j, z, e, _, _⟩ := (mem_livePositions t (i + 1) i).1 h
      omega
    · simp only [ha]
      exact ih (i + 1)

theorem renumberFrom_spec (ps : List Nat) (hnd : ps.Nodup) (i : Nat) (l : List ZInst) (q : Nat) :
    (renumberFrom ps i l)[q]?
      = (l[q]?).map (fun z =>
          if q ∈ ps then { z with inst_num := ((i + ps.indexOf q : Nat) : Int) } else z) := by
  induction ps generalizing i l with
  | nil => simp [renumberFrom]
  | cons p ps ih =>
    obtain ⟨hp, hps⟩ := List.nodup_cons.1 hnd
    unfold renumberFrom
    rw [ih hps, List.getElem?_modify]
    by_cases hpq : p = q
    · subst hpq
      cases l[p]? with
      | none => rfl
      | some z => simp [hp]
    · have hqp : q ≠ p := fun e => hpq e.symm
      cases l[q]? with
      | none => simp [hpq]
      | some z =>
        by_cases hq : q ∈ ps
        · simp [hpq, hq, hqp, List.indexOf_cons_ne _ hpq]
          omega
        · simp [hpq, hq, hqp]

theorem RetargetBranch_spec (m : ZAM) (inst inst1 : ZInst) (r : InstRef) (slot : Int)
    (h : m.RetargetBranch inst r slot = some inst1) :
    inst1.operand slot = some (m.targetNum r)
    ∧ (∀ s, s ≠ slot → inst1.operand s = inst.operand s)
    ∧ inst1.target = inst.target ∧ inst1.target2 = inst.target2
    ∧ inst1.target_slot = inst.target_slot ∧ inst1.target2_slot = inst.target2_slot
    ∧ inst1.live = inst.live ∧ inst1.inst_num = inst.inst_num := by
  unfold ZAM.RetargetBranch at h
  simp only at h
  split_ifs at h with h1 h2 h3 h4
  all_goals
    simp only [Option.some.injEq] at h
    subst h
    refine ⟨by simp [ZInst.operand, *], ?_, rfl, rfl, rfl, rfl, rfl, rfl⟩
    intro s hs
    subst slot
    simp only [ZInst.operand]
    split_ifs <;> simp_all

theorem RetargetBranch_isSome (m : ZAM) (inst : ZInst) (r : InstRef) (slot : Int)
    (h : 1 ≤ slot ∧ slot ≤ 4) : (m.RetargetBranch inst r slot).isSome := by
  unfold ZAM.RetargetBranch
  simp only
  have : slot = 1 ∨ slot = 2 ∨ slot = 3 ∨ slot = 4 := by omega
  rcases this with e | e | e | e <;> simp [e]

theorem concretizeInst_spec (m : ZAM) (inst inst1 : ZInst)
    (h : m.concretizeInst inst = some inst1) :
    inst1.target = inst.target ∧ inst1.target2 = inst.target2
    ∧ inst1.target_slot = inst.target_slot ∧ inst1.target2_slot = inst.target2_slot
    ∧ inst1.live = inst.live ∧ inst1.inst_num = inst.inst_num
    ∧ (∀ r, inst.target = some r →
        (inst.target2 = none ∨ inst.target_slot ≠ inst.target2_slot) →
        inst1.operand inst.target_slot = some (m.targetNum r))
    ∧ (∀ r r2, inst.target = some r → inst.target2 = some r2 →
        inst1.operand inst.target2_slot = some (m.targetNum r2)) := by
  unfold ZAM.concretizeInst at h
  cases ht : inst.target with
  | none =>
    simp only [ht, Option.some.injEq] at h
    subst h
    simp [ht]
  | some r =>
    simp only [ht] at h
    cases hr : m.RetargetBranch inst r inst.target_slot with
    | none => simp [hr] at h
    | some i1 =>
      simp only [hr] at h
      obtain ⟨a1, a2, a3, a4, a5, a6, a7, a8⟩ := RetargetBranch_spec m inst i1 r _ hr
      cases ht2 : i1.target2 with
      | none =>
        simp only [ht2, Option.some.injEq] at h
        subst h
        refine ⟨a3.trans ht, a4, a5, a6, a7, a8, ?_, ?_⟩
        · intro r1 e _
          cases e; exact a1
        · intro r1 r2 _ e2
          rw [← a4, ht2] at e2; cases e2
      | some r2 =>
        simp only [ht2] at h
        obtain ⟨b1, b2, b3, b4, b5, b6, b7, b8⟩ := RetargetBranch_spec m i1 inst1 r2 _ h
        refine ⟨(b3.trans a3).trans ht, b4.trans a4, b5.trans a5, b6.trans a6, b7.trans a7, b8.trans a8,
          ?_, ?_⟩
        · intro r1 e hne
          cases e
          rcases hne with hne | hne
          · rw [← a4, ht2] at hne; cases hne
          · rw [b2 _ (by rw [a6]; exact hne)]; exact a1
        · intro r1 r3 _ e2
          rw [← a4, ht2] at e2
          cases e2
          rw [← a6]; exact b1

theorem concretizeInst_isSome (m : ZAM) (inst : ZInst)
    (h : inst.target.isSome →
      (1 ≤ inst.target_slot ∧ inst.target_slot ≤ 4)
      ∧ (inst.target2.isSome → 1 ≤ inst.target2_slot ∧ inst.target2_slot ≤ 4)) :
    (m.concretizeInst inst).isSome := by
  unfold ZAM.concretizeInst
  cases ht : inst.target with
  | none => simp
  | some r =>
    obtain ⟨h1, h2⟩ := h (by simp [ht])
    simp only
    have hs := RetargetBranch_isSome m inst r _ h1
    cases hr : m.RetargetBranch inst r inst.target_slot with
    | none => simp [hr] at hs
    | some i1 =>
      obtain ⟨_, _, _, a4, _, a6, _, _⟩ := RetargetBranch_spec m inst i1 r _ hr
      simp only
      cases ht2 : i1.target2 with
      | none => simp
      | some r2 =>
        simp only
        apply RetargetBranch_isSome
        rw [a6]
        exact h2 (by rw [← a4, ht2]; rfl)

theorem targetNum_congr (m m1 : ZAM) (h2 : m1.insts2.length = m.insts2.length)
    (h1 : m1.insts1.map ZInst.inst_num = m.insts1.map ZInst.inst_num) (r : InstRef) :
    m1.targetNum r = m.targetNum r := by
  cases r with
  | pending => simp [ZAM.targetNum, h2]
  | inst q =>
    have hq : (m1.insts1[q]?).map ZInst.inst_num = (m.insts1[q]?).map ZInst.inst_num := by
      rw [← List.getElem?_map, ← List.getElem?_map, h1]
    simp only [ZAM.targetNum]
    cases e1 : m1.insts1[q]? <;> cases e0 : m.insts1[q]? <;> simp_all

theorem concretizeInst_congr (m m1 : ZAM) (h2 : m1.insts2.length = m.insts2.length)
    (h1 : m1.insts1.map ZInst.inst_num = m.insts1.map ZInst.inst_num) (z : ZInst) :
    m1.concretizeInst z = m.concretizeInst z := by
  have : m1.targetNum = m.targetNum := funext (targetNum_congr m m1 h2 h1)
  unfold ZAM.concretizeInst ZAM.RetargetBranch
  rw [this]

theorem map_inst_num_set (l : List ZInst) (p : Nat) (z z1 : ZInst) (hz : l[p]? = some z)
    (h : z1.inst_num = z.inst_num) :
    (l.set p z1).map ZInst.inst_num = l.map ZInst.inst_num := by
  apply List.ext_getElem?
  intro j
  simp only [List.getElem?_map, List.getElem?_set]
  by_cases hj : p = j
  · subst hj
    have hp : p < l.length := by
      rcases Nat.lt_or_ge p l.length with h1 | h1
      · exact h1
      · rw [List.getElem?_eq_none h1] at hz; cases hz
    simp [hp, hz, h]
  · simp [hj]

/-- The loop "concretize GoTo's" over distinct pointers `ps`, started in a state `m` that
agrees with `m0` on the instruction numbers: it succeeds when every visited instruction can be
concretized, and replaces exactly the visited instructions by their concretized form. -/
theorem concretizeGoTos_spec (m0 : ZAM) (ps : List Nat) (hnd : ps.Nodup) (m : ZAM)
    (h2 : m.insts2.length = m0.insts2.length)
    (h1 : m.insts1.map ZInst.inst_num = m0.insts1.map ZInst.inst_num)
    (hok : ∀ p ∈ ps, ∀ z, m.insts1[p]? = some z → (m0.concretizeInst z).isSome) :
    ∃ m1, m.concretizeGoTos ps = some m1 ∧ m1.insts2 = m.insts2
      ∧ m1.pending_inst = m.pending_inst
      ∧ m1.shared_frame_denizens = m.shared_frame_denizens
      ∧ m1.shared_frame_denizens_final = m.shared_frame_denizens_final
      ∧ ∀ q : Nat, m1.insts1[q]?
          = (m.insts1[q]?).map (fun z => if q ∈ ps then (m0.concretizeInst z).getD z else z) := by
  induction ps generalizing m with
  | nil => exact ⟨m, rfl, rfl, rfl, rfl, rfl, by intro q; cases m.insts1[q]? <;> simp⟩
  | cons p ps ih =>
    obtain ⟨hp, hps⟩ := List.nodup_cons.1 hnd
    unfold ZAM.concretizeGoTos
    cases hz : m.insts1[p]? with
    | none =>
      simp only
      obtain ⟨m1, e1, e2, e3, e4, e5, e6⟩ :=
        ih hps m h2 h1 (fun p1 hp1 => hok p1 (List.mem_cons_of_mem _ hp1))
      refine ⟨m1, e1, e2, e3, e4, e5, ?_⟩
      intro q
      rw [e6 q]
      by_cases hq : q = p
      · subst hq; simp [hz]
      · cases m.insts1[q]? <;> simp [hq]
    | some z =>
      simp only
      have hc : m.concretizeInst z = m0.concretizeInst z := concretizeInst_congr m0 m h2 h1 z
      have hs := hok p (List.mem_cons_self _ _) z hz
      rw [hc]
      cases hz1 : m0.concretizeInst z with
      | none => simp [hz1] at hs
      | some z1 =>
        simp only
        obtain ⟨_, _, _, _, _, a6, _, _⟩ := concretizeInst_spec m0 z z1 hz1
        obtain ⟨m1, e1, e2, e3, e4, e5, e6⟩ :=
          ih hps { m with insts1 := m.insts1.set p z1 } h2
            (by simp only; rw [map_inst_num_set _ _ z z1 hz a6]; exact h1)
            (by
              intro p1 hp1 zz hzz
              have hne : p ≠ p1 := fun e => hp (e ▸ hp1)
              simp only [List.getElem?_set_ne hne] at hzz
              exact hok p1 (List.mem_cons_of_mem _ hp1) zz hzz)
        refine ⟨m1, e1, e2, e3, e4, e5, ?_⟩
        intro q
        rw [e6 q]
        simp only [List.getElem?_set]
        by_cases hq : p = q
        · subst hq
          have hpl : p < m.insts1.length := by
            rcases Nat.lt_or_ge p m.insts1.length with h3 | h3
            · exact h3
            · rw [List.getElem?_eq_none h3] at hz; cases hz
          simp [hpl, hz, hp, hz1]
        · have hq1 : q ≠ p := fun e => hq e.symm
          cases m.insts1[q]? <;> simp [hq, hq1]

theorem FindLiveTarget_spec (m : ZAM) (hnum : m.numbered) (t : InstRef) (hv : m.validRef t) :
    m.FindLiveTarget t = InstRef.pending
    ∨ ∃ q z, m.FindLiveTarget t = InstRef.inst q ∧ m.insts1[q]? = some z ∧ z.live = true := by
  cases t with
  | pending => left; rfl
  | inst p =>
    simp only [ZAM.validRef] at hv
    have hz : m.insts1[p]? = some (m.insts1[p]) := List.getElem?_eq_getElem hv
    have hn : (m.insts1[p]).inst_num = (p : Int) := hnum p _ hz
    simp only [ZAM.FindLiveTarget, hz, hn, Int.toNat_ofNat]
    by_cases hidx : skipDead m.insts1 p = m.insts1.length
    · left; simp [hidx]
    · right
      simp only [hidx, if_false]
      have hle := @List.findIdx_le_length ZInst (fun z : ZInst => z.live) (m.insts1.drop p)
      have hlen : (m.insts1.drop p).length = m.insts1.length - p := by simp
      have hlt : (m.insts1.drop p).findIdx (fun z => z.live) < (m.insts1.drop p).length := by
        unfold skipDead at hidx
        omega
      have hget : (m.insts1.drop p)[(m.insts1.drop p).findIdx (fun z => z.live)]?
          = some ((m.insts1.drop p)[(m.insts1.drop p).findIdx (fun z => z.live)]) :=
        List.getElem?_eq_getElem hlt
      refine ⟨_, _, rfl, ?_, List.findIdx_of_getElem?_eq_some hget⟩
      rw [← hget, List.getElem?_drop]
      rfl

theorem liveTargets_fields (m : ZAM) (z : ZInst) :
    (m.liveTargets z).live = z.live ∧ (m.liveTargets z).target_slot = z.target_slot
    ∧ (m.liveTargets z).target2_slot = z.target2_slot
    ∧ (m.liveTargets z).target.isSome = z.target.isSome
    ∧ ((m.liveTargets z).target2.isSome → z.target2.isSome) := by
  unfold ZAM.liveTargets
  split
  · simp
  · split
    · simp
    · rename_i t ht
      refine ⟨rfl, rfl, rfl, by simp [ht], ?_⟩
      cases z.target2 <;> simp

theorem liveTargets_of_live (m : ZAM) (z : ZInst) (hl : z.live = true) :
    (∀ r, (m.liveTargets z).target = some r → ∃ t, z.target = some t ∧ r = m.FindLiveTarget t)
    ∧ (∀ r r2, (m.liveTargets z).target = some r → (m.liveTargets z).target2 = some r2 →
        ∃ t2, z.target2 = some t2 ∧ r2 = m.FindLiveTarget t2) := by
  unfold ZAM.liveTargets
  simp only [hl, Bool.true_eq_false, if_false]
  cases ht : z.target with
  | none => simp [ht]
  | some t =>
    simp only
    constructor
    · intro r e
      cases e
      exact ⟨t, rfl, rfl⟩
    · intro r r2 _ e2
      cases ht2 : z.target2 with
      | none => simp [ht2] at e2
      | some t2 =>
        simp only [ht2, Option.map_some', Option.some.injEq] at e2
        exact ⟨t2, rfl, e2.symm⟩

theorem assemble_eq (m : ZAM) (h2 : m.insts2 = []) :
    m.assemble =
      match (m.beforeConcretize (livePositions m.moveBranchesToLive.insts1 0)).concretizeGoTos
          (livePositions m.moveBranchesToLive.insts1 0) with
      | none => none
      | some m5 =>
        some (m5.updateDenizens (fillInsts2 m.moveBranchesToLive.insts1 0 [] []).2,
          (fillInsts2 m.moveBranchesToLive.insts1 0 [] []).2) := by
  have g3 := (moveBranchesToLive_spec m).2.2.1
  unfold ZAM.assemble ZAM.beforeConcretize ZAM.renumberInsts2
  simp only [fillInsts2_fst, g3, h2, List.nil_append]

theorem beforeConcretize_spec (m : ZAM) (I : List Nat)
    (hI : I = livePositions m.moveBranchesToLive.insts1 0) :
    I.Nodup
    ∧ (∀ p, p ∈ I ↔ ∃ z0, m.insts1[p]? = some z0 ∧ z0.live = true)
    ∧ (∀ q : Nat, (m.beforeConcretize I).insts1[q]?
        = (m.insts1[q]?).map (fun z0 =>
            if q ∈ I then { m.liveTargets z0 with inst_num := ((I.indexOf q : Nat) : Int) }
            else m.liveTargets z0)) := by
  obtain ⟨g1, _, _, _, _⟩ := moveBranchesToLive_spec m
  have hInd : I.Nodup := by rw [hI]; exact livePositions_nodup _ _
  refine ⟨hInd, ?_, ?_⟩
  · intro p
    rw [hI, mem_livePositions]
    constructor
    · rintro ⟨j, z, e, hz, hl⟩
      have : p = j := by omega
      subst this
      rw [g1] at hz
      cases h0 : m.insts1[p]? with
      | none => simp [h0] at hz
      | some z0 =>
        simp only [h0, Option.map_some', Option.some.injEq] at hz
        subst hz
        exact ⟨z0, rfl, by rw [← (liveTargets_fields m z0).1]; exact hl⟩
    · rintro ⟨z0, hz0, hl⟩
      exact ⟨p, m.liveTargets z0, by omega, by rw [g1, hz0]; rfl,
        by rw [(liveTargets_fields m z0).1]; exact hl⟩
  · intro q
    show (renumberFrom I 0 _)[q]? = _
    rw [renumberFrom_spec I hInd, g1]
    cases m.insts1[q]? with
    | none => rfl
    | some z0 => simp

theorem updateDenizens_insts (m : ZAM) (l : List Int) :
    (m.updateDenizens l).insts1 = m.insts1 ∧ (m.updateDenizens l).insts2 = m.insts2
    ∧ (m.updateDenizens l).pending_inst = m.pending_inst := ⟨rfl, rfl, rfl⟩

/-- C1, as the code has it: when the instruction numbers of `insts1` are the positions, the
branch pointers are valid, the target slots of live branches are among 1..4 and `insts2` is
still empty, the assembly at the end of `CompileBody` succeeds, and for every instruction `z`
of `insts2` whose `target` is set the target is either the end sentinel, and then the operand
that `target_slot` selects is `insts2.size()`, or a live instruction that `insts2` holds at the
position `inst_num`, and then the operand is that `inst_num` (for `target` this needs
`target2` unset or `target2_slot` different from `target_slot`); the same holds for `target2`
with `target2_slot`. -/
theorem assemble_branches_resolved (m : ZAM) (hnum : m.numbered) (hvalid : m.branchesValid)
    (hslots : m.slotsInRange) (h2 : m.insts2 = []) :
    ∃ res, m.assemble = some res ∧
      ∀ p ∈ res.1.insts2, ∀ z, res.1.insts1[p]? = some z →
        (∀ r, z.target = some r → (z.target2 = none ∨ z.target_slot ≠ z.target2_slot) →
          res.1.branchResolved z r z.target_slot)
        ∧ (∀ r r2, z.target = some r → z.target2 = some r2 →
          res.1.branchResolved z r2 z.target2_slot) := by
  obtain ⟨I, hI⟩ : ∃ I, I = livePositions m.moveBranchesToLive.insts1 0 := ⟨_, rfl⟩
  obtain ⟨hInd, hImem, h4⟩ := beforeConcretize_spec m I hI
  have hok : ∀ p ∈ I, ∀ z, (m.beforeConcretize I).insts1[p]? = some z →
      ((m.beforeConcretize I).concretizeInst z).isSome := by
    intro p hp z hz
    obtain ⟨z0, hz0, hl0⟩ := (hImem p).1 hp
    rw [h4 p, hz0] at hz
    simp only [Option.map_some', hp, if_true, Option.some.injEq] at hz
    obtain ⟨f1, f2, f3, f4, f5⟩ := liveTargets_fields m z0
    have hs := hslots z0 (List.getElem?_mem hz0) hl0
    apply concretizeInst_isSome
    subst hz
    simp only
    intro ht
    rw [f4] at ht
    rw [f2, f3]
    exact ⟨(hs ht).1, fun ht2 => (hs ht).2 (f5 ht2)⟩
  obtain ⟨m5, e1, e2, e3, _, _, e6⟩ :=
    concretizeGoTos_spec (m.beforeConcretize I) I hInd (m.beforeConcretize I) rfl rfl hok
  have hI2 : (m.beforeConcretize I).insts2 = I := rfl
  refine ⟨(m5.updateDenizens (fillInsts2 m.moveBranchesToLive.insts1 0 [] []).2,
    (fillInsts2 m.moveBranchesToLive.insts1 0 [] []).2), ?_, ?_⟩
  · rw [assemble_eq m h2, ← hI, e1]
  -- the final form of every instruction
  have hfin : ∀ q z, m5.insts1[q]? = some z → ∃ z0, m.insts1[q]? = some z0 ∧
      z.live = z0.live ∧ (q ∈ I → z.inst_num = ((I.indexOf q : Nat) : Int)) := by
    intro q z hz
    rw [e6 q, h4 q] at hz
    cases h0 : m.insts1[q]? with
    | none => simp [h0] at hz
    | some z0 =>
      refine ⟨z0, rfl, ?_⟩
      simp only [h0, Option.map_some', Option.some.injEq] at hz
      obtain ⟨f1, _⟩ := liveTargets_fields m z0
      by_cases hq : q ∈ I
      · simp only [hq, if_true] at hz
        cases hc : (m.beforeConcretize I).concretizeInst
            { m.liveTargets z0 with inst_num := ((I.indexOf q : Nat) : Int) } with
        | none =>
          simp only [hc, Option.getD_none] at hz
          subst hz
          exact ⟨f1, fun _ => rfl⟩
        | some z1 =>
          simp only [hc, Option.getD_some] at hz
          subst hz
          obtain ⟨_, _, _, _, a5, a6, _, _⟩ := concretizeInst_spec _ _ _ hc
          exact ⟨a5.trans f1, fun _ => a6⟩
      · simp only [hq, if_false] at hz
        subst hz
        exact ⟨f1, fun h => absurd h hq⟩
  -- a branch to the live successor of a valid pointer is resolved
  have key : ∀ (t : InstRef) (zz : ZInst) (slot : Int), m.validRef t →
      zz.operand slot = some ((m.beforeConcretize I).targetNum (m.FindLiveTarget t)) →
      (m5.updateDenizens (fillInsts2 m.moveBranchesToLive.insts1 0 [] []).2).branchResolved zz
        (m.FindLiveTarget t) slot := by
    intro t zz slot hv hop
    rcases FindLiveTarget_spec m hnum t hv with hpend | ⟨q, zq, hq, hzq, hlq⟩
    · rw [hpend] at hop ⊢
      simp only [ZAM.branchResolved, (updateDenizens_insts _ _).2.1, e2, hI2]
      simpa [ZAM.targetNum, hI2] using hop
    · rw [hq] at hop ⊢
      have hqI : q ∈ I := (hImem q).2 ⟨zq, hzq, hlq⟩
      have h4q := h4 q
      rw [hzq] at h4q
      simp only [Option.map_some', hqI, if_true] at h4q
      have hq5 : ∃ t5, m5.insts1[q]? = some t5 := by
        rw [e6 q, h4q]; exact ⟨_, rfl⟩
      obtain ⟨t5, ht5⟩ := hq5
      obtain ⟨z0, hz0, hl5, hn5⟩ := hfin q t5 ht5
      rw [hzq] at hz0
      cases hz0
      simp only [ZAM.branchResolved, (updateDenizens_insts _ _).1, (updateDenizens_insts _ _).2.1,
        e2, hI2]
      refine ⟨t5, ht5, hl5.trans hlq, ?_, ?_, ?_⟩
      · rw [hn5 hqI]; exact Int.natCast_nonneg _
      · rw [hn5 hqI, Int.toNat_ofNat]
        exact List.getElem?_indexOf hqI
      · rw [hop, hn5 hqI]
        simp [ZAM.targetNum, h4q]
  intro p hp z hz
  simp only [(updateDenizens_insts _ _).1, (updateDenizens_insts _ _).2.1, e2, hI2] at hp hz
  obtain ⟨z0, hz0, hl0⟩ := (hImem p).1 hp
  have h4p : (m.beforeConcretize I).insts1[p]?
      = some { m.liveTargets z0 with inst_num := ((I.indexOf p : Nat) : Int) } := by
    rw [h4 p, hz0]; simp [hp]
  have hz5 := e6 p
  rw [hz, h4p] at hz5
  simp only [Option.map_some', hp, if_true, Option.some.injEq] at hz5
  have hc := hok p hp _ h4p
  cases hz1 : (m.beforeConcretize I).concretizeInst
      { m.liveTargets z0 with inst_num := ((I.indexOf p : Nat) : Int) } with
  | none => simp [hz1] at hc
  | some z1 =>
    rw [hz1, Option.getD_some] at hz5
    subst hz5
    obtain ⟨a1, a2, a3, a4, _, _, a7, a8⟩ := concretizeInst_spec _ _ _ hz1
    simp only at a1 a2 a3 a4 a7 a8
    obtain ⟨b1, b2⟩ := liveTargets_of_live m z0 hl0
    constructor
    · intro r hr hne
      rw [a1] at hr
      obtain ⟨t, ht, rfl⟩ := b1 r hr
      apply key t z z.target_slot (hvalid z0 (List.getElem?_mem hz0) t (Or.inl ht))
      rw [a3]
      apply a7 _ hr
      rw [← a2, ← a3, ← a4]
      exact hne
    · intro r r2 hr hr2
      rw [a1] at hr
      rw [a2] at hr2
      obtain ⟨t2, ht2, rfl⟩ := b2 r r2 hr hr2
      rw [a4]
      apply key t2 z _ (hvalid z0 (List.getElem?_mem hz0) t2 (Or.inr ht2))
      exact a8 r _ hr hr2

/-- Witness for C1: `branchExample` meets the hypotheses; its assembly succeeds, `insts2` holds
the instructions 0, 2 and 3, the branch to the dead instruction 1 is moved to instruction 2 at
position 1, and the branch to the end gets the operand 3. -/
theorem assemble_branches_resolved_witness :
    ∃ res, branchExample.assemble = some res ∧ res.1.insts2 = [0, 2, 3]
      ∧ ∀ p ∈ res.1.insts2, ∀ z, res.1.insts1[p]? = some z →
        (∀ r, z.target = some r → (z.target2 = none ∨ z.target_slot ≠ z.target2_slot) →
          res.1.branchResolved z r z.target_slot)
        ∧ (∀ r r2, z.target = some r → z.target2 = some r2 →
          res.1.branchResolved z r2 z.target2_slot) := by
  obtain ⟨res, h1, h2⟩ := assemble_branches_resolved branchExample
    (by
      intro i z hz
      simp only [branchExample, ZAM.empty, ZInst.new] at hz
      match i with
      | 0 => simp at hz; subst hz; rfl
      | 1 => simp at hz; subst hz; rfl
      | 2 => simp at hz; subst hz; rfl
      | 3 => simp at hz; subst hz; rfl
      | (k + 4) => simp at hz)
    (by simp [ZAM.branchesValid, branchExample, ZAM.empty, ZInst.new, ZAM.validRef])
    (by simp [ZAM.slotsInRange, branchExample, ZAM.empty, ZInst.new])
    rfl
  refine ⟨res, h1, ?_, h2⟩
  have e : branchExample.assemble = some (Option.get (branchExample.assemble) rfl) := by simp
  rw [e] at h1
  cases h1
  rfl

/-- Counterexample to C1 as stated: in the assembled `branchExample` the instruction at
position 2 of `insts2` branches to the end of the body; its target is the end sentinel, which
is not a live instruction, and its operand is `insts2.size()`. -/
theorem assemble_branch_to_end_counterexample :
    ∃ res, branchExample.assemble = some res ∧ ¬ res.1.branchesToLive := by
  refine ⟨Option.get (branchExample.assemble) rfl, by simp, ?_⟩
  intro h
  have h3 := (h 3 (by decide)
    { ZInst.new (ZOp.OP_other 1) with
        inst_num := 2, target := some InstRef.pending, target_slot := 2, v2 := 3 } rfl).1
    InstRef.pending rfl
  obtain ⟨t, ht, hl, _⟩ := h3
  simp only [ZAM.deref, Option.some.injEq] at ht
  subst ht
  revert hl
  decide

/-! ## Frame remapping -/

theorem aptSlotFrom_spec (l : List FrameSharingInfo) (i : Nat) (apt : Int) (mg : Bool)
    (inst : Int) :
    aptSlotFrom l i apt mg inst = apt
    ∨ ∃ j s, aptSlotFrom l i apt mg inst = ((i + j : Nat) : Int) ∧ l[j]? = some s
        ∧ s.scope_end ≤ inst ∧ s.is_managed = mg := by
  induction l generalizing i apt with
  | nil => left; rfl
  | cons s rest ih =>
    unfold aptSlotFrom
    by_cases hc : s.scope_end ≤ inst ∧ s.is_managed = mg
    · simp only [hc, and_self, if_true]
      by_cases he : s.scope_end = inst
      · right
        exact ⟨0, s, by simp [he], by simp, hc.1, hc.2⟩
      · simp only [he, if_false]
        by_cases ha : apt < 0
        · simp only [ha, if_true]
          right
          rcases ih (i + 1) (i : Int) with h | ⟨j, s1, h1, h2, h3, h4⟩
          · exact ⟨0, s, by simpa using h, by simp, hc.1, hc.2⟩
          · exact ⟨j + 1, s1, by rw [h1]; congr 1; omega, by simpa using h2, h3, h4⟩
        · simp only [ha, if_false]
          rcases ih (i + 1) apt with h | ⟨j, s1, h1, h2, h3, h4⟩
          · left; exact h
          · right
            exact ⟨j + 1, s1, by rw [h1]; congr 1; omega, by simpa using h2, h3, h4⟩
    · simp only [hc, if_false]
      rcases ih (i + 1) apt with h | ⟨j, s1, h1, h2, h3, h4⟩
      · left; exact h
      · right
        exact ⟨j + 1, s1, by rw [h1]; congr 1; omega, by simpa using h2, h3, h4⟩

theorem modify_append_length {α : Type} (f : α → α) (l : List α) (a : α) :
    (l ++ [a]).modify f l.length = l ++ [f a] := by
  induction l with
  | nil => simp
  | cons b t ih => simp [ih]

theorem mem_modify {α : Type} (f : α → α) (l : List α) (k : Nat) (a : α)
    (h : a ∈ l.modify f k) : a ∈ l ∨ ∃ a0, l[k]? = some a0 ∧ a = f a0 := by
  obtain ⟨j, hj⟩ := List.mem_iff_getElem?.1 h
  rw [List.getElem?_modify] at hj
  cases h0 : l[j]? with
  | none => simp [h0] at hj
  | some a0 =>
    simp only [h0, Option.map_eq_map, Option.map_some', Option.some.injEq] at hj
    by_cases hkj : k = j
    · subst hkj
      simp only [if_true] at hj
      exact Or.inr ⟨a0, h0, hj.symm⟩
    · simp only [hkj, if_false] at hj
      subst hj
      exact Or.inl (List.getElem?_mem h0)

/-- What `ReMapVar` leaves alone. -/
theorem ReMapVar_fields (m : ZAM) (an : Analyses) (id : ID) (slot inst : Int) :
    (m.ReMapVar an id slot inst).insts1 = m.insts1
    ∧ (m.ReMapVar an id slot inst).denizen_ending = m.denizen_ending
    ∧ (m.ReMapVar an id slot inst).denizen_beginning = m.denizen_beginning
    ∧ (m.ReMapVar an id slot inst).inst_beginnings = m.inst_beginnings
    ∧ (m.ReMapVar an id slot inst).frame_layout1 = m.frame_layout1
    ∧ (m.ReMapVar an id slot inst).frame_denizens = m.frame_denizens := by
  unfold ZAM.ReMapVar
  by_cases h : aptSlotFrom m.shared_frame_denizens 0 (-1) (an.IsManagedType id) inst < 0
  · simp [h]
  · simp [h]

/-- The shared slots after `ReMapVar`: a new slot holding just the identifier is appended, or
the identifier is appended to a compatible slot whose scope has ended. -/
theorem ReMapVar_shared (m : ZAM) (an : Analyses) (id : ID) (slot inst : Int) :
    (m.ReMapVar an id slot inst).shared_frame_denizens
        = m.shared_frame_denizens ++
          [{ ids := [id], id_start := [inst], scope_end := m.endingNum slot,
             is_managed := an.IsManagedType id }]
    ∨ ∃ j s, m.shared_frame_denizens[j]? = some s ∧ s.scope_end ≤ inst
        ∧ s.is_managed = an.IsManagedType id
        ∧ (m.ReMapVar an id slot inst).shared_frame_denizens
            = m.shared_frame_denizens.modify
                (fun s => { s with ids := s.ids ++ [id], id_start := s.id_start ++ [inst],
                                   scope_end := m.endingNum slot }) j := by
  unfold ZAM.ReMapVar
  rcases aptSlotFrom_spec m.shared_frame_denizens 0 (-1) (an.IsManagedType id) inst with
    h | ⟨j, s, h1, h2, h3, h4⟩
  · left
    simp only [h, show ((-1 : Int) < 0) by decide, if_true]
    rw [modify_append_length]
    rfl
  · right
    have hn : ¬ ((((0 + j : Nat) : Int)) < 0) := by omega
    refine ⟨j, s, h2, h3, h4, ?_⟩
    simp only [h1, hn, if_false]
    simp

theorem endOf_congr (m0 m : ZAM) (h1 : m.insts1 = m0.insts1)
    (h2 : m.denizen_ending = m0.denizen_ending) (h3 : m.frame_layout1 = m0.frame_layout1) :
    m.endOf = m0.endOf ∧ m.layoutSlot = m0.layoutSlot ∧ m.endingNum = m0.endingNum := by
  refine ⟨?_, ?_, ?_⟩
  · funext id; simp [ZAM.endOf, ZAM.endingNum, ZAM.layoutSlot, h1, h2, h3]
  · funext id; simp [ZAM.layoutSlot, h3]
  · funext id; simp [ZAM.endingNum, h1, h2]

theorem slotInv_new (m0 : ZAM) (v : ID) (i : Int) (mg : Bool) :
    m0.slotInv { ids := [v], id_start := [i], scope_end := m0.endOf v, is_managed := mg } := by
  refine ⟨rfl, ?_, ?_⟩
  · intro e he
    simp only [FrameSharingInfo.entries, List.zip_cons_cons, List.zip_nil_right,
      List.mem_singleton] at he
    subst he
    exact le_refl _
  · simp [FrameSharingInfo.entries]

theorem slotInv_extend (m0 : ZAM) (s : FrameSharingInfo) (v : ID) (i : Int)
    (hs : m0.slotInv s) (hend : s.scope_end ≤ i) (hle : i ≤ m0.endOf v) :
    m0.slotInv { s with ids := s.ids ++ [v], id_start := s.id_start ++ [i],
                        scope_end := m0.endOf v } := by
  obtain ⟨h1, h2, h3⟩ := hs
  have hz : (s.ids ++ [v]).zip (s.id_start ++ [i]) = s.entries ++ [(v, i)] := by
    rw [List.zip_append h1]; rfl
  refine ⟨by simp [h1], ?_, ?_⟩
  · intro e he
    simp only [FrameSharingInfo.entries, hz, List.mem_append, List.mem_singleton] at he
    rcases he with he | he
    · have := h2 e he
      simp only
      omega
    · subst he
      exact le_refl _
  · simp only [FrameSharingInfo.entries, hz]
    rw [List.pairwise_append]
    refine ⟨h3, List.pairwise_singleton _ _, ?_⟩
    intro a ha b hb
    simp only [List.mem_singleton] at hb
    subst hb
    have := h2 a ha
    simp only
    omega

/-- One call of `ReMapVar` by `ReMapFrame` keeps the invariant, when the identifier does not
begin after its lifetime ends. -/
theorem ReMapVar_remapInv (m0 m : ZAM) (an : Analyses) (v : ID) (i : Int)
    (hinv : m0.remapInv m) (hle : i ≤ m0.endOf v) :
    m0.remapInv (m.ReMapVar an v (m.layoutSlot v) i) := by
  obtain ⟨h1, h2, h3, h4, h5, h6, h7⟩ := hinv
  obtain ⟨f1, f2, f3, f4, f5, f6⟩ := ReMapVar_fields m an v (m.layoutSlot v) i
  obtain ⟨c1, c2, c3⟩ := endOf_congr m0 m h1 h2 h5
  have hend : m.endingNum (m.layoutSlot v) = m0.endOf v := by
    rw [← c1]; rfl
  refine ⟨f1.trans h1, f2.trans h2, f3.trans h3, f4.trans h4, f5.trans h5, f6.trans h6, ?_⟩
  intro s hs
  rcases ReMapVar_shared m an v (m.layoutSlot v) i with e | ⟨j, s0, hj, hse, _, e⟩
  · rw [e, List.mem_append, List.mem_singleton] at hs
    rcases hs with hs | hs
    · exact h7 s hs
    · rw [hs, hend]; exact slotInv_new m0 v i _
  · rw [e] at hs
    rcases mem_modify _ _ _ _ hs with hs | ⟨a0, ha0, hs⟩
    · exact h7 s hs
    · rw [hj] at ha0
      cases ha0
      rw [hs, hend]
      exact slotInv_extend m0 s0 v i (h7 s0 (List.getElem?_mem hj)) hse hle

theorem remapVarsAt_remapInv (m0 : ZAM) (an : Analyses) (i : Nat) (vars : List ID) (m : ZAM)
    (hinv : m0.remapInv m)
    (hle : ∀ v ∈ vars, (m0.denizen_ending (m0.layoutSlot v)).isSome → (i : Int) ≤ m0.endOf v) :
    m0.remapInv (m.remapVarsAt an i vars) := by
  induction vars generalizing m with
  | nil => exact hinv
  | cons v vars ih =>
    unfold ZAM.remapVarsAt
    apply ih
    · obtain ⟨h1, h2, h3, h4, h5, h6, h7⟩ := hinv
      obtain ⟨_, c2, _⟩ := endOf_congr m0 m h1 h2 h5
      by_cases hs : (m.denizen_ending (m.layoutSlot v)).isSome = true
      · simp only [hs, if_true]
        apply ReMapVar_remapInv m0 m an v i ⟨h1, h2, h3, h4, h5, h6, h7⟩
        apply hle v (List.mem_cons_self _ _)
        rw [← c2, ← h2]; exact hs
      · simp only [hs]
        exact ⟨h1, h2, h3, h4, h5, h6, h7⟩
    · intro v1 hv1
      exact hle v1 (List.mem_cons_of_mem _ hv1)

theorem remapAt_remapInv (m0 : ZAM) (an : Analyses) (hperm : ∀ l, (an.setOrder l).Perm l)
    (hse : m0.startsBeforeEnds) (i : Nat) (m : ZAM) (hinv : m0.remapInv m) :
    m0.remapInv (m.remapAt an i) := by
  unfold ZAM.remapAt
  cases hb : m.inst_beginnings i with
  | none => exact hinv
  | some vars =>
    simp only
    apply remapVarsAt_remapInv m0 an i _ m hinv
    intro v hv
    have hb0 : m0.inst_beginnings i = some vars := by rw [← hinv.2.2.2.1]; exact hb
    exact hse i vars hb0 v ((hperm vars).mem_iff.1 hv)

theorem remapVars_remapInv (m : ZAM) (an : Analyses) (hperm : ∀ l, (an.setOrder l).Perm l)
    (h0 : m.shared_frame_denizens = []) (hse : m.startsBeforeEnds) :
    m.remapInv (m.remapVars an) := by
  unfold ZAM.remapVars
  have key : ∀ (is : List Nat) (m1 : ZAM), m.remapInv m1 →
      m.remapInv (is.foldl (fun m1 i => m1.remapAt an i) m1) := by
    intro is
    induction is with
    | nil => intro m1 h; exact h
    | cons i is ih =>
      intro m1 h
      exact ih _ (remapAt_remapInv m an hperm hse i m1 h)
  apply key
  refine ⟨rfl, rfl, rfl, rfl, rfl, rfl, ?_⟩
  intro s hs
  have : m.remapStart.shared_frame_denizens = [] := h0
  simp only [this, List.not_mem_nil] at hs

theorem modifyInst_frame (m : ZAM) (r : InstRef) (f : ZInst → ZInst) :
    (m.modifyInst r f).shared_frame_denizens = m.shared_frame_denizens
    ∧ (m.modifyInst r f).frame1_to_frame2 = m.frame1_to_frame2
    ∧ (m.modifyInst r f).frame_layout1 = m.frame_layout1
    ∧ (m.modifyInst r f).managed_slots = m.managed_slots := by
  cases r <;> exact ⟨rfl, rfl, rfl, rfl⟩

theorem KillInst_frame (m : ZAM) (i : Nat) :
    (m.KillInst i).shared_frame_denizens = m.shared_frame_denizens
    ∧ (m.KillInst i).frame1_to_frame2 = m.frame1_to_frame2
    ∧ (m.KillInst i).frame_layout1 = m.frame_layout1
    ∧ (m.KillInst i).managed_slots = m.managed_slots := by
  unfold ZAM.KillInst
  cases m.insts1[i]? with
  | none => exact ⟨rfl, rfl, rfl, rfl⟩
  | some z =>
    simp only
    cases z.target <;> cases z.target2 <;>
      simp [(modifyInst_frame _ _ _).1, (modifyInst_frame _ _ _).2.1,
        (modifyInst_frame _ _ _).2.2.1, (modifyInst_frame _ _ _).2.2.2]

theorem rewriteAt_frame (m : ZAM) (zm : ZInstMethods) (rg : List Int) (i : Nat) :
    (m.rewriteAt zm rg i).shared_frame_denizens = m.shared_frame_denizens
    ∧ (m.rewriteAt zm rg i).frame1_to_frame2 = m.frame1_to_frame2
    ∧ (m.rewriteAt zm rg i).frame_layout1 = m.frame_layout1
    ∧ (m.rewriteAt zm rg i).managed_slots = m.managed_slots := by
  unfold ZAM.rewriteAt
  cases m.insts1[i]? with
  | none => exact ⟨rfl, rfl, rfl, rfl⟩
  | some inst =>
    simp only
    split
    · exact ⟨rfl, rfl, rfl, rfl⟩
    · split
      · simp [(KillInst_frame _ _).1, (KillInst_frame _ _).2.1, (KillInst_frame _ _).2.2.1,
          (KillInst_frame _ _).2.2.2]
      · exact ⟨rfl, rfl, rfl, rfl⟩

theorem foldl_rewriteAt_frame (zm : ZInstMethods) (rg : List Int) (is : List Nat) (m : ZAM) :
    (is.foldl (fun ma i => ma.rewriteAt zm rg i) m).shared_frame_denizens
        = m.shared_frame_denizens
    ∧ (is.foldl (fun ma i => ma.rewriteAt zm rg i) m).frame1_to_frame2 = m.frame1_to_frame2
    ∧ (is.foldl (fun ma i => ma.rewriteAt zm rg i) m).frame_layout1 = m.frame_layout1
    ∧ (is.foldl (fun ma i => ma.rewriteAt zm rg i) m).managed_slots = m.managed_slots := by
  induction is generalizing m with
  | nil => exact ⟨rfl, rfl, rfl, rfl⟩
  | cons i is ih =>
    simp only [List.foldl_cons]
    obtain ⟨a1, a2, a3, a4⟩ := ih (m.rewriteAt zm rg i)
    obtain ⟨b1, b2, b3, b4⟩ := rewriteAt_frame m zm rg i
    exact ⟨a1.trans b1, a2.trans b2, a3.trans b3, a4.trans b4⟩

/-- The frame that `ReMapFrame` leaves is the frame its first loop built. -/
theorem ReMapFrame_frame (m : ZAM) (zm : ZInstMethods) (an : Analyses) :
    (m.ReMapFrame zm an).shared_frame_denizens = (m.remapVars an).shared_frame_denizens
    ∧ (m.ReMapFrame zm an).frame1_to_frame2 = (m.remapVars an).frame1_to_frame2
    ∧ (m.ReMapFrame zm an).frame_layout1 = (m.remapVars an).frame_layout1
    ∧ (m.ReMapFrame zm an).managed_slots = (m.remapVars an).managed_slots
    ∧ (m.ReMapFrame zm an).frame_size = ((m.remapVars an).shared_frame_denizens.length : Int) := by
  unfold ZAM.ReMapFrame
  simp only
  obtain ⟨a1, a2, a3, a4⟩ := foldl_rewriteAt_frame zm
    (remapGlobals (m.remapVars an).frame1_to_frame2 (m.remapVars an).globals [] []).2
    (List.range (m.remapVars an).insts1.length)
    { m.remapVars an with
      globals := (remapGlobals (m.remapVars an).frame1_to_frame2 (m.remapVars an).globals [] []).1,
      num_globals :=
        ((remapGlobals (m.remapVars an).frame1_to_frame2 (m.remapVars an).globals [] []).1.length
          : Int) }
  exact ⟨a1, a2, a3, a4, by rw [a1]⟩

/-- C2: after `ReMapFrame`, run on a state without shared slots in which no remapped
identifier begins its lifetime after the instruction at which the lifetime ends, two
identifiers that share a post-optimization slot have non-overlapping lifetimes: `ids` and
`id_start` of a slot run in parallel, and when `x` precedes `y` in `ids`, the `id_start` of `y`
is at or after `denizen_ending[frame_layout1[x]]->inst_num`, the instruction at which the
lifetime of `x` ends. -/
theorem ReMapFrame_lifetimes_disjoint (m : ZAM) (zm : ZInstMethods) (an : Analyses)
    (hperm : ∀ l, (an.setOrder l).Perm l) (h0 : m.shared_frame_denizens = [])
    (hse : m.startsBeforeEnds) :
    ∀ s ∈ (m.ReMapFrame zm an).shared_frame_denizens,
      s.ids.length = s.id_start.length
      ∧ ∀ (j k : Nat) (x : ID) (sy : Int), j < k → s.ids[j]? = some x →
          s.id_start[k]? = some sy → m.endOf x ≤ sy := by
  intro s hs
  rw [(ReMapFrame_frame m zm an).1] at hs
  obtain ⟨h1, _, h3⟩ := (remapVars_remapInv m an hperm h0 hse).2.2.2.2.2.2 s hs
  refine ⟨h1, ?_⟩
  intro j k x sy hjk hx hsy
  have hk : k < s.id_start.length := by
    rcases Nat.lt_or_ge k s.id_start.length with h | h
    · exact h
    · rw [List.getElem?_eq_none h] at hsy; cases hsy
  have hkz : k < s.entries.length := by
    simp only [FrameSharingInfo.entries, List.length_zip]; omega
  have hjz : j < s.entries.length := by omega
  have hR := List.pairwise_iff_getElem.1 h3 j k hjz hkz hjk
  have ej : s.entries[j]? = some (s.entries[j]) := List.getElem?_eq_getElem hjz
  have ek : s.entries[k]? = some (s.entries[k]) := List.getElem?_eq_getElem hkz
  have ej1 := (List.getElem?_zip_eq_some.1 ej).1
  have ek2 := (List.getElem?_zip_eq_some.1 ek).2
  rw [hx] at ej1
  rw [hsy] at ek2
  cases ej1
  cases ek2
  exact hR

/-! ## Lifetimes -/

theorem sameCode_refl (m : ZAM) : m.sameCode m := ⟨rfl, rfl, rfl, rfl, rfl, rfl⟩

theorem sameCode_trans {m0 m1 m2 : ZAM} (h1 : m0.sameCode m1) (h2 : m1.sameCode m2) :
    m0.sameCode m2 :=
  ⟨h2.1.trans h1.1, h2.2.1.trans h1.2.1, h2.2.2.1.trans h1.2.2.1,
    h2.2.2.2.1.trans h1.2.2.2.1, h2.2.2.2.2.1.trans h1.2.2.2.2.1,
    h2.2.2.2.2.2.trans h1.2.2.2.2.2⟩

theorem sameBeginnings_refl (m : ZAM) : m.sameBeginnings m := ⟨rfl, rfl⟩

theorem sameBeginnings_trans {m0 m1 m2 : ZAM} (h1 : m0.sameBeginnings m1)
    (h2 : m1.sameBeginnings m2) : m0.sameBeginnings m2 :=
  ⟨h2.1.trans h1.1, h2.2.trans h1.2⟩

theorem ExtendLifetime_same (m : ZAM) (an : Analyses) (slot : Int) (p : Nat) :
    m.sameCode (m.ExtendLifetime an slot p) ∧ m.sameBeginnings (m.ExtendLifetime an slot p) := by
  unfold ZAM.ExtendLifetime
  cases m.denizen_ending slot with
  | none => exact ⟨⟨rfl, rfl, rfl, rfl, rfl, rfl⟩, ⟨rfl, rfl⟩⟩
  | some old =>
    simp only
    split
    · exact ⟨sameCode_refl m, sameBeginnings_refl m⟩
    · split
      · exact ⟨⟨rfl, rfl, rfl, rfl, rfl, rfl⟩, ⟨rfl, rfl⟩⟩
      · exact ⟨sameCode_refl m, sameBeginnings_refl m⟩

theorem SetLifetimeStart_same (m : ZAM) (slot : Int) (p : Nat) :
    m.sameCode (m.SetLifetimeStart slot p)
    ∧ (m.SetLifetimeStart slot p).denizen_ending = m.denizen_ending := by
  unfold ZAM.SetLifetimeStart
  cases m.denizen_beginning slot with
  | none => exact ⟨⟨rfl, rfl, rfl, rfl, rfl, rfl⟩, rfl⟩
  | some b => exact ⟨sameCode_refl m, rfl⟩

theorem CheckSlotUse_same (m : ZAM) (an : Analyses) (slot : Int) (p : Nat) :
    m.sameCode (m.CheckSlotUse an slot p) ∧ m.sameBeginnings (m.CheckSlotUse an slot p) := by
  unfold ZAM.CheckSlotUse
  split
  · exact ⟨sameCode_refl m, sameBeginnings_refl m⟩
  · exact ExtendLifetime_same m an slot _

theorem usedSlotLifetimes_same (m : ZAM) (zm : ZInstMethods) (an : Analyses) (inst : ZInst)
    (p : Nat) :
    m.sameCode (m.usedSlotLifetimes zm an inst p)
    ∧ m.sameBeginnings (m.usedSlotLifetimes zm an inst p) := by
  unfold ZAM.usedSlotLifetimes
  cases zm.UsesSlots inst with
  | none => exact ⟨sameCode_refl m, sameBeginnings_refl m⟩
  | some t =>
    obtain ⟨s1, s2, s3, s4⟩ := t
    simp only
    have h1 := CheckSlotUse_same m an s1 p
    have h2 := CheckSlotUse_same (m.CheckSlotUse an s1 p) an s2 p
    have h3 := CheckSlotUse_same ((m.CheckSlotUse an s1 p).CheckSlotUse an s2 p) an s3 p
    have h4 := CheckSlotUse_same
      (((m.CheckSlotUse an s1 p).CheckSlotUse an s2 p).CheckSlotUse an s3 p) an s4 p
    exact ⟨sameCode_trans (sameCode_trans (sameCode_trans h1.1 h2.1) h3.1) h4.1,
      sameBeginnings_trans (sameBeginnings_trans (sameBeginnings_trans h1.2 h2.2) h3.2) h4.2⟩

theorem auxLifetimes_same (an : Analyses) (p : Nat) (slots : List Int) (m : ZAM) :
    m.sameCode (m.auxLifetimes an p slots) ∧ m.sameBeginnings (m.auxLifetimes an p slots) := by
  induction slots generalizing m with
  | nil => exact ⟨sameCode_refl m, sameBeginnings_refl m⟩
  | cons s rest ih =>
    unfold ZAM.auxLifetimes
    simp only
    split
    · exact ih m
    · have h1 := ExtendLifetime_same m an s (m.EndOfLoop p 1)
      have h2 := ih (m.ExtendLifetime an s (m.EndOfLoop p 1))
      exact ⟨sameCode_trans h1.1 h2.1, sameBeginnings_trans h1.2 h2.2⟩

theorem syncGlobalLifetimes_same (an : Analyses) (p : Nat) (gs : List ID) (m : ZAM) :
    m.sameCode (m.syncGlobalLifetimes an p gs)
    ∧ m.sameBeginnings (m.syncGlobalLifetimes an p gs) := by
  induction gs generalizing m with
  | nil => exact ⟨sameCode_refl m, sameBeginnings_refl m⟩
  | cons g rest ih =>
    unfold ZAM.syncGlobalLifetimes
    simp only
    split
    · have h1 := ExtendLifetime_same m an (m.layoutSlot g) (m.EndOfLoop p 1)
      have h2 := ih (m.ExtendLifetime an (m.layoutSlot g) (m.EndOfLoop p 1))
      exact ⟨sameCode_trans h1.1 h2.1, sameBeginnings_trans h1.2 h2.2⟩
    · exact ih m

theorem backWhileDeep_bounds (m : ZAM) (depth : Int) (n : Nat) :
    -1 ≤ m.backWhileDeep depth n ∧ m.backWhileDeep depth n ≤ (n : Int) := by
  induction n with
  | zero =>
    unfold ZAM.backWhileDeep
    split <;> simp
  | succ n ih =>
    unfold ZAM.backWhileDeep
    split
    · constructor
      · exact ih.1
      · have := ih.2
        push_cast
        omega
    · constructor
      · push_cast; omega
      · exact le_refl _

theorem upToLive_le (m : ZAM) (stop fuel i : Nat) (h : i ≤ stop) (hf : stop - i ≤ fuel) :
    m.upToLive stop fuel i ≤ stop := by
  induction fuel generalizing i with
  | zero =>
    unfold ZAM.upToLive
    exact h
  | succ fuel ih =>
    unfold ZAM.upToLive
    split
    · rename_i hc
      apply ih
      · have := hc.1; omega
      · omega
    · exact h

theorem BeginningOfLoop_le (m : ZAM) (p : Nat) (depth : Int) (hn : m.numAt p = (p : Int)) :
    m.BeginningOfLoop p depth ≤ p := by
  unfold ZAM.BeginningOfLoop
  simp only [hn, Int.toNat_ofNat]
  obtain ⟨h1, h2⟩ := backWhileDeep_bounds m depth p
  split
  · exact le_refl _
  · rename_i hne
    apply upToLive_le
    · omega
    · exact le_refl _

theorem mem_setInsert (s : List ID) (x y : ID) : y ∈ setInsert s x ↔ y ∈ s ∨ y = x := by
  unfold setInsert
  split
  · rename_i h
    constructor
    · intro h1; exact Or.inl h1
    · rintro (h1 | h1)
      · exact h1
      · rw [h1]; exact h
  · simp

theorem nodup_setInsert (s : List ID) (x : ID) (h : s.Nodup) : (setInsert s x).Nodup := by
  unfold setInsert
  split
  · exact h
  · rename_i hx
    rw [List.nodup_append]
    refine ⟨h, List.nodup_singleton _, ?_⟩
    intro a ha hb
    simp only [List.mem_singleton] at hb
    subst hb
    exact hx ha

theorem beginInv_mono (m : ZAM) (k k1 : Nat) (hk : k ≤ k1) (h : m.beginInv k) :
    m.beginInv k1 := by
  refine ⟨?_, h.2⟩
  intro s p hs
  obtain ⟨a, b, c⟩ := h.1 s p hs
  exact ⟨a, by omega, c⟩

theorem beginInv_congr (m0 m : ZAM) (k : Nat) (hc : m0.sameCode m) (hb : m0.sameBeginnings m)
    (h : m0.beginInv k) : m.beginInv k := by
  obtain ⟨c1, c2, c3, c4, _, _⟩ := hc
  obtain ⟨b1, b2⟩ := hb
  unfold ZAM.beginInv ZAM.validSlot ZAM.denizen
  rw [b1, b2, c2]
  exact h

theorem SetLifetimeStart_beginInv (m : ZAM) (k : Nat) (slot : Int) (p : Nat)
    (h : m.beginInv k) (hv : m.validSlot slot) (hp : p < k) :
    (m.SetLifetimeStart slot p).beginInv k := by
  unfold ZAM.SetLifetimeStart
  cases hb : m.denizen_beginning slot with
  | some b => exact h
  | none =>
    simp only
    obtain ⟨ha, hbb⟩ := h
    have hold : ((m.inst_beginnings p).getD []).Nodup
        ∧ ∀ v ∈ (m.inst_beginnings p).getD [],
            ∃ s, m.denizen_beginning s = some p ∧ m.denizen s = v := by
      cases hp0 : m.inst_beginnings p with
      | none => simp
      | some vars0 => simpa using hbb p vars0 hp0
    constructor
    · intro s1 p1 hs1
      simp only at hs1
      by_cases e : s1 = slot
      · subst e
        simp only [if_true, Option.some.injEq] at hs1
        subst hs1
        refine ⟨hv, hp, _, by simp only [mapInsert, if_true]; rfl, ?_⟩
        rw [mem_setInsert]
        right; rfl
      · simp only [e, if_false] at hs1
        obtain ⟨a1, a2, vars, a3, a4⟩ := ha s1 p1 hs1
        refine ⟨a1, a2, ?_⟩
        by_cases e1 : p1 = p
        · subst e1
          refine ⟨_, by simp only [mapInsert, if_true]; rfl, ?_⟩
          rw [mem_setInsert, a3]
          left; exact a4
        · exact ⟨vars, by simp only [mapInsert, e1, if_false]; exact a3, a4⟩
    · intro p1 vars1 hp1
      simp only [mapInsert] at hp1
      by_cases e1 : p1 = p
      · subst e1
        simp only [if_true, Option.some.injEq] at hp1
        subst hp1
        refine ⟨nodup_setInsert _ _ hold.1, ?_⟩
        intro v hvm
        rw [mem_setInsert] at hvm
        rcases hvm with hvm | hvm
        · obtain ⟨s, hs, hd⟩ := hold.2 v hvm
          have hne : s ≠ slot := by
            intro e; rw [e, hb] at hs; cases hs
          exact ⟨s, by simp only [hne, if_false]; exact hs, hd⟩
        · exact ⟨slot, by simp, hvm.symm⟩
      · simp only [e1, if_false] at hp1
        obtain ⟨n1, n2⟩ := hbb p1 vars1 hp1
        refine ⟨n1, ?_⟩
        intro v hvm
        obtain ⟨s, hs, hd⟩ := n2 v hvm
        have hne : s ≠ slot := by
          intro e; rw [e, hb] at hs; cases hs
        exact ⟨s, by simp only [hne, if_false]; exact hs, hd⟩

theorem stepOK_refl (k : Nat) (m : ZAM) : ZAM.stepOK k m m :=
  ⟨sameCode_refl m, ⟨fun _ _ h => h, fun _ h => h⟩, fun h => h⟩

theorem stepOK_trans {k : Nat} {m0 m1 m2 : ZAM} (h1 : ZAM.stepOK k m0 m1)
    (h2 : ZAM.stepOK k m1 m2) : ZAM.stepOK k m0 m2 :=
  ⟨sameCode_trans h1.1 h2.1,
    ⟨fun s b h => h2.2.1.1 s b (h1.2.1.1 s b h), fun s h => h2.2.1.2 s (h1.2.1.2 s h)⟩,
    fun h => h2.2.2 (h1.2.2 h)⟩

theorem ExtendLifetime_ending (m : ZAM) (an : Analyses) (slot : Int) (p : Nat) :
    (∀ s, (m.denizen_ending s).isSome = true →
      ((m.ExtendLifetime an slot p).denizen_ending s).isSome = true)
    ∧ ((m.ExtendLifetime an slot p).denizen_ending slot).isSome = true := by
  unfold ZAM.ExtendLifetime
  cases hd : m.denizen_ending slot with
  | none =>
    simp only
    constructor
    · intro s hs
      by_cases e : s = slot
      · simp [e]
      · simp only [e, if_false]; exact hs
    · simp
  | some old =>
    simp only
    split
    · exact ⟨fun _ h => h, by simp [hd]⟩
    · split
      · constructor
        · intro s hs
          by_cases e : s = slot
          · simp [e]
          · simp only [e, if_false]; exact hs
        · simp
      · exact ⟨fun _ h => h, by simp [hd]⟩

theorem ExtendLifetime_stepOK (k : Nat) (m : ZAM) (an : Analyses) (slot : Int) (p : Nat) :
    ZAM.stepOK k m (m.ExtendLifetime an slot p) := by
  obtain ⟨h1, h2⟩ := ExtendLifetime_same m an slot p
  refine ⟨h1, ⟨?_, (ExtendLifetime_ending m an slot p).1⟩, beginInv_congr m _ k h1 h2⟩
  intro s b hs
  rw [h2.1]; exact hs

theorem CheckSlotUse_stepOK (k : Nat) (m : ZAM) (an : Analyses) (slot : Int) (p : Nat) :
    ZAM.stepOK k m (m.CheckSlotUse an slot p)
    ∧ (0 ≤ slot → ((m.CheckSlotUse an slot p).denizen_ending slot).isSome = true) := by
  unfold ZAM.CheckSlotUse
  split
  · rename_i h
    exact ⟨stepOK_refl k m, fun h0 => absurd h (by omega)⟩
  · exact ⟨ExtendLifetime_stepOK k m an slot _, fun _ => (ExtendLifetime_ending m an slot _).2⟩

theorem usedSlotLifetimes_stepOK (k : Nat) (m : ZAM) (zm : ZInstMethods) (an : Analyses)
    (inst : ZInst) (p : Nat) :
    ZAM.stepOK k m (m.usedSlotLifetimes zm an inst p)
    ∧ ∀ s ∈ zm.usedSlots inst, 0 ≤ s →
        ((m.usedSlotLifetimes zm an inst p).denizen_ending s).isSome = true := by
  unfold ZAM.usedSlotLifetimes ZInstMethods.usedSlots
  cases zm.UsesSlots inst with
  | none => exact ⟨stepOK_refl k m, by simp⟩
  | some t =>
    obtain ⟨s1, s2, s3, s4⟩ := t
    simp only
    obtain ⟨a1, b1⟩ := CheckSlotUse_stepOK k m an s1 p
    obtain ⟨a2, b2⟩ := CheckSlotUse_stepOK k (m.CheckSlotUse an s1 p) an s2 p
    obtain ⟨a3, b3⟩ := CheckSlotUse_stepOK k
      ((m.CheckSlotUse an s1 p).CheckSlotUse an s2 p) an s3 p
    obtain ⟨a4, b4⟩ := CheckSlotUse_stepOK k
      (((m.CheckSlotUse an s1 p).CheckSlotUse an s2 p).CheckSlotUse an s3 p) an s4 p
    refine ⟨stepOK_trans (stepOK_trans (stepOK_trans a1 a2) a3) a4, ?_⟩
    intro s hs h0
    simp only [List.mem_cons, List.mem_singleton, List.not_mem_nil, or_false] at hs
    rcases hs with rfl | rfl | rfl | rfl
    · exact a4.2.1.2 _ (a3.2.1.2 _ (a2.2.1.2 _ (b1 h0)))
    · exact a4.2.1.2 _ (a3.2.1.2 _ (b2 h0))
    · exact a4.2.1.2 _ (b3 h0)
    · exact b4 h0

theorem auxLifetimes_stepOK (k : Nat) (an : Analyses) (p : Nat) (slots : List Int) (m : ZAM) :
    ZAM.stepOK k m (m.auxLifetimes an p slots) := by
  induction slots generalizing m with
  | nil => exact stepOK_refl k m
  | cons s rest ih =>
    unfold ZAM.auxLifetimes
    simp only
    split
    · exact ih m
    · exact stepOK_trans (ExtendLifetime_stepOK k m an s _) (ih _)

theorem syncGlobalLifetimes_stepOK (k : Nat) (an : Analyses) (p : Nat) (gs : List ID)
    (m : ZAM) : ZAM.stepOK k m (m.syncGlobalLifetimes an p gs) := by
  induction gs generalizing m with
  | nil => exact stepOK_refl k m
  | cons g rest ih =>
    unfold ZAM.syncGlobalLifetimes
    simp only
    split
    · exact stepOK_trans (ExtendLifetime_stepOK k m an _ _) (ih _)
    · exact ih m

theorem SetLifetimeStart_stepOK (k : Nat) (m : ZAM) (slot : Int) (p : Nat)
    (hv : m.validSlot slot) (hp : p < k) :
    ZAM.stepOK k m (m.SetLifetimeStart slot p)
    ∧ ((m.SetLifetimeStart slot p).denizen_beginning slot).isSome = true := by
  refine ⟨⟨(SetLifetimeStart_same m slot p).1, ⟨?_, ?_⟩,
    fun h => SetLifetimeStart_beginInv m k slot p h hv hp⟩, ?_⟩
  · intro s b hs
    unfold ZAM.SetLifetimeStart
    cases hb : m.denizen_beginning slot with
    | some b0 => exact hs
    | none =>
      simp only
      have : s ≠ slot := by intro e; rw [e, hb] at hs; cases hs
      simp only [this, if_false]; exact hs
  · intro s hs
    rw [(SetLifetimeStart_same m slot p).2]; exact hs
  · unfold ZAM.SetLifetimeStart
    cases hb : m.denizen_beginning slot with
    | some b0 => simp [hb]
    | none => simp

theorem CheckSlotAssignment_stepOK (k : Nat) (m : ZAM) (an : Analyses) (slot : Int) (p : Nat)
    (hv : m.validSlot slot) (hp : p < k) (hn : m.numAt p = (p : Int)) :
    ZAM.stepOK k m (m.CheckSlotAssignment an slot p)
    ∧ ((m.CheckSlotAssignment an slot p).denizen_beginning slot).isSome = true := by
  unfold ZAM.CheckSlotAssignment
  simp only
  split
  · exact SetLifetimeStart_stepOK k m slot _ hv
      (lt_of_le_of_lt (BeginningOfLoop_le m p 1 hn) hp)
  · exact SetLifetimeStart_stepOK k m slot p hv hp

theorem sameCode_validSlot {m0 m : ZAM} (h : m0.sameCode m) (s : Int) :
    m.validSlot s ↔ m0.validSlot s := by
  unfold ZAM.validSlot
  rw [h.2.1]

theorem sameCode_numAt {m0 m : ZAM} (h : m0.sameCode m) (p : Nat) : m.numAt p = m0.numAt p := by
  unfold ZAM.numAt
  rw [h.1]

theorem iterVarLifetimes_stepOK (k : Nat) (an : Analyses) (p : Nat) (depth : Int)
    (vs : List Int) (m : ZAM) (hv : ∀ v ∈ vs, m.validSlot v) (hp : p < k)
    (hn : m.numAt p = (p : Int)) :
    ZAM.stepOK k m (m.iterVarLifetimes an p depth vs) := by
  induction vs generalizing m with
  | nil => exact stepOK_refl k m
  | cons v rest ih =>
    unfold ZAM.iterVarLifetimes
    simp only
    have h1 := (CheckSlotAssignment_stepOK k m an v p (hv v (List.mem_cons_self _ _)) hp hn).1
    have h2 := ExtendLifetime_stepOK k (m.CheckSlotAssignment an v p) an v
      ((m.CheckSlotAssignment an v p).EndOfLoop p depth)
    have h12 := stepOK_trans h1 h2
    refine stepOK_trans h12 (ih _ ?_ ?_)
    · intro v1 hv1
      exact (sameCode_validSlot h12.1 v1).2 (hv v1 (List.mem_cons_of_mem _ hv1))
    · rw [sameCode_numAt h12.1]; exact hn

/-- One round of the loop of `ComputeFrameLifetimes`. -/
theorem lifetimesAt_spec (m : ZAM) (zm : ZInstMethods) (an : Analyses) (i : Nat) (inst : ZInst)
    (hi : m.insts1[i]? = some inst) (hn : inst.inst_num = (i : Int))
    (hvalid : inst.live = true →
      (zm.AssignsToSlot1 inst = true → m.validSlot inst.v1)
      ∧ (inst.op.isTableIter → ∀ v ∈ inst.loop_vars, m.validSlot v)) :
    ZAM.stepOK (i + 1) m (m.lifetimesAt zm an i)
    ∧ (inst.live = true →
        (zm.AssignsToSlot1 inst = true →
          ((m.lifetimesAt zm an i).denizen_beginning inst.v1).isSome = true)
        ∧ (¬ inst.op.isInitLoop → ∀ s ∈ zm.usedSlots inst, 0 ≤ s →
          ((m.lifetimesAt zm an i).denizen_ending s).isSome = true)) := by
  have hnum : m.numAt i = (i : Int) := by simp [ZAM.numAt, hi, hn]
  unfold ZAM.lifetimesAt
  simp only [hi]
  by_cases hl : inst.live = true
  swap
  · simp only [Bool.not_eq_true] at hl
    simp only [hl, if_true]
    exact ⟨stepOK_refl _ m, fun h => by cases h⟩
  obtain ⟨hv1, hv2⟩ := hvalid hl
  simp only [hl, Bool.true_eq_false, if_false]
  -- the state after the check of the assignment to slot 1
  obtain ⟨m1, hm1⟩ : ∃ m1, m1 =
      (if zm.AssignsToSlot1 inst = true then m.CheckSlotAssignment an inst.v1 i else m) :=
    ⟨_, rfl⟩
  have h1 : ZAM.stepOK (i + 1) m m1
      ∧ (zm.AssignsToSlot1 inst = true → (m1.denizen_beginning inst.v1).isSome = true) := by
    rw [hm1]
    by_cases ha : zm.AssignsToSlot1 inst = true
    · simp only [ha, if_true]
      obtain ⟨a, b⟩ := CheckSlotAssignment_stepOK (i + 1) m an inst.v1 i (hv1 ha)
        (Nat.lt_succ_self i) hnum
      exact ⟨a, fun _ => b⟩
    · simp only [ha]
      exact ⟨stepOK_refl _ m, fun h => absurd h (by simp)⟩
  rw [← hm1]
  have keep : ∀ m2 : ZAM, ZAM.stepOK (i + 1) m1 m2 →
      (zm.AssignsToSlot1 inst = true → (m2.denizen_beginning inst.v1).isSome = true) := by
    intro m2 h2 ha
    have := h1.2 ha
    cases hb : m1.denizen_beginning inst.v1 with
    | none => simp [hb] at this
    | some b => rw [h2.2.1.1 _ b hb]; rfl
  have hnum1 : m1.numAt i = (i : Int) := by rw [sameCode_numAt h1.1.1]; exact hnum
  by_cases hiter : inst.op = ZOp.OP_NEXT_TABLE_ITER_VV
      ∨ inst.op = ZOp.OP_NEXT_TABLE_ITER_VAL_VAR_VVV
  · simp only [hiter, if_true]
    have a2 := iterVarLifetimes_stepOK (i + 1) an i inst.loop_depth inst.loop_vars m1
      (fun v hv => (sameCode_validSlot h1.1.1 v).2 (hv2 hiter v hv)) (Nat.lt_succ_self i) hnum1
    obtain ⟨m3, hm3⟩ : ∃ m3, m3 =
        (if inst.op = ZOp.OP_NEXT_TABLE_ITER_VAL_VAR_VVV then
          (m1.iterVarLifetimes an i inst.loop_depth inst.loop_vars).ExtendLifetime an inst.v1
            ((m1.iterVarLifetimes an i inst.loop_depth inst.loop_vars).EndOfLoop i
              inst.loop_depth)
        else m1.iterVarLifetimes an i inst.loop_depth inst.loop_vars) := ⟨_, rfl⟩
    have a3 : ZAM.stepOK (i + 1) m1 m3 := by
      rw [hm3]
      split
      · exact stepOK_trans a2 (ExtendLifetime_stepOK _ _ an _ _)
      · exact a2
    rw [← hm3]
    obtain ⟨a4, b4⟩ := usedSlotLifetimes_stepOK (i + 1) m3 zm an inst i
    have a14 := stepOK_trans a3 a4
    exact ⟨stepOK_trans h1.1 a14, fun _ => ⟨keep _ a14, fun _ => b4⟩⟩
  · simp only [hiter, if_false]
    by_cases hsync : inst.op = ZOp.OP_SYNC_GLOBALS_X
    · simp only [hsync, if_true]
      have a2 := syncGlobalLifetimes_stepOK (i + 1) an i (an.setOrder m1.modified_globals) m1
      obtain ⟨a4, b4⟩ := usedSlotLifetimes_stepOK (i + 1)
        (m1.syncGlobalLifetimes an i (an.setOrder m1.modified_globals)) zm an inst i
      have a14 := stepOK_trans a2 a4
      exact ⟨stepOK_trans h1.1 a14, fun _ => ⟨keep _ a14, fun _ => b4⟩⟩
    · simp only [hsync, if_false]
      by_cases hinit : inst.op = ZOp.OP_INIT_TABLE_LOOP_VVC
          ∨ inst.op = ZOp.OP_INIT_VECTOR_LOOP_VV ∨ inst.op = ZOp.OP_INIT_STRING_LOOP_VV
      · simp only [hinit, if_true]
        have a2 := ExtendLifetime_stepOK (i + 1) m1 an inst.v2
          (m1.EndOfLoop (i + 1) (m1.depthAt (i + 1)))
        exact ⟨stepOK_trans h1.1 a2, fun _ => ⟨keep _ a2, fun hni => absurd hinit hni⟩⟩
      · simp only [hinit, if_false]
        obtain ⟨m2, hm2⟩ : ∃ m2, m2 =
            (match inst.aux with
              | none => m1
              | some slots => m1.auxLifetimes an i slots) := ⟨_, rfl⟩
        have a2 : ZAM.stepOK (i + 1) m1 m2 := by
          rw [hm2]
          cases inst.aux with
          | none => exact stepOK_refl _ m1
          | some slots => exact auxLifetimes_stepOK _ an i slots m1
        rw [← hm2]
        obtain ⟨a4, b4⟩ := usedSlotLifetimes_stepOK (i + 1) m2 zm an inst i
        have a14 := stepOK_trans a2 a4
        exact ⟨stepOK_trans h1.1 a14, fun _ => ⟨keep _ a14, fun _ => b4⟩⟩

theorem recordedAt_grow {m m1 : ZAM} (zm : ZInstMethods) (i : Nat) (inst : ZInst)
    (hg : m.lifetimesGrow m1) (h : m.recordedAt zm i inst) : m1.recordedAt zm i inst := by
  constructor
  · intro ha
    obtain ⟨b, hb, hle⟩ := h.1 ha
    exact ⟨b, hg.1 _ b hb, hle⟩
  · intro hni s hs h0
    exact hg.2 s (h.2 hni s hs h0)

/-- The state after `ComputeFrameLifetimes` has visited the instructions before `k`. -/
theorem lifetimes_prefix (m : ZAM) (zm : ZInstMethods) (an : Analyses) (hnum : m.numbered)
    (hvalid : m.assignedSlotsValid zm) (k : Nat) :
    m.sameCode ((List.range k).foldl (fun m1 i => m1.lifetimesAt zm an i) m.clearLifetimes)
    ∧ ((List.range k).foldl (fun m1 i => m1.lifetimesAt zm an i) m.clearLifetimes).beginInv k
    ∧ ∀ i inst, i < k → m.insts1[i]? = some inst → inst.live = true →
        ((List.range k).foldl (fun m1 i => m1.lifetimesAt zm an i) m.clearLifetimes).recordedAt
          zm i inst := by
  induction k with
  | zero =>
    refine ⟨⟨rfl, rfl, rfl, rfl, rfl, rfl⟩, ⟨?_, ?_⟩, ?_⟩
    · intro s p h; simp [ZAM.clearLifetimes] at h
    · intro p vars h; simp [ZAM.clearLifetimes] at h
    · intro i inst h; omega
  | succ k ih =>
    simp only [List.range_succ, List.foldl_append, List.foldl_cons, List.foldl_nil]
    obtain ⟨h1, h2, h3⟩ := ih
    generalize (List.range k).foldl (fun m1 i => m1.lifetimesAt zm an i) m.clearLifetimes
      = mk at h1 h2 h3
    cases hk : m.insts1[k]? with
    | none =>
      have : mk.lifetimesAt zm an k = mk := by
        unfold ZAM.lifetimesAt
        rw [h1.1, hk]
      rw [this]
      refine ⟨h1, beginInv_mono mk k (k + 1) (Nat.le_succ k) h2, ?_⟩
      intro i inst hi hinst hl
      have : i < k := by
        rcases Nat.lt_or_ge i k with h | h
        · exact h
        · have : i = k := by omega
          rw [this, hk] at hinst; cases hinst
      exact h3 i inst this hinst hl
    | some instk =>
      have hk1 : mk.insts1[k]? = some instk := by rw [h1.1]; exact hk
      have hvk := hvalid instk (List.getElem?_mem hk)
      obtain ⟨s1, s2⟩ := lifetimesAt_spec mk zm an k instk hk1 (hnum k instk hk)
        (fun hl => ⟨fun ha => (sameCode_validSlot h1 _).2 ((hvk hl).1 ha),
          fun hi v hv => (sameCode_validSlot h1 _).2 ((hvk hl).2 hi v hv)⟩)
      have hinv := s1.2.2 (beginInv_mono mk k (k + 1) (Nat.le_succ k) h2)
      refine ⟨sameCode_trans h1 s1.1, hinv, ?_⟩
      intro i inst hi hinst hl
      rcases Nat.lt_or_ge i k with h | h
      · exact recordedAt_grow zm i inst s1.2.1 (h3 i inst h hinst hl)
      · have hik : i = k := by omega
        subst hik
        rw [hk] at hinst
        cases hinst
        obtain ⟨r1, r2⟩ := s2 hl
        refine ⟨?_, r2⟩
        intro ha
        have hsome := r1 ha
        cases hb : (mk.lifetimesAt zm an i).denizen_beginning instk.v1 with
        | none => simp [hb] at hsome
        | some b =>
          obtain ⟨_, hlt, _⟩ := hinv.1 _ b hb
          exact ⟨b, rfl, by omega⟩

/-- What `ComputeFrameLifetimes` establishes: it leaves the code and the frame layout alone,
the beginnings satisfy their invariant, and for every live instruction the assigned slot has a
beginning at or before the instruction and the used slots have an ending. -/
theorem ComputeFrameLifetimes_spec (m : ZAM) (zm : ZInstMethods) (an : Analyses)
    (hnum : m.numbered) (hvalid : m.assignedSlotsValid zm) :
    m.sameCode (m.ComputeFrameLifetimes zm an)
    ∧ (m.ComputeFrameLifetimes zm an).beginInv m.insts1.length
    ∧ ∀ i inst, m.insts1[i]? = some inst → inst.live = true →
        (m.ComputeFrameLifetimes zm an).recordedAt zm i inst := by
  obtain ⟨h1, h2, h3⟩ := lifetimes_prefix m zm an hnum hvalid m.insts1.length
  refine ⟨h1, h2, ?_⟩
  intro i inst hi hl
  have hlt : i < m.insts1.length := by
    rcases Nat.lt_or_ge i m.insts1.length with h | h
    · exact h
    · rw [List.getElem?_eq_none h] at hi; cases hi
  exact h3 i inst hlt hi hl

/-! ## The size of the remapped frame -/

theorem remapKeeps_refl (m : ZAM) : m.remapKeeps m := ⟨rfl, rfl, rfl, rfl, rfl, rfl⟩

theorem remapKeeps_trans {m0 m1 m2 : ZAM} (h1 : m0.remapKeeps m1) (h2 : m1.remapKeeps m2) :
    m0.remapKeeps m2 :=
  ⟨h2.1.trans h1.1, h2.2.1.trans h1.2.1, h2.2.2.1.trans h1.2.2.1,
    h2.2.2.2.1.trans h1.2.2.2.1, h2.2.2.2.2.1.trans h1.2.2.2.2.1,
    h2.2.2.2.2.2.trans h1.2.2.2.2.2⟩

theorem ReMapVar_keeps (m : ZAM) (an : Analyses) (id : ID) (slot inst : Int) :
    m.remapKeeps (m.ReMapVar an id slot inst) := by
  obtain ⟨f1, f2, f3, f4, f5, f6⟩ := ReMapVar_fields m an id slot inst
  exact ⟨f1, f2, f3, f4, f5, f6⟩

theorem ReMapVar_length (m : ZAM) (an : Analyses) (id : ID) (slot inst : Int) :
    (m.ReMapVar an id slot inst).shared_frame_denizens.length
      ≤ m.shared_frame_denizens.length + 1 := by
  rcases ReMapVar_shared m an id slot inst with e | ⟨j, s, _, _, _, e⟩
  · rw [e]; simp
  · rw [e]; simp

theorem remapVarsAt_length (an : Analyses) (i : Nat) (vars : List ID) (m : ZAM) :
    m.remapKeeps (m.remapVarsAt an i vars)
    ∧ (m.remapVarsAt an i vars).shared_frame_denizens.length
        ≤ m.shared_frame_denizens.length + vars.length := by
  induction vars generalizing m with
  | nil => exact ⟨remapKeeps_refl m, by simp [ZAM.remapVarsAt]⟩
  | cons v vars ih =>
    unfold ZAM.remapVarsAt
    simp only
    split
    · obtain ⟨a, b⟩ := ih (m.ReMapVar an v (m.layoutSlot v) (i : Int))
      have c := ReMapVar_length m an v (m.layoutSlot v) (i : Int)
      refine ⟨remapKeeps_trans (ReMapVar_keeps m an v _ _) a, ?_⟩
      simp only [List.length_cons]
      omega
    · obtain ⟨a, b⟩ := ih m
      refine ⟨a, ?_⟩
      simp only [List.length_cons]
      omega

theorem remapAt_length (an : Analyses) (hperm : ∀ l, (an.setOrder l).Perm l) (i : Nat)
    (m : ZAM) :
    m.remapKeeps (m.remapAt an i)
    ∧ (m.remapAt an i).shared_frame_denizens.length
        ≤ m.shared_frame_denizens.length + (m.beginningsAt i).length := by
  unfold ZAM.remapAt ZAM.beginningsAt
  cases m.inst_beginnings i with
  | none => exact ⟨remapKeeps_refl m, by simp⟩
  | some vars =>
    obtain ⟨a, b⟩ := remapVarsAt_length an i (an.setOrder vars) m
    rw [(hperm vars).length_eq] at b
    exact ⟨a, b⟩

theorem foldl_remapAt_length (an : Analyses) (hperm : ∀ l, (an.setOrder l).Perm l)
    (is : List Nat) (m : ZAM) :
    m.remapKeeps (is.foldl (fun m1 i => m1.remapAt an i) m)
    ∧ (is.foldl (fun m1 i => m1.remapAt an i) m).shared_frame_denizens.length
        ≤ m.shared_frame_denizens.length + (is.flatMap m.beginningsAt).length := by
  induction is generalizing m with
  | nil => exact ⟨remapKeeps_refl m, by simp⟩
  | cons i is ih =>
    simp only [List.foldl_cons, List.flatMap_cons, List.length_append]
    obtain ⟨a, b⟩ := remapAt_length an hperm i m
    obtain ⟨c, d⟩ := ih (m.remapAt an i)
    have e : (m.remapAt an i).beginningsAt = m.beginningsAt := by
      funext j; simp [ZAM.beginningsAt, a.2.2.2.1]
    rw [e] at d
    exact ⟨remapKeeps_trans a c, by omega⟩

theorem denizen_mem (m : ZAM) (s : Int) (hv : m.validSlot s) :
    m.frame_denizens[s.toNat]? = some (m.denizen s) ∧ m.denizen s ∈ m.frame_denizens := by
  have hlt : s.toNat < m.frame_denizens.length := by
    obtain ⟨h1, h2⟩ := hv
    omega
  have : m.frame_denizens[s.toNat]? = some (m.frame_denizens[s.toNat]) :=
    List.getElem?_eq_getElem hlt
  constructor
  · rw [this]; simp [ZAM.denizen, this]
  · simp only [ZAM.denizen, this, Option.getD_some]
    exact List.getElem_mem hlt

theorem layoutSlot_denizen (m : ZAM) (hc : m.frameConsistent) (s : Int) (hv : m.validSlot s) :
    m.layoutSlot (m.denizen s) = s := by
  rw [hc.2 s.toNat _ (denizen_mem m s hv).1]
  exact Int.toNat_of_nonneg hv.1

/-- Under the invariant of the beginnings, the identifiers listed at the instructions are
distinct identifiers of the frame: there are no more of them than frame slots. -/
theorem beginnings_length_le (m : ZAM) (n : Nat) (hc : m.frameConsistent) (h : m.beginInv n) :
    ((List.range n).flatMap m.beginningsAt).length ≤ m.frame_layout1.length := by
  rw [hc.1]
  have key : ∀ i v, v ∈ m.beginningsAt i →
      ∃ s, m.denizen_beginning s = some i ∧ m.denizen s = v ∧ m.validSlot s := by
    intro i v hv
    unfold ZAM.beginningsAt at hv
    cases hb : m.inst_beginnings i with
    | none => simp [hb] at hv
    | some vars =>
      simp only [hb, Option.getD_some] at hv
      obtain ⟨s, hs, hd⟩ := (h.2 i vars hb).2 v hv
      exact ⟨s, hs, hd, (h.1 s i hs).1⟩
  apply List.Subperm.length_le
  apply List.Nodup.subperm
  · rw [List.nodup_flatMap]
    constructor
    · intro i _
      unfold ZAM.beginningsAt
      cases hb : m.inst_beginnings i with
      | none => simp
      | some vars => simpa using (h.2 i vars hb).1
    · apply List.Pairwise.imp_of_mem ?_ (List.nodup_range n)
      intro i j _ _ hij
      show List.Disjoint (m.beginningsAt i) (m.beginningsAt j)
      intro v hvi hvj
      obtain ⟨s, hs, hd, hval⟩ := key i v hvi
      obtain ⟨s1, hs1, hd1, hval1⟩ := key j v hvj
      have e : s = s1 := by
        rw [← layoutSlot_denizen m hc s hval, ← layoutSlot_denizen m hc s1 hval1, hd, hd1]
      rw [e, hs1] at hs
      cases hs
      exact hij rfl
  · intro v hv
    rw [List.mem_flatMap] at hv
    obtain ⟨i, _, hvi⟩ := hv
    obtain ⟨s, _, hd, hval⟩ := key i v hvi
    rw [← hd]
    exact (denizen_mem m s hval).2

/-- The first loop of `ReMapFrame` adds at most one shared slot for every identifier listed at
an instruction. -/
theorem remapVars_length (m : ZAM) (an : Analyses) (hperm : ∀ l, (an.setOrder l).Perm l) :
    (m.remapVars an).shared_frame_denizens.length
      ≤ m.shared_frame_denizens.length
        + ((List.range m.insts1.length).flatMap m.beginningsAt).length := by
  have h := (foldl_remapAt_length an hperm (List.range m.insts1.length) m.remapStart).2
  have e : m.remapStart.beginningsAt = m.beginningsAt := rfl
  rw [e] at h
  exact h

/-! ## Every slot with a lifetime is mapped -/

theorem ReMapVar_result (m : ZAM) (an : Analyses) (id : ID) (slot inst : Int) :
    ∃ apt : Nat,
      (m.ReMapVar an id slot inst).frame1_to_frame2
          = m.frame1_to_frame2.set slot.toNat (apt : Int)
      ∧ (((m.ReMapVar an id slot inst).shared_frame_denizens
            = m.shared_frame_denizens ++
              [{ ids := [id], id_start := [inst], scope_end := m.endingNum slot,
                 is_managed := an.IsManagedType id }]
          ∧ apt = m.shared_frame_denizens.length)
        ∨ (∃ s0, m.shared_frame_denizens[apt]? = some s0
            ∧ (m.ReMapVar an id slot inst).shared_frame_denizens
              = m.shared_frame_denizens.modify
                  (fun s => { s with ids := s.ids ++ [id], id_start := s.id_start ++ [inst],
                                     scope_end := m.endingNum slot }) apt)) := by
  unfold ZAM.ReMapVar
  rcases aptSlotFrom_spec m.shared_frame_denizens 0 (-1) (an.IsManagedType id) inst with
    h | ⟨j, s, h1, h2, h3, h4⟩
  · refine ⟨m.shared_frame_denizens.length, ?_, Or.inl ⟨?_, rfl⟩⟩
    · simp only [h, show ((-1 : Int) < 0) by decide, if_true]
    · simp only [h, show ((-1 : Int) < 0) by decide, if_true]
      rw [modify_append_length]
      rfl
  · have hn : ¬ ((((0 + j : Nat) : Int)) < 0) := by omega
    refine ⟨j, ?_, Or.inr ⟨s, h2, ?_⟩⟩
    · simp only [h1, hn, if_false]
      simp
    · simp only [h1, hn, if_false]
      simp

theorem ReMapVar_lengths (m : ZAM) (an : Analyses) (id : ID) (slot inst : Int)
    (h : ∀ sh ∈ m.shared_frame_denizens, sh.ids.length = sh.id_start.length) :
    (m.ReMapVar an id slot inst).frame1_to_frame2.length = m.frame1_to_frame2.length
    ∧ ∀ sh ∈ (m.ReMapVar an id slot inst).shared_frame_denizens,
        sh.ids.length = sh.id_start.length := by
  obtain ⟨apt, e1, e2⟩ := ReMapVar_result m an id slot inst
  refine ⟨by rw [e1]; simp, ?_⟩
  intro sh hsh
  rcases e2 with ⟨e, _⟩ | ⟨s0, hs0, e⟩
  · rw [e, List.mem_append, List.mem_singleton] at hsh
    rcases hsh with hsh | hsh
    · exact h sh hsh
    · rw [hsh]; rfl
  · rw [e] at hsh
    rcases mem_modify _ _ _ _ hsh with hsh | ⟨a0, ha0, hsh⟩
    · exact h sh hsh
    · rw [hsh]
      simp [h a0 (List.getElem?_mem ha0)]

theorem mappedAt_keep (m : ZAM) (an : Analyses) (id : ID) (slot inst : Int) (s : Int) (v : ID)
    (b : Int) (hne : s.toNat ≠ slot.toNat) (h : m.mappedAt s v b) :
    (m.ReMapVar an id slot inst).mappedAt s v b := by
  obtain ⟨k, pos, sh, h1, h2, h3, h4⟩ := h
  obtain ⟨apt, e1, e2⟩ := ReMapVar_result m an id slot inst
  have hk : k < m.shared_frame_denizens.length := by
    rcases Nat.lt_or_ge k m.shared_frame_denizens.length with h | h
    · exact h
    · rw [List.getElem?_eq_none h] at h2; cases h2
  have hf : (m.ReMapVar an id slot inst).frame1_to_frame2[s.toNat]? = some (k : Int) := by
    rw [e1, List.getElem?_set_ne (fun e => hne e.symm)]; exact h1
  rcases e2 with ⟨e, _⟩ | ⟨s0, hs0, e⟩
  · exact ⟨k, pos, sh, hf, by rw [e, List.getElem?_append_left hk]; exact h2, h3, h4⟩
  · by_cases hka : apt = k
    · subst hka
      rw [h2] at hs0
      cases hs0
      have hp1 : pos < sh.ids.length := by
        rcases Nat.lt_or_ge pos sh.ids.length with h | h
        · exact h
        · rw [List.getElem?_eq_none h] at h3; cases h3
      have hp2 : pos < sh.id_start.length := by
        rcases Nat.lt_or_ge pos sh.id_start.length with h | h
        · exact h
        · rw [List.getElem?_eq_none h] at h4; cases h4
      refine ⟨apt, pos, _, hf, by rw [e, List.getElem?_modify, h2]; simp; rfl, ?_, ?_⟩
      · simp only; rw [List.getElem?_append_left hp1]; exact h3
      · simp only; rw [List.getElem?_append_left hp2]; exact h4
    · refine ⟨k, pos, sh, hf, ?_, h3, h4⟩
      rw [e, List.getElem?_modify, h2]
      simp [hka]

theorem mappedAt_new (m : ZAM) (an : Analyses) (id : ID) (slot inst : Int)
    (hl : ∀ sh ∈ m.shared_frame_denizens, sh.ids.length = sh.id_start.length)
    (hs : slot.toNat < m.frame1_to_frame2.length) :
    (m.ReMapVar an id slot inst).mappedAt slot id inst := by
  obtain ⟨apt, e1, e2⟩ := ReMapVar_result m an id slot inst
  have hf : (m.ReMapVar an id slot inst).frame1_to_frame2[slot.toNat]? = some (apt : Int) := by
    rw [e1, List.getElem?_set_self hs]
  rcases e2 with ⟨e, ha⟩ | ⟨s0, hs0, e⟩
  · exact ⟨apt, 0, (⟨[id], [inst], m.endingNum slot, an.IsManagedType id⟩ : FrameSharingInfo),
      hf, by rw [e, ha, List.getElem?_concat_length], rfl, rfl⟩
  · have hlen := hl s0 (List.getElem?_mem hs0)
    refine ⟨apt, s0.ids.length, _, hf, by rw [e, List.getElem?_modify, hs0]; simp; rfl, ?_, ?_⟩
    · simp only; rw [List.getElem?_concat_length]
    · simp only; rw [hlen, List.getElem?_concat_length]

theorem beginningsAt_slot (l : ZAM) (n : Nat) (h : l.beginInv n) (i : Nat) (v : ID)
    (hv : v ∈ l.beginningsAt i) :
    ∃ s, l.denizen_beginning s = some i ∧ l.denizen s = v ∧ l.validSlot s := by
  unfold ZAM.beginningsAt at hv
  cases hb : l.inst_beginnings i with
  | none => simp [hb] at hv
  | some vars =>
    simp only [hb, Option.getD_some] at hv
    obtain ⟨s, hs, hd⟩ := (h.2 i vars hb).2 v hv
    exact ⟨s, hs, hd, (h.1 s i hs).1⟩

theorem toNat_ne_of_valid (l : ZAM) (s s1 : Int) (h : l.validSlot s) (h1 : l.validSlot s1)
    (hne : s ≠ s1) : s.toNat ≠ s1.toNat := by
  obtain ⟨a, _⟩ := h
  obtain ⟨b, _⟩ := h1
  omega

/-- The inner loop of `ReMapFrame` at the instruction `k` keeps the invariant. -/
theorem remapVarsAt_mapInv (l : ZAM) (an : Analyses) (hc : l.frameConsistent) (n : Nat)
    (hb : l.beginInv n) (k : Nat) (rest : List ID) :
    ∀ (done : List ID) (m : ZAM), (done ++ rest).Nodup →
      (∀ v ∈ done ++ rest, v ∈ l.beginningsAt k) → l.mapInv m k done →
      l.mapInv (m.remapVarsAt an k rest) k (done ++ rest) := by
  induction rest with
  | nil =>
    intro done m _ _ h
    simpa [ZAM.remapVarsAt] using h
  | cons v rest ih =>
    intro done m hnd hmem hinv
    unfold ZAM.remapVarsAt
    simp only
    have hassoc : done ++ v :: rest = (done ++ [v]) ++ rest := by simp
    rw [hassoc] at hnd hmem ⊢
    apply ih (done ++ [v]) _ hnd hmem
    obtain ⟨i1, i2, i3, i4, i5⟩ := hinv
    obtain ⟨s1, hs1, hd1, hval1⟩ := beginningsAt_slot l n hb k v
      (hmem v (by simp))
    have hlay : l.layoutSlot v = s1 := by rw [← hd1]; exact layoutSlot_denizen l hc s1 hval1
    have hmlay : m.layoutSlot v = s1 := by
      rw [← hlay]; simp [ZAM.layoutSlot, i1.2.2.2.2.1]
    rw [hmlay, i1.2.1]
    by_cases hend : (l.denizen_ending s1).isSome = true
    · simp only [hend, if_true]
      obtain ⟨q1, q2⟩ := ReMapVar_lengths m an v s1 (k : Int) i3
      refine ⟨remapKeeps_trans i1 (ReMapVar_keeps m an v _ _), q1.trans i2, q2, ?_, ?_⟩
      · intro s b hsb hbk hse
        apply mappedAt_keep m an v s1 (k : Int) s _ _ ?_ (i4 s b hsb hbk hse)
        apply toNat_ne_of_valid l s s1 (hb.1 s b hsb).1 hval1
        intro e
        rw [e, hs1] at hsb
        cases hsb
        omega
      · intro v1 hv1 hse
        rw [List.mem_append, List.mem_singleton] at hv1
        rcases hv1 with hv1 | hv1
        · obtain ⟨s2, hs2, hd2, hval2⟩ := beginningsAt_slot l n hb k v1
            (hmem v1 (by simp [hv1]))
          have hlay2 : l.layoutSlot v1 = s2 := by
            rw [← hd2]; exact layoutSlot_denizen l hc s2 hval2
          apply mappedAt_keep m an v s1 (k : Int) _ _ _ ?_ (i5 v1 hv1 hse)
          rw [hlay2]
          apply toNat_ne_of_valid l s2 s1 hval2 hval1
          intro e
          rw [e, hd1] at hd2
          subst hd2
          have := (List.nodup_append.1 (List.nodup_append.1 hnd).1).2.2
          exact this hv1 (List.mem_singleton_self _) 
        · subst hv1
          rw [hlay]
          apply mappedAt_new m an v1 s1 (k : Int) i3
          rw [i2, hc.1]
          obtain ⟨a, b⟩ := hval1
          omega
    · simp only [hend]
      refine ⟨i1, i2, i3, i4, ?_⟩
      intro v1 hv1 hse
      rw [List.mem_append, List.mem_singleton] at hv1
      rcases hv1 with hv1 | hv1
      · exact i5 v1 hv1 hse
      · subst hv1
        rw [hlay] at hse
        exact absurd hse hend

/-- One round of the first loop of `ReMapFrame` keeps the invariant. -/
theorem remapAt_mapInv (l : ZAM) (an : Analyses) (hperm : ∀ x, (an.setOrder x).Perm x)
    (hc : l.frameConsistent) (n : Nat) (hb : l.beginInv n) (k : Nat) (m : ZAM)
    (hinv : l.mapInv m k []) : l.mapInv (m.remapAt an k) (k + 1) [] := by
  have hib : m.inst_beginnings k = l.inst_beginnings k := by rw [hinv.1.2.2.2.1]
  have fin : ∀ (m1 : ZAM) (done : List ID), l.mapInv m1 k done →
      (∀ v ∈ l.beginningsAt k, v ∈ done) → l.mapInv m1 (k + 1) [] := by
    intro m1 done ⟨j1, j2, j3, j4, j5⟩ hall
    refine ⟨j1, j2, j3, ?_, by simp⟩
    intro s b hsb hbk hse
    rcases Nat.lt_or_ge b k with h | h
    · exact j4 s b hsb h hse
    · have hbk1 : b = k := by omega
      subst hbk1
      obtain ⟨hval, _, vars, hv1, hv2⟩ := hb.1 s b hsb
      have hmem : l.denizen s ∈ l.beginningsAt b := by
        simp [ZAM.beginningsAt, hv1, hv2]
      have := j5 (l.denizen s) (hall _ hmem)
      rw [layoutSlot_denizen l hc s hval] at this
      exact this hse
  unfold ZAM.remapAt
  rw [hib]
  cases hv : l.inst_beginnings k with
  | none =>
    simp only
    apply fin m [] hinv
    intro v hvm
    simp [ZAM.beginningsAt, hv] at hvm
  | some vars =>
    simp only
    have hnd : (an.setOrder vars).Nodup := (hperm vars).nodup_iff.2 (hb.2 k vars hv).1
    have hmem : ∀ v ∈ an.setOrder vars, v ∈ l.beginningsAt k := by
      intro v hvm
      simp only [ZAM.beginningsAt, hv, Option.getD_some]
      exact (hperm vars).mem_iff.1 hvm
    have := remapVarsAt_mapInv l an hc n hb k (an.setOrder vars) [] m
      (by simpa using hnd) (by simpa using hmem) hinv
    simp only [List.nil_append] at this
    apply fin _ _ this
    intro v hvm
    simp only [ZAM.beginningsAt, hv, Option.getD_some] at hvm
    exact (hperm vars).mem_iff.2 hvm

theorem foldl_remapAt_mapInv (l : ZAM) (an : Analyses) (hperm : ∀ x, (an.setOrder x).Perm x)
    (hc : l.frameConsistent) (n : Nat) (hb : l.beginInv n) (m : ZAM) (hinv : l.mapInv m 0 [])
    (k : Nat) :
    l.mapInv ((List.range k).foldl (fun m1 i => m1.remapAt an i) m) k [] := by
  induction k with
  | zero => exact hinv
  | succ k ih =>
    simp only [List.range_succ, List.foldl_append, List.foldl_cons, List.foldl_nil]
    exact remapAt_mapInv l an hperm hc n hb k _ ih

theorem resizeVec_length (x : List Int) (n : Nat) (v : Int) : (resizeVec x n v).length = n := by
  unfold resizeVec
  simp only [List.length_append, List.length_take, List.length_replicate]
  omega

/-- After the first loop of `ReMapFrame`, every slot whose lifetime has a beginning and an
ending is mapped to a shared slot that lists its identifier with the beginning as start. -/
theorem remapVars_mapped (l : ZAM) (an : Analyses) (hperm : ∀ x, (an.setOrder x).Perm x)
    (hc : l.frameConsistent) (hb : l.beginInv l.insts1.length)
    (h0 : l.shared_frame_denizens = []) (s : Int) (b : Nat)
    (hsb : l.denizen_beginning s = some b) (hse : (l.denizen_ending s).isSome = true) :
    (l.remapVars an).mappedAt s (l.denizen s) (b : Int) := by
  have hinit : l.mapInv l.remapStart 0 [] := by
    refine ⟨⟨rfl, rfl, rfl, rfl, rfl, rfl⟩, resizeVec_length _ _ _, ?_, ?_, by simp⟩
    · intro sh hsh
      have : l.remapStart.shared_frame_denizens = [] := h0
      simp only [this, List.not_mem_nil] at hsh
    · intro s1 b1 _ hb1
      omega
  have := foldl_remapAt_mapInv l an hperm hc _ hb _ hinit l.insts1.length
  exact this.2.2.2.1 s b hsb (hb.1 s b hsb).2.1 hse

/-! ## The shared slots, whatever the lifetimes -/

theorem slotInvAt_new (m0 : ZAM) (v : ID) (i : Int) (mg : Bool) :
    m0.slotInvAt i { ids := [v], id_start := [i], scope_end := m0.endOf v, is_managed := mg } := by
  refine ⟨rfl, ?_, ?_⟩
  · intro e he
    simp only [FrameSharingInfo.entries, List.zip_cons_cons, List.zip_nil_right,
      List.mem_singleton] at he
    subst he
    exact le_max_left _ _
  · simp [FrameSharingInfo.entries]

theorem slotInvAt_extend (m0 : ZAM) (s : FrameSharingInfo) (v : ID) (i : Int)
    (hs : m0.slotInvAt i s) (hend : s.scope_end ≤ i) :
    m0.slotInvAt i { s with ids := s.ids ++ [v], id_start := s.id_start ++ [i],
                            scope_end := m0.endOf v } := by
  obtain ⟨h1, h2, h3⟩ := hs
  have hz : (s.ids ++ [v]).zip (s.id_start ++ [i]) = s.entries ++ [(v, i)] := by
    rw [List.zip_append h1]; rfl
  have hold : ∀ e ∈ s.entries, m0.endOf e.1 ≤ i := by
    intro e he
    have := h2 e he
    rw [max_eq_right hend] at this
    exact this
  refine ⟨by simp [h1], ?_, ?_⟩
  · intro e he
    simp only [FrameSharingInfo.entries, hz, List.mem_append, List.mem_singleton] at he
    rcases he with he | he
    · exact le_trans (hold e he) (le_max_right _ _)
    · subst he
      exact le_max_left _ _
  · simp only [FrameSharingInfo.entries, hz]
    rw [List.pairwise_append]
    refine ⟨h3, List.pairwise_singleton _ _, ?_⟩
    intro a ha b hb
    simp only [List.mem_singleton] at hb
    subst hb
    exact hold a ha

theorem slotInvAt_mono (m0 : ZAM) (s : FrameSharingInfo) (i j : Int) (hij : i ≤ j)
    (hs : m0.slotInvAt i s) : m0.slotInvAt j s := by
  obtain ⟨h1, h2, h3⟩ := hs
  refine ⟨h1, ?_, h3⟩
  intro e he
  exact le_trans (h2 e he) (max_le_max (le_refl _) hij)

/-- One call of `ReMapVar` by `ReMapFrame` keeps the invariant. -/
theorem ReMapVar_remapInvAt (m0 m : ZAM) (an : Analyses) (v : ID) (i : Int)
    (hinv : m0.remapInvAt i m) :
    m0.remapInvAt i (m.ReMapVar an v (m.layoutSlot v) i) := by
  obtain ⟨h1, h2, h3, h4, h5, h6, h7⟩ := hinv
  obtain ⟨f1, f2, f3, f4, f5, f6⟩ := ReMapVar_fields m an v (m.layoutSlot v) i
  obtain ⟨c1, c2, c3⟩ := endOf_congr m0 m h1 h2 h5
  have hend : m.endingNum (m.layoutSlot v) = m0.endOf v := by
    rw [← c1]; rfl
  refine ⟨f1.trans h1, f2.trans h2, f3.trans h3, f4.trans h4, f5.trans h5, f6.trans h6, ?_⟩
  intro s hs
  rcases ReMapVar_shared m an v (m.layoutSlot v) i with e | ⟨j, s0, hj, hse, _, e⟩
  · rw [e, List.mem_append, List.mem_singleton] at hs
    rcases hs with hs | hs
    · exact h7 s hs
    · rw [hs, hend]; exact slotInvAt_new m0 v i _
  · rw [e] at hs
    rcases mem_modify _ _ _ _ hs with hs | ⟨a0, ha0, hs⟩
    · exact h7 s hs
    · rw [hj] at ha0
      cases ha0
      rw [hs, hend]
      exact slotInvAt_extend m0 s0 v i (h7 s0 (List.getElem?_mem hj)) hse

theorem remapVarsAt_remapInvAt (m0 : ZAM) (an : Analyses) (i : Nat) (vars : List ID) (m : ZAM)
    (hinv : m0.remapInvAt (i : Int) m) :
    m0.remapInvAt (i : Int) (m.remapVarsAt an i vars) := by
  induction vars generalizing m with
  | nil => exact hinv
  | cons v vars ih =>
    unfold ZAM.remapVarsAt
    apply ih
    by_cases hs : (m.denizen_ending (m.layoutSlot v)).isSome = true
    · simp only [hs, if_true]
      exact ReMapVar_remapInvAt m0 m an v i hinv
    · simp only [hs]
      exact hinv

theorem remapAt_remapInvAt (m0 : ZAM) (an : Analyses) (i : Nat) (m : ZAM)
    (hinv : m0.remapInvAt (i : Int) m) : m0.remapInvAt (i : Int) (m.remapAt an i) := by
  unfold ZAM.remapAt
  cases hb : m.inst_beginnings i with
  | none => exact hinv
  | some vars => exact remapVarsAt_remapInvAt m0 an i _ m hinv

/-- After the first loop of `ReMapFrame`, whatever the lifetimes are, every identifier of a
shared slot is placed at or after the end of the lifetimes of the identifiers placed before it
in the slot. -/
theorem remapVars_pairwise (m : ZAM) (an : Analyses) (h0 : m.shared_frame_denizens = []) :
    ∀ s ∈ (m.remapVars an).shared_frame_denizens,
      s.entries.Pairwise (fun a b => m.endOf a.1 ≤ b.2) := by
  have key : ∀ n : Nat,
      m.remapInvAt (n : Int) ((List.range n).foldl (fun m1 i => m1.remapAt an i) m.remapStart) := by
    intro n
    induction n with
    | zero =>
      refine ⟨rfl, rfl, rfl, rfl, rfl, rfl, ?_⟩
      intro s hs
      have : m.remapStart.shared_frame_denizens = [] := h0
      simp [this] at hs
    | succ n ih =>
      rw [List.range_succ, List.foldl_append]
      simp only [List.foldl_cons, List.foldl_nil]
      obtain ⟨h1, h2, h3, h4, h5, h6, h7⟩ := remapAt_remapInvAt m an n _ ih
      refine ⟨h1, h2, h3, h4, h5, h6, ?_⟩
      intro s hs
      exact slotInvAt_mono m s n ((n + 1 : Nat) : Int) (by push_cast; omega) (h7 s hs)
  intro s hs
  exact ((key m.insts1.length).2.2.2.2.2.2 s hs).2.2

/-! ## Properties of the remapped frame -/

theorem sameCode_frameConsistent {m0 m : ZAM} (h : m0.sameCode m) (hc : m0.frameConsistent) :
    m.frameConsistent := by
  unfold ZAM.frameConsistent ZAM.layoutSlot
  rw [h.2.1, h.2.2.1]
  exact hc

/-- C4: after `ReMapFrame`, run on the lifetimes that `ComputeFrameLifetimes` computes for a
numbered instruction list whose assigned slots are slots of a consistent frame layout, the
post-optimization frame size `frame_size`, the number of shared slots, is at most the
pre-optimization frame size, the number of slots in `frame_layout1`. -/
theorem ReMapFrame_frame_size_le (m : ZAM) (zm : ZInstMethods) (an : Analyses)
    (hperm : ∀ x, (an.setOrder x).Perm x) (hnum : m.numbered) (hc : m.frameConsistent)
    (hvalid : m.assignedSlotsValid zm) (h0 : m.shared_frame_denizens = []) :
    ((m.ComputeFrameLifetimes zm an).ReMapFrame zm an).frame_size
      ≤ (m.frame_layout1.length : Int) := by
  obtain ⟨h1, h2, _⟩ := ComputeFrameLifetimes_spec m zm an hnum hvalid
  have hc1 := sameCode_frameConsistent h1 hc
  rw [(ReMapFrame_frame _ zm an).2.2.2.2]
  generalize m.ComputeFrameLifetimes zm an = l at h1 h2 hc1
  have hlen := remapVars_length l an hperm
  rw [h1.1] at hlen
  have hb := beginnings_length_le l _ hc1 h2
  rw [h1.2.2.2.2.1, h0] at hlen
  rw [h1.2.2.1] at hb
  simp only [List.length_nil, Nat.zero_add] at hlen
  exact_mod_cast le_trans hlen hb

/-- Witness for C4: the body `remapExample` has three pre-optimization slots and meets the
hypotheses, so its remapped frame has at most three slots. -/
theorem ReMapFrame_frame_size_le_witness :
    ((remapExample.ComputeFrameLifetimes exampleMethods exampleAnalyses).ReMapFrame
        exampleMethods exampleAnalyses).frame_size ≤ 3 := by
  have hnum : remapExample.numbered := by
    intro i z hz
    simp only [remapExample, ZAM.empty, ZInst.new] at hz
    match i with
    | 0 => simp at hz; subst hz; rfl
    | 1 => simp at hz; subst hz; rfl
    | 2 => simp at hz; subst hz; rfl
    | 3 => simp at hz; subst hz; rfl
    | (k + 4) => simp at hz
  have hc : remapExample.frameConsistent := by
    refine ⟨rfl, ?_⟩
    intro s v hv
    simp only [remapExample, ZAM.empty] at hv
    match s with
    | 0 => simp at hv; subst hv; rfl
    | 1 => simp at hv; subst hv; rfl
    | 2 => simp at hv; subst hv; rfl
    | (k + 3) => simp at hv
  have hvalid : remapExample.assignedSlotsValid exampleMethods := by
    intro z hz _
    simp only [remapExample, ZAM.empty, ZInst.new, List.mem_cons, List.mem_singleton,
      List.not_mem_nil, or_false] at hz
    rcases hz with rfl | rfl | rfl | rfl <;>
      simp [ZAM.validSlot, remapExample, ZAM.empty, ZOp.isTableIter, exampleMethods]
  exact ReMapFrame_frame_size_le remapExample exampleMethods exampleAnalyses
    (fun x => List.Perm.refl x) hnum hc hvalid rfl

/-- Counterexample to C3 as stated: in the body `useExample` the live instruction 0 reads
slot 0, which no instruction assigns; no lifetime begins for it, `ReMapFrame` does not remap
it, and `frame1_to_frame2` keeps -1 for it. -/
theorem ReMapFrame_unassigned_slot_counterexample :
    ¬ ((useExample.ComputeFrameLifetimes exampleMethods exampleAnalyses).ReMapFrame
        exampleMethods exampleAnalyses).liveSlotsCovered useExample exampleMethods := by
  intro h
  obtain ⟨k, pos, sh, st, q1, _⟩ := h 0
    { ZInst.new (ZOp.OP_other 3) with inst_num := 0, op_type := ZAMOpType.OP_V, v1 := 0 }
    rfl rfl 0
    (Or.inr ⟨by simp [ZInstMethods.usedSlots, exampleMethods, ZInst.new], le_refl _⟩)
  have e : ((useExample.ComputeFrameLifetimes exampleMethods exampleAnalyses).ReMapFrame
      exampleMethods exampleAnalyses).frame1_to_frame2 = [-1] := by decide
  rw [e] at q1
  simp only [Int.toNat_zero, List.getElem?_cons_zero, Option.some.injEq] at q1
  omega

theorem filter_length_le_one {α : Type} (R : α → α → Prop) (p : α → Bool) (l : List α)
    (hp : l.Pairwise R) (hR : ∀ a b, R a b → p a = true → p b = true → False) :
    (l.filter p).length ≤ 1 := by
  induction l with
  | nil => simp
  | cons a t ih =>
    obtain ⟨h1, h2⟩ := List.pairwise_cons.1 hp
    by_cases ha : p a = true
    · have : t.filter p = [] := by
        rw [List.filter_eq_nil_iff]
        intro b hb hpb
        exact hR a b (h1 b hb) ha hpb
      simp [List.filter_cons, ha, this]
    · simp only [List.filter_cons, ha]
      exact ih h2

theorem liveDenizens_length_le (m : ZAM) (shared : List FrameSharingInfo) (k : Int)
    (h : ∀ s ∈ shared, s.entries.Pairwise (fun a b => m.endOf a.1 ≤ b.2)) :
    (liveDenizens m.endOf shared k).length ≤ shared.length := by
  unfold liveDenizens
  induction shared with
  | nil => simp
  | cons s rest ih =>
    simp only [List.flatMap_cons, List.filter_append, List.length_append, List.length_cons]
    have h1 := ih (fun s1 hs1 => h s1 (List.mem_cons_of_mem _ hs1))
    have h2 : (s.entries.filter (fun e => decide (e.2 ≤ k ∧ k < m.endOf e.1))).length ≤ 1 := by
      apply filter_length_le_one (fun a b => m.endOf a.1 ≤ b.2) _ _
        (h s (List.mem_cons_self _ _))
      intro a b hab ha hb
      simp only [decide_eq_true_eq] at ha hb
      omega
    omega

/-- C5, as the code has it: after `ReMapFrame`, run on a state without shared slots, the
post-optimization frame size is at least the number of remapped denizens that are live at an
instruction `k`, for every `k`, where a denizen is live from the instruction at which it is
placed up to, but not including, the instruction at which its lifetime ends. -/
theorem ReMapFrame_frame_size_ge_live (m : ZAM) (zm : ZInstMethods) (an : Analyses)
    (h0 : m.shared_frame_denizens = []) (k : Int) :
    ((liveDenizens m.endOf (m.ReMapFrame zm an).shared_frame_denizens k).length : Int)
      ≤ (m.ReMapFrame zm an).frame_size := by
  rw [(ReMapFrame_frame m zm an).2.2.2.2, (ReMapFrame_frame m zm an).1]
  have := liveDenizens_length_le m (m.remapVars an).shared_frame_denizens k
    (remapVars_pairwise m an h0)
  exact_mod_cast this

theorem lifetimeExample_startsBeforeEnds : lifetimeExample.startsBeforeEnds := by
  intro i vars hi v hv _
  simp only [lifetimeExample] at hi
  split_ifs at hi with h1 h2 h3
  · cases hi
    simp only [List.mem_singleton] at hv
    subst hv; subst h1
    decide
  · cases hi
    simp only [List.mem_singleton] at hv
    subst hv; subst h2
    decide
  · cases hi
    simp only [List.mem_singleton] at hv
    subst hv; subst h3
    decide

/-- Witness for C5: in `lifetimeExample` two denizens, `a` and `b`, are live at instruction 1,
and the remapped frame has two slots. -/
theorem ReMapFrame_frame_size_ge_live_witness :
    (liveDenizens lifetimeExample.endOf
        (lifetimeExample.ReMapFrame exampleMethods exampleAnalyses).shared_frame_denizens
        1).length = 2
    ∧ ((liveDenizens lifetimeExample.endOf
        (lifetimeExample.ReMapFrame exampleMethods exampleAnalyses).shared_frame_denizens
        1).length : Int)
      ≤ (lifetimeExample.ReMapFrame exampleMethods exampleAnalyses).frame_size :=
  ⟨by decide,
    ReMapFrame_frame_size_ge_live lifetimeExample exampleMethods exampleAnalyses rfl 1⟩

/-- Counterexample to C5 as stated: for the body `remapExample`, with the lifetimes that
`ComputeFrameLifetimes` computes, the lifetime intervals [0, 2] of `a`, [1, 2] of `b` and
[2, 3] of `c` all contain instruction 2, but `ReMapFrame` places `c` in the slot of `a`, whose
scope ends at instruction 2, and the remapped frame has two slots. -/
theorem ReMapFrame_closed_lifetimes_counterexample :
    ¬ ∀ k : Int,
      ((liveDenizensClosed
          (remapExample.ComputeFrameLifetimes exampleMethods exampleAnalyses).endOf
          ((remapExample.ComputeFrameLifetimes exampleMethods exampleAnalyses).ReMapFrame
            exampleMethods exampleAnalyses).shared_frame_denizens k).length : Int)
        ≤ ((remapExample.ComputeFrameLifetimes exampleMethods exampleAnalyses).ReMapFrame
            exampleMethods exampleAnalyses).frame_size := by
  intro h
  have h2 := h 2
  revert h2
  decide

/-- Witness for C2: in `lifetimeExample` the remapping puts `a` and `c` in slot 0, and `c`
starts at instruction 2, where the lifetime of `a` ends. -/
theorem ReMapFrame_lifetimes_disjoint_witness :
    (lifetimeExample.ReMapFrame exampleMethods exampleAnalyses).shared_frame_denizens
      = [{ ids := [10, 12], id_start := [0, 2], scope_end := 3, is_managed := false },
         { ids := [11], id_start := [1], scope_end := 2, is_managed := false }]
    ∧ ∀ s ∈ (lifetimeExample.ReMapFrame exampleMethods exampleAnalyses).shared_frame_denizens,
      s.ids.length = s.id_start.length
      ∧ ∀ (j k : Nat) (x : ID) (sy : Int), j < k → s.ids[j]? = some x →
          s.id_start[k]? = some sy → lifetimeExample.endOf x ≤ sy :=
  ⟨by decide,
    ReMapFrame_lifetimes_disjoint lifetimeExample exampleMethods exampleAnalyses
      (fun x => List.Perm.refl x) rfl lifetimeExample_startsBeforeEnds⟩

/-- C18: for the body `local a = 1; local b = 2; local c = a + b; return c;`, whose three
unmanaged variables `ComputeFrameLifetimes` gives the lifetimes `a` = [0, 2], `b` = [1, 2]
and `c` = [2, 3], `ReMapFrame` uses two post-optimization slots for `a`, `b` and `c`: `a` and
`c` are placed in slot 0, `b` in slot 1, and the frame size is 2. -/
theorem ReMapFrame_example_two_slots :
    (List.map (remapExample.ComputeFrameLifetimes exampleMethods exampleAnalyses).denizen_beginning
        [0, 1, 2] = [some 0, some 1, some 2]
      ∧ List.map (remapExample.ComputeFrameLifetimes exampleMethods exampleAnalyses).denizen_ending
        [0, 1, 2] = [some 2, some 2, some 3]
      ∧ List.map exampleAnalyses.IsManagedType [10, 11, 12] = [false, false, false])
    ∧ ((remapExample.ComputeFrameLifetimes exampleMethods exampleAnalyses).ReMapFrame
        exampleMethods exampleAnalyses).shared_frame_denizens.length ≤ 2
    ∧ ((remapExample.ComputeFrameLifetimes exampleMethods exampleAnalyses).ReMapFrame
        exampleMethods exampleAnalyses).frame1_to_frame2 = [0, 1, 0]
    ∧ List.map FrameSharingInfo.ids
        ((remapExample.ComputeFrameLifetimes exampleMethods exampleAnalyses).ReMapFrame
          exampleMethods exampleAnalyses).shared_frame_denizens = [[10, 12], [11]]
    ∧ ((remapExample.ComputeFrameLifetimes exampleMethods exampleAnalyses).ReMapFrame
        exampleMethods exampleAnalyses).frame_size = 2 := by
  decide

/-! ## The execution engine -/

/-- C7: the assignment `AssignV1T` to the frame slot `v1` of an instruction, a slot of the
frame.  When the instruction is marked managed, the value stored is the new value as read in
the state before anything was released, the previous content of `frame[v1]` is released
exactly once, and nothing else is released; when it is not marked managed nothing is released.
In both cases `frame[v1]` ends up holding the new value, no other frame slot changes, and the
frame keeps its size. -/
theorem AssignV1T_spec (z : ZInst) (v : ExecState → ZAMValUnion) (st : ExecState)
    (h0 : 0 ≤ z.v1) (hlt : z.v1 < (st.frame.length : Int)) :
    (z.is_managed = true →
      (AssignV1T z v st).released = st.released ++ [st.frameAt z.v1])
    ∧ (z.is_managed = false → (AssignV1T z v st).released = st.released)
    ∧ (AssignV1T z v st).frameAt z.v1 = v st
    ∧ (∀ i : Nat, i ≠ z.v1.toNat → (AssignV1T z v st).frame[i]? = st.frame[i]?)
    ∧ (AssignV1T z v st).frame.length = st.frame.length := by
  have hn : ¬ z.v1 < 0 := by omega
  have hl : z.v1.toNat < st.frame.length := by omega
  refine ⟨?_, ?_, ?_, ?_, ?_⟩
  · intro hm
    simp [AssignV1T, hm, ExecState.DeleteManagedType]
  · intro hm
    simp [AssignV1T, hm]
  · by_cases hm : z.is_managed = true
    · simp [AssignV1T, hm, ExecState.DeleteManagedType, ExecState.frameAt, hn,
        List.getElem?_set_self hl]
    · simp [AssignV1T, hm, ExecState.frameAt, hn, List.getElem?_set_self hl]
  · intro i hi
    have hne : z.v1.toNat ≠ i := fun e => hi e.symm
    by_cases hm : z.is_managed = true
    · simp [AssignV1T, hm, ExecState.DeleteManagedType, List.getElem?_set_ne hne]
    · simp [AssignV1T, hm, List.getElem?_set_ne hne]
  · by_cases hm : z.is_managed = true
    · simp [AssignV1T, hm, ExecState.DeleteManagedType]
    · simp [AssignV1T, hm]

/-- Witness for C7: a managed assignment of the value 8 to slot 0 of the frame [7, 3]
releases 7, stores 8 and leaves slot 1 alone. -/
theorem AssignV1T_spec_witness :
    (AssignV1T { ZInst.new (ZOp.OP_other 10) with v1 := 0, is_managed := true }
        (fun _ => { bits := 8 })
        { frame := [{ bits := 7 }, { bits := 3 }], pc := 0, global_state := [], ret_u := none,
          ret_type := none, flow := stmt_flow_type.FLOW_RETURN, ZAM_error := false,
          released := [], host := 0 }).released = [{ bits := 7 }]
    ∧ (AssignV1T { ZInst.new (ZOp.OP_other 10) with v1 := 0, is_managed := true }
        (fun _ => { bits := 8 })
        { frame := [{ bits := 7 }, { bits := 3 }], pc := 0, global_state := [], ret_u := none,
          ret_type := none, flow := stmt_flow_type.FLOW_RETURN, ZAM_error := false,
          released := [], host := 0 }).frame = [{ bits := 8 }, { bits := 3 }] := by
  have h := AssignV1T_spec { ZInst.new (ZOp.OP_other 10) with v1 := 0, is_managed := true }
    (fun _ => { bits := 8 })
    { frame := [{ bits := 7 }, { bits := 3 }], pc := 0, global_state := [], ret_u := none,
      ret_type := none, flow := stmt_flow_type.FLOW_RETURN, ZAM_error := false,
      released := [], host := 0 }
    (by decide) (by decide)
  exact ⟨h.1 rfl, by decide⟩

/-- C8: when `DoExec` finishes, what it releases after its loop is the content of the slots
`teardownSlots`, in order.  For a transient per-invocation frame these are the slots listed in
`managed_slots`: every listed slot is released exactly once and no other slot is released
(`managed_slots` listing no slot twice); when `DoExec` ran on the fixed reusable frame, no slot
is released on return. -/
theorem DoExec_teardown_releases (m : ZAM) (ops : OpsEval) (fuel : Nat)
    (fresh : List ZAMValUnion) (start_pc : Int) (err : Bool) (host : Nat) (res : ExecResult)
    (h : m.DoExec ops fuel fresh start_pc err host = some res) :
    ∃ st trace, m.execLoop ops fuel (m.startState fresh start_pc err host) [] = some (st, trace)
      ∧ res.released = st.released ++ m.teardownSlots.map st.frameAt
      ∧ (m.fixed_frame = none →
          m.teardownSlots = m.managed_slots
          ∧ (m.managed_slots.Nodup →
              ∀ s : Int, m.teardownSlots.count s = if s ∈ m.managed_slots then 1 else 0))
      ∧ (m.fixed_frame.isSome = true → m.teardownSlots = [] ∧ res.released = st.released) := by
  unfold ZAM.DoExec ZAM.execFrom at h
  cases hl : m.execLoop ops fuel (m.startState fresh start_pc err host) [] with
  | none => simp [hl] at h
  | some r =>
    simp only [hl, Option.some.injEq] at h
    subst h
    refine ⟨r.1, r.2, rfl, rfl, ?_, ?_⟩
    · intro hf
      have e : m.teardownSlots = m.managed_slots := by simp [ZAM.teardownSlots, hf]
      refine ⟨e, ?_⟩
      intro hnd s
      rw [e]
      by_cases hs : s ∈ m.managed_slots
      · simp [hs, List.count_eq_one_of_mem hnd hs]
      · simp [hs, List.count_eq_zero_of_not_mem hs]
    · intro hf
      simp [ZAM.finishExec, ZAM.teardownReleases, ZAM.teardownSlots, hf]

/-- Witness for C8: the run of `execExample` on a per-invocation frame releases the initial
nil and the value 7 at the two assignments, and the value 8 of the managed slot 0 at the
teardown; it returns the value 8. -/
theorem DoExec_teardown_releases_witness :
    ∃ res, execExample.DoExec exampleOps 5 [{ bits := 99 }] 0 false 0 = some res
      ∧ res.released = [ZAMValUnion.nil, { bits := 7 }, { bits := 8 }]
      ∧ res.result = some ({ bits := 8 }, 0)
      ∧ ∃ st trace,
          execExample.execLoop exampleOps 5 (execExample.startState [{ bits := 99 }] 0 false 0) []
            = some (st, trace)
          ∧ res.released = st.released ++ execExample.teardownSlots.map st.frameAt
          ∧ (execExample.fixed_frame = none →
              execExample.teardownSlots = execExample.managed_slots
              ∧ (execExample.managed_slots.Nodup →
                  ∀ s : Int, execExample.teardownSlots.count s
                    = if s ∈ execExample.managed_slots then 1 else 0))
          ∧ (execExample.fixed_frame.isSome = true →
              execExample.teardownSlots = [] ∧ res.released = st.released) :=
  ⟨_, rfl, by decide, by decide,
    DoExec_teardown_releases execExample exampleOps 5 [{ bits := 99 }] 0 false 0 _ rfl⟩

theorem clearManaged_length (slots : List Int) (frame : List ZAMValUnion) :
    (clearManaged frame slots).length = frame.length := by
  unfold clearManaged
  induction slots generalizing frame with
  | nil => rfl
  | cons s rest ih => simp only [List.foldl_cons]; rw [ih]; simp

theorem clearManaged_nil_stays (slots : List Int) (frame : List ZAMValUnion) (i : Nat)
    (h : frame[i]? = some ZAMValUnion.nil) :
    (clearManaged frame slots)[i]? = some ZAMValUnion.nil := by
  unfold clearManaged
  induction slots generalizing frame with
  | nil => exact h
  | cons s rest ih =>
    simp only [List.foldl_cons]
    apply ih
    by_cases e : s.toNat = i
    · subst e
      have : s.toNat < frame.length := by
        rcases Nat.lt_or_ge s.toNat frame.length with h1 | h1
        · exact h1
        · rw [List.getElem?_eq_none h1] at h; cases h
      rw [List.getElem?_set_self this]
    · rw [List.getElem?_set_ne e]; exact h

theorem clearManaged_clears (slots : List Int) (frame : List ZAMValUnion) (s : Int)
    (hs : s ∈ slots) (hlt : s.toNat < frame.length) :
    (clearManaged frame slots)[s.toNat]? = some ZAMValUnion.nil := by
  induction slots generalizing frame with
  | nil => simp at hs
  | cons a rest ih =>
    rw [List.mem_cons] at hs
    rcases hs with hs | hs
    · subst hs
      have := clearManaged_nil_stays rest (frame.set s.toNat ZAMValUnion.nil) s.toNat
        (List.getElem?_set_self hlt)
      simpa [clearManaged] using this
    · have := ih (frame.set a.toNat ZAMValUnion.nil) hs (by simpa using hlt)
      simpa [clearManaged] using this

/-- C9, as the code has it: at the start of an invocation of `DoExec`, before the first
dispatch, every managed slot of a per-invocation frame holds nil; the reusable frame of a
non-recursive function has every managed slot nil when `CompileBody` creates it, so at the
start of the first invocation; and an invocation on the reusable frame starts with the frame as
it finds it and leaves it as its loop left it, without clearing or releasing a slot.  (The
managed slots are slots of the frame.) -/
theorem DoExec_start_frame (m : ZAM) (fresh : List ZAMValUnion) (start_pc : Int) (err : Bool)
    (host : Nat) (hslots : ∀ s ∈ m.managed_slots, 0 ≤ s ∧ s < (fresh.length : Int)) :
    (m.fixed_frame = none →
      ∀ s ∈ m.managed_slots, (m.startState fresh start_pc err host).frameAt s = ZAMValUnion.nil)
    ∧ (m.non_recursive = true →
      ∀ (fresh1 : List ZAMValUnion) (s : Int), s ∈ m.managed_slots →
        ((m.makeFixedFrame fresh).startState fresh1 start_pc err host).frameAt s
          = ZAMValUnion.nil)
    ∧ (∀ f, m.fixed_frame = some f →
      (m.startState fresh start_pc err host).frame = f
      ∧ ∀ ops fuel res, m.DoExec ops fuel fresh start_pc err host = some res →
          ∃ st trace, m.execLoop ops fuel (m.startState fresh start_pc err host) []
              = some (st, trace)
            ∧ res.fixed_frame = some st.frame ∧ res.released = st.released) := by
  refine ⟨?_, ?_, ?_⟩
  · intro hf s hs
    obtain ⟨h0, h1⟩ := hslots s hs
    have hn : ¬ s < 0 := by omega
    simp only [ZAM.startState, hf, ExecState.frameAt, hn, if_false]
    rw [clearManaged_clears m.managed_slots fresh s hs (by omega)]
    rfl
  · intro hnr fresh1 s hs
    obtain ⟨h0, h1⟩ := hslots s hs
    have hn : ¬ s < 0 := by omega
    simp only [ZAM.makeFixedFrame, hnr, if_true, ZAM.startState, ExecState.frameAt, hn,
      if_false]
    rw [clearManaged_clears m.managed_slots fresh s hs (by omega)]
    rfl
  · intro f hf
    refine ⟨by simp [ZAM.startState, hf], ?_⟩
    intro ops fuel res h
    unfold ZAM.DoExec ZAM.execFrom at h
    cases hl : m.execLoop ops fuel (m.startState fresh start_pc err host) [] with
    | none => simp [hl] at h
    | some r =>
      simp only [hl, Option.some.injEq] at h
      subst h
      exact ⟨r.1, r.2, rfl, by simp [ZAM.finishExec, hf],
        by simp [ZAM.finishExec, ZAM.teardownReleases, ZAM.teardownSlots, hf]⟩

/-- Witness for C9: the per-invocation frame of `execExample`, allocated in memory that holds
99, starts with nil in the managed slot 0, and so does the reusable frame that `CompileBody`
creates for `fixedExample`. -/
theorem DoExec_start_frame_witness :
    (execExample.startState [{ bits := 99 }] 0 false 0).frameAt 0 = ZAMValUnion.nil
    ∧ ((fixedExample.makeFixedFrame [{ bits := 99 }]).startState [] 0 false 0).frameAt 0
        = ZAMValUnion.nil := by
  have h1 := DoExec_start_frame execExample [{ bits := 99 }] 0 false 0 (by decide)
  have h2 := DoExec_start_frame fixedExample [{ bits := 99 }] 0 false 0 (by decide)
  exact ⟨h1.1 rfl 0 (by decide), h2.2.1 rfl [] 0 (by decide)⟩

/-- Counterexample to C9 as stated: the first invocation of `fixedExample` on its reusable
frame leaves the value 8 in the managed slot 0, and the second invocation starts with that
value, not nil, in the slot. -/
theorem DoExec_second_invocation_counterexample :
    ∃ res, (fixedExample.makeFixedFrame [{ bits := 99 }]).DoExec exampleOps 5 [] 0 false 0
        = some res
      ∧ ¬ ∀ s ∈ fixedExample.managed_slots,
          ({ fixedExample with fixed_frame := res.fixed_frame }.startState [] 0 false 0).frameAt s
            = ZAMValUnion.nil := by
  refine ⟨_, rfl, ?_⟩
  decide

theorem execLoop_stopped (m : ZAM) (ops : OpsEval) (fuel : Nat) (st : ExecState)
    (trace : List Int) (h : ¬ m.loopContinues st) :
    m.execLoop ops fuel st trace = some (st, trace) := by
  cases fuel <;> simp [ZAM.execLoop, h]

theorem execLoop_reached (m : ZAM) (ops : OpsEval) (st0 st : ExecState) (trace : List Int)
    (h : m.reached ops st0 st trace) (k : Nat) :
    m.execLoop ops (trace.length + k) st0 [] = m.execLoop ops k st trace := by
  induction h generalizing k with
  | start => simp
  | round st1 tr z _ hc hz ih =>
    have e : (tr ++ [st1.pc]).length + k = tr.length + (k + 1) := by
      simp only [List.length_append, List.length_singleton]; omega
    rw [e, ih (k + 1)]
    simp [ZAM.execLoop, hc, hz]

theorem reached_returned (m : ZAM) (ops : OpsEval) (hops : m.handlersAsSpecified ops)
    (st0 st : ExecState) (trace : List Int) (h0 : st0.ret_type = none)
    (h : m.reached ops st0 st trace) :
    st.ret_type = none ∨ (st.ZAM_error = false ∧ (m.insts2.length : Int) ≤ st.pc) := by
  induction h with
  | start => exact Or.inl h0
  | round st1 tr z _ hc _ ih =>
    have hn : st1.ret_type = none := by
      rcases ih with ih | ih
      · exact ih
      · exact absurd hc.1 (by omega)
    cases hr : (m.dispatchRound ops z st1).ret_type with
    | none => exact Or.inl rfl
    | some t => exact Or.inr (hops z st1 hc hn (by simp [hr]))

/-- C10: if the error flag is set when `DoExec` is entered, no instruction is dispatched and
null is returned; and if the dispatch of an instruction during an invocation sets the error
flag, that dispatch is the last one of the invocation, and `DoExec` returns null, the handlers
being as the spec has them (a dispatch that records a return value ends the run without an
error). -/
theorem DoExec_error_stops (m : ZAM) (ops : OpsEval) (fresh : List ZAMValUnion)
    (start_pc : Int) (host : Nat) :
    (∀ fuel, ∃ res, m.DoExec ops fuel fresh start_pc true host = some res
        ∧ res.dispatched = [] ∧ res.result = none)
    ∧ (∀ (err : Bool) (st : ExecState) (trace : List Int) (z : ZInst),
        m.reached ops (m.startState fresh start_pc err host) st trace →
        m.loopContinues st → m.instAt st.pc = some z →
        (m.dispatchRound ops z st).ZAM_error = true →
        ∀ fuel, trace.length < fuel →
          ∃ res, m.DoExec ops fuel fresh start_pc err host = some res
            ∧ res.dispatched = trace ++ [st.pc]
            ∧ (m.handlersAsSpecified ops → res.result = none)) := by
  refine ⟨?_, ?_⟩
  · intro fuel
    have hs : ¬ m.loopContinues (m.startState fresh start_pc true host) := by
      simp [ZAM.loopContinues, ZAM.startState]
    refine ⟨m.finishExec (m.startState fresh start_pc true host) [],
      by simp only [ZAM.DoExec, ZAM.execFrom, execLoop_stopped m ops fuel _ [] hs], rfl, ?_⟩
    simp [ZAM.finishExec, ZAM.startState]
  · intro err st trace z hr hc hz he fuel hfuel
    have hr2 : m.reached ops (m.startState fresh start_pc err host)
        (m.dispatchRound ops z st) (trace ++ [st.pc]) := ZAM.reached.round st trace z hr hc hz
    have hs : ¬ m.loopContinues (m.dispatchRound ops z st) := by
      simp [ZAM.loopContinues, he]
    obtain ⟨k, rfl⟩ : ∃ k, fuel = (trace ++ [st.pc]).length + k :=
      ⟨fuel - (trace.length + 1), by
        simp only [List.length_append, List.length_singleton]; omega⟩
    have hl := execLoop_reached m ops _ _ _ hr2 k
    rw [execLoop_stopped m ops k _ _ hs] at hl
    refine ⟨m.finishExec (m.dispatchRound ops z st) (trace ++ [st.pc]),
      by simp only [ZAM.DoExec, ZAM.execFrom, hl], rfl, ?_⟩
    intro hops
    have hn : (m.dispatchRound ops z st).ret_type = none := by
      rcases reached_returned m ops hops _ _ _ (by simp [ZAM.startState]) hr2 with h | h
      · exact h
      · rw [h.1] at he; cases he
    simp [ZAM.finishExec, hn]

theorem exampleOps_handlersAsSpecified (m : ZAM) : m.handlersAsSpecified exampleOps := by
  intro z st hc hn hr
  by_cases h0 : z.op = ZOp.OP_NOP
  · simp [ZAM.dispatchRound, h0, hn] at hr
  by_cases h10 : z.op = ZOp.OP_other 10
  · by_cases hm : z.is_managed = true <;>
      simp [ZAM.dispatchRound, exampleOps, h10, AssignV1T, ExecState.DeleteManagedType,
        hm, hn] at hr
  by_cases h11 : z.op = ZOp.OP_other 11
  · simp [ZAM.dispatchRound, exampleOps, h11, hn] at hr
  by_cases h12 : z.op = ZOp.OP_other 12
  · simp [ZAM.dispatchRound, exampleOps, h12, hc.2]
  · simp [ZAM.dispatchRound, exampleOps, h0, h10, h11, h12, hn] at hr

/-- Witness for C10: `errorExample` entered with the flag set dispatches nothing; entered with
the flag clear, its first instruction sets the flag, the assignment that follows is not
dispatched, and null is returned. -/
theorem DoExec_error_stops_witness :
    (∃ res, errorExample.DoExec exampleOps 0 [ZAMValUnion.nil] 0 true 0 = some res
        ∧ res.dispatched = [] ∧ res.result = none)
    ∧ (∃ res, errorExample.DoExec exampleOps 3 [ZAMValUnion.nil] 0 false 0 = some res
        ∧ res.dispatched = [] ++ [(0 : Int)] ∧ res.result = none) := by
  have h := DoExec_error_stops errorExample exampleOps [ZAMValUnion.nil] 0 0
  refine ⟨h.1 0, ?_⟩
  obtain ⟨res, h1, h2, h3⟩ := h.2 false (errorExample.startState [ZAMValUnion.nil] 0 false 0) []
    { ZInst.new (ZOp.OP_other 11) with inst_num := 0 }
    ZAM.reached.start (by decide) (by decide) (by decide) 3 (by decide)
  exact ⟨res, h1, h2, h3 (exampleOps_handlersAsSpecified errorExample)⟩

/-- C11, as the code has it: `DoExec` clears the error flag before it returns ("Clear any
error state"), so the flag is not set after any return of `DoExec`; in particular, when the
dispatch of an instruction sets the flag, `DoExec` returns with the flag cleared. -/
theorem DoExec_clears_error_flag (m : ZAM) (ops : OpsEval) (fresh : List ZAMValUnion)
    (start_pc : Int) (host : Nat) :
    (∀ fuel err res, m.DoExec ops fuel fresh start_pc err host = some res →
        res.ZAM_error = false)
    ∧ (∀ (err : Bool) (st : ExecState) (trace : List Int) (z : ZInst),
        m.reached ops (m.startState fresh start_pc err host) st trace →
        m.loopContinues st → m.instAt st.pc = some z →
        (m.dispatchRound ops z st).ZAM_error = true →
        ∀ fuel, trace.length < fuel →
          ∃ res, m.DoExec ops fuel fresh start_pc err host = some res
            ∧ res.ZAM_error = false) := by
  have hall : ∀ fuel err res, m.DoExec ops fuel fresh start_pc err host = some res →
      res.ZAM_error = false := by
    intro fuel err res h
    unfold ZAM.DoExec ZAM.execFrom at h
    cases hl : m.execLoop ops fuel (m.startState fresh start_pc err host) [] with
    | none => simp [hl] at h
    | some r =>
      simp only [hl, Option.some.injEq] at h
      subst h
      rfl
  refine ⟨hall, ?_⟩
  intro err st trace z hr hc hz he fuel hfuel
  have hr2 : m.reached ops (m.startState fresh start_pc err host)
      (m.dispatchRound ops z st) (trace ++ [st.pc]) := ZAM.reached.round st trace z hr hc hz
  have hs : ¬ m.loopContinues (m.dispatchRound ops z st) := by
    simp [ZAM.loopContinues, he]
  obtain ⟨k, rfl⟩ : ∃ k, fuel = (trace ++ [st.pc]).length + k :=
    ⟨fuel - (trace.length + 1), by
      simp only [List.length_append, List.length_singleton]; omega⟩
  have hl := execLoop_reached m ops _ _ _ hr2 k
  rw [execLoop_stopped m ops k _ _ hs] at hl
  have hd : m.DoExec ops ((trace ++ [st.pc]).length + k) fresh start_pc err host
      = some (m.finishExec (m.dispatchRound ops z st) (trace ++ [st.pc])) := by
    simp only [ZAM.DoExec, ZAM.execFrom, hl]
  exact ⟨_, hd, hall _ _ _ hd⟩

/-- Witness for C11: `errorExample`, whose first instruction signals a run-time error,
returns with the flag cleared. -/
theorem DoExec_clears_error_flag_witness :
    ∃ res, errorExample.DoExec exampleOps 3 [ZAMValUnion.nil] 0 false 0 = some res
      ∧ res.ZAM_error = false :=
  (DoExec_clears_error_flag errorExample exampleOps [ZAMValUnion.nil] 0 0).2 false
    (errorExample.startState [ZAMValUnion.nil] 0 false 0) []
    { ZInst.new (ZOp.OP_other 11) with inst_num := 0 }
    ZAM.reached.start (by decide) (by decide) (by decide) 3 (by decide)

/-- Counterexample to C11 as stated: the first instruction of `errorExample` sets the error
flag, the loop ends with the flag set, and the flag is clear when `DoExec` has returned. -/
theorem DoExec_error_flag_counterexample :
    ¬ errorExample.errorFlagKept exampleOps 3 [ZAMValUnion.nil] 0 false 0 := by
  intro h
  have := h _ _ _ rfl (by decide) rfl
  revert this
  decide

/-! ## `AssignmentFlavor` and `ZAM_to_lower` -/

/-- C15: `AssignmentFlavor` depends on the type tag only through its normalization: for every
opcode, `bool` and `enum` give what `int` gives, `counter` and `port` what `count` gives,
`time` and `interval` what `double` gives; and for every other tag, an opcode present in the
map with an entry for the tag yields that very entry. -/
theorem AssignmentFlavor_normalizes (assignment_flavor : FlavorMap) (op : ZOp) :
    AssignmentFlavor assignment_flavor op TypeTag.TYPE_BOOL
        = AssignmentFlavor assignment_flavor op TypeTag.TYPE_INT
    ∧ AssignmentFlavor assignment_flavor op TypeTag.TYPE_ENUM
        = AssignmentFlavor assignment_flavor op TypeTag.TYPE_INT
    ∧ AssignmentFlavor assignment_flavor op TypeTag.TYPE_COUNTER
        = AssignmentFlavor assignment_flavor op TypeTag.TYPE_COUNT
    ∧ AssignmentFlavor assignment_flavor op TypeTag.TYPE_PORT
        = AssignmentFlavor assignment_flavor op TypeTag.TYPE_COUNT
    ∧ AssignmentFlavor assignment_flavor op TypeTag.TYPE_TIME
        = AssignmentFlavor assignment_flavor op TypeTag.TYPE_DOUBLE
    ∧ AssignmentFlavor assignment_flavor op TypeTag.TYPE_INTERVAL
        = AssignmentFlavor assignment_flavor op TypeTag.TYPE_DOUBLE
    ∧ ∀ (tag : TypeTag) (orig_map : List (TypeTag × ZOp)) (flavor : ZOp),
        tag ≠ TypeTag.TYPE_BOOL → tag ≠ TypeTag.TYPE_ENUM → tag ≠ TypeTag.TYPE_COUNTER →
        tag ≠ TypeTag.TYPE_PORT → tag ≠ TypeTag.TYPE_TIME → tag ≠ TypeTag.TYPE_INTERVAL →
        assignment_flavor.lookup op = some orig_map → orig_map.lookup tag = some flavor →
        AssignmentFlavor assignment_flavor op tag = flavor := by
  refine ⟨rfl, rfl, rfl, rfl, rfl, rfl, ?_⟩
  intro tag orig_map flavor h1 h2 h3 h4 h5 h6 hm ht
  have hn : normalizeTag tag = tag := by
    cases tag <;> first | rfl | contradiction
  simp [AssignmentFlavor, flavorLookup, hn, hm, ht]

/-- Witness for C15: with flavors of opcode 20 for `int` and `string`, `bool` yields the `int`
flavor and `string` is looked up unchanged. -/
theorem AssignmentFlavor_normalizes_witness :
    AssignmentFlavor
        [(ZOp.OP_other 20, [(TypeTag.TYPE_INT, ZOp.OP_other 21),
          (TypeTag.TYPE_STRING, ZOp.OP_other 22)])]
        (ZOp.OP_other 20) TypeTag.TYPE_BOOL = ZOp.OP_other 21
    ∧ AssignmentFlavor
        [(ZOp.OP_other 20, [(TypeTag.TYPE_INT, ZOp.OP_other 21),
          (TypeTag.TYPE_STRING, ZOp.OP_other 22)])]
        (ZOp.OP_other 20) TypeTag.TYPE_STRING = ZOp.OP_other 22 := by
  have h := AssignmentFlavor_normalizes
    [(ZOp.OP_other 20, [(TypeTag.TYPE_INT, ZOp.OP_other 21),
      (TypeTag.TYPE_STRING, ZOp.OP_other 22)])] (ZOp.OP_other 20)
  refine ⟨?_, ?_⟩
  · rw [h.1]; decide
  · exact h.2.2.2.2.2.2 TypeTag.TYPE_STRING
      [(TypeTag.TYPE_INT, ZOp.OP_other 21), (TypeTag.TYPE_STRING, ZOp.OP_other 22)]
      (ZOp.OP_other 22) (by decide) (by decide) (by decide) (by decide)
      (by decide) (by decide) (by decide) (by decide)

theorem lowerBytes_length (s : List Nat) : (lowerBytes s).length = s.length := by
  induction s with
  | nil => rfl
  | cons c rest ih => simp [lowerBytes, ih]

theorem lowerBytes_getElem? (s : List Nat) (i : Nat) :
    (lowerBytes s)[i]? = (s[i]?).map (fun c => if 65 ≤ c ∧ c ≤ 90 then c + 32 else c) := by
  induction s generalizing i with
  | nil => simp [lowerBytes]
  | cons c rest ih =>
    cases i with
    | zero =>
      simp only [lowerBytes, List.getElem?_cons_zero, Option.map_some']
      by_cases h : 65 ≤ c ∧ c ≤ 90
      · have h2 : c < 128 := by omega
        simp [isascii, isupper, tolower, h, h2]
      · simp [isascii, isupper, tolower, h]
    | succ i => simpa [lowerBytes] using ih i

theorem lowerBytes_idem (s : List Nat) : lowerBytes (lowerBytes s) = lowerBytes s := by
  apply List.ext_getElem?
  intro i
  rw [lowerBytes_getElem?, lowerBytes_getElem?]
  cases s[i]? with
  | none => rfl
  | some c =>
    simp only [Option.map_some', Option.some.injEq]
    split_ifs <;> omega

/-- C16: for every byte string `s`, `ZAM_to_lower s` has the length of `s` and holds, at each
position, the lower-case letter (the byte plus 32) when the byte of `s` is an ASCII upper-case
letter (65..90) and the byte of `s` otherwise; "ABC" (the bytes 65, 66, 67) gives "abc" (the
bytes 97, 98, 99), and applying the function twice equals applying it once. -/
theorem ZAM_to_lower_spec (s : List Nat) :
    (ZAM_to_lower s).length = s.length
    ∧ (∀ i : Nat, (ZAM_to_lower s)[i]?
        = (s[i]?).map (fun c => if 65 ≤ c ∧ c ≤ 90 then c + 32 else c))
    ∧ ZAM_to_lower [65, 66, 67] = [97, 98, 99]
    ∧ ZAM_to_lower (ZAM_to_lower s) = ZAM_to_lower s := by
  have e : ∀ t : List Nat, ZAM_to_lower t = lowerBytes t := by
    intro t
    unfold ZAM_to_lower
    rw [← lowerBytes_length t, List.take_length]
  refine ⟨by rw [e, lowerBytes_length], fun i => by rw [e, lowerBytes_getElem?], ?_, ?_⟩
  · decide
  · rw [e, e, lowerBytes_idem]

/-! ## The interpreter frame sizes -/

theorem lookup_map_replace {κ ν : Type} [DecidableEq κ] (f : List (κ × ν)) (k k1 : κ) (v : ν) :
    (f.map (fun e => if e.1 = k then (k, v) else e)).lookup k1
      = if k1 = k then (f.lookup k).map (fun _ => v) else f.lookup k1 := by
  induction f with
  | nil => simp
  | cons e rest ih =>
    obtain ⟨a, b⟩ := e
    by_cases hak : a = k
    · subst hak
      by_cases h1 : k1 = a
      · subst h1; simp [List.lookup_cons]
      · have : (k1 == a) = false := by simpa using h1
        simp [List.lookup_cons, this, ih, h1]
    · by_cases h1 : k1 = k
      · subst h1
        have : (k1 == a) = false := by simpa using fun e => hak e.symm
        simp [List.lookup_cons, this, ih, hak]
      · by_cases h2 : k1 = a
        · subst h2; simp [List.lookup_cons, hak, h1]
        · have : (k1 == a) = false := by simpa using h2
          simp [List.lookup_cons, this, ih, hak, h1]

theorem lookup_append_single {κ ν : Type} [DecidableEq κ] (f : List (κ × ν)) (k k1 : κ)
    (v : ν) :
    (f ++ [(k, v)]).lookup k1
      = match f.lookup k1 with
        | some w => some w
        | none => if k1 = k then some v else none := by
  induction f with
  | nil =>
    by_cases h : k1 = k
    · subst h; simp [List.lookup_cons]
    · have : (k1 == k) = false := by simpa using h
      simp [List.lookup_cons, this, h]
  | cons e rest ih =>
    obtain ⟨a, b⟩ := e
    by_cases h2 : k1 = a
    · subst h2; simp [List.lookup_cons]
    · have : (k1 == a) = false := by simpa using h2
      simp [List.lookup_cons, this, ih]

theorem lookup_mapSet {κ ν : Type} [DecidableEq κ] (f : List (κ × ν)) (k k1 : κ) (v : ν) :
    (mapSet f k v).lookup k1 = if k1 = k then some v else f.lookup k1 := by
  unfold mapSet
  cases h : f.lookup k with
  | none =>
    simp only [Option.isSome_none, Bool.false_eq_true, if_false]
    rw [lookup_append_single]
    by_cases h1 : k1 = k
    · subst h1; simp [h]
    · simp only [h1, if_false]
      cases f.lookup k1 <;> rfl
  | some w =>
    simp only [Option.isSome_some, if_true]
    rw [lookup_map_replace, h]
    rfl

/-- The maximum of a recorded size, if any, and a new size, as "Update frame sizes" forms
it. -/
theorem lookup_recordFrameSize (sizes : List (Nat × Int)) (func g : Nat) (n : Int) :
    (recordFrameSize sizes func n).lookup g
      = if g = func then
          (match sizes.lookup func with
           | none => some n
           | some v => if v < n then some n else some v)
        else sizes.lookup g := by
  unfold recordFrameSize
  cases h : sizes.lookup func with
  | none =>
    simp only [lookup_mapSet]
  | some v =>
    by_cases hv : v < n
    · simp only [hv, if_true, lookup_mapSet]
    · simp only [hv, if_false]
      by_cases hg : g = func
      · subst hg; simp [h]
      · simp [hg]

theorem remapBodies_lookup (an : Analyses) (func : Nat) (bodies : List ZAM) (p : Process) :
    (p.remapped_intrp_frame_sizes.lookup func = none →
      (∀ e ∈ remapSizes an bodies p, e.1 ≠ func) →
      (remapBodies an bodies p).remapped_intrp_frame_sizes.lookup func = none)
    ∧ (∀ v0, p.remapped_intrp_frame_sizes.lookup func = some v0 →
        ∃ v, (remapBodies an bodies p).remapped_intrp_frame_sizes.lookup func = some v
          ∧ v0 ≤ v ∧ (∀ e ∈ remapSizes an bodies p, e.1 = func → e.2 ≤ v)
          ∧ (v = v0 ∨ (func, v) ∈ remapSizes an bodies p))
    ∧ (p.remapped_intrp_frame_sizes.lookup func = none →
        (∃ e ∈ remapSizes an bodies p, e.1 = func) →
        ∃ v, (remapBodies an bodies p).remapped_intrp_frame_sizes.lookup func = some v
          ∧ maxSizeOf (remapSizes an bodies p) func v) := by
  induction bodies generalizing p with
  | nil =>
    refine ⟨fun h _ => h, fun v0 h => ⟨v0, h, le_refl _, ?_, Or.inl rfl⟩, ?_⟩
    · intro e he; simp [remapSizes] at he
    · intro _ ⟨e, he, _⟩; simp [remapSizes] at he
  | cons b bs ih =>
    obtain ⟨ih1, ih2, ih3⟩ := ih (b.ReMapInterpreterFrame an p).2
    have hl := lookup_recordFrameSize p.remapped_intrp_frame_sizes b.func func
      (b.intrpLocals an p.offset).1.next_interp_slot
    have hp : (b.ReMapInterpreterFrame an p).2.remapped_intrp_frame_sizes
        = recordFrameSize p.remapped_intrp_frame_sizes b.func
            (b.intrpLocals an p.offset).1.next_interp_slot := rfl
    rw [← hp] at hl
    refine ⟨?_, ?_, ?_⟩
    · intro h hne
      have hb : func ≠ b.func := fun e => hne _ (List.mem_cons_self _ _) e.symm
      simp only [hb, if_false] at hl
      exact ih1 (hl.trans h) (fun e he => hne e (List.mem_cons_of_mem _ he))
    · intro v0 h
      by_cases hb : func = b.func
      · rw [if_pos hb, ← hb, h] at hl
        by_cases hv : v0 < (b.intrpLocals an p.offset).1.next_interp_slot
        · simp only [hv, if_true] at hl
          obtain ⟨v, a1, a2, a3, a4⟩ := ih2 _ hl
          refine ⟨v, a1, by omega, ?_, ?_⟩
          · intro e he hef
            simp only [remapSizes, List.mem_cons] at he
            rcases he with he | he
            · subst he; exact a2
            · exact a3 e he hef
          · right
            simp only [remapSizes, List.mem_cons]
            rcases a4 with a4 | a4
            · left; rw [a4, hb]
            · right; exact a4
        · simp only [hv, if_false] at hl
          obtain ⟨v, a1, a2, a3, a4⟩ := ih2 _ hl
          refine ⟨v, a1, a2, ?_, ?_⟩
          · intro e he hef
            simp only [remapSizes, List.mem_cons] at he
            rcases he with he | he
            · subst he; simp only; omega
            · exact a3 e he hef
          · rcases a4 with a4 | a4
            · exact Or.inl a4
            · exact Or.inr (List.mem_cons_of_mem _ a4)
      · simp only [hb, if_false] at hl
        obtain ⟨v, a1, a2, a3, a4⟩ := ih2 _ (hl.trans h)
        refine ⟨v, a1, a2, ?_, ?_⟩
        · intro e he hef
          simp only [remapSizes, List.mem_cons] at he
          rcases he with he | he
          · subst he; exact absurd hef.symm hb
          · exact a3 e he hef
        · rcases a4 with a4 | a4
          · exact Or.inl a4
          · exact Or.inr (List.mem_cons_of_mem _ a4)
    · intro h ⟨e, he, hef⟩
      by_cases hb : func = b.func
      · rw [if_pos hb, ← hb, h] at hl
        simp only at hl
        obtain ⟨v, a1, a2, a3, a4⟩ := ih2 _ hl
        refine ⟨v, a1, ?_, ?_⟩
        · simp only [remapSizes, List.mem_cons]
          rcases a4 with a4 | a4
          · left; rw [a4, hb]
          · right; exact a4
        · intro e1 he1 hef1
          simp only [remapSizes, List.mem_cons] at he1
          rcases he1 with he1 | he1
          · subst he1; exact a2
          · exact a3 e1 he1 hef1
      · simp only [hb, if_false] at hl
        simp only [remapSizes, List.mem_cons] at he
        rcases he with he | he
        · subst he; exact absurd hef.symm hb
        · obtain ⟨v, a1, a2, a3⟩ := ih3 (hl.trans h) ⟨e, he, hef⟩
          refine ⟨v, a1, List.mem_cons_of_mem _ a2, ?_⟩
          intro e1 he1 hef1
          simp only [remapSizes, List.mem_cons] at he1
          rcases he1 with he1 | he1
          · subst he1; exact absurd hef1.symm hb
          · exact a3 e1 he1 hef1

theorem remapSizes_funcs (an : Analyses) (bodies : List ZAM) (p : Process) :
    (remapSizes an bodies p).map Prod.fst = bodies.map ZAM.func := by
  induction bodies generalizing p with
  | nil => rfl
  | cons b bs ih => simp [remapSizes, ih]

theorem finalize_fold (funcs : List Nat) (p : Process) :
    (funcs.foldl (fun p1 func =>
        match p1.remapped_intrp_frame_sizes.lookup func with
        | none => p1
        | some n => { p1 with frame_size := fun g => if g = func then n else p1.frame_size g })
        p).remapped_intrp_frame_sizes = p.remapped_intrp_frame_sizes
    ∧ ∀ g, (funcs.foldl (fun p1 func =>
        match p1.remapped_intrp_frame_sizes.lookup func with
        | none => p1
        | some n => { p1 with frame_size := fun g => if g = func then n else p1.frame_size g })
        p).frame_size g
      = if g ∈ funcs then (p.remapped_intrp_frame_sizes.lookup g).getD (p.frame_size g)
        else p.frame_size g := by
  induction funcs generalizing p with
  | nil => simp
  | cons f rest ih =>
    simp only [List.foldl_cons]
    cases hf : p.remapped_intrp_frame_sizes.lookup f with
    | none =>
      simp only
      refine ⟨(ih p).1, ?_⟩
      intro g
      rw [(ih p).2 g]
      by_cases hg : g = f
      · subst hg
        by_cases hr : g ∈ rest <;> simp [hr, hf]
      · simp [hg]
    | some n =>
      simp only
      obtain ⟨a1, a2⟩ := ih { p with frame_size := fun g => if g = f then n else p.frame_size g }
      refine ⟨a1, ?_⟩
      intro g
      rw [a2 g]
      by_cases hg : g = f
      · subst hg
        by_cases hr : g ∈ rest <;> simp [hr, hf]
      · simp [hg]

/-- C14: when `ReMapInterpreterFrame` has run for every body of a list, the entry of
`remapped_intrp_frame_sizes` for a function that had no entry before and has a body in the
list is the maximum, over its bodies, of the remapped interpreter-frame size that
`ReMapInterpreterFrame` computed.  `finalize_functions` sets the frame size of each function
of `funcs` that has an entry to exactly the entry, leaves the frame size of a function
without an entry as it is, and changes nothing at all when the map is empty. -/
theorem finalize_functions_spec (an : Analyses) (bodies : List ZAM) (p : Process)
    (funcs : List Nat) :
    (∀ func, p.remapped_intrp_frame_sizes.lookup func = none →
        (∃ b ∈ bodies, b.func = func) →
        ∃ v, (remapBodies an bodies p).remapped_intrp_frame_sizes.lookup func = some v
          ∧ maxSizeOf (remapSizes an bodies p) func v)
    ∧ (∀ (q : Process) (func : Nat) (n : Int),
        q.remapped_intrp_frame_sizes.lookup func = some n → func ∈ funcs →
        (finalize_functions q funcs).frame_size func = n)
    ∧ (∀ (q : Process) (func : Nat), q.remapped_intrp_frame_sizes.lookup func = none →
        (finalize_functions q funcs).frame_size func = q.frame_size func)
    ∧ (∀ q : Process, q.remapped_intrp_frame_sizes = [] → finalize_functions q funcs = q) := by
  refine ⟨?_, ?_, ?_, ?_⟩
  · intro func h0 ⟨b, hb, hbf⟩
    apply (remapBodies_lookup an func bodies p).2.2 h0
    have hm : func ∈ (remapSizes an bodies p).map Prod.fst := by
      rw [remapSizes_funcs, ← hbf]
      exact List.mem_map_of_mem _ hb
    obtain ⟨e, he, hef⟩ := List.mem_map.1 hm
    exact ⟨e, he, hef⟩
  · intro q func n hq hf
    unfold finalize_functions
    have hne : ¬ q.remapped_intrp_frame_sizes.length = 0 := by
      intro h
      rw [List.length_eq_zero] at h
      rw [h] at hq
      simp at hq
    rw [if_neg hne, (finalize_fold funcs q).2 func]
    simp [hf, hq]
  · intro q func hq
    unfold finalize_functions
    split
    · rfl
    · rw [(finalize_fold funcs q).2 func]
      by_cases hf : func ∈ funcs <;> simp [hf, hq]
  · intro q hq
    unfold finalize_functions
    simp [hq]

/-- Witness for C14: the function 1 has the bodies `intrpExampleA`, remapped to three
interpreter slots, and `intrpExampleB`, remapped to one; its entry is 3, and
`finalize_functions` sets its frame size to 3 and leaves the function 2 at 9. -/
theorem finalize_functions_spec_witness :
    remapSizes exampleAnalyses [intrpExampleA, intrpExampleB] exampleProcess = [(1, 3), (1, 1)]
    ∧ (∃ v, (remapBodies exampleAnalyses [intrpExampleA, intrpExampleB]
          exampleProcess).remapped_intrp_frame_sizes.lookup 1 = some v
        ∧ maxSizeOf (remapSizes exampleAnalyses [intrpExampleA, intrpExampleB] exampleProcess)
            1 v)
    ∧ (finalize_functions
        (remapBodies exampleAnalyses [intrpExampleA, intrpExampleB] exampleProcess)
        [1, 2]).frame_size 1 = 3
    ∧ (finalize_functions
        (remapBodies exampleAnalyses [intrpExampleA, intrpExampleB] exampleProcess)
        [1, 2]).frame_size 2 = 9 := by
  have h := finalize_functions_spec exampleAnalyses [intrpExampleA, intrpExampleB]
    exampleProcess [1, 2]
  refine ⟨by decide, h.1 1 rfl ⟨intrpExampleA, by simp, rfl⟩, ?_, ?_⟩
  · exact h.2.1 _ 1 3 (by decide) (by decide)
  · rw [h.2.2.1 _ 2 (by decide)]
    rfl

/-! ## The optimizer leaves `insts2` alone; the assembly appends to it -/

theorem modifyInst_insts2 (m : ZAM) (r : InstRef) (f : ZInst → ZInst) :
    (m.modifyInst r f).insts2 = m.insts2 := by
  cases r <;> rfl

theorem foldl_insts2 {α : Type} (f : ZAM → α → ZAM) (h : ∀ m a, (f m a).insts2 = m.insts2)
    (l : List α) (m : ZAM) : (l.foldl f m).insts2 = m.insts2 := by
  induction l generalizing m with
  | nil => rfl
  | cons a l ih => rw [List.foldl_cons, ih, h]

theorem tallyTarget_insts2 (m : ZAM) (t : Option InstRef) :
    (m.tallyTarget t).insts2 = m.insts2 := by
  unfold ZAM.tallyTarget
  cases t with
  | none => rfl
  | some r =>
    simp only
    cases m.deref r with
    | none => rfl
    | some z =>
      simp only
      split
      · exact modifyInst_insts2 _ _ _
      · rfl

theorem tallySwitchTargets_insts2 {κ : Type} (switches : List (CaseMap κ)) (m : ZAM) :
    (m.tallySwitchTargets switches).insts2 = m.insts2 := by
  unfold ZAM.tallySwitchTargets
  apply foldl_insts2
  intro m1 targs
  apply foldl_insts2
  intro m2 targ
  exact modifyInst_insts2 _ _ _

theorem tallyLabels_insts2 (m : ZAM) : m.tallyLabels.insts2 = m.insts2 := by
  unfold ZAM.tallyLabels
  simp only [tallySwitchTargets_insts2]
  apply foldl_insts2
  intro m1 z
  unfold ZAM.tallyInst
  rw [tallyTarget_insts2, tallyTarget_insts2]

theorem KillInst_insts2 (m : ZAM) (i : Nat) : (m.KillInst i).insts2 = m.insts2 := by
  unfold ZAM.KillInst
  cases m.insts1[i]? with
  | none => rfl
  | some z =>
    simp only
    cases z.target <;> cases z.target2 <;> simp [modifyInst_insts2]

theorem RemoveDeadCode_insts2 (m : ZAM) (zm : ZInstMethods) :
    (m.RemoveDeadCode zm).1.insts2 = m.insts2 := by
  unfold ZAM.RemoveDeadCode
  have key : ∀ (l : List Nat) (s : ZAM × Bool),
      (l.foldl (ZAM.removeDeadAt zm) s).1.insts2 = s.1.insts2 := by
    intro l
    induction l with
    | nil => intro s; rfl
    | cons i l ih =>
      intro s
      rw [List.foldl_cons, ih]
      unfold ZAM.removeDeadAt
      split
      · split
        · exact KillInst_insts2 _ _
        · rfl
      · rfl
  exact key _ _

theorem collapseChain_insts2 (zm : ZInstMethods) (i : Nat) (fuel : Nat) (m : ZAM) (t : InstRef)
    (r : ZAM × InstRef) (h : m.collapseChain zm i fuel t = some r) : r.1.insts2 = m.insts2 := by
  induction fuel generalizing m t with
  | zero => simp [ZAM.collapseChain] at h
  | succ fuel ih =>
    unfold ZAM.collapseChain at h
    simp only at h
    split at h
    · cases h
    · split at h
      · cases h
      · split at h
        · cases h
        · split at h
          · rw [ih _ _ h]
            simp [modifyInst_insts2]
          · cases h
            simp [modifyInst_insts2]

theorem collapseToNext_insts2 (m : ZAM) (zm : ZInstMethods) (i : Nat) (t : InstRef) :
    (m.collapseToNext zm i t).insts2 = m.insts2 := by
  unfold ZAM.collapseToNext
  simp only
  repeat' (first | rfl | rw [modifyInst_insts2] | split)

theorem collapseAt_insts2 (zm : ZInstMethods) (fuel : Nat) (s r : ZAM × Bool) (i : Nat)
    (h : ZAM.collapseAt zm fuel s i = some r) : r.1.insts2 = s.1.insts2 := by
  unfold ZAM.collapseAt at h
  split at h
  · cases h; rfl
  · split at h
    · cases h; rfl
    · split at h
      · cases h; rfl
      · split at h
        · cases h
        · split at h
          · split at h
            · cases h
            · rename_i m1 t1 hc
              cases h
              rw [collapseToNext_insts2]
              exact collapseChain_insts2 zm i fuel _ _ _ hc
          · cases h
            exact collapseToNext_insts2 _ _ _ _

theorem foldPositions_insts2 (f : ZAM × Bool → Nat → Option (ZAM × Bool))
    (hf : ∀ s i r, f s i = some r → r.1.insts2 = s.1.insts2) (l : List Nat) (s r : ZAM × Bool)
    (h : foldPositions f l s = some r) : r.1.insts2 = s.1.insts2 := by
  induction l generalizing s with
  | nil => simp only [foldPositions, Option.some.injEq] at h; rw [← h]
  | cons i l ih =>
    unfold foldPositions at h
    cases hs : f s i with
    | none => simp [hs] at h
    | some s1 =>
      simp only [hs] at h
      rw [ih _ h, hf _ _ _ hs]

theorem CollapseGoTos_insts2 (m : ZAM) (zm : ZInstMethods) (fuel : Nat) (r : ZAM × Bool)
    (h : m.CollapseGoTos zm fuel = some r) : r.1.insts2 = m.insts2 :=
  foldPositions_insts2 _ (fun s i r hr => collapseAt_insts2 zm fuel s r i hr) _ _ _ h

theorem ExtendLifetime_insts2 (m : ZAM) (an : Analyses) (slot : Int) (p : Nat) :
    (m.ExtendLifetime an slot p).insts2 = m.insts2 := by
  unfold ZAM.ExtendLifetime
  repeat' (first | rfl | split)

theorem SetLifetimeStart_insts2 (m : ZAM) (slot : Int) (p : Nat) :
    (m.SetLifetimeStart slot p).insts2 = m.insts2 := by
  unfold ZAM.SetLifetimeStart
  repeat' (first | rfl | split)

theorem CheckSlotUse_insts2 (m : ZAM) (an : Analyses) (slot : Int) (p : Nat) :
    (m.CheckSlotUse an slot p).insts2 = m.insts2 := by
  unfold ZAM.CheckSlotUse
  split
  · rfl
  · exact ExtendLifetime_insts2 _ _ _ _

theorem usedSlotLifetimes_insts2 (m : ZAM) (zm : ZInstMethods) (an : Analyses) (inst : ZInst)
    (p : Nat) : (m.usedSlotLifetimes zm an inst p).insts2 = m.insts2 := by
  unfold ZAM.usedSlotLifetimes
  split
  · rfl
  · simp only [CheckSlotUse_insts2]

theorem iterVarLifetimes_insts2 (an : Analyses) (p : Nat) (depth : Int) (vs : List Int)
    (m : ZAM) : (m.iterVarLifetimes an p depth vs).insts2 = m.insts2 := by
  induction vs generalizing m with
  | nil => rfl
  | cons v vs ih =>
    unfold ZAM.iterVarLifetimes
    simp only
    rw [ih, ExtendLifetime_insts2]
    exact SetLifetimeStart_insts2 _ _ _

theorem syncGlobalLifetimes_insts2 (an : Analyses) (p : Nat) (gs : List ID) (m : ZAM) :
    (m.syncGlobalLifetimes an p gs).insts2 = m.insts2 := by
  induction gs generalizing m with
  | nil => rfl
  | cons g gs ih =>
    unfold ZAM.syncGlobalLifetimes
    simp only
    rw [ih]
    split
    · exact ExtendLifetime_insts2 _ _ _ _
    · rfl

theorem auxLifetimes_insts2 (an : Analyses) (p : Nat) (slots : List Int) (m : ZAM) :
    (m.auxLifetimes an p slots).insts2 = m.insts2 := by
  induction slots generalizing m with
  | nil => rfl
  | cons g gs ih =>
    unfold ZAM.auxLifetimes
    simp only
    rw [ih]
    split
    · rfl
    · exact ExtendLifetime_insts2 _ _ _ _

theorem lifetimesAt_insts2 (m : ZAM) (zm : ZInstMethods) (an : Analyses) (i : Nat) :
    (m.lifetimesAt zm an i).insts2 = m.insts2 := by
  unfold ZAM.lifetimesAt
  have hc : ∀ (b : Bool) (v : Int), (if b = true then m.CheckSlotAssignment an v i else m).insts2
      = m.insts2 := by
    intro b v
    split
    · exact SetLifetimeStart_insts2 _ _ _
    · rfl
  cases m.insts1[i]? with
  | none => rfl
  | some inst =>
    simp only
    split
    · rfl
    · split
      · rw [usedSlotLifetimes_insts2]
        split
        · rw [ExtendLifetime_insts2, iterVarLifetimes_insts2]; exact hc _ _
        · rw [iterVarLifetimes_insts2]; exact hc _ _
      · split
        · rw [usedSlotLifetimes_insts2, syncGlobalLifetimes_insts2]; exact hc _ _
        · split
          · rw [ExtendLifetime_insts2]; exact hc _ _
          · rw [usedSlotLifetimes_insts2]
            split
            · exact hc _ _
            · rw [auxLifetimes_insts2]; exact hc _ _

theorem ComputeFrameLifetimes_insts2 (m : ZAM) (zm : ZInstMethods) (an : Analyses) :
    (m.ComputeFrameLifetimes zm an).insts2 = m.insts2 := by
  unfold ZAM.ComputeFrameLifetimes
  simp only
  rw [foldl_insts2 _ (fun m1 i => lifetimesAt_insts2 m1 zm an i)]

theorem pruneAt_insts2 (zm : ZInstMethods) (an : Analyses) (tb : OpTables) (s : ZAM × Bool)
    (i : Nat) (r : ZAM × Bool) (h : ZAM.pruneAt zm an tb s i = some r) :
    r.1.insts2 = s.1.insts2 := by
  unfold ZAM.pruneAt at h
  cases hi : s.1.insts1[i]? with
  | none => simp only [hi, Option.some.injEq] at h; rw [← h]
  | some inst0 =>
    simp only [hi] at h
    split at h
    · simp only [Option.some.injEq] at h; rw [← h]
    · generalize hs1 : (if zm.IsFrameStore inst0 = true ∧ s.1.VarIsAssigned zm inst0.v1 = false
          then (s.1.KillInst i, true) else s) = s1 at h
      have e1 : s1.1.insts2 = s.1.insts2 := by
        rw [← hs1]
        split
        · exact KillInst_insts2 _ _
        · rfl
      generalize hs2 : (if zm.IsLoad ((s1.1.insts1[i]?).getD inst0) = true
          ∧ s1.1.VarIsUsed zm ((s1.1.insts1[i]?).getD inst0).v1 = false
          then (s1.1.KillInst i, true) else s1) = s2 at h
      have e2 : s2.1.insts2 = s.1.insts2 := by
        rw [← hs2, ← e1]
        split
        · exact KillInst_insts2 _ _
        · rfl
      split at h
      · simp only [Option.some.injEq] at h; rw [← h, e2]
      · split at h
        · simp only [Option.some.injEq] at h; rw [← h, e2]
        · split at h
          · simp only [Option.some.injEq] at h; rw [← h, ← e2]; exact KillInst_insts2 _ _
          · split at h
            · cases h
            · simp only [Option.some.injEq] at h; rw [← h, ← e2]

theorem PruneUnused_insts2 (m : ZAM) (zm : ZInstMethods) (an : Analyses) (tb : OpTables)
    (r : ZAM × Bool) (h : m.PruneUnused zm an tb = some r) : r.1.insts2 = m.insts2 :=
  foldPositions_insts2 _ (pruneAt_insts2 zm an tb) _ _ _ h

theorem repeatPass_insts2 (pass : ZAM → Option (ZAM × Bool))
    (hp : ∀ m r, pass m = some r → r.1.insts2 = m.insts2) (fuel : Nat) (m : ZAM)
    (r : ZAM × Bool) (h : repeatPass pass fuel m = some r) : r.1.insts2 = m.insts2 := by
  induction fuel generalizing m r with
  | zero => simp [repeatPass] at h
  | succ fuel ih =>
    unfold repeatPass at h
    cases hm : pass m with
    | none => simp [hm] at h
    | some r1 =>
      obtain ⟨m1, b⟩ := r1
      have e1 := hp _ _ hm
      cases b with
      | false =>
        simp only [hm, Option.some.injEq] at h
        rw [← h]; exact e1
      | true =>
        simp only [hm] at h
        cases hr : repeatPass pass fuel m1 with
        | none => simp [hr] at h
        | some r2 =>
          simp only [hr, Option.some.injEq] at h
          rw [← h]
          exact (ih _ _ hr).trans e1

theorem optimizeRound_insts2 (m : ZAM) (zm : ZInstMethods) (an : Analyses) (tb : OpTables)
    (fuel : Nat) (r : ZAM × Bool) (h : m.optimizeRound zm an tb fuel = some r) :
    r.1.insts2 = m.insts2 := by
  unfold ZAM.optimizeRound at h
  cases h1 : repeatPass (fun m1 => some (m1.RemoveDeadCode zm)) fuel m with
  | none => simp [h1] at h
  | some r1 =>
    have e1 := repeatPass_insts2 _ (fun m0 r0 h0 => by
      simp only [Option.some.injEq] at h0
      rw [← h0]; exact RemoveDeadCode_insts2 _ _) _ _ _ h1
    simp only [h1] at h
    cases h2 : repeatPass (fun m2 => m2.CollapseGoTos zm fuel) fuel r1.1 with
    | none => simp [h2] at h
    | some r2 =>
      have e2 := repeatPass_insts2 _ (fun m0 r0 h0 => CollapseGoTos_insts2 _ _ _ _ h0) _ _ _ h2
      simp only [h2] at h
      cases h3 : (r2.1.ComputeFrameLifetimes zm an).PruneUnused zm an tb with
      | none => simp [h3] at h
      | some r3 =>
        have e3 := PruneUnused_insts2 _ _ _ _ _ h3
        simp only [h3, Option.some.injEq] at h
        rw [← h]
        simp only
        rw [e3, ComputeFrameLifetimes_insts2, e2, e1]

theorem optimizeLoop_insts2 (zm : ZInstMethods) (an : Analyses) (tb : OpTables) (fuel : Nat)
    (rounds : Nat) (m m1 : ZAM) (h : ZAM.optimizeLoop zm an tb fuel rounds m = some m1) :
    m1.insts2 = m.insts2 := by
  induction rounds generalizing m with
  | zero => simp [ZAM.optimizeLoop] at h
  | succ rounds ih =>
    unfold ZAM.optimizeLoop at h
    cases hr : m.optimizeRound zm an tb fuel with
    | none => simp [hr] at h
    | some r =>
      obtain ⟨m2, b⟩ := r
      have e := optimizeRound_insts2 _ _ _ _ _ _ hr
      cases b with
      | true =>
        simp only [hr] at h
        exact (ih _ h).trans e
      | false =>
        simp only [hr, Option.some.injEq] at h
        rw [← h]; exact e

theorem ReMapVar_insts2 (m : ZAM) (an : Analyses) (id : ID) (slot inst : Int) :
    (m.ReMapVar an id slot inst).insts2 = m.insts2 := by
  unfold ZAM.ReMapVar
  simp only
  split <;> rfl

theorem remapVarsAt_insts2 (an : Analyses) (i : Nat) (vars : List ID) (m : ZAM) :
    (m.remapVarsAt an i vars).insts2 = m.insts2 := by
  induction vars generalizing m with
  | nil => rfl
  | cons v vars ih =>
    unfold ZAM.remapVarsAt
    simp only
    rw [ih]
    split
    · exact ReMapVar_insts2 _ _ _ _ _
    · rfl

theorem remapVars_insts2 (m : ZAM) (an : Analyses) : (m.remapVars an).insts2 = m.insts2 := by
  unfold ZAM.remapVars
  rw [foldl_insts2]
  · rfl
  · intro m1 i
    unfold ZAM.remapAt
    split
    · rfl
    · exact remapVarsAt_insts2 _ _ _ _

theorem rewriteAt_insts2 (m : ZAM) (zm : ZInstMethods) (rg : List Int) (i : Nat) :
    (m.rewriteAt zm rg i).insts2 = m.insts2 := by
  unfold ZAM.rewriteAt
  cases m.insts1[i]? with
  | none => rfl
  | some inst =>
    simp only
    split
    · rfl
    · split
      · rw [KillInst_insts2]
      · rfl

theorem ReMapFrame_insts2 (m : ZAM) (zm : ZInstMethods) (an : Analyses) :
    (m.ReMapFrame zm an).insts2 = m.insts2 := by
  unfold ZAM.ReMapFrame
  simp only
  rw [foldl_insts2 _ (fun m1 i => rewriteAt_insts2 m1 zm _ i)]
  exact remapVars_insts2 m an

/-- The optimizer does not touch `insts2`. -/
theorem OptimizeInsts_insts2 (m : ZAM) (zm : ZInstMethods) (an : Analyses) (tb : OpTables)
    (fuel : Nat) (p : Process) (r : ZAM × Process)
    (h : m.OptimizeInsts zm an tb fuel p = some r) : r.1.insts2 = m.insts2 := by
  unfold ZAM.OptimizeInsts at h
  cases hl : ZAM.optimizeLoop zm an tb fuel fuel m.tallyLabels with
  | none => simp [hl] at h
  | some m1 =>
    simp only [hl, Option.some.injEq] at h
    rw [← h]
    show (m1.ReMapFrame zm an).insts2 = m.insts2
    rw [ReMapFrame_insts2, optimizeLoop_insts2 _ _ _ _ _ _ _ hl, tallyLabels_insts2]

theorem livePositions_congr (l l1 : List ZInst) (h : l1.map ZInst.live = l.map ZInst.live)
    (i : Nat) : livePositions l1 i = livePositions l i := by
  induction l generalizing l1 i with
  | nil =>
    cases l1 with
    | nil => rfl
    | cons a t => simp at h
  | cons z t ih =>
    cases l1 with
    | nil => simp at h
    | cons a t1 =>
      simp only [List.map_cons, List.cons.injEq] at h
      unfold livePositions
      rw [h.1, ih t1 h.2]

theorem renumberFrom_live (ps : List Nat) (i : Nat) (l : List ZInst) :
    (renumberFrom ps i l).map ZInst.live = l.map ZInst.live := by
  induction ps generalizing i l with
  | nil => rfl
  | cons p ps ih =>
    unfold renumberFrom
    rw [ih]
    apply List.ext_getElem?
    intro j
    simp only [List.getElem?_map, List.getElem?_modify]
    cases l[j]? with
    | none => rfl
    | some z => by_cases hp : p = j <;> simp [hp]

theorem concretizeInst_live (m : ZAM) (inst inst1 : ZInst) (h : m.concretizeInst inst = some inst1) :
    inst1.live = inst.live := by
  have hr : ∀ (a b : ZInst) (t : InstRef) (s : Int), m.RetargetBranch a t s = some b →
      b.live = a.live ∧ b.target2 = a.target2 := by
    intro a b t s hab
    unfold ZAM.RetargetBranch at hab
    simp only at hab
    split_ifs at hab <;> (cases hab; exact ⟨rfl, rfl⟩)
  unfold ZAM.concretizeInst at h
  cases ht : inst.target with
  | none => simp only [ht, Option.some.injEq] at h; rw [← h]
  | some t =>
    simp only [ht] at h
    cases h1 : m.RetargetBranch inst t inst.target_slot with
    | none => simp [h1] at h
    | some i1 =>
      simp only [h1] at h
      have a1 := hr _ _ _ _ h1
      cases h2 : i1.target2 with
      | none => simp only [h2, Option.some.injEq] at h; rw [← h]; exact a1.1
      | some t2 =>
        simp only [h2] at h
        exact ((hr _ _ _ _ h).1).trans a1.1

theorem concretizeGoTos_live (ps : List Nat) (m m1 : ZAM) (h : m.concretizeGoTos ps = some m1) :
    m1.insts2 = m.insts2 ∧ m1.insts1.map ZInst.live = m.insts1.map ZInst.live := by
  induction ps generalizing m with
  | nil => simp only [ZAM.concretizeGoTos, Option.some.injEq] at h; rw [← h]; exact ⟨rfl, rfl⟩
  | cons p ps ih =>
    unfold ZAM.concretizeGoTos at h
    cases hp : m.insts1[p]? with
    | none => simp only [hp] at h; exact ih _ h
    | some inst =>
      simp only [hp] at h
      cases hc : m.concretizeInst inst with
      | none => simp [hc] at h
      | some inst1 =>
        simp only [hc] at h
        obtain ⟨a1, a2⟩ := ih _ h
        refine ⟨a1, a2.trans ?_⟩
        simp only
        apply List.ext_getElem?
        intro j
        simp only [List.getElem?_map, List.getElem?_set]
        by_cases hj : p = j
        · subst hj
          simp only [if_true, hp]
          split
          · simp [concretizeInst_live m _ _ hc]
          · rename_i hlt
            have : p < m.insts1.length := by
              rcases Nat.lt_or_ge p m.insts1.length with h1 | h1
              · exact h1
              · rw [List.getElem?_eq_none h1] at hp; cases hp
            exact absurd this hlt
        · simp [hj]

/-- The assembly appends to `insts2` the positions of the live instructions, in order. -/
theorem assemble_insts2 (m : ZAM) (r : ZAM × List Int) (h : m.assemble = some r) :
    r.1.insts2 = m.insts2 ++ livePositions r.1.insts1 0 := by
  unfold ZAM.assemble at h
  simp only at h
  split at h
  · cases h
  · rename_i m5 hc
    simp only [Option.some.injEq] at h
    rw [← h]
    obtain ⟨a1, a2⟩ := concretizeGoTos_live _ _ _ hc
    show m5.insts2 = m.insts2 ++ livePositions m5.insts1 0
    rw [a1, livePositions_congr _ _ a2]
    simp only [ZAM.renumberInsts2]
    rw [fillInsts2_fst, (moveBranchesToLive_spec m).2.2.1,
      livePositions_congr _ _ (renumberFrom_live _ _ _)]

theorem optimizeAndAssemble_insts2 (m : ZAM) (zm : ZInstMethods) (an : Analyses)
    (tb : OpTables) (no_ZAM_opt : Bool) (fuel : Nat) (p : Process) (r : ZAM × Process)
    (h : m.optimizeAndAssemble zm an tb no_ZAM_opt fuel p = some r) :
    r.1.insts2 = m.insts2 ++ livePositions r.1.insts1 0 := by
  unfold ZAM.optimizeAndAssemble at h
  cases ho : (if no_ZAM_opt = true then some (m, p) else m.OptimizeInsts zm an tb fuel p) with
  | none => simp [ho] at h
  | some r1 =>
    simp only [ho] at h
    have e1 : r1.1.insts2 = m.insts2 := by
      cases no_ZAM_opt with
      | true => simp only [if_true, Option.some.injEq] at ho; rw [← ho]
      | false =>
        simp only [Bool.false_eq_true, if_false] at ho
        exact OptimizeInsts_insts2 _ _ _ _ _ _ _ ho
    cases ha : r1.1.assemble with
    | none => simp [ha] at h
    | some ra =>
      simp only [ha, Option.some.injEq] at h
      rw [← h]
      simp only
      rw [assemble_insts2 _ _ ha, e1]

/-! ## The code generator -/

theorem AddInst_spec (m : ZAM) (z : ZInst) :
    (m.AddInst z).1.insts1 = m.insts1 ++ z :: markersFor m.mark_dirty
    ∧ (m.AddInst z).1.mark_dirty < 0
    ∧ (m.AddInst z).1.frame_layout1 = m.frame_layout1
    ∧ (m.AddInst z).1.frame_denizens = m.frame_denizens
    ∧ (m.AddInst z).1.global_id_to_info = m.global_id_to_info
    ∧ (m.AddInst z).2.stmt_num = ((m.AddInst z).1.insts1.length : Int) - 1 := by
  unfold ZAM.AddInst markersFor
  by_cases h : m.mark_dirty < 0
  · simp [ZAM.pushInst, h]
  · simp [ZAM.pushInst, h, dirtyMarker]
    omega

/-- Evaluation of the lowering at the inputs that decide C20.  For `g = f()`, with `g` a
global, `DoCall` leaves the call followed by two markers `OP_DIRTY_GLOBAL_V` for `g`, the one
that `AddInst` adds for `mark_dirty` and the one that `DoCall` adds itself.  For
`g = to_lower(x)`, with `g` and `x` globals, the marker for `g` follows the load of `x` and
precedes the assigning instruction `OP_TO_LOWER_VV`, which no marker follows.  For
`g = to_lower(y)`, with `y` a local, the assigning instruction is followed by the one
marker. -/
theorem AssignToCall_dirty_markers :
    ((genExample.AssignToCall exampleIDs exampleFlavors exampleBuiltIns []
        (assignCall 30 41 [])).map (fun r => r.1.insts1.map (fun z => (z.op, z.v1)))
      = some [(ZOp.OP_other 41, 0), (ZOp.OP_DIRTY_GLOBAL_V, 0), (ZOp.OP_DIRTY_GLOBAL_V, 0)]
      ∧ (genExample.AssignToCall exampleIDs exampleFlavors exampleBuiltIns []
        (assignCall 30 41 [])).map (fun r => markedOnce r.1.insts1 0 0) = some false)
    ∧ ((genExample.AssignToCall exampleIDs exampleFlavors exampleBuiltIns []
        (assignCall 30 40 [Expr.name 31])).map
          (fun r => r.1.insts1.map (fun z => (z.op, z.v1, z.v2)))
      = some [(ZOp.OP_other 40, 1, 1), (ZOp.OP_DIRTY_GLOBAL_V, 0, 0),
          (ZOp.OP_TO_LOWER_VV, 0, 1)]
      ∧ (genExample.AssignToCall exampleIDs exampleFlavors exampleBuiltIns []
        (assignCall 30 40 [Expr.name 31])).map (fun r => markedOnce r.1.insts1 2 0)
          = some false)
    ∧ ((genExample.AssignToCall exampleIDs exampleFlavors exampleBuiltIns []
        (assignCall 30 40 [Expr.name 32])).map
          (fun r => r.1.insts1.map (fun z => (z.op, z.v1, z.v2)))
      = some [(ZOp.OP_TO_LOWER_VV, 0, 2), (ZOp.OP_DIRTY_GLOBAL_V, 0, 0)]
      ∧ (genExample.AssignToCall exampleIDs exampleFlavors exampleBuiltIns []
        (assignCall 30 40 [Expr.name 32])).map (fun r => markedOnce r.1.insts1 0 0)
          = some true) := by
  decide

theorem mem_markersFor (d : Int) (z : ZInst) (h : z ∈ markersFor d) :
    z.op = ZOp.OP_DIRTY_GLOBAL_V := by
  unfold markersFor at h
  split at h
  · simp at h
  · simp only [List.mem_singleton] at h
    rw [h]; rfl

theorem BuiltIn_to_lower_name (m : ZAM) (ids : IDInfo) (fl : FlavorMap) (n arg : ID)
    (nslot aslot : Int) (hn : m.RawSlot n = some nslot) (ha : m.RawSlot arg = some aslot)
    (hden : m.denizen aslot = arg) :
    ∃ r pre post, m.BuiltIn_to_lower ids fl (some n) [Expr.name arg] = some (r, true)
      ∧ r.insts1 = m.insts1 ++ pre ++ [ZInst.mkVV ZOp.OP_TO_LOWER_VV nslot aslot] ++ post
      ∧ ∀ z ∈ pre ++ post, z.op = ZOp.OP_DIRTY_GLOBAL_V
          ∨ z.op = AssignmentFlavor fl ZOp.OP_LOAD_GLOBAL_VVC (ids.Tag arg) := by
  -- the state after `Frame1Slot(n, OP1_WRITE)`
  obtain ⟨m1, h1, e1, e2, e3⟩ : ∃ m1, m.Frame1Slot ids fl n ZAMOp1Flavor.OP1_WRITE
      = some (m1, nslot) ∧ m1.insts1 = m.insts1 ∧ m1.frame_layout1 = m.frame_layout1
      ∧ m1.frame_denizens = m.frame_denizens := by
    unfold ZAM.Frame1Slot
    simp only [hn]
    by_cases hg : ids.IsGlobal n = true
    · exact ⟨{ m with mark_dirty := m.globalIndex n }, by simp only [hg, if_true],
        rfl, rfl, rfl⟩
    · exact ⟨m, by simp only [hg]; rfl, rfl, rfl, rfl⟩
  have ha1 : m1.RawSlot arg = some aslot := by unfold ZAM.RawSlot; rw [e2]; exact ha
  have hden1 : m1.denizen aslot = arg := by unfold ZAM.denizen; rw [e3]; exact hden
  -- the state after `FrameSlot(arg_s)`
  obtain ⟨m2, pre, h2, e4, hpre⟩ : ∃ m2 pre, m1.FrameSlot ids fl arg = some (m2, aslot)
      ∧ m2.insts1 = m.insts1 ++ pre
      ∧ ∀ z ∈ pre, z.op = ZOp.OP_DIRTY_GLOBAL_V
          ∨ z.op = AssignmentFlavor fl ZOp.OP_LOAD_GLOBAL_VVC (ids.Tag arg) := by
    unfold ZAM.FrameSlot
    simp only [ha1]
    by_cases hg : ids.IsGlobal arg = true
    · simp only [hg, if_true, hden1]
      unfold ZAM.LoadGlobal
      by_cases ht : ids.AsType arg = true
      · simp only [ht, if_true]
        exact ⟨m1, [], rfl, by simp [e1], by simp⟩
      · have ht1 : ids.AsType arg = false := by simpa using ht
        simp only [ht1, Bool.false_eq_true, if_false, ha1]
        refine ⟨(m1.AddInst { ZInst.mkVV (AssignmentFlavor fl ZOp.OP_LOAD_GLOBAL_VVC
              (ids.Tag arg)) aslot (m1.globalIndex arg) with
              op_type := ZAMOpType.OP_ViC_ID }).1,
          { ZInst.mkVV (AssignmentFlavor fl ZOp.OP_LOAD_GLOBAL_VVC (ids.Tag arg)) aslot
              (m1.globalIndex arg) with op_type := ZAMOpType.OP_ViC_ID }
            :: markersFor m1.mark_dirty, rfl, ?_, ?_⟩
        · rw [(AddInst_spec _ _).1, e1]
        · intro z hz
          simp only [List.mem_cons] at hz
          rcases hz with hz | hz
          · right; rw [hz]; rfl
          · left; exact mem_markersFor _ _ hz
    · simp only [hg]
      exact ⟨m1, [], rfl, by simp [e1], by simp⟩
  refine ⟨(m2.AddInst (ZInst.mkVV ZOp.OP_TO_LOWER_VV nslot aslot)).1, pre,
    markersFor m2.mark_dirty, ?_, ?_, ?_⟩
  · unfold ZAM.BuiltIn_to_lower
    simp only [List.getElem?_cons_zero, Expr.AsNameExpr, h1, h2]
  · rw [(AddInst_spec _ _).1, e4]
    simp
  · intro z hz
    rw [List.mem_append] at hz
    rcases hz with hz | hz
    · exact hpre z hz
    · left; exact mem_markersFor _ _ hz

/-- C17, for an argument that is a variable, and the evaluation of the code for a constant
argument.  For an assignment `n = to_lower(arg)` with `arg` a variable, `AssignToCall`
recognises the built-in by its name and emits `OP_TO_LOWER_VV` with `v1` the slot of `n` and
`v2` the slot of `arg`; it does not go on to `DoCall`, and the only other instructions it
emits are the load of `arg` and the marker for `n`, when they are globals.  For a constant
argument the cast `AsNameExpr` of the argument fails: no instruction is emitted for
`n = to_lower("ABC")`. -/
theorem AssignToCall_to_lower (m : ZAM) (ids : IDInfo) (fl : FlavorMap) (ob : OtherBuiltIns)
    (dirty : List ID) (n arg fid : ID) (func : FuncVal) (nslot aslot : Int)
    (hval : ids.ID_Val fid = some func) (hb : func.is_builtin = true)
    (hname : func.Name = "to_lower")
    (hn : m.RawSlot n = some nslot) (ha : m.RawSlot arg = some aslot)
    (hden : m.denizen aslot = arg) :
    (∃ r pre post,
        m.AssignToCall ids fl ob dirty (assignCall n fid [Expr.name arg]) = some (r, r.LastInst)
        ∧ r.insts1 = m.insts1 ++ pre ++ [ZInst.mkVV ZOp.OP_TO_LOWER_VV nslot aslot] ++ post
        ∧ ∀ z ∈ pre ++ post, z.op = ZOp.OP_DIRTY_GLOBAL_V
            ∨ z.op = AssignmentFlavor fl ZOp.OP_LOAD_GLOBAL_VVC (ids.Tag arg))
    ∧ ∀ c, m.AssignToCall ids fl ob dirty (assignCall n fid [Expr.const c]) = none := by
  have hne : ¬ ("to_lower" = "sub_bytes") := by decide
  have hbi : ∀ args, m.IsZAM_BuiltIn ids fl ob (assignCall n fid args)
      = m.BuiltIn_to_lower ids fl (some n) args := by
    intro args
    simp [ZAM.IsZAM_BuiltIn, assignCall, callOf, assignedName, hval, hb, hname, hne]
  refine ⟨?_, ?_⟩
  · obtain ⟨r, pre, post, h1, h2, h3⟩ := BuiltIn_to_lower_name m ids fl n arg nslot aslot hn ha hden
    refine ⟨r, pre, post, ?_, h2, h3⟩
    unfold ZAM.AssignToCall
    rw [hbi, h1]
  · intro c
    unfold ZAM.AssignToCall
    rw [hbi]
    simp [ZAM.BuiltIn_to_lower, Expr.AsNameExpr]

/-- Witness for C17: `n = to_lower(y)` for the locals `n` and `y` of `genExample` gives the one
instruction `OP_TO_LOWER_VV 3 2`, and `n = to_lower("ABC")` gives none. -/
theorem AssignToCall_to_lower_witness :
    (∃ r pre post,
        genExample.AssignToCall exampleIDs exampleFlavors exampleBuiltIns []
          (assignCall 33 40 [Expr.name 32]) = some (r, r.LastInst)
        ∧ r.insts1 = genExample.insts1 ++ pre ++ [ZInst.mkVV ZOp.OP_TO_LOWER_VV 3 2] ++ post
        ∧ ∀ z ∈ pre ++ post, z.op = ZOp.OP_DIRTY_GLOBAL_V
            ∨ z.op = AssignmentFlavor exampleFlavors ZOp.OP_LOAD_GLOBAL_VVC (exampleIDs.Tag 32))
    ∧ genExample.AssignToCall exampleIDs exampleFlavors exampleBuiltIns []
        (assignCall 33 40 [Expr.const 0]) = none := by
  have h := AssignToCall_to_lower genExample exampleIDs exampleFlavors exampleBuiltIns [] 33 32
    40 { Name := "to_lower", is_builtin := true, func := 40 } 3 2 rfl rfl rfl rfl rfl rfl
  exact ⟨h.1, h.2 0⟩

/-! ## `ValueSwitch` -/

theorem getLast?_concat_single {α : Type} (F : List α) (x : α) :
    (F ++ [x]).getLast? = some x := by
  simp

theorem length_mapSet {κ ν : Type} [DecidableEq κ] (f : List (κ × ν)) (k : κ) (v : ν)
    (h : f.lookup k = none) : (mapSet f k v).length = f.length + 1 := by
  unfold mapSet
  simp [h]

theorem concretizeGoTos_inst_num (ps : List Nat) (m m1 : ZAM)
    (h : m.concretizeGoTos ps = some m1) :
    m1.insts1.map ZInst.inst_num = m.insts1.map ZInst.inst_num
    ∧ m1.pending_inst = m.pending_inst := by
  induction ps generalizing m with
  | nil => simp only [ZAM.concretizeGoTos, Option.some.injEq] at h; rw [← h]; exact ⟨rfl, rfl⟩
  | cons p ps ih =>
    unfold ZAM.concretizeGoTos at h
    cases hp : m.insts1[p]? with
    | none => simp only [hp] at h; exact ih _ h
    | some inst =>
      simp only [hp] at h
      cases hc : m.concretizeInst inst with
      | none => simp [hc] at h
      | some inst1 =>
        simp only [hc] at h
        obtain ⟨_, _, _, _, _, a6, _, _⟩ := concretizeInst_spec m inst inst1 hc
        obtain ⟨b1, b2⟩ := ih _ h
        refine ⟨?_, b2⟩
        rw [b1]
        exact map_inst_num_set _ _ inst inst1 hp a6

/-- The local `inst1_to_inst2` that the loop filling `insts2` builds: one element for every
instruction, the position in `insts2` for a live one and -1 for a dead one. -/
theorem fillInsts2_snd (l : List ZInst) (i : Nat) (a : List Nat) (b : List Int) :
    (fillInsts2 l i a b).2.length = b.length + l.length
    ∧ ∀ (q : Nat) (z : ZInst), l[q]? = some z →
        (z.live = true → ∃ k : Nat, (fillInsts2 l i a b).2[b.length + q]? = some (k : Int)
          ∧ (a ++ livePositions l i)[k]? = some (i + q))
        ∧ (z.live = false → (fillInsts2 l i a b).2[b.length + q]? = some (-1)) := by
  have hpre : ∀ (l : List ZInst) (i : Nat) (a : List Nat) (b : List Int) (j : Nat),
      j < b.length → (fillInsts2 l i a b).2[j]? = b[j]? := by
    intro l
    induction l with
    | nil => intro i a b j _; rfl
    | cons z t ih =>
      intro i a b j hj
      unfold fillInsts2
      split
      · rw [ih _ _ _ j (by simp; omega), List.getElem?_append_left hj]
      · rw [ih _ _ _ j (by simp; omega), List.getElem?_append_left hj]
  induction l generalizing i a b with
  | nil => exact ⟨by simp [fillInsts2], by intro q z hz; simp at hz⟩
  | cons z0 t ih =>
    by_cases hl : z0.live = true
    · have e : fillInsts2 (z0 :: t) i a b
          = fillInsts2 t (i + 1) (a ++ [i]) (b ++ [(a.length : Int)]) := by
        rw [fillInsts2]; simp [hl]
      have e2 : livePositions (z0 :: t) i = i :: livePositions t (i + 1) := by
        rw [livePositions]; simp [hl]
      obtain ⟨c1, c2⟩ := ih (i + 1) (a ++ [i]) (b ++ [(a.length : Int)])
      rw [e, e2]
      refine ⟨by rw [c1]; simp; omega, ?_⟩
      intro q z hz
      cases q with
      | zero =>
        simp only [List.getElem?_cons_zero, Option.some.injEq] at hz
        subst hz
        refine ⟨fun _ => ⟨a.length, ?_,
          by rw [List.getElem?_append_right (Nat.le_refl _)]; simp⟩,
          fun h0 => by rw [hl] at h0; cases h0⟩
        have hb := hpre t (i + 1) (a ++ [i]) (b ++ [(a.length : Int)]) b.length (by simp)
        simpa using hb
      | succ q =>
        simp only [List.getElem?_cons_succ] at hz
        obtain ⟨d1, d2⟩ := c2 q z hz
        have hidx : (b ++ [(a.length : Int)]).length + q = b.length + (q + 1) := by
          simp; omega
        rw [hidx] at d1 d2
        refine ⟨fun h1 => ?_, d2⟩
        obtain ⟨k, k1, k2⟩ := d1 h1
        refine ⟨k, k1, ?_⟩
        have hq : i + (q + 1) = i + 1 + q := by omega
        rw [hq, ← k2]
        simp
    · have hl0 : z0.live = false := by simpa using hl
      have e : fillInsts2 (z0 :: t) i a b = fillInsts2 t (i + 1) a (b ++ [-1]) := by
        rw [fillInsts2]; simp [hl0]
      have e2 : livePositions (z0 :: t) i = livePositions t (i + 1) := by
        rw [livePositions]; simp [hl0]
      obtain ⟨c1, c2⟩ := ih (i + 1) a (b ++ [-1])
      rw [e, e2]
      refine ⟨by rw [c1]; simp; omega, ?_⟩
      intro q z hz
      cases q with
      | zero =>
        simp only [List.getElem?_cons_zero, Option.some.injEq] at hz
        subst hz
        refine ⟨fun h0 => (by rw [hl0] at h0; cases h0), fun _ => ?_⟩
        have hb := hpre t (i + 1) a (b ++ [(-1 : Int)]) b.length (by simp)
        simpa using hb
      | succ q =>
        simp only [List.getElem?_cons_succ] at hz
        obtain ⟨d1, d2⟩ := c2 q z hz
        have hidx : (b ++ [(-1 : Int)]).length + q = b.length + (q + 1) := by
          simp; omega
        rw [hidx] at d1 d2
        refine ⟨fun h1 => ?_, d2⟩
        obtain ⟨k, k1, k2⟩ := d1 h1
        refine ⟨k, k1, ?_⟩
        have hq : i + (q + 1) = i + 1 + q := by omega
        rw [hq, ← k2]

theorem moveBranchesToLive_live (m : ZAM) :
    m.moveBranchesToLive.insts1.map ZInst.live = m.insts1.map ZInst.live := by
  apply List.ext_getElem?
  intro j
  simp only [List.getElem?_map, (moveBranchesToLive_spec m).1 j]
  cases m.insts1[j]? with
  | none => rfl
  | some z => simp [(liveTargets_fields m z).1]

theorem getElem?_of_map_eq {α β : Type} (f : α → β) (l1 l2 : List α)
    (h : l1.map f = l2.map f) (q : Nat) : (l1[q]?).map f = (l2[q]?).map f := by
  rw [← List.getElem?_map, ← List.getElem?_map, h]

/-- C27: the assembly at the end of `CompileBody`, started with `insts2` still empty, leaves
the live flags of `insts1` as the optimizer left them and marks the end sentinel dead; `insts2`
then holds exactly the live instructions of `insts1`, in their order in `insts1`;
the instruction at the position `i` of `insts2` has `inst_num = i`; and the local
`inst1_to_inst2` has one element for every instruction of `insts1`, which for a live
instruction is its position in `insts2` and for a dead instruction is -1. -/
theorem assemble_insts2_live (m : ZAM) (r : ZAM × List Int) (h2 : m.insts2 = [])
    (h : m.assemble = some r) :
    r.1.insts1.map ZInst.live = m.insts1.map ZInst.live
    ∧ r.1.pending_inst.live = false
    ∧ r.1.insts2 = livePositions r.1.insts1 0
    ∧ (∀ (i p : Nat), r.1.insts2[i]? = some p →
        ∃ z, r.1.insts1[p]? = some z ∧ z.live = true ∧ z.inst_num = (i : Int))
    ∧ r.2.length = r.1.insts1.length
    ∧ (∀ (q : Nat) (z : ZInst), r.1.insts1[q]? = some z →
        (z.live = true → ∃ k : Nat, r.2[q]? = some (k : Int) ∧ r.1.insts2[k]? = some q)
        ∧ (z.live = false → r.2[q]? = some (-1))) := by
  have hi2 := assemble_insts2 m r h
  rw [h2, List.nil_append] at hi2
  rw [assemble_eq m h2] at h
  obtain ⟨I, hI⟩ : ∃ I, I = livePositions m.moveBranchesToLive.insts1 0 := ⟨_, rfl⟩
  rw [← hI] at h
  obtain ⟨hInd, hImem, h4⟩ := beforeConcretize_spec m I hI
  cases hc : (m.beforeConcretize I).concretizeGoTos I with
  | none => simp [hc] at h
  | some m5 =>
    simp only [hc, Option.some.injEq] at h
    obtain ⟨a1, a2⟩ := concretizeGoTos_live _ _ _ hc
    obtain ⟨b1, b2⟩ := concretizeGoTos_inst_num _ _ _ hc
    have hr1 : r.1.insts1 = m5.insts1 := by rw [← h]; rfl
    have hr2 : r.2 = (fillInsts2 m.moveBranchesToLive.insts1 0 [] []).2 := by rw [← h]
    have hrp : r.1.pending_inst = m5.pending_inst := by rw [← h]; rfl
    have hlive4 : (m.beforeConcretize I).insts1.map ZInst.live = m.insts1.map ZInst.live := by
      show (renumberFrom I 0 m.moveBranchesToLive.insts1).map ZInst.live = _
      rw [renumberFrom_live, moveBranchesToLive_live]
    have hlive : r.1.insts1.map ZInst.live = m.insts1.map ZInst.live := by
      rw [hr1, a2, hlive4]
    have hI2 : r.1.insts2 = I := by
      rw [hi2, hI]
      exact livePositions_congr _ _ (by rw [hlive, moveBranchesToLive_live]) 0
    have hlen : r.1.insts1.length = m.moveBranchesToLive.insts1.length := by
      have := congrArg List.length hlive
      have h3 := congrArg List.length (moveBranchesToLive_live m)
      simp only [List.length_map] at this h3
      omega
    obtain ⟨f1, f2⟩ := fillInsts2_snd m.moveBranchesToLive.insts1 0 [] []
    refine ⟨hlive, ?_, hi2, ?_, ?_, ?_⟩
    · rw [hrp, b2]; rfl
    · intro i p hp
      rw [hI2] at hp
      have hpI : p ∈ I := List.getElem?_mem hp
      obtain ⟨z0, hz0, hl0⟩ := (hImem p).1 hpI
      have hidx : I.indexOf p = i := by
        obtain ⟨hlt, hget⟩ := List.getElem?_eq_some.1 hp
        rw [← hget]
        exact List.indexOf_getElem hInd i hlt
      have h4p := h4 p
      rw [hz0] at h4p
      simp only [Option.map_some', hpI, if_true, hidx] at h4p
      have e1 := getElem?_of_map_eq ZInst.inst_num _ _ b1 p
      have e2 := getElem?_of_map_eq ZInst.live _ _ a2 p
      rw [h4p] at e1 e2
      rw [hr1]
      cases hz5 : m5.insts1[p]? with
      | none => simp [hz5] at e1
      | some z =>
        simp only [hz5, Option.map_some', Option.some.injEq] at e1 e2
        refine ⟨z, rfl, ?_, e1⟩
        rw [e2, (liveTargets_fields m z0).1]
        exact hl0
    · rw [hr2, f1, hlen]; simp
    · intro q z hz
      have e3 := getElem?_of_map_eq ZInst.live _ _
        (hlive.trans (moveBranchesToLive_live m).symm) q
      rw [hz] at e3
      cases hz1 : m.moveBranchesToLive.insts1[q]? with
      | none => simp [hz1] at e3
      | some z1 =>
        simp only [hz1, Option.map_some', Option.some.injEq] at e3
        obtain ⟨g1, g2⟩ := f2 q z1 hz1
        simp only [List.length_nil, Nat.zero_add, List.nil_append] at g1 g2
        rw [hr2, hI2, hI]
        exact ⟨fun hl => g1 (e3 ▸ hl), fun hl => g2 (e3 ▸ hl)⟩

/-- Witness for C27: the assembly of `branchExample`, whose instruction 1 is dead, gives
`insts2 = [0, 2, 3]` and `inst1_to_inst2 = [0, -1, 1, 2]`, and the statement of the theorem
holds of them. -/
theorem assemble_insts2_live_witness :
    ∃ r, branchExample.assemble = some r
      ∧ r.1.insts2 = [0, 2, 3] ∧ r.2 = [0, -1, 1, 2]
      ∧ r.1.insts1.map ZInst.live = branchExample.insts1.map ZInst.live
      ∧ r.1.pending_inst.live = false
      ∧ r.1.insts2 = livePositions r.1.insts1 0
      ∧ (∀ (i p : Nat), r.1.insts2[i]? = some p →
          ∃ z, r.1.insts1[p]? = some z ∧ z.live = true ∧ z.inst_num = (i : Int))
      ∧ r.2.length = r.1.insts1.length
      ∧ (∀ (q : Nat) (z : ZInst), r.1.insts1[q]? = some z →
          (z.live = true → ∃ k : Nat, r.2[q]? = some (k : Int) ∧ r.1.insts2[k]? = some q)
          ∧ (z.live = false → r.2[q]? = some (-1))) :=
  ⟨Option.get (branchExample.assemble) rfl, by simp, rfl, rfl,
    assemble_insts2_live branchExample _ rfl (by simp)⟩

/-! ## The slot that `ReMapVar` chooses -/

/-- The search of `ReMapVar`, exactly: the lowest compatible slot whose scope ends at `inst`
when there is one; otherwise the candidate it was given, when it was given one; otherwise the
lowest compatible slot, when there is one; otherwise no slot. -/
theorem aptSlotFrom_exact (l : List FrameSharingInfo) (i0 : Nat) (apt : Int) (mg : Bool)
    (inst : Int) :
    (∃ k s, l[k]? = some s ∧ (s.scope_end = inst ∧ s.is_managed = mg)
        ∧ (∀ j < k, ∀ sj, l[j]? = some sj → ¬ (sj.scope_end = inst ∧ sj.is_managed = mg))
        ∧ aptSlotFrom l i0 apt mg inst = ((i0 + k : Nat) : Int))
    ∨ ((∀ s ∈ l, ¬ (s.scope_end = inst ∧ s.is_managed = mg))
      ∧ ((0 ≤ apt ∧ aptSlotFrom l i0 apt mg inst = apt)
        ∨ (apt < 0 ∧ ∃ k s, l[k]? = some s ∧ (s.scope_end ≤ inst ∧ s.is_managed = mg)
            ∧ (∀ j < k, ∀ sj, l[j]? = some sj → ¬ (sj.scope_end ≤ inst ∧ sj.is_managed = mg))
            ∧ aptSlotFrom l i0 apt mg inst = ((i0 + k : Nat) : Int))
        ∨ (apt < 0 ∧ (∀ s ∈ l, ¬ (s.scope_end ≤ inst ∧ s.is_managed = mg))
            ∧ aptSlotFrom l i0 apt mg inst = apt))) := by
  induction l generalizing i0 apt with
  | nil =>
    right
    refine ⟨by simp, ?_⟩
    by_cases ha : apt < 0
    · exact Or.inr (Or.inr ⟨ha, by simp, rfl⟩)
    · exact Or.inl ⟨by omega, rfl⟩
  | cons s rest ih =>
    have shiftE : ∀ (k : Nat) (P : FrameSharingInfo → Prop), ¬ P s →
        (∀ j < k, ∀ sj, rest[j]? = some sj → ¬ P sj) →
        ∀ j < k + 1, ∀ sj, (s :: rest)[j]? = some sj → ¬ P sj := by
      intro k P hs hr j hj sj hsj
      cases j with
      | zero => simp only [List.getElem?_cons_zero, Option.some.injEq] at hsj; subst hsj; exact hs
      | succ j => exact hr j (by omega) sj (by simpa using hsj)
    have hcast : ∀ k : Nat, ((i0 + 1 + k : Nat) : Int) = ((i0 + (k + 1) : Nat) : Int) := by
      intro k; congr 1; omega
    unfold aptSlotFrom
    by_cases hc : s.scope_end ≤ inst ∧ s.is_managed = mg
    · simp only [hc, and_self, if_true]
      by_cases he : s.scope_end = inst
      · left
        exact ⟨0, s, by simp, ⟨he, hc.2⟩, by intro j hj; omega, by simp [he]⟩
      · have hnE : ¬ (s.scope_end = inst ∧ s.is_managed = mg) := fun h => he h.1
        simp only [he, if_false]
        by_cases ha : apt < 0
        · rw [if_pos ha]
          rcases ih (i0 + 1) (i0 : Int) with ⟨k, s1, h1, h2, h3, h4⟩ | ⟨h0, h5⟩
          · left
            exact ⟨k + 1, s1, by simpa using h1, h2, shiftE k _ hnE h3, by rw [h4, hcast]⟩
          · right
            refine ⟨?_, ?_⟩
            · intro s1 hs1
              rcases List.mem_cons.1 hs1 with e | e
              · subst e; exact hnE
              · exact h0 s1 e
            · rcases h5 with ⟨_, h6⟩ | ⟨h6, _⟩ | ⟨h6, _⟩
              · exact Or.inr (Or.inl ⟨ha, 0, s, by simp, hc, by intro j hj; omega,
                  by rw [h6]; simp⟩)
              · omega
              · omega
        · rw [if_neg ha]
          rcases ih (i0 + 1) apt with ⟨k, s1, h1, h2, h3, h4⟩ | ⟨h0, h5⟩
          · left
            exact ⟨k + 1, s1, by simpa using h1, h2, shiftE k _ hnE h3, by rw [h4, hcast]⟩
          · right
            refine ⟨?_, ?_⟩
            · intro s1 hs1
              rcases List.mem_cons.1 hs1 with e | e
              · subst e; exact hnE
              · exact h0 s1 e
            · rcases h5 with ⟨h6, h7⟩ | ⟨h6, _⟩ | ⟨h6, _⟩
              · exact Or.inl ⟨h6, h7⟩
              · omega
              · omega
    · have hnE : ¬ (s.scope_end = inst ∧ s.is_managed = mg) :=
        fun h => hc ⟨by rw [h.1], h.2⟩
      simp only [hc, if_false]
      rcases ih (i0 + 1) apt with ⟨k, s1, h1, h2, h3, h4⟩ | ⟨h0, h5⟩
      · left
        exact ⟨k + 1, s1, by simpa using h1, h2, shiftE k _ hnE h3, by rw [h4, hcast]⟩
      · right
        refine ⟨?_, ?_⟩
        · intro s1 hs1
          rcases List.mem_cons.1 hs1 with e | e
          · subst e; exact hnE
          · exact h0 s1 e
        · rcases h5 with ⟨h6, h7⟩ | ⟨h6, k, s1, h7, h8, h9, h10⟩ | ⟨h6, h7, h8⟩
          · exact Or.inl ⟨h6, h7⟩
          · exact Or.inr (Or.inl ⟨h6, k + 1, s1, by simpa using h7, h8, shiftE k _ hc h9,
              by rw [h10, hcast]⟩)
          · refine Or.inr (Or.inr ⟨h6, ?_, h8⟩)
            intro s1 hs1
            rcases List.mem_cons.1 hs1 with e | e
            · subst e; exact hc
            · exact h7 s1 e

/-- C22: `ReMapVar(id, slot, inst)` places `id` in the slot `k` with the descriptor `s0`, where
`k` is the lowest-indexed existing shared slot whose `is_managed` is the managedness of `id`
and whose `scope_end` equals `inst`, if there is one; otherwise the lowest-indexed existing
shared slot with that `is_managed` and `scope_end <= inst`, if there is one; otherwise a newly
appended slot.  Afterwards the `ids` of that slot are those of `s0` followed by `id`, its
`id_start` is that of `s0` followed by `inst`, its `scope_end` is the instruction number of
`denizen_ending[slot]`, the other shared slots are as before, and `frame1_to_frame2[slot]` is
`k` (for a `slot` inside `frame1_to_frame2`). -/
theorem ReMapVar_spec (m : ZAM) (an : Analyses) (id : ID) (slot inst : Int)
    (_ : 0 ≤ slot) (hlen : slot.toNat < m.frame1_to_frame2.length) :
    ∃ (k : Nat) (s0 : FrameSharingInfo),
      ((m.shared_frame_denizens[k]? = some s0
          ∧ (s0.scope_end = inst ∧ s0.is_managed = an.IsManagedType id)
          ∧ ∀ j < k, ∀ sj, m.shared_frame_denizens[j]? = some sj →
              ¬ (sj.scope_end = inst ∧ sj.is_managed = an.IsManagedType id))
        ∨ ((∀ s ∈ m.shared_frame_denizens,
              ¬ (s.scope_end = inst ∧ s.is_managed = an.IsManagedType id))
          ∧ m.shared_frame_denizens[k]? = some s0
          ∧ (s0.scope_end ≤ inst ∧ s0.is_managed = an.IsManagedType id)
          ∧ ∀ j < k, ∀ sj, m.shared_frame_denizens[j]? = some sj →
              ¬ (sj.scope_end ≤ inst ∧ sj.is_managed = an.IsManagedType id))
        ∨ ((∀ s ∈ m.shared_frame_denizens,
              ¬ (s.scope_end ≤ inst ∧ s.is_managed = an.IsManagedType id))
          ∧ k = m.shared_frame_denizens.length
          ∧ s0 = { ids := [], id_start := [], scope_end := 0,
                   is_managed := an.IsManagedType id }))
      ∧ (m.ReMapVar an id slot inst).shared_frame_denizens[k]? = some
          { s0 with ids := s0.ids ++ [id], id_start := s0.id_start ++ [inst],
                    scope_end := m.endingNum slot }
      ∧ (∀ j, j ≠ k → (m.ReMapVar an id slot inst).shared_frame_denizens[j]?
          = m.shared_frame_denizens[j]?)
      ∧ (m.ReMapVar an id slot inst).frame1_to_frame2[slot.toNat]? = some (k : Int) := by
  have hget : ∀ (l : List FrameSharingInfo) (f : FrameSharingInfo → FrameSharingInfo)
      (k : Nat) (s0 : FrameSharingInfo), l[k]? = some s0 →
      (l.modify f k)[k]? = some (f s0) ∧ ∀ j, j ≠ k → (l.modify f k)[j]? = l[j]? := by
    intro l f k s0 h0
    refine ⟨by simp [List.getElem?_modify, h0], ?_⟩
    intro j hj
    rw [List.getElem?_modify]
    have : ¬ k = j := fun e => hj e.symm
    cases l[j]? <;> simp [this]
  rcases aptSlotFrom_exact m.shared_frame_denizens 0 (-1) (an.IsManagedType id) inst with
    ⟨k, s0, h1, h2, h3, h4⟩ | ⟨h0, h5⟩
  · have hk : ¬ (((0 + k : Nat) : Int) < 0) := by omega
    have hk2 : ((0 + k : Nat) : Int).toNat = k := by simp
    obtain ⟨g1, g2⟩ := hget m.shared_frame_denizens
      (fun s => { s with ids := s.ids ++ [id], id_start := s.id_start ++ [inst],
                         scope_end := m.endingNum slot }) k s0 h1
    refine ⟨k, s0, Or.inl ⟨h1, h2, h3⟩, ?_, ?_, ?_⟩
    · unfold ZAM.ReMapVar
      simp only [h4, hk, if_false, hk2]
      exact g1
    · unfold ZAM.ReMapVar
      simp only [h4, hk, if_false, hk2]
      exact g2
    · unfold ZAM.ReMapVar
      simp only [h4, hk, if_false, hk2]
      rw [List.getElem?_set_self hlen]
  · rcases h5 with ⟨h6, _⟩ | ⟨_, k, s0, h1, h2, h3, h4⟩ | ⟨_, h7, h8⟩
    · omega
    · have hk : ¬ (((0 + k : Nat) : Int) < 0) := by omega
      have hk2 : ((0 + k : Nat) : Int).toNat = k := by simp
      obtain ⟨g1, g2⟩ := hget m.shared_frame_denizens
        (fun s => { s with ids := s.ids ++ [id], id_start := s.id_start ++ [inst],
                           scope_end := m.endingNum slot }) k s0 h1
      refine ⟨k, s0, Or.inr (Or.inl ⟨h0, h1, h2, h3⟩), ?_, ?_, ?_⟩
      · unfold ZAM.ReMapVar
        simp only [h4, hk, if_false, hk2]
        exact g1
      · unfold ZAM.ReMapVar
        simp only [h4, hk, if_false, hk2]
        exact g2
      · unfold ZAM.ReMapVar
        simp only [h4, hk, if_false, hk2]
        rw [List.getElem?_set_self hlen]
    · have hneg : ((-1 : Int) < 0) := by decide
      refine ⟨m.shared_frame_denizens.length, _, Or.inr (Or.inr ⟨h7, rfl, rfl⟩), ?_, ?_, ?_⟩
      · unfold ZAM.ReMapVar
        simp only [h8, hneg, if_true]
        rw [modify_append_length]
        simp
      · intro j hj
        unfold ZAM.ReMapVar
        simp only [h8, hneg, if_true]
        rw [modify_append_length]
        rcases Nat.lt_or_ge j m.shared_frame_denizens.length with h9 | h9
        · rw [List.getElem?_append_left h9]
        · rw [List.getElem?_eq_none (by simp; omega), List.getElem?_eq_none h9]
      · unfold ZAM.ReMapVar
        simp only [h8, hneg, if_true]
        rw [List.getElem?_set_self hlen]

/-- Witness for C22: in `remapVarExample` the two shared slots hold `a` and `b`, both with
`scope_end = 2`; `ReMapVar(c, 2, 2)` places `c` in the slot 0, the lowest of the two, whose
`ids` become `a`, `c`, and sets `frame1_to_frame2[2]` to 0. -/
theorem ReMapVar_spec_witness :
    ∃ (s0 : FrameSharingInfo),
      remapVarExample.shared_frame_denizens[0]? = some s0 ∧ s0.ids = [10]
      ∧ (remapVarExample.ReMapVar exampleAnalyses 12 2 2).shared_frame_denizens[0]? = some
          { s0 with ids := s0.ids ++ [12], id_start := s0.id_start ++ [2],
                    scope_end := remapVarExample.endingNum 2 }
      ∧ (remapVarExample.ReMapVar exampleAnalyses 12 2 2).shared_frame_denizens[1]?
          = remapVarExample.shared_frame_denizens[1]?
      ∧ (remapVarExample.ReMapVar exampleAnalyses 12 2 2).frame1_to_frame2 = [0, 1, 0] := by
  obtain ⟨k, s0, hc, h1, h2, h3⟩ :=
    ReMapVar_spec remapVarExample exampleAnalyses 12 2 2 (by decide) (by decide)
  have e : (remapVarExample.ReMapVar exampleAnalyses 12 2 2).frame1_to_frame2 = [0, 1, 0] := by
    decide
  have hk : k = 0 := by
    rw [e] at h3
    simp at h3
    omega
  subst hk
  have hs0 : remapVarExample.shared_frame_denizens[0]? = some s0 := by
    rcases hc with ⟨a, _⟩ | ⟨_, a, _⟩ | ⟨_, a, _⟩
    · exact a
    · exact a
    · exact absurd a (by decide)
  have hids : s0.ids = [10] := by
    have : remapVarExample.shared_frame_denizens[0]? = some
        { ids := [10], id_start := [0], scope_end := 2, is_managed := false } := rfl
    rw [this] at hs0
    cases hs0
    rfl
  exact ⟨s0, hs0, hids, h1, h2 1 (by decide), e⟩

/-! ## Managedness of the shared slots -/

theorem managedFrom_append (l : List FrameSharingInfo) (s : FrameSharingInfo) (i : Nat) :
    managedFrom (l ++ [s]) i
      = managedFrom l i ++ (if s.is_managed then [((i + l.length : Nat) : Int)] else []) := by
  induction l generalizing i with
  | nil => simp [managedFrom]
  | cons a t ih =>
    have e : i + 1 + t.length = i + (t.length + 1) := by omega
    show managedFrom (a :: (t ++ [s])) i = _
    unfold managedFrom
    rw [ih, e]
    simp only [List.length_cons]
    split <;> rfl

theorem managedFrom_modify (f : FrameSharingInfo → FrameSharingInfo)
    (hf : ∀ s, (f s).is_managed = s.is_managed) (l : List FrameSharingInfo) (k i : Nat) :
    managedFrom (l.modify f k) i = managedFrom l i := by
  induction l generalizing k i with
  | nil => cases k <;> rfl
  | cons a t ih =>
    cases k with
    | zero => simp [managedFrom, hf]
    | succ k =>
      show managedFrom (a :: t.modify f k) i = _
      unfold managedFrom
      rw [ih]

theorem mem_managedFrom (l : List FrameSharingInfo) (i : Nat) (x : Int) :
    x ∈ managedFrom l i ↔ ∃ (j : Nat) (s : FrameSharingInfo),
      x = ((i + j : Nat) : Int) ∧ l[j]? = some s ∧ s.is_managed = true := by
  induction l generalizing i with
  | nil => simp [managedFrom]
  | cons a t ih =>
    unfold managedFrom
    constructor
    · intro h
      by_cases ha : a.is_managed = true
      · simp only [ha, if_true, List.mem_cons] at h
        rcases h with h | h
        · exact ⟨0, a, by simp [h], by simp, ha⟩
        · obtain ⟨j, s, e, hs, hm⟩ := (ih (i + 1)).1 h
          exact ⟨j + 1, s, by rw [e]; congr 1; omega, by simpa using hs, hm⟩
      · simp only [ha, if_false] at h
        obtain ⟨j, s, e, hs, hm⟩ := (ih (i + 1)).1 h
        exact ⟨j + 1, s, by rw [e]; congr 1; omega, by simpa using hs, hm⟩
    · rintro ⟨j, s, e, hs, hm⟩
      cases j with
      | zero =>
        simp only [List.getElem?_cons_zero, Option.some.injEq] at hs
        subst hs
        simp [hm, e]
      | succ j =>
        have hin : x ∈ managedFrom t (i + 1) :=
          (ih (i + 1)).2 ⟨j, s, by rw [e]; congr 1; omega, by simpa using hs, hm⟩
        split
        · exact List.mem_cons_of_mem _ hin
        · exact hin

theorem managedFrom_nodup (l : List FrameSharingInfo) (i : Nat) : (managedFrom l i).Nodup := by
  induction l generalizing i with
  | nil => simp [managedFrom]
  | cons a t ih =>
    unfold managedFrom
    split
    · rw [List.nodup_cons]
      refine ⟨?_, ih (i + 1)⟩
      intro h
      obtain ⟨j, _, e, _, _⟩ := (mem_managedFrom t (i + 1) _).1 h
      omega
    · exact ih (i + 1)

/-- The invariant of the first loop of `ReMapFrame` about managedness: every identifier of a
shared slot has the managedness of the slot, and `managed_slots` lists the managed slots. -/
theorem ReMapVar_managed (m : ZAM) (an : Analyses) (id : ID) (slot inst : Int)
    (h1 : ∀ s ∈ m.shared_frame_denizens, ∀ v ∈ s.ids, an.IsManagedType v = s.is_managed)
    (h2 : m.managed_slots = managedFrom m.shared_frame_denizens 0) :
    (∀ s ∈ (m.ReMapVar an id slot inst).shared_frame_denizens, ∀ v ∈ s.ids,
        an.IsManagedType v = s.is_managed)
    ∧ (m.ReMapVar an id slot inst).managed_slots
        = managedFrom (m.ReMapVar an id slot inst).shared_frame_denizens 0 := by
  unfold ZAM.ReMapVar
  rcases aptSlotFrom_spec m.shared_frame_denizens 0 (-1) (an.IsManagedType id) inst with
    h | ⟨j, s, e1, e2, e3, e4⟩
  · simp only [h, show ((-1 : Int) < 0) by decide, if_true]
    rw [modify_append_length]
    refine ⟨?_, ?_⟩
    · intro s hs v hv
      rcases List.mem_append.1 hs with h3 | h3
      · exact h1 s h3 v hv
      · simp only [List.mem_singleton] at h3
        subst h3
        simp only [List.nil_append, List.mem_singleton] at hv
        subst hv
        rfl
    · rw [managedFrom_append, ← h2]
      simp only [Nat.zero_add]
      split <;> simp
  · have hn : ¬ ((((0 + j : Nat) : Int)) < 0) := by omega
    simp only [e1, hn, if_false]
    refine ⟨?_, ?_⟩
    · intro s1 hs1 v hv
      rcases mem_modify _ _ _ _ hs1 with h3 | ⟨a0, h3, h4⟩
      · exact h1 s1 h3 v hv
      · have hj : ((0 + j : Nat) : Int).toNat = j := by simp
        rw [hj, e2] at h3
        cases h3
        subst h4
        simp only [List.mem_append, List.mem_singleton] at hv
        rcases hv with hv | hv
        · exact h1 s (List.getElem?_mem e2) v hv
        · subst hv; exact e4.symm
    · rw [managedFrom_modify
        (fun s => { s with ids := s.ids ++ [id], id_start := s.id_start ++ [inst],
                           scope_end := m.endingNum slot }) (fun _ => rfl), ← h2]

theorem remapVarsAt_managed (an : Analyses) (i : Nat) (vars : List ID) (m : ZAM)
    (h1 : ∀ s ∈ m.shared_frame_denizens, ∀ v ∈ s.ids, an.IsManagedType v = s.is_managed)
    (h2 : m.managed_slots = managedFrom m.shared_frame_denizens 0) :
    (∀ s ∈ (m.remapVarsAt an i vars).shared_frame_denizens, ∀ v ∈ s.ids,
        an.IsManagedType v = s.is_managed)
    ∧ (m.remapVarsAt an i vars).managed_slots
        = managedFrom (m.remapVarsAt an i vars).shared_frame_denizens 0 := by
  induction vars generalizing m with
  | nil => exact ⟨h1, h2⟩
  | cons v vars ih =>
    unfold ZAM.remapVarsAt
    simp only
    split
    · obtain ⟨a1, a2⟩ := ReMapVar_managed m an v (m.layoutSlot v) (i : Int) h1 h2
      exact ih _ a1 a2
    · exact ih _ h1 h2

theorem remapAt_managed (an : Analyses) (i : Nat) (m : ZAM)
    (h1 : ∀ s ∈ m.shared_frame_denizens, ∀ v ∈ s.ids, an.IsManagedType v = s.is_managed)
    (h2 : m.managed_slots = managedFrom m.shared_frame_denizens 0) :
    (∀ s ∈ (m.remapAt an i).shared_frame_denizens, ∀ v ∈ s.ids,
        an.IsManagedType v = s.is_managed)
    ∧ (m.remapAt an i).managed_slots = managedFrom (m.remapAt an i).shared_frame_denizens 0 := by
  unfold ZAM.remapAt
  split
  · exact ⟨h1, h2⟩
  · exact remapVarsAt_managed an i _ m h1 h2

theorem foldl_remapAt_managed (an : Analyses) (is : List Nat) (m : ZAM)
    (h1 : ∀ s ∈ m.shared_frame_denizens, ∀ v ∈ s.ids, an.IsManagedType v = s.is_managed)
    (h2 : m.managed_slots = managedFrom m.shared_frame_denizens 0) :
    (∀ s ∈ (is.foldl (fun m1 i => m1.remapAt an i) m).shared_frame_denizens, ∀ v ∈ s.ids,
        an.IsManagedType v = s.is_managed)
    ∧ (is.foldl (fun m1 i => m1.remapAt an i) m).managed_slots
        = managedFrom (is.foldl (fun m1 i => m1.remapAt an i) m).shared_frame_denizens 0 := by
  induction is generalizing m with
  | nil => exact ⟨h1, h2⟩
  | cons i is ih =>
    simp only [List.foldl_cons]
    obtain ⟨a1, a2⟩ := remapAt_managed an i m h1 h2
    exact ih _ a1 a2

/-- C28: after `ReMapFrame`, run on a state without shared slots, every identifier in a shared
post-optimization slot has the managedness of the slot (`IsManagedType` of its type equals the
`is_managed` of the slot), and `managed_slots` holds exactly the indices of the shared slots
with `is_managed = true`, each exactly once. -/
theorem ReMapFrame_managed (m : ZAM) (zm : ZInstMethods) (an : Analyses)
    (h0 : m.shared_frame_denizens = []) :
    (∀ s ∈ (m.ReMapFrame zm an).shared_frame_denizens, ∀ v ∈ s.ids,
        an.IsManagedType v = s.is_managed)
    ∧ (∀ x : Int, x ∈ (m.ReMapFrame zm an).managed_slots ↔
        ∃ (k : Nat) (s : FrameSharingInfo), x = (k : Int)
          ∧ (m.ReMapFrame zm an).shared_frame_denizens[k]? = some s ∧ s.is_managed = true)
    ∧ (m.ReMapFrame zm an).managed_slots.Nodup := by
  obtain ⟨f1, _, _, f4, _⟩ := ReMapFrame_frame m zm an
  obtain ⟨a1, a2⟩ := foldl_remapAt_managed an (List.range m.insts1.length) m.remapStart
    (by
      intro s hs
      have : m.remapStart.shared_frame_denizens = [] := h0
      rw [this] at hs
      cases hs)
    (by
      show ([] : List Int) = managedFrom m.shared_frame_denizens 0
      rw [h0]
      rfl)
  have b1 : ∀ s ∈ (m.remapVars an).shared_frame_denizens, ∀ v ∈ s.ids,
      an.IsManagedType v = s.is_managed := a1
  have b2 : (m.remapVars an).managed_slots
      = managedFrom (m.remapVars an).shared_frame_denizens 0 := a2
  rw [f1, f4, b2]
  refine ⟨b1, ?_, managedFrom_nodup _ _⟩
  intro x
  rw [mem_managedFrom]
  constructor
  · rintro ⟨j, s, e, hs, hm⟩
    exact ⟨j, s, by rw [e]; simp, hs, hm⟩
  · rintro ⟨k, s, e, hs, hm⟩
    exact ⟨k, s, by rw [e]; simp, hs, hm⟩

/-- Witness for C28: for the body `lifetimeExample` with `b` of a managed type, `ReMapFrame`
puts `a` and `c` in the unmanaged slot 0 and `b` in the managed slot 1, and `managed_slots`
is `[1]`. -/
theorem ReMapFrame_managed_witness :
    (lifetimeExample.ReMapFrame exampleMethods managedAnalyses).managed_slots = [1]
    ∧ ((lifetimeExample.ReMapFrame exampleMethods managedAnalyses).shared_frame_denizens.map
        (fun s => (s.ids, s.is_managed))) = [([10, 12], false), ([11], true)]
    ∧ (∀ s ∈ (lifetimeExample.ReMapFrame exampleMethods managedAnalyses).shared_frame_denizens,
        ∀ v ∈ s.ids, managedAnalyses.IsManagedType v = s.is_managed)
    ∧ (∀ x : Int, x ∈ (lifetimeExample.ReMapFrame exampleMethods managedAnalyses).managed_slots ↔
        ∃ (k : Nat) (s : FrameSharingInfo), x = (k : Int)
          ∧ (lifetimeExample.ReMapFrame exampleMethods managedAnalyses).shared_frame_denizens[k]?
              = some s ∧ s.is_managed = true)
    ∧ (lifetimeExample.ReMapFrame exampleMethods managedAnalyses).managed_slots.Nodup :=
  ⟨by decide, by decide, ReMapFrame_managed lifetimeExample exampleMethods managedAnalyses rfl⟩

/-! ## What `KillInst` changes -/

theorem modifyInst_unlabelled (m : ZAM) (r : InstRef) (f : ZInst → ZInst)
    (hf : ∀ z, (f z).unlabelled = z.unlabelled) :
    (m.modifyInst r f).insts1.map ZInst.unlabelled = m.insts1.map ZInst.unlabelled := by
  cases r with
  | pending => rfl
  | inst i =>
    show (m.insts1.modify f i).map ZInst.unlabelled = _
    apply List.ext_getElem?
    intro j
    simp only [List.getElem?_map, List.getElem?_modify]
    cases m.insts1[j]? with
    | none => rfl
    | some z => by_cases hij : i = j <;> simp [hij, hf]

theorem modify_out_of_range {α : Type} (f : α → α) (l : List α) (i : Nat)
    (h : l[i]? = none) : l.modify f i = l := by
  apply List.ext_getElem?
  intro j
  rw [List.getElem?_modify]
  by_cases hij : i = j
  · subst hij; simp [h]
  · cases l[j]? <;> simp [hij]

/-- The member function `KillInst` marks the instruction dead and changes nothing else but
label counts. -/
theorem KillInst_unlabelled (m : ZAM) (i : Nat) :
    (m.KillInst i).insts1.map ZInst.unlabelled
      = (m.insts1.modify (fun z => { z with live := false }) i).map ZInst.unlabelled := by
  have hf : ∀ z : ZInst,
      ZInst.unlabelled { z with num_labels := z.num_labels - 1 } = z.unlabelled := fun _ => rfl
  unfold ZAM.KillInst
  cases hz : m.insts1[i]? with
  | none => simp only; rw [modify_out_of_range _ _ _ hz]
  | some z =>
    simp only
    cases z.target with
    | none =>
      cases z.target2 with
      | none => rfl
      | some t2 => simp only; rw [modifyInst_unlabelled _ _ _ hf]
    | some t =>
      cases z.target2 with
      | none => simp only; rw [modifyInst_unlabelled _ _ _ hf]
      | some t2 =>
        simp only
        rw [modifyInst_unlabelled _ _ _ hf, modifyInst_unlabelled _ _ _ hf]

theorem unlabelled_fields (z z1 : ZInst) (h : z1.unlabelled = z.unlabelled) :
    z1.op = z.op ∧ z1.op_type = z.op_type ∧ z1.v1 = z.v1 ∧ z1.v2 = z.v2 ∧ z1.v3 = z.v3
    ∧ z1.v4 = z.v4 ∧ z1.target = z.target ∧ z1.target2 = z.target2 ∧ z1.live = z.live := by
  have e : ∀ {β : Type} (g : ZInst → β), g z1.unlabelled = g z.unlabelled :=
    fun g => by rw [h]
  exact ⟨e ZInst.op, e ZInst.op_type, e ZInst.v1, e ZInst.v2, e ZInst.v3, e ZInst.v4,
    e ZInst.target, e ZInst.target2, e ZInst.live⟩

/-- The instructions after `KillInst(i)`: the one at the position `i` is dead, and every
instruction is as before but for that and for its label count. -/
theorem KillInst_getElem? (m : ZAM) (i j : Nat) :
    ((m.KillInst i).insts1[j]?).map ZInst.unlabelled
      = (m.insts1[j]?).map (fun z =>
          if i = j then ZInst.unlabelled { z with live := false } else z.unlabelled) := by
  have h := getElem?_of_map_eq ZInst.unlabelled _ _ (KillInst_unlabelled m i) j
  rw [h, List.getElem?_modify]
  cases m.insts1[j]? with
  | none => rfl
  | some z => by_cases hij : i = j <;> simp [hij]

theorem KillInst_length (m : ZAM) (i : Nat) :
    (m.KillInst i).insts1.length = m.insts1.length := by
  have h := congrArg List.length (KillInst_unlabelled m i)
  simpa using h

/-- The instruction at the position `j` after `KillInst(i)`. -/
theorem KillInst_at (m : ZAM) (i j : Nat) (z : ZInst) (h : m.insts1[j]? = some z) :
    ∃ z1, (m.KillInst i).insts1[j]? = some z1
      ∧ z1.unlabelled = { z.unlabelled with live := z.live && !decide (i = j) } := by
  have e := KillInst_getElem? m i j
  rw [h] at e
  cases hz1 : (m.KillInst i).insts1[j]? with
  | none => rw [hz1] at e; cases e
  | some z1 =>
    rw [hz1] at e
    simp only [Option.map_some', Option.some.injEq] at e
    refine ⟨z1, rfl, ?_⟩
    rw [e]
    by_cases hij : i = j
    · simp [hij, ZInst.unlabelled]
    · simp [hij, ZInst.unlabelled]

/-! ## Direct assignments of a slot to itself -/

theorem rewriteSlots_not_direct (zm : ZInstMethods) (f rg : List Int) (inst : ZInst)
    (hop : ∀ z z1 : ZInst, z.op = z1.op → zm.IsDirectAssignment z = zm.IsDirectAssignment z1)
    (hdirty : ∀ z : ZInst, z.op = ZOp.OP_DIRTY_GLOBAL_V → zm.IsDirectAssignment z = false)
    (hgl : ∀ z : ZInst, zm.IsGlobalLoad z = true → zm.IsDirectAssignment z = false)
    (h : (rewriteSlots zm f rg inst).2 = false) :
    ¬ (zm.IsDirectAssignment (rewriteSlots zm f rg inst).1 = true
        ∧ (rewriteSlots zm f rg inst).1.v1 = (rewriteSlots zm f rg inst).1.v2) := by
  unfold rewriteSlots at h ⊢
  simp only at h ⊢
  generalize (if zm.AssignsToSlot1 inst = true then
    { inst with v1 := remapSlot f inst.v1 } else inst) = inst1 at h ⊢
  by_cases hd : inst1.op = ZOp.OP_DIRTY_GLOBAL_V
  · rw [if_pos hd]
    intro hc
    have e := hdirty { inst1 with v1 := remapSlot rg inst1.v1 } hd
    exact absurd (hc.1.symm.trans e) (by decide)
  · rw [if_neg hd] at h ⊢
    generalize (if inst1.op = ZOp.OP_NEXT_TABLE_ITER_VV
        ∨ inst1.op = ZOp.OP_NEXT_TABLE_ITER_VAL_VAR_VVV then
      { inst1 with loop_vars := inst1.loop_vars.map (remapSlot f) }
      else { inst1 with aux := inst1.aux.map (fun slots =>
        slots.map (fun slot => if slot < 0 then slot else remapSlot f slot)) }) = inst2 at h ⊢
    by_cases hg : zm.IsGlobalLoad inst2 = true
    · rw [if_pos hg]
      intro hc
      have e : zm.IsDirectAssignment { inst2 with v2 := remapSlot rg inst2.v2 } = false := by
        rw [hop { inst2 with v2 := remapSlot rg inst2.v2 } inst2 rfl]
        exact hgl _ hg
      exact absurd (hc.1.symm.trans e) (by decide)
    · rw [if_neg hg] at h ⊢
      intro hc
      simp only at h hc
      rw [hc.1] at h
      simp only [Bool.true_and, decide_eq_false_iff_not] at h
      exact h hc.2

/-- The instructions after one round of the last loop of `ReMapFrame`. -/
theorem rewriteAt_getElem? (m : ZAM) (zm : ZInstMethods) (rg : List Int) (i j : Nat) :
    ((m.rewriteAt zm rg i).insts1[j]?).map ZInst.unlabelled
      = (m.insts1[j]?).map (fun z =>
          if i = j ∧ z.live = true then
            (if (rewriteSlots zm m.frame1_to_frame2 rg z).2 = true then
              ZInst.unlabelled { (rewriteSlots zm m.frame1_to_frame2 rg z).1 with live := false }
             else (rewriteSlots zm m.frame1_to_frame2 rg z).1.unlabelled)
          else z.unlabelled) := by
  unfold ZAM.rewriteAt
  cases hi : m.insts1[i]? with
  | none =>
    simp only
    cases hj : m.insts1[j]? with
    | none => rfl
    | some z =>
      have hij : ¬ i = j := fun e => by rw [e, hj] at hi; cases hi
      simp [hij]
  | some inst =>
    simp only
    by_cases hl : inst.live = false
    · simp only [hl, if_true]
      cases hj : m.insts1[j]? with
      | none => rfl
      | some z =>
        by_cases hij : i = j
        · rw [hij, hj] at hi
          cases hi
          simp [hl]
        · simp [hij]
    · have hl1 : inst.live = true := by simpa using hl
      rw [if_neg hl]
      have hlt : i < m.insts1.length := by
        rcases Nat.lt_or_ge i m.insts1.length with h3 | h3
        · exact h3
        · rw [List.getElem?_eq_none h3] at hi; cases hi
      by_cases hr : (rewriteSlots zm m.frame1_to_frame2 rg inst).2 = true
      · rw [if_pos hr, KillInst_getElem?]
        simp only [List.getElem?_set]
        by_cases hij : i = j
        · subst hij
          simp [hlt, hi, hl1, hr]
        · simp only [hij, if_false, false_and]
      · rw [if_neg hr]
        simp only [List.getElem?_set]
        by_cases hij : i = j
        · subst hij
          simp [hlt, hi, hl1, hr]
        · simp only [hij, if_false, false_and]

theorem rewriteAt_length (m : ZAM) (zm : ZInstMethods) (rg : List Int) (i : Nat) :
    (m.rewriteAt zm rg i).insts1.length = m.insts1.length := by
  have h : ((m.rewriteAt zm rg i).insts1.map ZInst.unlabelled).length
      = (m.insts1.map ZInst.unlabelled).length := by
    rcases Nat.lt_trichotomy ((m.rewriteAt zm rg i).insts1.map ZInst.unlabelled).length
        (m.insts1.map ZInst.unlabelled).length with h1 | h1 | h1
    · have e := rewriteAt_getElem? m zm rg i
        ((m.rewriteAt zm rg i).insts1.map ZInst.unlabelled).length
      simp only [List.length_map] at h1 e
      rw [List.getElem?_eq_none (Nat.le_refl _)] at e
      obtain ⟨z, hz⟩ : ∃ z, m.insts1[(m.rewriteAt zm rg i).insts1.length]? = some z :=
        ⟨_, List.getElem?_eq_getElem h1⟩
      rw [hz] at e
      cases e
    · exact h1
    · have e := rewriteAt_getElem? m zm rg i (m.insts1.map ZInst.unlabelled).length
      simp only [List.length_map] at h1 e
      rw [List.getElem?_eq_none (Nat.le_refl m.insts1.length)] at e
      obtain ⟨z, hz⟩ : ∃ z, (m.rewriteAt zm rg i).insts1[m.insts1.length]? = some z :=
        ⟨_, List.getElem?_eq_getElem h1⟩
      rw [hz] at e
      cases e
  simpa using h

theorem foldl_rewriteAt_direct (zm : ZInstMethods) (rg : List Int)
    (hop : ∀ z z1 : ZInst, z.op = z1.op → zm.IsDirectAssignment z = zm.IsDirectAssignment z1)
    (hdirty : ∀ z : ZInst, z.op = ZOp.OP_DIRTY_GLOBAL_V → zm.IsDirectAssignment z = false)
    (hgl : ∀ z : ZInst, zm.IsGlobalLoad z = true → zm.IsDirectAssignment z = false)
    (m : ZAM) (n : Nat) :
    ((List.range n).foldl (fun ma i => ma.rewriteAt zm rg i) m).insts1.length = m.insts1.length
    ∧ ∀ j < n, ∀ z, ((List.range n).foldl (fun ma i => ma.rewriteAt zm rg i) m).insts1[j]?
          = some z → z.live = true → ¬ (zm.IsDirectAssignment z = true ∧ z.v1 = z.v2) := by
  induction n with
  | zero => exact ⟨rfl, fun j hj => by omega⟩
  | succ n ih =>
    obtain ⟨a1, a2⟩ := ih
    rw [List.range_succ, List.foldl_append]
    simp only [List.foldl_cons, List.foldl_nil]
    generalize (List.range n).foldl (fun ma i => ma.rewriteAt zm rg i) m = m1 at a1 a2 ⊢
    refine ⟨by rw [rewriteAt_length, a1], ?_⟩
    intro j hj z hz hl
    have e := rewriteAt_getElem? m1 zm rg n j
    rw [hz] at e
    cases hz0 : m1.insts1[j]? with
    | none => rw [hz0] at e; cases e
    | some z0 =>
      rw [hz0] at e
      simp only [Option.map_some', Option.some.injEq] at e
      by_cases hc : n = j ∧ z0.live = true
      · rw [if_pos hc] at e
        by_cases hr : (rewriteSlots zm m1.frame1_to_frame2 rg z0).2 = true
        · rw [if_pos hr] at e
          have := (unlabelled_fields _ _ e).2.2.2.2.2.2.2.2
          rw [hl] at this
          cases this
        · rw [if_neg hr] at e
          obtain ⟨f1, _, f3, f4, _⟩ := unlabelled_fields _ _ e
          rw [hop z _ f1, f3, f4]
          exact rewriteSlots_not_direct zm _ rg z0 hop hdirty hgl (by simpa using hr)
      · rw [if_neg hc] at e
        obtain ⟨f1, _, f3, f4, _, _, _, _, f9⟩ := unlabelled_fields _ _ e
        have hjn : j < n := by
          rcases Nat.lt_or_ge j n with h1 | h1
          · exact h1
          · have : n = j := by omega
            exact absurd ⟨this, by rw [← f9]; exact hl⟩ hc
        rw [hop z z0 f1, f3, f4]
        exact a2 j hjn z0 hz0 (by rw [← f9]; exact hl)

/-- C29: after `ReMapFrame` no live instruction is a direct assignment whose remapped
destination slot equals its remapped source slot: every such instruction has been marked
dead.  `IsDirectAssignment` is a member function of `ZInst` defined outside `ZAM.cc`; it is
taken to be decided by the opcode and to be false of the marker `OP_DIRTY_GLOBAL_V` and of
the loads of globals, which `ReMapFrame` rewrites without the test. -/
theorem ReMapFrame_no_self_assignment (m : ZAM) (zm : ZInstMethods) (an : Analyses)
    (hop : ∀ z z1 : ZInst, z.op = z1.op → zm.IsDirectAssignment z = zm.IsDirectAssignment z1)
    (hdirty : ∀ z : ZInst, z.op = ZOp.OP_DIRTY_GLOBAL_V → zm.IsDirectAssignment z = false)
    (hgl : ∀ z : ZInst, zm.IsGlobalLoad z = true → zm.IsDirectAssignment z = false) :
    ∀ z ∈ (m.ReMapFrame zm an).insts1, z.live = true →
      ¬ (zm.IsDirectAssignment z = true ∧ z.v1 = z.v2) := by
  intro z hz hl
  obtain ⟨j, hj⟩ := List.mem_iff_getElem?.1 hz
  unfold ZAM.ReMapFrame at hj
  simp only at hj
  obtain ⟨a1, a2⟩ := foldl_rewriteAt_direct zm
    (remapGlobals (m.remapVars an).frame1_to_frame2 (m.remapVars an).globals [] []).2
    hop hdirty hgl
    { m.remapVars an with
      globals := (remapGlobals (m.remapVars an).frame1_to_frame2 (m.remapVars an).globals [] []).1,
      num_globals :=
        ((remapGlobals (m.remapVars an).frame1_to_frame2 (m.remapVars an).globals [] []).1.length
          : Int) }
    (m.remapVars an).insts1.length
  have hlt : j < (m.remapVars an).insts1.length := by
    rcases Nat.lt_or_ge j (m.remapVars an).insts1.length with h1 | h1
    · exact h1
    · rw [List.getElem?_eq_none (by rw [a1]; exact h1)] at hj
      cases hj
  exact a2 j hlt z hj hl

/-- Witness for C29: in the body `local a = 1; local b = a; return b;` the lifetime of `a` ends
where that of `b` begins, `ReMapFrame` gives both the slot 0, the assignment `b = a` becomes an
assignment of the slot 0 to itself and is marked dead; no live instruction of the result is a
direct assignment of a slot to itself. -/
theorem ReMapFrame_no_self_assignment_witness :
    (selfAssignExample.ReMapFrame directMethods exampleAnalyses).insts1.map
        (fun z => (z.live, z.v1, z.v2)) = [(true, 0, 0), (false, 0, 0), (true, 0, 0)]
    ∧ ∀ z ∈ (selfAssignExample.ReMapFrame directMethods exampleAnalyses).insts1, z.live = true →
        ¬ (directMethods.IsDirectAssignment z = true ∧ z.v1 = z.v2) :=
  ⟨by decide,
    ReMapFrame_no_self_assignment selfAssignExample directMethods exampleAnalyses
      (by intro z z1 h; simp [directMethods, h])
      (by intro z h; simp [directMethods, h])
      (by intro z h; simp [directMethods, exampleMethods] at h)⟩

/-! ## `RemoveDeadCode` -/

theorem removeDeadAt_eq (zm : ZInstMethods) (s : ZAM × Bool) (i : Nat) :
    ZAM.removeDeadAt zm s i
      = if s.1.deadPair zm i = true then (s.1.KillInst (i + 1), true) else s := by
  unfold ZAM.removeDeadAt ZAM.deadPair
  cases h0 : s.1.insts1[i]? with
  | none => simp
  | some i0 =>
    cases h1 : s.1.insts1[i + 1]? with
    | none => simp
    | some i1 =>
      simp only [Bool.and_eq_true, decide_eq_true_eq, and_assoc]

theorem removeDeadBefore_succ (m : ZAM) (zm : ZInstMethods) (n : Nat) :
    m.removeDeadBefore zm (n + 1) = ZAM.removeDeadAt zm (m.removeDeadBefore zm n) n := by
  unfold ZAM.removeDeadBefore
  rw [List.range_succ, List.foldl_append]
  rfl

theorem removeDeadBefore_spec (m : ZAM) (zm : ZInstMethods) (n : Nat) :
    (m.removeDeadBefore zm n).1.insts1.length = m.insts1.length
    ∧ (∀ (j : Nat) (z : ZInst), m.insts1[j]? = some z →
        ∃ z1, (m.removeDeadBefore zm n).1.insts1[j]? = some z1
          ∧ z1.unlabelled = { z.unlabelled with
              live := z.live && !(decide (1 ≤ j ∧ j ≤ n)
                && (m.removeDeadBefore zm (j - 1)).1.deadPair zm (j - 1)) })
    ∧ ((m.removeDeadBefore zm n).2 = true ↔
        ∃ i, i < n ∧ (m.removeDeadBefore zm i).1.deadPair zm i = true) := by
  induction n with
  | zero =>
    refine ⟨rfl, ?_, ?_⟩
    · intro j z hz
      refine ⟨z, hz, ?_⟩
      have hdec : decide (1 ≤ j ∧ j ≤ 0) = false := decide_eq_false (by omega)
      rw [hdec, Bool.false_and, Bool.not_false, Bool.and_true]
      rfl
    · constructor
      · intro h; cases h
      · rintro ⟨i, hi, _⟩; omega
  | succ n ih =>
    obtain ⟨a1, a2, a3⟩ := ih
    rw [removeDeadBefore_succ, removeDeadAt_eq]
    by_cases hd : (m.removeDeadBefore zm n).1.deadPair zm n = true
    · rw [if_pos hd]
      refine ⟨by rw [KillInst_length, a1], ?_, ?_⟩
      · intro j z hz
        obtain ⟨z1, hz1, e1⟩ := a2 j z hz
        obtain ⟨z2, hz2, e2⟩ := KillInst_at (m.removeDeadBefore zm n).1 (n + 1) j z1 hz1
        refine ⟨z2, hz2, ?_⟩
        have hl1 : z1.live = (z.live && !(decide (1 ≤ j ∧ j ≤ n)
            && (m.removeDeadBefore zm (j - 1)).1.deadPair zm (j - 1))) := by
          have := congrArg ZInst.live e1
          exact this
        rw [e2, e1, hl1]
        by_cases hj : n + 1 = j
        · subst hj
          have h1 : decide (1 ≤ n + 1 ∧ n + 1 ≤ n) = false := decide_eq_false (by omega)
          have h2 : decide (1 ≤ n + 1 ∧ n + 1 ≤ n + 1) = true := decide_eq_true (by omega)
          rw [h1, h2, Nat.add_sub_cancel, hd]
          simp
        · have h1 : decide (n + 1 = j) = false := decide_eq_false hj
          have h2 : decide (1 ≤ j ∧ j ≤ n + 1) = decide (1 ≤ j ∧ j ≤ n) :=
            decide_eq_decide.2 (by omega)
          rw [h1, h2]
          simp
      · constructor
        · intro _
          exact ⟨n, by omega, hd⟩
        · intro _; rfl
    · rw [if_neg hd]
      refine ⟨a1, ?_, ?_⟩
      · intro j z hz
        obtain ⟨z1, hz1, e1⟩ := a2 j z hz
        refine ⟨z1, hz1, ?_⟩
        rw [e1]
        by_cases hj : n + 1 = j
        · subst hj
          have hd0 : (m.removeDeadBefore zm n).1.deadPair zm n = false := by simpa using hd
          rw [Nat.add_sub_cancel, hd0]
          simp
        · have h2 : decide (1 ≤ j ∧ j ≤ n + 1) = decide (1 ≤ j ∧ j ≤ n) :=
            decide_eq_decide.2 (by omega)
          rw [h2]
      · rw [a3]
        constructor
        · rintro ⟨i, hi, h⟩
          exact ⟨i, by omega, h⟩
        · rintro ⟨i, hi, h⟩
          refine ⟨i, ?_, h⟩
          rcases Nat.lt_or_ge i n with h1 | h1
          · exact h1
          · have : i = n := by omega
            subst this
            exact absurd h hd

/-- C23: one pass of `RemoveDeadCode` over the adjacent pairs leaves every instruction as it
was but for its `live` flag and its label count; the instruction at the position `j` is dead
after the pass exactly when it was dead before or the pair at the positions `j - 1`, `j` was,
at the moment the loop visited it, a pair of live instructions of which the first does not
continue and does not target the second and the second has `num_labels = 0`; so the pass marks
no other instruction dead and makes no dead instruction live; and it returns true if and only
if there is such a pair, that is, if and only if it marked an instruction dead. -/
theorem RemoveDeadCode_spec (m : ZAM) (zm : ZInstMethods) :
    (m.RemoveDeadCode zm).1.insts1.length = m.insts1.length
    ∧ (∀ (j : Nat) (z : ZInst), m.insts1[j]? = some z →
        ∃ z1, (m.RemoveDeadCode zm).1.insts1[j]? = some z1
          ∧ z1.unlabelled = { z.unlabelled with live := z1.live }
          ∧ (z1.live = false ↔ (z.live = false
              ∨ (1 ≤ j ∧ (m.removeDeadBefore zm (j - 1)).1.deadPair zm (j - 1) = true))))
    ∧ ((m.RemoveDeadCode zm).2 = true ↔
        ∃ i, i + 1 < m.insts1.length ∧ (m.removeDeadBefore zm i).1.deadPair zm i = true) := by
  have hR : m.RemoveDeadCode zm = m.removeDeadBefore zm (m.insts1.length - 1) := rfl
  obtain ⟨a1, a2, a3⟩ := removeDeadBefore_spec m zm (m.insts1.length - 1)
  rw [hR]
  refine ⟨a1, ?_, ?_⟩
  · intro j z hz
    obtain ⟨z1, hz1, e1⟩ := a2 j z hz
    have hlt : j < m.insts1.length := by
      rcases Nat.lt_or_ge j m.insts1.length with h1 | h1
      · exact h1
      · rw [List.getElem?_eq_none h1] at hz; cases hz
    have hdec : decide (1 ≤ j ∧ j ≤ m.insts1.length - 1) = decide (1 ≤ j) :=
      decide_eq_decide.2 (by omega)
    rw [hdec] at e1
    have hl1 : z1.live = (z.live && !(decide (1 ≤ j)
        && (m.removeDeadBefore zm (j - 1)).1.deadPair zm (j - 1))) := congrArg ZInst.live e1
    refine ⟨z1, hz1, ?_, ?_⟩
    · rw [e1, hl1]
    · rw [hl1]
      cases z.live <;> cases (m.removeDeadBefore zm (j - 1)).1.deadPair zm (j - 1) <;>
        by_cases h1 : 1 ≤ j <;> simp [h1]
  · rw [a3]
    constructor
    · rintro ⟨i, hi, h⟩
      exact ⟨i, by omega, h⟩
    · rintro ⟨i, hi, h⟩
      exact ⟨i, by omega, h⟩

/-! ## The frame that `Init` lays out -/

theorem AddToFrame_inv (m : ZAM) (id : ID) (h : m.frameInv) (hid : id ∉ m.frame_denizens) :
    (m.AddToFrame id).1.frameInv
    ∧ (m.AddToFrame id).1.frame_denizens = m.frame_denizens ++ [id] := by
  obtain ⟨h1, h2, h3, h4⟩ := h
  refine ⟨⟨?_, ?_, ?_, ?_⟩, rfl⟩
  · show m.frame_size + 1 = ((m.frame_denizens ++ [id]).length : Int)
    rw [h1]; simp
  · show (m.frame_denizens ++ [id]).Nodup
    rw [List.nodup_append]
    refine ⟨h2, List.nodup_singleton _, ?_⟩
    intro a ha hb
    simp only [List.mem_singleton] at hb
    subst hb
    exact hid ha
  · intro k v hk
    show (mapSet m.frame_layout1 id m.frame_size).lookup v = _
    rw [lookup_mapSet]
    have hk1 : (m.frame_denizens ++ [id])[k]? = some v := hk
    rcases Nat.lt_or_ge k m.frame_denizens.length with hlt | hge
    · rw [List.getElem?_append_left hlt] at hk1
      have hne : v ≠ id := fun e => hid (e ▸ List.getElem?_mem hk1)
      rw [if_neg hne]
      exact h3 k v hk1
    · rw [List.getElem?_append_right hge] at hk1
      have hk0 : k - m.frame_denizens.length = 0 := by
        rcases Nat.eq_zero_or_pos (k - m.frame_denizens.length) with e | e
        · exact e
        · rw [List.getElem?_eq_none (by simp only [List.length_singleton]; omega)] at hk1
          cases hk1
      rw [hk0] at hk1
      simp only [List.getElem?_cons_zero, Option.some.injEq] at hk1
      subst hk1
      rw [if_pos rfl, h1]
      congr 1
      omega
  · intro v hv
    have hv1 : ((mapSet m.frame_layout1 id m.frame_size).lookup v).isSome = true := hv
    rw [lookup_mapSet] at hv1
    show v ∈ m.frame_denizens ++ [id]
    by_cases e : v = id
    · subst e; simp
    · rw [if_neg e] at hv1
      exact List.mem_append_left _ (h4 v hv1)

theorem AddInst_frame (m : ZAM) (z : ZInst) :
    (m.AddInst z).1.frame_layout1 = m.frame_layout1
    ∧ (m.AddInst z).1.frame_denizens = m.frame_denizens
    ∧ (m.AddInst z).1.frame_size = m.frame_size
    ∧ (m.AddInst z).1.args = m.args ∧ (m.AddInst z).1.nparam = m.nparam := by
  unfold ZAM.AddInst
  simp only
  split <;> exact ⟨rfl, rfl, rfl, rfl, rfl⟩

theorem frameInv_congr (m m1 : ZAM) (h1 : m1.frame_layout1 = m.frame_layout1)
    (h2 : m1.frame_denizens = m.frame_denizens) (h3 : m1.frame_size = m.frame_size)
    (h : m.frameInv) : m1.frameInv := by
  unfold ZAM.frameInv
  rw [h1, h2, h3]
  exact h

theorem foldl_initGlobal (G : List ID) (m : ZAM) (h : m.frameInv)
    (hnd : (m.frame_denizens ++ G).Nodup) :
    (G.foldl ZAM.initGlobal m).frameInv
    ∧ (G.foldl ZAM.initGlobal m).frame_denizens = m.frame_denizens ++ G
    ∧ (G.foldl ZAM.initGlobal m).args = m.args
    ∧ (G.foldl ZAM.initGlobal m).nparam = m.nparam := by
  induction G generalizing m with
  | nil => exact ⟨h, by simp, rfl, rfl⟩
  | cons g G ih =>
    simp only [List.foldl_cons]
    have hg : g ∉ m.frame_denizens := by
      intro hin
      have := (List.nodup_append.1 hnd).2.2
      exact this hin (List.mem_cons_self _ _)
    obtain ⟨a1, a2⟩ := AddToFrame_inv m g h hg
    have b1 : (m.initGlobal g).frameInv := frameInv_congr _ _ rfl rfl rfl a1
    have b2 : (m.initGlobal g).frame_denizens = m.frame_denizens ++ [g] := a2
    obtain ⟨c1, c2, c3, c4⟩ := ih (m.initGlobal g) b1 (by rw [b2]; simpa using hnd)
    exact ⟨c1, by rw [c2, b2]; simp, c3, c4⟩

theorem initParams_spec (ids : IDInfo) (fl : FlavorMap) (pi : ProfileInfo) (offset : ID → Int)
    (args : List ID) (nparam : Int) (m r : ZAM) (h : m.frameInv)
    (hnd : (m.frame_denizens ++ (args.take nparam.toNat).filter pi.HasID).Nodup)
    (hr : ZAM.initParams ids fl pi offset args nparam m = some r) :
    r.frameInv
    ∧ r.frame_denizens = m.frame_denizens ++ (args.take nparam.toNat).filter pi.HasID := by
  induction args generalizing nparam m with
  | nil =>
    simp only [ZAM.initParams, Option.some.injEq] at hr
    subst hr
    exact ⟨h, by simp⟩
  | cons a rest ih =>
    unfold ZAM.initParams at hr
    by_cases hn : nparam - 1 < 0
    · rw [if_pos hn] at hr
      simp only [Option.some.injEq] at hr
      subst hr
      have : nparam.toNat = 0 := by omega
      rw [this]
      exact ⟨h, by simp⟩
    · rw [if_neg hn] at hr
      have htn : nparam.toNat = (nparam - 1).toNat + 1 := by omega
      rw [htn, List.take_succ_cons] at hnd ⊢
      by_cases ha : pi.HasID a = true
      · rw [if_pos ha] at hr
        rw [List.filter_cons_of_pos ha] at hnd ⊢
        cases hl : m.LoadParam ids fl pi offset a with
        | none => rw [hl] at hr; cases hr
        | some r1 =>
          rw [hl] at hr
          simp only at hr
          have hg : a ∉ m.frame_denizens := by
            intro hin
            have := (List.nodup_append.1 hnd).2.2
            exact this hin (List.mem_cons_self _ _)
          obtain ⟨a1, a2⟩ := AddToFrame_inv m a h hg
          have hr1 : r1.1.frame_layout1 = (m.AddToFrame a).1.frame_layout1
              ∧ r1.1.frame_denizens = (m.AddToFrame a).1.frame_denizens
              ∧ r1.1.frame_size = (m.AddToFrame a).1.frame_size := by
            unfold ZAM.LoadParam ZAM.LoadOrStoreLocal at hl
            by_cases hty : ids.AsType a = true
            · rw [if_pos hty] at hl; cases hl
            · rw [if_neg hty] at hl
              simp only [Bool.and_self, if_true, Option.some.injEq] at hl
              rw [← hl]
              obtain ⟨f1, f2, f3, _, _⟩ := AddInst_frame (m.AddToFrame a).1
                { ZInst.mkVV (AssignmentFlavor fl ZOp.OP_LOAD_VAL_VV (ids.Tag a))
                    (m.AddToFrame a).2 (offset a) with op_type := ZAMOpType.OP_VV_FRAME }
              exact ⟨f1, f2, f3⟩
          have b1 : r1.1.frameInv := frameInv_congr _ _ hr1.1 hr1.2.1 hr1.2.2 a1
          have b2 : r1.1.frame_denizens = m.frame_denizens ++ [a] := hr1.2.1.trans a2
          obtain ⟨c1, c2⟩ := ih (nparam - 1) r1.1 b1 (by rw [b2]; simpa using hnd) hr
          exact ⟨c1, by rw [c2, b2]; simp⟩
      · rw [if_neg ha] at hr
        rw [List.filter_cons_of_neg ha] at hnd ⊢
        exact ih (nparam - 1) m h hnd hr

theorem foldl_initLocal (L : List ID) (m : ZAM) (h : m.frameInv) :
    (L.foldl ZAM.initLocal m).frameInv
    ∧ (L.foldl ZAM.initLocal m).frame_denizens
        = m.frame_denizens ++ freshLocals m.frame_denizens L := by
  induction L generalizing m with
  | nil => exact ⟨h, by simp [freshLocals]⟩
  | cons l L ih =>
    simp only [List.foldl_cons]
    unfold freshLocals
    by_cases hl : l ∈ m.frame_denizens
    · have hs : m.HasFrameSlot l = true := by
        obtain ⟨k, hk⟩ := List.mem_iff_getElem?.1 hl
        unfold ZAM.HasFrameSlot
        rw [h.2.2.1 k l hk]
        rfl
      have e : m.initLocal l = m := by unfold ZAM.initLocal; rw [if_pos hs]
      rw [e, if_pos hl]
      exact ih m h
    · have hs : ¬ m.HasFrameSlot l = true := fun hs => hl (h.2.2.2 l hs)
      have e : m.initLocal l = (m.AddToFrame l).1 := by unfold ZAM.initLocal; rw [if_neg hs]
      obtain ⟨a1, a2⟩ := AddToFrame_inv m l h hl
      rw [e, if_neg hl]
      obtain ⟨c1, c2⟩ := ih _ a1
      exact ⟨c1, by rw [c2, a2]; simp⟩

/-- C21, as the code has it: `Init` lays out the frame with the globals of the profile first,
in the order in which `pf->globals` is iterated, then the parameters that the body uses, in
the order of their declaration, then the locals that have no slot yet; the slot of every
identifier of the frame is its position in that sequence.  So the parameters are ahead of the
locals, but behind the globals, and an unused parameter gets no slot of a parameter. -/
theorem Init_frame_layout (m : ZAM) (ids : IDInfo) (fl : FlavorMap) (an : Analyses)
    (pi : ProfileInfo) (offset : ID → Int) (r : ZAM)
    (h0 : m.frame_layout1 = []) (h1 : m.frame_denizens = []) (h2 : m.frame_size = 0)
    (hnd : (pi.globals ++ m.usedParams pi).Nodup)
    (h : m.Init ids fl an pi offset = some r) :
    r.frame_denizens = pi.globals ++ m.usedParams pi
        ++ freshLocals (pi.globals ++ m.usedParams pi) pi.locals
    ∧ r.frame_size = (r.frame_denizens.length : Int)
    ∧ ∀ (k : Nat) (id : ID), r.frame_denizens[k]? = some id →
        r.frame_layout1.lookup id = some (k : Int) := by
  have hinv : ZAM.frameInv { m with num_globals := (pi.globals.length : Int) } := by
    refine ⟨?_, ?_, ?_, ?_⟩
    · show m.frame_size = (m.frame_denizens.length : Int)
      rw [h1, h2]; rfl
    · show m.frame_denizens.Nodup
      rw [h1]; exact List.nodup_nil
    · intro k id hk
      have hk1 : m.frame_denizens[k]? = some id := hk
      rw [h1] at hk1
      cases hk1
    · intro id hid
      have hid1 : (m.frame_layout1.lookup id).isSome = true := hid
      rw [h0] at hid1
      cases hid1
  unfold ZAM.Init at h
  simp only at h
  obtain ⟨a1, a2, a3, a4⟩ := foldl_initGlobal pi.globals
    { m with num_globals := (pi.globals.length : Int) } hinv
    (by
      show (m.frame_denizens ++ pi.globals).Nodup
      rw [h1, List.nil_append]
      exact (List.nodup_append.1 hnd).1)
  generalize pi.globals.foldl ZAM.initGlobal
    { m with num_globals := (pi.globals.length : Int) } = m2 at h a1 a2 a3 a4
  have a2s : m2.frame_denizens = pi.globals := by
    rw [a2]
    show m.frame_denizens ++ pi.globals = pi.globals
    rw [h1, List.nil_append]
  have a3s : m2.args = m.args := a3
  have a4s : m2.nparam = m.nparam := a4
  cases hp : ZAM.initParams ids fl pi offset m2.args m2.nparam m2 with
  | none => rw [hp] at h; cases h
  | some m3 =>
    rw [hp] at h
    simp only [Option.some.injEq] at h
    obtain ⟨b1, b2⟩ := initParams_spec ids fl pi offset m2.args m2.nparam m2 m3 a1
      (by rw [a2s, a3s, a4s]; exact hnd) hp
    rw [a2s, a3s, a4s] at b2
    obtain ⟨c1, c2⟩ := foldl_initLocal pi.locals m3 b1
    rw [b2] at c2
    have hu : (m.args.take m.nparam.toNat).filter pi.HasID = m.usedParams pi := rfl
    rw [hu] at c2
    rw [← h]
    refine ⟨?_, c1.1, c1.2.2.1⟩
    show (pi.locals.foldl ZAM.initLocal m3).frame_denizens = _
    rw [c2]

/-- Witness for C21 as the code has it: for a function with the global `g` = 30, the
parameter `y` = 32 and the local `n` = 33, the frame is `g`, `y`, `n`, in the slots 0, 1, 2. -/
theorem Init_frame_layout_witness :
    ∃ r, initExample.Init exampleIDs exampleFlavors exampleAnalyses exampleProfile
        exampleProcess.offset = some r
      ∧ r.frame_denizens = [30, 32, 33]
      ∧ r.frame_size = (r.frame_denizens.length : Int)
      ∧ ∀ (k : Nat) (id : ID), r.frame_denizens[k]? = some id →
          r.frame_layout1.lookup id = some (k : Int) := by
  have hr : initExample.Init exampleIDs exampleFlavors exampleAnalyses exampleProfile
      exampleProcess.offset
      = some ((initExample.Init exampleIDs exampleFlavors exampleAnalyses exampleProfile
          exampleProcess.offset).getD initExample) := rfl
  obtain ⟨a1, a2, a3⟩ := Init_frame_layout initExample exampleIDs exampleFlavors
    exampleAnalyses exampleProfile exampleProcess.offset _ rfl rfl rfl (by decide) hr
  exact ⟨_, hr, a1, a2, a3⟩

/-- Counterexample to C21 as stated: for a function with the global `g` = 30 and the one
parameter `y` = 32, `Init` gives the slot 0 to the global and the slot 1 to the parameter, so
the parameter does not have the lowest slot. -/
theorem Init_params_first_counterexample :
    ∃ r, initExample.Init exampleIDs exampleFlavors exampleAnalyses exampleProfile
        exampleProcess.offset = some r
      ∧ r.frame_layout1 = [(30, 0), (32, 1), (33, 2)]
      ∧ ¬ r.paramsLowest (initExample.args.take initExample.nparam.toNat) := by
  refine ⟨(initExample.Init exampleIDs exampleFlavors exampleAnalyses exampleProfile
      exampleProcess.offset).getD initExample, rfl, rfl, ?_⟩
  intro hc
  have h := hc 0 32 rfl
  revert h
  decide

/-! ## `PruneUnused` -/

theorem bare_of_unlabelled (z z1 : ZInst) (b : Bool)
    (h : z1.unlabelled = { z.unlabelled with live := b }) : z1.bare = z.bare := by
  have e : ZInst.bare z1.unlabelled = ZInst.bare { z.unlabelled with live := b } := by rw [h]
  exact e

theorem bare_of_unlabelled_eq (z z1 : ZInst) (h : z1.unlabelled = z.unlabelled) :
    z1.bare = z.bare := by
  have e : ZInst.bare z1.unlabelled = ZInst.bare z.unlabelled := by rw [h]
  exact e

theorem modifyInst_lifetimes (m : ZAM) (r : InstRef) (f : ZInst → ZInst) :
    (m.modifyInst r f).denizen_ending = m.denizen_ending
    ∧ (m.modifyInst r f).frame_denizens = m.frame_denizens := by
  cases r <;> exact ⟨rfl, rfl⟩

theorem KillInst_lifetimes (m : ZAM) (i : Nat) :
    (m.KillInst i).denizen_ending = m.denizen_ending
    ∧ (m.KillInst i).frame_denizens = m.frame_denizens := by
  unfold ZAM.KillInst
  cases m.insts1[i]? with
  | none => exact ⟨rfl, rfl⟩
  | some z =>
    simp only
    cases z.target <;> cases z.target2 <;>
      simp [(modifyInst_lifetimes _ _ _).1, (modifyInst_lifetimes _ _ _).2]

theorem keepsBut_refl (s : ZAM) (i : Nat) : s.keepsBut s i :=
  ⟨rfl, rfl, rfl, fun _ z _ hz => ⟨z, hz, rfl⟩⟩

theorem keepsBut_trans {s r t : ZAM} {i : Nat} (h1 : s.keepsBut r i) (h2 : r.keepsBut t i) :
    s.keepsBut t i := by
  obtain ⟨a1, a2, a3, a4⟩ := h1
  obtain ⟨b1, b2, b3, b4⟩ := h2
  refine ⟨b1.trans a1, b2.trans a2, b3.trans a3, ?_⟩
  intro j z hj hz
  obtain ⟨z1, hz1, e1⟩ := a4 j z hj hz
  obtain ⟨z2, hz2, e2⟩ := b4 j z1 hj hz1
  exact ⟨z2, hz2, e2.trans e1⟩

theorem KillInst_keepsBut (m : ZAM) (i : Nat) : m.keepsBut (m.KillInst i) i := by
  refine ⟨(KillInst_lifetimes m i).1, (KillInst_lifetimes m i).2, KillInst_length m i, ?_⟩
  intro j z hj hz
  obtain ⟨z1, hz1, e1⟩ := KillInst_at m i j z hz
  refine ⟨z1, hz1, ?_⟩
  have hd : decide (i = j) = false := decide_eq_false (fun e => hj e.symm)
  rw [e1, hd]
  simp [ZInst.unlabelled]

theorem KillInst_self (m : ZAM) (i : Nat) (z : ZInst) (h : m.insts1[i]? = some z) :
    ∃ z1, (m.KillInst i).insts1[i]? = some z1 ∧ z1.bare = z.bare ∧ z1.live = false := by
  obtain ⟨z1, hz1, e1⟩ := KillInst_at m i i z h
  refine ⟨z1, hz1, bare_of_unlabelled _ _ _ e1, ?_⟩
  have := congrArg ZInst.live e1
  simpa [ZInst.unlabelled] using this

theorem set_keepsBut (m : ZAM) (i : Nat) (z : ZInst) :
    m.keepsBut { m with insts1 := m.insts1.set i z } i := by
  refine ⟨rfl, rfl, by simp, ?_⟩
  intro j z0 hj hz0
  refine ⟨z0, ?_, rfl⟩
  show (m.insts1.set i z)[j]? = some z0
  rw [List.getElem?_set_ne (fun e => hj e.symm)]
  exact hz0

theorem foldPositions_append (f : ZAM × Bool → Nat → Option (ZAM × Bool)) (l1 l2 : List Nat)
    (s : ZAM × Bool) :
    foldPositions f (l1 ++ l2) s
      = match foldPositions f l1 s with
        | none => none
        | some s1 => foldPositions f l2 s1 := by
  induction l1 generalizing s with
  | nil => rfl
  | cons i l1 ih =>
    simp only [List.cons_append, foldPositions]
    cases f s i with
    | none => rfl
    | some s1 => exact ih s1

/-- Evaluation of the optimizer at the input that decides C25.  For the body `switch ( x )
{ case 1: break; case 2: break; } return;` the loop of `OptimizeInsts` ends after its
first round: `RemoveDeadCode` removes nothing, `CollapseGoTos` marks the second `break` dead,
a branch to the next instruction, and returns false, since it sets `did_collapse` only when it
collapses a branch to a branch, and `PruneUnused` prunes nothing.  At the exit the first
`break` is a live unconditional branch to the next live instruction after it, and one more
round of `RemoveDeadCode`, `CollapseGoTos`, `ComputeFrameLifetimes` and `PruneUnused` marks it
dead and takes a label from its target. -/
theorem OptimizeInsts_exit_not_fixpoint :
    (ZAM.optimizeLoop exampleMethods exampleAnalyses exampleTables 10 1
        switchBreakExample.tallyLabels).map
          (fun m => m.insts1.map (fun z => (z.live, z.num_labels)))
      = some [(true, 0), (true, 1), (false, 1), (true, 2)]
    ∧ ((ZAM.optimizeLoop exampleMethods exampleAnalyses exampleTables 10 1
        switchBreakExample.tallyLabels).bind
          (fun m => (m.optimizeRound exampleMethods exampleAnalyses exampleTables 10).map
            (fun r => r.1.insts1.map (fun z => (z.live, z.num_labels)))))
      = some [(true, 0), (false, 1), (false, 1), (true, 1)] := by
  decide

/-! ## Instructions and label counts after `modifyInst` -/

theorem deref_modifyInst (m : ZAM) (x y : InstRef) (f : ZInst → ZInst) :
    (m.modifyInst x f).deref y = if y = x then (m.deref y).map f else m.deref y := by
  cases x with
  | pending =>
    cases y with
    | pending => simp [ZAM.modifyInst, ZAM.deref]
    | inst j => simp [ZAM.modifyInst, ZAM.deref]
  | inst i =>
    cases y with
    | pending => simp [ZAM.modifyInst, ZAM.deref]
    | inst j =>
      show (m.insts1.modify f i)[j]? = _
      rw [List.getElem?_modify]
      by_cases hij : i = j
      · subst hij; simp [ZAM.deref]
      · have hne : ¬ InstRef.inst j = InstRef.inst i := fun e => hij (InstRef.inst.inj e).symm
        rw [if_neg hne]
        cases hz : m.insts1[j]? <;> simp [ZAM.deref, hij, hz]

theorem deref_modifyInst_self (m : ZAM) (x : InstRef) (f : ZInst → ZInst) :
    (m.modifyInst x f).deref x = (m.deref x).map f := by
  rw [deref_modifyInst, if_pos rfl]

theorem deref_modifyInst_ne (m : ZAM) (x y : InstRef) (f : ZInst → ZInst) (h : y ≠ x) :
    (m.modifyInst x f).deref y = m.deref y := by
  rw [deref_modifyInst, if_neg h]

theorem labelsOf_of_deref (m : ZAM) (x : InstRef) (z : ZInst) (h : m.deref x = some z) :
    m.labelsOf x = z.num_labels := by
  simp [ZAM.labelsOf, h]

theorem labelsOf_of_deref_none (m : ZAM) (x : InstRef) (h : m.deref x = none) :
    m.labelsOf x = 0 := by
  simp [ZAM.labelsOf, h]

theorem modifyInst_length (m : ZAM) (x : InstRef) (f : ZInst → ZInst) :
    (m.modifyInst x f).insts1.length = m.insts1.length := by
  cases x with
  | pending => rfl
  | inst i => simp [ZAM.modifyInst]

theorem deref_inst (m : ZAM) (k : Nat) : m.deref (InstRef.inst k) = m.insts1[k]? := rfl

/-! ## The loop "Collapse branch-to-branch" of `CollapseGoTos` -/

theorem collapseChain_succ (m : ZAM) (zm : ZInstMethods) (i fuel : Nat) (t : InstRef) :
    m.collapseChain zm i (fuel + 1) t
      = match (m.modifyInst t (fun z => { z with num_labels := z.num_labels - 1 })).deref t with
        | none => none
        | some tz =>
          match tz.target with
          | none => none
          | some t1 =>
            match (m.chainRound i t t1).deref t1 with
            | none => none
            | some tz1 =>
              if zm.IsUnconditionalBranch tz1 then (m.chainRound i t t1).collapseChain zm i fuel t1
              else some (m.chainRound i t t1, t1) := rfl

/-- What one round of the loop does to the instruction a pointer designates. -/
theorem chainRound_deref (m : ZAM) (i : Nat) (t t1 x : InstRef) (z : ZInst)
    (h : m.deref x = some z) :
    ∃ z1, (m.chainRound i t t1).deref x = some z1
      ∧ z1.unlabelled
          = (if x = InstRef.inst i then { z.unlabelled with target := some t1 } else z.unlabelled)
      ∧ z1.num_labels
          = z.num_labels - (if x = t then 1 else 0) + (if x = t1 then 1 else 0) := by
  unfold ZAM.chainRound
  rw [deref_modifyInst, deref_modifyInst, deref_modifyInst, h]
  split_ifs <;> simp [ZInst.unlabelled]

theorem chainRound_length (m : ZAM) (i : Nat) (t t1 : InstRef) :
    (m.chainRound i t t1).insts1.length = m.insts1.length := by
  unfold ZAM.chainRound
  rw [modifyInst_length, modifyInst_length, modifyInst_length]

theorem unlabelled_op (z z1 : ZInst) (h : z1.unlabelled = z.unlabelled) : z1.op = z.op :=
  (unlabelled_fields z z1 h).1

theorem chainTo_head (m : ZAM) (zm : ZInstMethods) (t last : InstRef) (mids : List InstRef)
    (h : m.chainTo zm t mids last) :
    ∃ tz, m.deref t = some tz ∧ zm.IsUnconditionalBranch tz = true := by
  cases mids with
  | nil =>
    obtain ⟨⟨tz, h1, h2, _⟩, _⟩ := h
    exact ⟨tz, h1, h2⟩
  | cons c rest =>
    obtain ⟨⟨tz, h1, h2, _⟩, _⟩ := h
    exact ⟨tz, h1, h2⟩

theorem chainTo_last (m : ZAM) (zm : ZInstMethods) (last : InstRef) :
    ∀ (mids : List InstRef) (t : InstRef), m.chainTo zm t mids last →
      ∃ lz, m.deref last = some lz := by
  intro mids
  induction mids with
  | nil => intro t hc; obtain ⟨_, lz, h4, _⟩ := hc; exact ⟨lz, h4⟩
  | cons c rest ih => intro t hc; exact ih c hc.2

/-- A chain stays one when the instructions keep their opcodes and those on the chain their
targets. -/
theorem chainTo_congr (m r : ZAM) (zm : ZInstMethods)
    (hop : ∀ a b : ZInst, a.op = b.op → zm.IsUnconditionalBranch a = zm.IsUnconditionalBranch b)
    (last : InstRef) :
    ∀ (mids : List InstRef) (t : InstRef),
      (∀ x z, m.deref x = some z →
        ∃ z1, r.deref x = some z1 ∧ z1.op = z.op ∧ (x ∈ t :: mids → z1.target = z.target)) →
      m.chainTo zm t mids last → r.chainTo zm t mids last := by
  intro mids
  induction mids with
  | nil =>
    intro t hs h
    obtain ⟨⟨tz, h1, h2, h3⟩, lz, h4, h5⟩ := h
    obtain ⟨tz1, a1, a2, a3⟩ := hs t tz h1
    obtain ⟨lz1, b1, b2, _⟩ := hs last lz h4
    refine ⟨⟨tz1, a1, ?_, ?_⟩, lz1, b1, ?_⟩
    · rw [hop tz1 tz a2]; exact h2
    · rw [a3 (List.mem_cons_self _ _)]; exact h3
    · rw [hop lz1 lz b2]; exact h5
  | cons c rest ih =>
    intro t hs h
    obtain ⟨⟨tz, h1, h2, h3⟩, hrest⟩ := h
    obtain ⟨tz1, a1, a2, a3⟩ := hs t tz h1
    refine ⟨⟨tz1, a1, ?_, ?_⟩, ?_⟩
    · rw [hop tz1 tz a2]; exact h2
    · rw [a3 (List.mem_cons_self _ _)]; exact h3
    · apply ih c _ hrest
      intro x z hx
      obtain ⟨z1, c1, c2, c3⟩ := hs x z hx
      exact ⟨z1, c1, c2, fun hm => c3 (List.mem_cons_of_mem _ hm)⟩

/-- The loop "Collapse branch-to-branch" along a chain: it ends at the end of the chain, with
every instruction as before but for the target of the instruction at position `i`, one label
less at the start of the chain and one more at its end. -/
theorem collapseChain_chain (zm : ZInstMethods)
    (hop : ∀ a b : ZInst, a.op = b.op → zm.IsUnconditionalBranch a = zm.IsUnconditionalBranch b)
    (i : Nat) (last : InstRef) :
    ∀ (mids : List InstRef) (m : ZAM) (t : InstRef) (fuel : Nat),
      (∃ i0, m.insts1[i]? = some i0) → m.chainTo zm t mids last →
      (t :: mids ++ [last]).Nodup → InstRef.inst i ∉ t :: mids → mids.length < fuel →
      ∃ r, m.collapseChain zm i fuel t = some (r, last)
        ∧ r.insts1.length = m.insts1.length
        ∧ ∀ x z, m.deref x = some z →
            ∃ z1, r.deref x = some z1
              ∧ z1.unlabelled
                  = (if x = InstRef.inst i then { z.unlabelled with target := some last }
                     else z.unlabelled)
              ∧ z1.num_labels
                  = z.num_labels - (if x = t then 1 else 0) + (if x = last then 1 else 0) := by
  intro mids
  induction mids with
  | nil =>
    intro m t fuel _ hc _ _ hf
    obtain ⟨⟨tz, h1, h2, h3⟩, lz, h4, h5⟩ := hc
    obtain ⟨f, rfl⟩ : ∃ f, fuel = f + 1 := ⟨fuel - 1, by simp at hf; omega⟩
    obtain ⟨lz1, b1, b2, _⟩ := chainRound_deref m i t last last lz h4
    have hopl : lz1.op = lz.op := by
      by_cases e : last = InstRef.inst i
      · rw [if_pos e] at b2
        have := congrArg ZInst.op b2
        exact this
      · rw [if_neg e] at b2
        exact unlabelled_op _ _ b2
    have hu : zm.IsUnconditionalBranch lz1 = false := by rw [hop lz1 lz hopl]; exact h5
    refine ⟨m.chainRound i t last, ?_, chainRound_length m i t last, ?_⟩
    · rw [collapseChain_succ, deref_modifyInst_self, h1]
      simp only [Option.map_some', h3, b1, hu]
      rfl
    · intro x z hx
      exact chainRound_deref m i t last x z hx
  | cons c rest ih =>
    intro m t fuel hi hc hnd hni hf
    obtain ⟨⟨tz, h1, h2, h3⟩, hrest⟩ := hc
    obtain ⟨f, rfl⟩ : ∃ f, fuel = f + 1 := ⟨fuel - 1, by simp at hf; omega⟩
    obtain ⟨cz, hcz, hcu⟩ := chainTo_head m zm c last rest hrest
    have hci : c ≠ InstRef.inst i := fun e => hni (by simp [e])
    obtain ⟨cz1, b1, b2, _⟩ := chainRound_deref m i t c c cz hcz
    rw [if_neg hci] at b2
    have hu : zm.IsUnconditionalBranch cz1 = true := by
      rw [hop cz1 cz (unlabelled_op _ _ b2)]; exact hcu
    obtain ⟨i0, hi0⟩ := hi
    obtain ⟨i1, hi1, _, _⟩ := chainRound_deref m i t c (InstRef.inst i) i0 hi0
    have hnd1 : (c :: rest ++ [last]).Nodup := (List.nodup_cons.1 hnd).2
    have hni1 : InstRef.inst i ∉ c :: rest := fun hm => hni (List.mem_cons_of_mem _ hm)
    have hc1 : (m.chainRound i t c).chainTo zm c rest last := by
      apply chainTo_congr m _ zm hop last rest c _ hrest
      intro x z hx
      obtain ⟨z1, c1, c2, _⟩ := chainRound_deref m i t c x z hx
      refine ⟨z1, c1, ?_, ?_⟩
      · by_cases e : x = InstRef.inst i
        · rw [if_pos e] at c2
          have := congrArg ZInst.op c2
          exact this
        · rw [if_neg e] at c2
          exact unlabelled_op _ _ c2
      · intro hm
        have e : x ≠ InstRef.inst i := fun e => hni1 (e ▸ hm)
        rw [if_neg e] at c2
        exact (unlabelled_fields _ _ c2).2.2.2.2.2.2.1
    obtain ⟨r, hr, hlen, hall⟩ :=
      ih (m.chainRound i t c) c f ⟨i1, hi1⟩ hc1 hnd1 hni1 (by simp at hf; omega)
    refine ⟨r, ?_, hlen.trans (chainRound_length m i t c), ?_⟩
    · rw [collapseChain_succ, deref_modifyInst_self, h1]
      simp only [Option.map_some', h3, b1, hu, if_true]
      exact hr
    · intro x z hx
      obtain ⟨z1, c1, c2, c3⟩ := chainRound_deref m i t c x z hx
      obtain ⟨z2, d1, d2, d3⟩ := hall x z1 c1
      refine ⟨z2, d1, ?_, ?_⟩
      · rw [d2]
        by_cases e : x = InstRef.inst i
        · rw [if_pos e] at c2 ⊢
          rw [if_pos e, c2]
        · rw [if_neg e] at c2 ⊢
          rw [if_neg e, c2]
      · rw [d3, c3]
        have htl : t ≠ last := by
          intro e
          have := (List.nodup_cons.1 hnd).1
          apply this
          simp [e]
        have hcl : c ≠ last := by
          intro e
          have := (List.nodup_cons.1 hnd1).1
          apply this
          simp [e]
        have htc : t ≠ c := by
          intro e
          have := (List.nodup_cons.1 hnd).1
          apply this
          simp [e]
        by_cases e1 : x = t
        · subst e1
          simp [htl, htc]
        · by_cases e2 : x = c
          · subst e2
            simp [hcl, e1]
          · simp [e1, e2]

/-- C24: for a live branch at position `i` whose target `t` starts an acyclic chain of
unconditional branches `t :: mids` that ends at `last`, the first instruction on the chain
that is not an unconditional branch, the chain-following loop of `CollapseGoTos` terminates
(any bound on its rounds above the number of intermediate branches will do) with `last` as
the target of the branch, and `CollapseGoTos` goes on with the branch-to-next part for it; the
label count of `t` is one less, that of `last` one more, the counts of the intermediate
branches and of every other instruction are unchanged, and apart from the label counts and
the target of the branch no instruction is changed.  `IsUnconditionalBranch` is taken to
depend on the opcode only. -/
theorem CollapseGoTos_follows_chain (m : ZAM) (zm : ZInstMethods) (i : Nat) (i0 : ZInst)
    (t last : InstRef) (mids : List InstRef) (fuel : Nat) (b : Bool)
    (hop : ∀ a b : ZInst, a.op = b.op → zm.IsUnconditionalBranch a = zm.IsUnconditionalBranch b)
    (hi : m.insts1[i]? = some i0) (hl : i0.live = true) (ht : i0.target = some t)
    (hc : m.chainTo zm t mids last) (hnd : (t :: mids ++ [last]).Nodup)
    (hni : InstRef.inst i ∉ t :: mids) (hf : mids.length < fuel) :
    ∃ r, m.collapseChain zm i fuel t = some (r, last)
      ∧ ZAM.collapseAt zm fuel (m, b) i = some (r.collapseToNext zm i last, true)
      ∧ (∃ i1, r.insts1[i]? = some i1
          ∧ i1.unlabelled = { i0.unlabelled with target := some last })
      ∧ r.labelsOf t = m.labelsOf t - 1
      ∧ r.labelsOf last = m.labelsOf last + 1
      ∧ (∀ c ∈ mids, r.labelsOf c = m.labelsOf c)
      ∧ (∀ x, x ≠ t → x ≠ last → r.labelsOf x = m.labelsOf x)
      ∧ ∀ (k : Nat) (z : ZInst), k ≠ i → m.insts1[k]? = some z →
          ∃ z1, r.insts1[k]? = some z1 ∧ z1.unlabelled = z.unlabelled := by
  obtain ⟨r, hr, hlen, hall⟩ :=
    collapseChain_chain zm hop i last mids m t fuel ⟨i0, hi⟩ hc hnd hni hf
  obtain ⟨tz, htz, htu⟩ := chainTo_head m zm t last mids hc
  have htl : t ≠ last := by
    intro e
    have := (List.nodup_cons.1 hnd).1
    apply this
    simp [e]
  obtain ⟨lz, hlz⟩ := chainTo_last m zm last mids t hc
  have hlab : ∀ x, r.labelsOf x
      = m.labelsOf x - (if x = t then 1 else 0) + (if x = last then 1 else 0) := by
    intro x
    cases hx : m.deref x with
    | some z =>
      obtain ⟨z1, a1, _, a3⟩ := hall x z hx
      rw [labelsOf_of_deref r x z1 a1, labelsOf_of_deref m x z hx, a3]
    | none =>
      have hxt : x ≠ t := fun e => by rw [e, htz] at hx; cases hx
      have hxl : x ≠ last := fun e => by rw [e, hlz] at hx; cases hx
      have hrx : r.deref x = none := by
        cases x with
        | pending => cases hx
        | inst k =>
          have hk : m.insts1.length ≤ k := by
            have : m.insts1[k]? = none := hx
            exact List.getElem?_eq_none_iff.1 this
          show r.insts1[k]? = none
          exact List.getElem?_eq_none_iff.2 (by omega)
      rw [labelsOf_of_deref_none r x hrx, labelsOf_of_deref_none m x hx]
      simp [hxt, hxl]
  refine ⟨r, hr, ?_, ?_, ?_, ?_, ?_, ?_, ?_⟩
  · unfold ZAM.collapseAt
    simp only [hi, hl, ht, htz, htu, hr]
    rfl
  · obtain ⟨i1, a1, a2, _⟩ := hall (InstRef.inst i) i0 hi
    rw [if_pos rfl] at a2
    exact ⟨i1, a1, a2⟩
  · rw [hlab t, if_pos rfl, if_neg htl]; omega
  · rw [hlab last, if_pos rfl, if_neg (fun e => htl e.symm)]; omega
  · intro c hcm
    have hct : c ≠ t := by
      intro e
      have := (List.nodup_cons.1 hnd).1
      apply this
      simp [← e, hcm]
    have hcl : c ≠ last := by
      intro e
      have h2 : (mids ++ [last]).Nodup := (List.nodup_cons.1 hnd).2
      have h3 := (List.nodup_append.1 h2).2.2
      exact h3 hcm (by simp [e])
    rw [hlab c, if_neg hct, if_neg hcl]; omega
  · intro x hxt hxl
    rw [hlab x, if_neg hxt, if_neg hxl]; omega
  · intro k z hk hz
    obtain ⟨z1, a1, a2, _⟩ := hall (InstRef.inst k) z hz
    have hne : InstRef.inst k ≠ InstRef.inst i := fun e => hk (InstRef.inst.inj e)
    rw [if_neg hne] at a2
    exact ⟨z1, a1, a2⟩

theorem exampleMethods_branch_op (a b : ZInst) (h : a.op = b.op) :
    exampleMethods.IsUnconditionalBranch a = exampleMethods.IsUnconditionalBranch b := by
  simp [exampleMethods, h]

/-- Witness for C24: in `if ( c ) goto A; return; A: goto B; B: goto C; C: return;` the
conditional branch at position 0 targets the chain `A`, `B` that ends at `C`; the loop sets
its target to `C` (position 4), takes the label of `A` and gives one to `C`. -/
theorem CollapseGoTos_follows_chain_witness :
    (chainExample.collapseChain exampleMethods 0 2 (InstRef.inst 2)).map
        (fun r => (r.1.insts1.map (fun z => (z.target, z.num_labels)), r.2))
      = some ([(some (InstRef.inst 4), 0), (none, 0), (some (InstRef.inst 3), 0),
               (some (InstRef.inst 4), 1), (none, 2)], InstRef.inst 4)
    ∧ ∃ r, chainExample.collapseChain exampleMethods 0 2 (InstRef.inst 2)
          = some (r, InstRef.inst 4)
      ∧ ZAM.collapseAt exampleMethods 2 (chainExample, false) 0
          = some (r.collapseToNext exampleMethods 0 (InstRef.inst 4), true)
      ∧ (∃ i1, r.insts1[0]? = some i1
          ∧ i1.unlabelled
              = { ZInst.unlabelled
                    { ZInst.new (ZOp.OP_other 1) with
                      inst_num := 0, target := some (InstRef.inst 2), target_slot := 2 }
                  with target := some (InstRef.inst 4) })
      ∧ r.labelsOf (InstRef.inst 2) = chainExample.labelsOf (InstRef.inst 2) - 1
      ∧ r.labelsOf (InstRef.inst 4) = chainExample.labelsOf (InstRef.inst 4) + 1
      ∧ (∀ c ∈ [InstRef.inst 3], r.labelsOf c = chainExample.labelsOf c)
      ∧ (∀ x, x ≠ InstRef.inst 2 → x ≠ InstRef.inst 4 →
          r.labelsOf x = chainExample.labelsOf x)
      ∧ ∀ (k : Nat) (z : ZInst), k ≠ 0 → chainExample.insts1[k]? = some z →
          ∃ z1, r.insts1[k]? = some z1 ∧ z1.unlabelled = z.unlabelled :=
  ⟨by decide,
   CollapseGoTos_follows_chain chainExample exampleMethods 0 _ (InstRef.inst 2)
    (InstRef.inst 4) [InstRef.inst 3] 2 false exampleMethods_branch_op rfl rfl rfl
    ⟨⟨_, rfl, rfl, rfl⟩, ⟨_, rfl, rfl, rfl⟩, ⟨_, rfl, rfl⟩⟩ (by decide) (by decide)
    (by decide)⟩

/-! ## The excess of a label count over the number of the branches -/

theorem filter_length_modify {α : Type} (p : α → Bool) (f : α → α) :
    ∀ (l : List α) (i : Nat) (z : α), l[i]? = some z →
      ((l.modify f i).filter p).length + (p z).toNat
        = (l.filter p).length + (p (f z)).toNat := by
  intro l
  induction l with
  | nil => intro i z h; simp at h
  | cons a l ih =>
    intro i z h
    cases i with
    | zero =>
      simp only [List.getElem?_cons_zero, Option.some.injEq] at h
      subst h
      rw [List.modify_zero_cons]
      cases h1 : p a <;> cases h2 : p (f a) <;> simp [List.filter, h1, h2]
    | succ i =>
      simp only [List.getElem?_cons_succ] at h
      have e := ih i z h
      rw [List.modify_succ_cons]
      cases h1 : p a
      · rw [List.filter_cons_of_neg (by simp [h1]), List.filter_cons_of_neg (by simp [h1])]
        exact e
      · rw [List.filter_cons_of_pos h1, List.filter_cons_of_pos h1]
        simp only [List.length_cons]
        omega

theorem branchesTo_toNat (z : ZInst) (r : InstRef) :
    z.branchesTo r
      = ((z.live && decide (z.target = some r)).toNat : Int)
        + ((z.live && decide (z.target2 = some r)).toNat : Int) := by
  unfold ZInst.branchesTo ZInst.refsTo
  cases z.live <;> by_cases h1 : z.target = some r <;> by_cases h2 : z.target2 = some r <;>
    simp [h1, h2]

theorem numCaseEntriesTo_modifyInst (m : ZAM) (x r : InstRef) (f : ZInst → ZInst) :
    (m.modifyInst x f).numCaseEntriesTo r = m.numCaseEntriesTo r := by
  cases x <;> rfl

theorem labelsOf_modifyInst_inst (m : ZAM) (i k : Nat) (f : ZInst → ZInst) (z : ZInst)
    (h : m.insts1[i]? = some z) :
    (m.modifyInst (InstRef.inst i) f).labelsOf (InstRef.inst k)
      = m.labelsOf (InstRef.inst k) + (if k = i then (f z).num_labels - z.num_labels else 0) := by
  unfold ZAM.labelsOf
  rw [deref_modifyInst]
  by_cases e : k = i
  · subst e
    rw [if_pos rfl, if_pos rfl]
    have hd : m.deref (InstRef.inst k) = some z := h
    rw [hd]
    simp
  · have hne : ¬ InstRef.inst k = InstRef.inst i := fun e1 => e (InstRef.inst.inj e1)
    rw [if_neg hne, if_neg e]
    simp

/-- The excess after an instruction of `insts1` is modified in place. -/
theorem excess_modifyInst (m : ZAM) (i k : Nat) (f : ZInst → ZInst) (z : ZInst)
    (h : m.insts1[i]? = some z) :
    (m.modifyInst (InstRef.inst i) f).excess k
      = m.excess k + (if k = i then (f z).num_labels - z.num_labels else 0)
        + z.branchesTo (InstRef.inst k) - (f z).branchesTo (InstRef.inst k) := by
  unfold ZAM.excess ZAM.numBranchesTo
  rw [labelsOf_modifyInst_inst m i k f z h, numCaseEntriesTo_modifyInst,
    branchesTo_toNat, branchesTo_toNat]
  have e1 := filter_length_modify
    (fun z : ZInst => z.live && decide (z.target = some (InstRef.inst k))) f m.insts1 i z h
  have e2 := filter_length_modify
    (fun z : ZInst => z.live && decide (z.target2 = some (InstRef.inst k))) f m.insts1 i z h
  simp only at e1 e2
  unfold ZAM.numLiveTargeting ZAM.numLiveTargeting2
  show _ - ((((m.insts1.modify f i).filter _).length + ((m.insts1.modify f i).filter _).length
    + _ : Nat) : Int) = _
  push_cast
  omega

theorem excess_modifyInst_none (m : ZAM) (i k : Nat) (f : ZInst → ZInst)
    (h : m.insts1[i]? = none) :
    (m.modifyInst (InstRef.inst i) f).excess k = m.excess k := by
  have e : m.modifyInst (InstRef.inst i) f = m := by
    show { m with insts1 := m.insts1.modify f i } = m
    rw [modify_out_of_range f m.insts1 i h]
  rw [e]

theorem excess_modifyInst_pending (m : ZAM) (k : Nat) (f : ZInst → ZInst) :
    (m.modifyInst InstRef.pending f).excess k = m.excess k := rfl

/-- The excess after `--t->num_labels` or `++t->num_labels`. -/
theorem excess_relabel (m : ZAM) (x : InstRef) (k : Nat) (d : Int) (f : ZInst → ZInst)
    (hf : ∀ z, f z = { z with num_labels := z.num_labels + d }) :
    (m.modifyInst x f).excess k
      = m.excess k + (if x = InstRef.inst k ∧ k < m.insts1.length then d else 0) := by
  cases x with
  | pending =>
    rw [excess_modifyInst_pending]
    simp
  | inst i =>
    cases hz : m.insts1[i]? with
    | none =>
      rw [excess_modifyInst_none m i k f hz]
      have hlen : m.insts1.length ≤ i := List.getElem?_eq_none_iff.1 hz
      have hc : ¬ (InstRef.inst i = InstRef.inst k ∧ k < m.insts1.length) := by
        rintro ⟨e, hk⟩
        have := InstRef.inst.inj e
        omega
      rw [if_neg hc]
      simp
    | some z =>
      rw [excess_modifyInst m i k f z hz, hf z]
      have hlen : i < m.insts1.length := by
        rcases Nat.lt_or_ge i m.insts1.length with h1 | h1
        · exact h1
        · rw [List.getElem?_eq_none h1] at hz; cases hz
      have hb : ZInst.branchesTo { z with num_labels := z.num_labels + d } (InstRef.inst k)
          = z.branchesTo (InstRef.inst k) := rfl
      rw [hb]
      by_cases e : k = i
      · subst e
        rw [if_pos rfl, if_pos ⟨rfl, hlen⟩]
        simp
      · have hc : ¬ (InstRef.inst i = InstRef.inst k ∧ k < m.insts1.length) := by
          rintro ⟨e1, _⟩
          exact e (InstRef.inst.inj e1).symm
        rw [if_neg e, if_neg hc]
        simp

theorem liveAt_of_getElem? (m : ZAM) (k : Nat) (z : ZInst) (h : m.insts1[k]? = some z) :
    m.liveAt k = z.live := by
  simp [ZAM.liveAt, h]

theorem liveAt_lt (m : ZAM) (k : Nat) (h : m.liveAt k = true) : k < m.insts1.length := by
  rcases Nat.lt_or_ge k m.insts1.length with h1 | h1
  · exact h1
  · simp [ZAM.liveAt, List.getElem?_eq_none h1] at h

theorem liveAt_getElem? (m : ZAM) (k : Nat) (h : m.liveAt k = true) :
    ∃ z, m.insts1[k]? = some z ∧ z.live = true := by
  cases hz : m.insts1[k]? with
  | none => simp [ZAM.liveAt, hz] at h
  | some z => exact ⟨z, rfl, by simpa [ZAM.liveAt, hz] using h⟩

theorem keepsLive_refl (m : ZAM) : m.keepsLive m :=
  ⟨rfl, fun _ h => ⟨h, rfl⟩⟩

theorem keepsLive_trans {m r t : ZAM} (h1 : m.keepsLive r) (h2 : r.keepsLive t) :
    m.keepsLive t := by
  refine ⟨h2.1.trans h1.1, ?_⟩
  intro k hk
  obtain ⟨a1, a2⟩ := h2.2 k hk
  obtain ⟨b1, b2⟩ := h1.2 k a1
  exact ⟨b1, a2.trans b2⟩

theorem liveLabelsExact_of_keepsLive {m r : ZAM} (h : m.keepsLive r)
    (hm : m.liveLabelsExact) : r.liveLabelsExact := by
  intro k _ hl
  obtain ⟨a1, a2⟩ := h.2 k hl
  have e := hm k (liveAt_lt m k a1) a1
  unfold ZAM.excess at a2
  omega

/-- The member function `KillInst` and the excess: for a live instruction nothing changes;
for a dead one each of its targets loses a label it does not stand for. -/
theorem excess_KillInst (m : ZAM) (i k : Nat) (z : ZInst) (h : m.insts1[i]? = some z)
    (hk : k < m.insts1.length) :
    (m.KillInst i).excess k
      = m.excess k + z.branchesTo (InstRef.inst k) - z.refsTo (InstRef.inst k) := by
  have hdec : ∀ w : ZInst, (fun tz : ZInst => { tz with num_labels := tz.num_labels - 1 }) w
      = { w with num_labels := w.num_labels + (-1) } := fun _ => rfl
  have h1 : ({ m with insts1 := m.insts1.modify (fun z => { z with live := false }) i } : ZAM)
      = m.modifyInst (InstRef.inst i) (fun z => { z with live := false }) := rfl
  have e1 := excess_modifyInst m i k (fun z => { z with live := false }) z h
  have hb : ZInst.branchesTo { z with live := false } (InstRef.inst k) = 0 := rfl
  simp only [hb, sub_self, ite_self, add_zero, sub_zero] at e1
  have hl1 : (m.modifyInst (InstRef.inst i) (fun z => { z with live := false })).insts1.length
      = m.insts1.length := modifyInst_length _ _ _
  unfold ZAM.KillInst
  rw [h]
  simp only
  rw [h1]
  unfold ZInst.refsTo
  cases ht : z.target with
  | none =>
    cases ht2 : z.target2 with
    | none => simp only; rw [e1]; simp
    | some t2 =>
      simp only
      rw [excess_relabel _ t2 k (-1) _ hdec, e1, hl1]
      by_cases e : t2 = InstRef.inst k
      · simp [e, hk]; omega
      · have e' : ¬ some t2 = some (InstRef.inst k) := fun c => e (Option.some.inj c)
        simp [e, e']
  | some t =>
    cases ht2 : z.target2 with
    | none =>
      simp only
      rw [excess_relabel _ t k (-1) _ hdec, e1, hl1]
      by_cases e : t = InstRef.inst k
      · simp [e, hk]; omega
      · have e' : ¬ some t = some (InstRef.inst k) := fun c => e (Option.some.inj c)
        simp [e, e']
    | some t2 =>
      simp only
      rw [excess_relabel _ t2 k (-1) _ hdec, modifyInst_length,
        excess_relabel _ t k (-1) _ hdec, e1, hl1]
      by_cases e : t = InstRef.inst k <;> by_cases e2 : t2 = InstRef.inst k <;>
        simp [e, e2, hk] <;> omega

theorem refsTo_none (z : ZInst) (r : InstRef) (h1 : z.target = none) (h2 : z.target2 = none) :
    z.refsTo r = 0 := by
  simp [ZInst.refsTo, h1, h2]

/-- The member function `KillInst` keeps the label counts of the live instructions in step
with the branches when it is applied to a live instruction, or to one without targets. -/
theorem KillInst_keepsLive (m : ZAM) (i : Nat)
    (hgood : ∀ z, m.insts1[i]? = some z → z.live = true ∨ (z.target = none ∧ z.target2 = none)) :
    m.keepsLive (m.KillInst i) := by
  refine ⟨KillInst_length m i, ?_⟩
  intro k hk
  obtain ⟨z1, hz1, hl1⟩ := liveAt_getElem? _ k hk
  have hklt : k < m.insts1.length := by
    have := liveAt_lt _ k hk
    rw [KillInst_length] at this
    exact this
  obtain ⟨zk, hzk⟩ : ∃ zk, m.insts1[k]? = some zk :=
    ⟨m.insts1[k], List.getElem?_eq_getElem hklt⟩
  obtain ⟨z2, hz2, e2⟩ := KillInst_at m i k zk hzk
  rw [hz1] at hz2
  cases hz2
  have hlive : z1.live = (zk.live && !decide (i = k)) := by
    have := congrArg ZInst.live e2
    exact this
  constructor
  · rw [liveAt_of_getElem? m k zk hzk]
    rw [hl1] at hlive
    cases hzl : zk.live
    · rw [hzl] at hlive; simp at hlive
    · rfl
  · cases hz : m.insts1[i]? with
    | none =>
      have e : m.KillInst i = m := by unfold ZAM.KillInst; rw [hz]
      rw [e]
    | some z =>
      rw [excess_KillInst m i k z hz hklt]
      rcases hgood z hz with hl | ⟨t1, t2⟩
      · unfold ZInst.branchesTo
        rw [if_pos hl]
        omega
      · unfold ZInst.branchesTo
        rw [refsTo_none z _ t1 t2]
        simp

theorem removeDeadAt_keepsLive (zm : ZInstMethods) (s : ZAM × Bool) (i : Nat) :
    s.1.keepsLive (ZAM.removeDeadAt zm s i).1 := by
  unfold ZAM.removeDeadAt
  cases h0 : s.1.insts1[i]? with
  | none => exact keepsLive_refl _
  | some i0 =>
    cases h1 : s.1.insts1[i + 1]? with
    | none => exact keepsLive_refl _
    | some i1 =>
      simp only
      split
      · rename_i hc
        apply KillInst_keepsLive
        intro z hz
        rw [h1] at hz
        cases hz
        exact Or.inl hc.2.1
      · exact keepsLive_refl _

theorem foldl_removeDeadAt_keepsLive (zm : ZInstMethods) :
    ∀ (l : List Nat) (s : ZAM × Bool),
      s.1.keepsLive (l.foldl (ZAM.removeDeadAt zm) s).1 := by
  intro l
  induction l with
  | nil => intro s; exact keepsLive_refl _
  | cons i l ih =>
    intro s
    exact keepsLive_trans (removeDeadAt_keepsLive zm s i) (ih _)

theorem RemoveDeadCode_keepsLive (m : ZAM) (zm : ZInstMethods) :
    m.keepsLive (m.RemoveDeadCode zm).1 :=
  foldl_removeDeadAt_keepsLive zm _ (m, false)

/-! ### `CollapseGoTos` -/

theorem modifyInst_kind (m : ZAM) (x : InstRef) (f : ZInst → ZInst)
    (hf : ∀ z, (f z).kind = z.kind) :
    (m.modifyInst x f).insts1.map ZInst.kind = m.insts1.map ZInst.kind := by
  cases x with
  | pending => rfl
  | inst i =>
    show (m.insts1.modify f i).map ZInst.kind = _
    apply List.ext_getElem?
    intro j
    simp only [List.getElem?_map, List.getElem?_modify]
    cases m.insts1[j]? with
    | none => rfl
    | some z => by_cases hij : i = j <;> simp [hij, hf]

theorem liveAt_modifyInst (m : ZAM) (x : InstRef) (f : ZInst → ZInst) (k : Nat)
    (hf : ∀ z, (f z).live = z.live) :
    (m.modifyInst x f).liveAt k = m.liveAt k := by
  have e : ∀ s : ZAM, s.liveAt k = match s.deref (InstRef.inst k) with
      | some z => z.live
      | none => false := fun _ => rfl
  rw [e, e, deref_modifyInst]
  by_cases hx : InstRef.inst k = x
  · rw [if_pos hx]
    cases m.deref (InstRef.inst k) with
    | none => rfl
    | some z => exact hf z
  · rw [if_neg hx]

theorem relabel_getElem? (m : ZAM) (x : InstRef) (f : ZInst → ZInst) (k : Nat) (z : ZInst)
    (hf : ∀ z, (f z).unlabelled = z.unlabelled) (h : m.insts1[k]? = some z) :
    ∃ z1, (m.modifyInst x f).insts1[k]? = some z1 ∧ z1.unlabelled = z.unlabelled := by
  have e : (m.modifyInst x f).insts1[k]? = (m.modifyInst x f).deref (InstRef.inst k) := rfl
  have hd : m.deref (InstRef.inst k) = some z := h
  rw [e, deref_modifyInst, hd]
  by_cases hx : InstRef.inst k = x
  · rw [if_pos hx]
    exact ⟨f z, rfl, hf z⟩
  · rw [if_neg hx]
    exact ⟨z, rfl, rfl⟩

theorem branchesTo_retarget (z : ZInst) (t t1 r : InstRef) (hl : z.live = true)
    (ht : z.target = some t) :
    z.branchesTo r - ZInst.branchesTo { z with target := some t1 } r
      = (if t = r then 1 else 0) - (if t1 = r then 1 else 0) := by
  unfold ZInst.branchesTo ZInst.refsTo
  simp only [hl, if_true, ht, Option.some.injEq]
  omega

theorem branchesTo_of_unlabelled (z z1 : ZInst) (r : InstRef)
    (h : z1.unlabelled = z.unlabelled) : z1.branchesTo r = z.branchesTo r := by
  obtain ⟨_, _, _, _, _, _, a1, a2, a3⟩ := unlabelled_fields z z1 h
  unfold ZInst.branchesTo ZInst.refsTo
  rw [a1, a2, a3]

theorem chainRound_excess (m : ZAM) (i : Nat) (t t1 : InstRef) (i0 : ZInst) (k : Nat)
    (hi : m.insts1[i]? = some i0) (hl : i0.live = true) (ht : i0.target = some t)
    (hk : k < m.insts1.length) :
    (m.chainRound i t t1).excess k = m.excess k := by
  have hdec : ∀ w : ZInst, (fun z : ZInst => { z with num_labels := z.num_labels - 1 }) w
      = { w with num_labels := w.num_labels + (-1) } := fun _ => rfl
  have hinc : ∀ w : ZInst, (fun z : ZInst => { z with num_labels := z.num_labels + 1 }) w
      = { w with num_labels := w.num_labels + 1 } := fun _ => rfl
  obtain ⟨i1, hi1, e1⟩ := relabel_getElem? m t
    (fun z => { z with num_labels := z.num_labels - 1 }) i i0 (fun _ => rfl) hi
  obtain ⟨_, _, _, _, _, _, a1, _, a3⟩ := unlabelled_fields i0 i1 e1
  unfold ZAM.chainRound
  rw [excess_relabel _ t1 k 1 _ hinc, modifyInst_length, modifyInst_length,
    excess_modifyInst _ i k _ i1 hi1, excess_relabel _ t k (-1) _ hdec]
  have hb := branchesTo_retarget i1 t t1 (InstRef.inst k) (a3.trans hl) (a1.trans ht)
  have hn : (ZInst.num_labels { i1 with target := some t1 }) - i1.num_labels = 0 := by
    show i1.num_labels - i1.num_labels = 0
    omega
  simp only at hb hn ⊢
  rw [hn]
  by_cases c1 : t = InstRef.inst k <;> by_cases c2 : t1 = InstRef.inst k <;>
    simp only [c1, c2, hk, and_self, and_true, if_true, if_false, false_and, ite_self] at hb ⊢ <;>
    omega

theorem chainRound_liveAt (m : ZAM) (i : Nat) (t t1 : InstRef) (k : Nat) :
    (m.chainRound i t t1).liveAt k = m.liveAt k := by
  unfold ZAM.chainRound
  rw [liveAt_modifyInst, liveAt_modifyInst, liveAt_modifyInst]
  all_goals intro _; rfl

theorem chainRound_kind (m : ZAM) (i : Nat) (t t1 : InstRef) :
    (m.chainRound i t t1).insts1.map ZInst.kind = m.insts1.map ZInst.kind := by
  unfold ZAM.chainRound
  rw [modifyInst_kind, modifyInst_kind, modifyInst_kind]
  all_goals intro _; rfl

/-- The loop "Collapse branch-to-branch" of `CollapseGoTos` changes no excess: each round
moves one branch and one label from `t` to its target. -/
theorem collapseChain_keeps (zm : ZInstMethods) (i : Nat) :
    ∀ (fuel : Nat) (m : ZAM) (t : InstRef) (r : ZAM × InstRef),
      (∃ i0, m.insts1[i]? = some i0 ∧ i0.live = true ∧ i0.target = some t) →
      m.collapseChain zm i fuel t = some r →
      (∃ i1, r.1.insts1[i]? = some i1 ∧ i1.live = true ∧ i1.target = some r.2)
      ∧ r.1.insts1.length = m.insts1.length
      ∧ (∀ k, k < m.insts1.length → r.1.excess k = m.excess k)
      ∧ (∀ k, r.1.liveAt k = m.liveAt k)
      ∧ r.1.insts1.map ZInst.kind = m.insts1.map ZInst.kind := by
  intro fuel
  induction fuel with
  | zero => intro m t r _ h; cases h
  | succ f ih =>
    intro m t r hi h
    obtain ⟨i0, hi0, hl, ht⟩ := hi
    rw [collapseChain_succ] at h
    cases hd : (m.modifyInst t (fun z => { z with num_labels := z.num_labels - 1 })).deref t with
    | none => rw [hd] at h; cases h
    | some tz =>
      rw [hd] at h
      simp only at h
      cases htt : tz.target with
      | none => rw [htt] at h; cases h
      | some t1 =>
        rw [htt] at h
        simp only at h
        obtain ⟨i1, hi1, e1, _⟩ := chainRound_deref m i t t1 (InstRef.inst i) i0 hi0
        rw [if_pos rfl] at e1
        have hl1 : i1.live = true := by
          have := congrArg ZInst.live e1
          exact this.trans hl
        have ht1 : i1.target = some t1 := by
          have := congrArg ZInst.target e1
          exact this
        cases hd1 : (m.chainRound i t t1).deref t1 with
        | none => rw [hd1] at h; cases h
        | some tz1 =>
          rw [hd1] at h
          simp only at h
          by_cases hu : zm.IsUnconditionalBranch tz1 = true
          · rw [if_pos hu] at h
            obtain ⟨b1, b2, b3, b4, b5⟩ := ih (m.chainRound i t t1) t1 r ⟨i1, hi1, hl1, ht1⟩ h
            refine ⟨b1, b2.trans (chainRound_length m i t t1), ?_, ?_, ?_⟩
            · intro k hk
              rw [b3 k (by rw [chainRound_length]; exact hk)]
              exact chainRound_excess m i t t1 i0 k hi0 hl ht hk
            · intro k
              rw [b4 k]
              exact chainRound_liveAt m i t t1 k
            · rw [b5]
              exact chainRound_kind m i t t1
          · rw [if_neg hu] at h
            simp only [Option.some.injEq] at h
            rw [← h]
            exact ⟨⟨i1, hi1, hl1, ht1⟩, chainRound_length m i t t1,
              fun k hk => chainRound_excess m i t t1 i0 k hi0 hl ht hk,
              fun k => chainRound_liveAt m i t t1 k, chainRound_kind m i t t1⟩

theorem scanDead_true (t : InstRef) :
    ∀ (l : List ZInst) (j0 : Nat) (b : Bool), (scanDead t l j0 b).2 = true →
      b = true ∨ ∃ n z, l[n]? = some z ∧ z.live = false ∧ t = InstRef.inst (j0 + n) := by
  intro l
  induction l with
  | nil => intro j0 b h; exact Or.inl h
  | cons z rest ih =>
    intro j0 b h
    unfold scanDead at h
    by_cases hl : z.live = true
    · rw [if_pos hl] at h
      exact Or.inl h
    · rw [if_neg hl] at h
      rcases ih (j0 + 1) _ h with h1 | ⟨n, z1, a1, a2, a3⟩
      · rcases Bool.or_eq_true_iff.1 h1 with h2 | h2
        · exact Or.inl h2
        · refine Or.inr ⟨0, z, by simp, ?_, ?_⟩
          · cases hz : z.live
            · rfl
            · exact absurd hz hl
          · simpa using h2
      · refine Or.inr ⟨n + 1, z1, ?_, a2, ?_⟩
        · simpa using a1
        · rw [a3]
          congr 1
          omega

/-- The statement `if ( t != pending_inst ) --t->num_labels;` of `CollapseGoTos`. -/
theorem decLabel_facts (m : ZAM) (t : InstRef) :
    (if t ≠ InstRef.pending then
        m.modifyInst t (fun z => { z with num_labels := z.num_labels - 1 })
      else m).insts1.length = m.insts1.length
    ∧ (∀ k, (if t ≠ InstRef.pending then
          m.modifyInst t (fun z => { z with num_labels := z.num_labels - 1 })
        else m).excess k
        = m.excess k + (if t = InstRef.inst k ∧ k < m.insts1.length then -1 else 0))
    ∧ (∀ k, (if t ≠ InstRef.pending then
          m.modifyInst t (fun z => { z with num_labels := z.num_labels - 1 })
        else m).liveAt k = m.liveAt k)
    ∧ (if t ≠ InstRef.pending then
          m.modifyInst t (fun z => { z with num_labels := z.num_labels - 1 })
        else m).insts1.map ZInst.kind = m.insts1.map ZInst.kind
    ∧ ∀ (k : Nat) (z : ZInst), m.insts1[k]? = some z →
        ∃ z1, (if t ≠ InstRef.pending then
            m.modifyInst t (fun z => { z with num_labels := z.num_labels - 1 })
          else m).insts1[k]? = some z1 ∧ z1.unlabelled = z.unlabelled := by
  have hdec : ∀ w : ZInst, (fun z : ZInst => { z with num_labels := z.num_labels - 1 }) w
      = { w with num_labels := w.num_labels + (-1) } := fun _ => rfl
  by_cases hp : t ≠ InstRef.pending
  · rw [if_pos hp]
    refine ⟨modifyInst_length _ _ _, fun k => excess_relabel m t k (-1) _ hdec,
      fun k => liveAt_modifyInst _ _ _ _ ?_, modifyInst_kind _ _ _ ?_,
      fun k z hz => relabel_getElem? m t _ k z ?_ hz⟩
    · intro _; rfl
    · intro _; rfl
    · intro _; rfl
  · rw [if_neg hp]
    have hp1 : t = InstRef.pending := not_not.1 hp
    refine ⟨rfl, ?_, fun _ => rfl, rfl, fun k z hz => ⟨z, hz, rfl⟩⟩
    intro k
    rw [hp1]
    simp

theorem liveAt_setDead (m : ZAM) (i k : Nat) :
    (m.modifyInst (InstRef.inst i) (fun z => { z with live := false })).liveAt k
      = (m.liveAt k && !decide (k = i)) := by
  have e : ∀ s : ZAM, s.liveAt k = match s.deref (InstRef.inst k) with
      | some z => z.live
      | none => false := fun _ => rfl
  rw [e, e, deref_modifyInst]
  by_cases hx : k = i
  · subst hx
    rw [if_pos rfl]
    cases m.deref (InstRef.inst k) <;> simp
  · have hne : ¬ InstRef.inst k = InstRef.inst i := fun c => hx (InstRef.inst.inj c)
    rw [if_neg hne]
    simp [hx]

theorem branchesTo_live1 (z : ZInst) (t r : InstRef) (hl : z.live = true)
    (ht : z.target = some t) (ht2 : z.target2 = none) :
    z.branchesTo r = if t = r then 1 else 0 := by
  unfold ZInst.branchesTo ZInst.refsTo
  simp [hl, ht, ht2]

/-- The part "Collapse branch-to-next-statement" of `CollapseGoTos` for a live instruction
with the target `t`: the excess of every instruction that is live afterwards is as before. -/
theorem collapseToNext_keeps (m : ZAM) (zm : ZInstMethods) (i : Nat) (t : InstRef) (i0 : ZInst)
    (hi : m.insts1[i]? = some i0) (hl : i0.live = true) (ht : i0.target = some t)
    (hub : ∀ z : ZInst, z.op = i0.op → zm.IsUnconditionalBranch z = true →
      i0.target2 = none) :
    m.keepsLive (m.collapseToNext zm i t)
    ∧ (m.collapseToNext zm i t).insts1.map ZInst.kind = m.insts1.map ZInst.kind := by
  have hinc : ∀ w : ZInst, (fun z : ZInst => { z with num_labels := z.num_labels + 1 }) w
      = { w with num_labels := w.num_labels + 1 } := fun _ => rfl
  obtain ⟨d1, d2, d3, d4, d5⟩ := decLabel_facts m t
  unfold ZAM.collapseToNext
  simp only []
  generalize hr : scanDead t (m.insts1.drop (i + 1)) (i + 1) false = r
  generalize hm1 : (if t ≠ InstRef.pending then
      m.modifyInst t (fun z => { z with num_labels := z.num_labels - 1 }) else m) = m1
    at d1 d2 d3 d4 d5 ⊢
  by_cases hc : r.2 = true ∨ (r.1 < m.insts1.length ∧ t = InstRef.inst r.1)
      ∨ (r.1 = m.insts1.length ∧ t = InstRef.pending)
  · rw [if_pos hc]
    obtain ⟨i1, hi1, e1⟩ := d5 i i0 hi
    obtain ⟨o1, _, _, _, _, _, a1, a2, a3⟩ := unlabelled_fields i0 i1 e1
    rw [hi1]
    simp only
    by_cases hu : zm.IsUnconditionalBranch i1 = true
    · rw [if_pos hu]
      have ht2 : i1.target2 = none := a2.trans (hub i1 o1 hu)
      constructor
      · refine ⟨(modifyInst_length _ _ _).trans d1, ?_⟩
        intro k hk
        rw [liveAt_setDead] at hk
        obtain ⟨hk1, hk2⟩ := Bool.and_eq_true_iff.1 hk
        rw [d3 k] at hk1
        refine ⟨hk1, ?_⟩
        have hklt := liveAt_lt m k hk1
        rw [excess_modifyInst m1 i k _ i1 hi1, d2 k,
          branchesTo_live1 i1 t (InstRef.inst k) (a3.trans hl) (a1.trans ht) ht2]
        have hb : ZInst.branchesTo { i1 with live := false } (InstRef.inst k) = 0 := rfl
        have hn : (ZInst.num_labels { i1 with live := false }) - i1.num_labels = 0 := by
          show i1.num_labels - i1.num_labels = 0
          omega
        simp only at hb hn ⊢
        rw [hb, hn]
        by_cases c1 : t = InstRef.inst k <;>
          simp only [c1, hklt, and_self, and_true, if_true, if_false, false_and, ite_self] <;>
          omega
      · rw [modifyInst_kind _ _ _ (fun z => by rfl)]
        exact d4
    · rw [if_neg hu]
      by_cases hj : r.1 < m1.insts1.length
      · rw [if_pos hj]
        constructor
        · refine ⟨?_, ?_⟩
          · rw [modifyInst_length, modifyInst_length]
            exact d1
          · intro k hk
            rw [liveAt_modifyInst _ _ _ _ (fun z => by rfl),
              liveAt_modifyInst _ _ _ _ (fun z => by rfl), d3 k] at hk
            refine ⟨hk, ?_⟩
            have hklt := liveAt_lt m k hk
            rw [excess_relabel _ (InstRef.inst r.1) k 1 _ hinc, modifyInst_length,
              excess_modifyInst m1 i k _ i1 hi1, d2 k, d1]
            have hb := branchesTo_retarget i1 t (InstRef.inst r.1) (InstRef.inst k)
              (a3.trans hl) (a1.trans ht)
            have hn : (ZInst.num_labels { i1 with target := some (InstRef.inst r.1) })
                - i1.num_labels = 0 := by
              show i1.num_labels - i1.num_labels = 0
              omega
            simp only at hb hn ⊢
            rw [hn]
            by_cases c1 : t = InstRef.inst k <;>
              by_cases c2 : InstRef.inst r.1 = InstRef.inst k <;>
              simp only [c1, c2, hklt, and_self, and_true, if_true, if_false, false_and,
                ite_self] at hb ⊢ <;>
              omega
        · rw [modifyInst_kind _ _ _ (fun z => by rfl), modifyInst_kind _ _ _ (fun z => by rfl)]
          exact d4
      · rw [if_neg hj]
        refine ⟨⟨d1, ?_⟩, d4⟩
        intro k hk
        rw [d3 k] at hk
        refine ⟨hk, ?_⟩
        rw [d2 k]
        have hne : ¬ (t = InstRef.inst k ∧ k < m.insts1.length) := by
          rintro ⟨e, _⟩
          rcases hc with c | ⟨c, _⟩ | ⟨_, c⟩
          · rw [← hr] at c
            rcases scanDead_true t _ _ _ c with c1 | ⟨n, z, b1, b2, b3⟩
            · cases c1
            · rw [List.getElem?_drop] at b1
              rw [e] at b3
              have hkn : k = i + 1 + n := InstRef.inst.inj b3
              rw [← hkn] at b1
              rw [liveAt_of_getElem? m k z b1, b2] at hk
              cases hk
          · rw [d1] at hj
            exact hj c
          · rw [c] at e
            cases e
        rw [if_neg hne]
        simp
  · rw [if_neg hc]
    exact ⟨keepsLive_refl m, rfl⟩

theorem foldPositions_inv (P : ZAM → Prop) (f : ZAM × Bool → Nat → Option (ZAM × Bool))
    (hstep : ∀ s i r, P s.1 → f s i = some r → P r.1) :
    ∀ (l : List Nat) (s r : ZAM × Bool), P s.1 → foldPositions f l s = some r → P r.1 := by
  intro l
  induction l with
  | nil =>
    intro s r hs h
    simp only [foldPositions, Option.some.injEq] at h
    rw [← h]
    exact hs
  | cons i l ih =>
    intro s r hs h
    simp only [foldPositions] at h
    cases hf : f s i with
    | none => rw [hf] at h; cases h
    | some s1 =>
      rw [hf] at h
      exact ih s1 r (hstep s i s1 hs hf) h

/-- One round of the loop of `CollapseGoTos`. -/
theorem collapseAt_keeps (zm : ZInstMethods) (fuel : Nat) (s : ZAM × Bool) (i : Nat)
    (r : ZAM × Bool)
    (hub : ∀ i0, s.1.insts1[i]? = some i0 →
      ∀ z : ZInst, z.op = i0.op → zm.IsUnconditionalBranch z = true → i0.target2 = none)
    (h : ZAM.collapseAt zm fuel s i = some r) :
    s.1.keepsLive r.1 ∧ r.1.insts1.map ZInst.kind = s.1.insts1.map ZInst.kind := by
  unfold ZAM.collapseAt at h
  cases hi : s.1.insts1[i]? with
  | none =>
    simp only [hi, Option.some.injEq] at h
    rw [← h]
    exact ⟨keepsLive_refl _, rfl⟩
  | some i0 =>
    simp only [hi] at h
    by_cases hl0 : i0.live = false
    · rw [if_pos hl0] at h
      simp only [Option.some.injEq] at h
      rw [← h]
      exact ⟨keepsLive_refl _, rfl⟩
    · rw [if_neg hl0] at h
      have hl : i0.live = true := by
        cases hz : i0.live
        · exact absurd hz hl0
        · rfl
      cases ht : i0.target with
      | none =>
        simp only [ht, Option.some.injEq] at h
        rw [← h]
        exact ⟨keepsLive_refl _, rfl⟩
      | some t =>
        simp only [ht] at h
        cases hd : s.1.deref t with
        | none => simp only [hd] at h; cases h
        | some tz =>
          simp only [hd] at h
          by_cases hu : zm.IsUnconditionalBranch tz = true
          · rw [if_pos hu] at h
            cases hcc : s.1.collapseChain zm i fuel t with
            | none => simp only [hcc] at h; cases h
            | some c =>
              obtain ⟨m1, t1⟩ := c
              simp only [hcc, Option.some.injEq] at h
              rw [← h]
              obtain ⟨⟨i1, hi1, hl1, ht1⟩, b2, b3, b4, b5⟩ :=
                collapseChain_keeps zm i fuel s.1 t (m1, t1) ⟨i0, hi, hl, ht⟩ hcc
              have hk := getElem?_of_map_eq ZInst.kind _ _ b5 i
              rw [hi, hi1] at hk
              simp only [Option.map_some', Option.some.injEq, ZInst.kind, Prod.mk.injEq] at hk
              have hub1 : ∀ z : ZInst, z.op = i1.op → zm.IsUnconditionalBranch z = true →
                  i1.target2 = none := by
                intro z hz hzu
                rw [hk.2]
                exact hub i0 hi z (hz.trans hk.1) hzu
              obtain ⟨c1, c2⟩ := collapseToNext_keeps m1 zm i t1 i1 hi1 hl1 ht1 hub1
              have k1 : s.1.keepsLive m1 := by
                refine ⟨b2, ?_⟩
                intro k hk1
                rw [b4 k] at hk1
                exact ⟨hk1, b3 k (liveAt_lt _ k hk1)⟩
              exact ⟨keepsLive_trans k1 c1, c2.trans b5⟩
          · rw [if_neg hu] at h
            simp only [Option.some.injEq] at h
            rw [← h]
            exact collapseToNext_keeps s.1 zm i t i0 hi hl ht (hub i0 hi)

/-- The member function `CollapseGoTos` keeps the label counts of the live instructions in
step with the branches to them, when an unconditional branch has no second target. -/
theorem CollapseGoTos_keepsLive (m : ZAM) (zm : ZInstMethods) (fuel : Nat) (r : ZAM × Bool)
    (hop : ∀ a b : ZInst, a.op = b.op → zm.IsUnconditionalBranch a = zm.IsUnconditionalBranch b)
    (hub : ∀ z ∈ m.insts1, zm.IsUnconditionalBranch z = true → z.target2 = none)
    (h : m.CollapseGoTos zm fuel = some r) : m.keepsLive r.1 := by
  have hP := foldPositions_inv
    (fun s => m.keepsLive s ∧ s.insts1.map ZInst.kind = m.insts1.map ZInst.kind)
    (ZAM.collapseAt zm fuel) ?_ (List.range m.insts1.length) (m, false) r
    ⟨keepsLive_refl m, rfl⟩ h
  · exact hP.1
  · intro s i r1 hs hstep
    obtain ⟨s1, s2⟩ := hs
    have hubs : ∀ i0, s.1.insts1[i]? = some i0 →
        ∀ z : ZInst, z.op = i0.op → zm.IsUnconditionalBranch z = true → i0.target2 = none := by
      intro i0 hi0 z hz hzu
      have hk := getElem?_of_map_eq ZInst.kind _ _ s2 i
      rw [hi0] at hk
      cases hm : m.insts1[i]? with
      | none => rw [hm] at hk; cases hk
      | some z0 =>
        rw [hm] at hk
        simp only [Option.map_some', Option.some.injEq, ZInst.kind, Prod.mk.injEq] at hk
        rw [hk.2]
        apply hub z0 (List.getElem?_mem hm)
        rw [← hop z z0 (hz.trans hk.1)]
        exact hzu
    obtain ⟨c1, c2⟩ := collapseAt_keeps zm fuel s i r1 hubs hstep
    exact ⟨keepsLive_trans s1 c1, c2.trans s2⟩

/-! ### `PruneUnused` -/

theorem bare_targets (z z1 : ZInst) (h : z1.bare = z.bare) :
    z1.target = z.target ∧ z1.target2 = z.target2 := by
  have e : ∀ {β : Type} (g : ZInst → β), g z1.bare = g z.bare := fun g => by rw [h]
  exact ⟨e ZInst.target, e ZInst.target2⟩

theorem reflavor_keeps (tb : OpTables) (z z3 : ZInst) (h : reflavor tb z = some z3) :
    z3.live = z.live ∧ z3.num_labels = z.num_labels ∧ z3.target = z.target
    ∧ z3.target2 = z.target2 := by
  unfold reflavor at h
  split at h
  · cases h; exact ⟨rfl, rfl, rfl, rfl⟩
  · split at h
    · cases h; exact ⟨rfl, rfl, rfl, rfl⟩
    · split at h
      · cases h; exact ⟨rfl, rfl, rfl, rfl⟩
      · cases hl : tb.assignmentless_op.lookup z.op with
        | none => rw [hl] at h; cases h
        | some op1 =>
          rw [hl] at h
          cases h
          exact ⟨rfl, rfl, rfl, rfl⟩

theorem set_keepsLive (m : ZAM) (i : Nat) (z z3 : ZInst) (hz : m.insts1[i]? = some z)
    (h3 : z3.live = z.live ∧ z3.num_labels = z.num_labels ∧ z3.target = z.target
      ∧ z3.target2 = z.target2) :
    m.keepsLive { m with insts1 := m.insts1.set i z3 } := by
  have e : ({ m with insts1 := m.insts1.set i z3 } : ZAM)
      = m.modifyInst (InstRef.inst i) (fun _ => z3) := by
    show _ = ({ m with insts1 := m.insts1.modify (fun _ => z3) i } : ZAM)
    rw [List.set_eq_modify]
  rw [e]
  obtain ⟨a1, a2, a3, a4⟩ := h3
  refine ⟨modifyInst_length _ _ _, ?_⟩
  intro k hk
  have hb : z3.branchesTo (InstRef.inst k) = z.branchesTo (InstRef.inst k) := by
    unfold ZInst.branchesTo ZInst.refsTo
    rw [a1, a3, a4]
  constructor
  · have e1 : ∀ s : ZAM, s.liveAt k = match s.deref (InstRef.inst k) with
        | some z => z.live
        | none => false := fun _ => rfl
    rw [e1, deref_modifyInst] at hk
    rw [e1]
    by_cases hx : k = i
    · subst hx
      rw [if_pos rfl] at hk
      have hd : m.deref (InstRef.inst k) = some z := hz
      rw [hd] at hk ⊢
      simp only [Option.map_some'] at hk ⊢
      rw [← a1]
      exact hk
    · have hne : ¬ InstRef.inst k = InstRef.inst i := fun c => hx (InstRef.inst.inj c)
      rw [if_neg hne] at hk
      exact hk
  · rw [excess_modifyInst m i k _ z hz, hb, a2]
    simp

/-- A conditional `KillInst(inst)` of `PruneUnused`, applied to an instruction that is live or
has no targets. -/
theorem condKill_keeps (c : Prop) [Decidable c] (s : ZAM × Bool) (i : Nat)
    (hgood : c → ∀ z, s.1.insts1[i]? = some z →
      z.live = true ∨ (z.target = none ∧ z.target2 = none)) :
    s.1.keepsBut (if c then (s.1.KillInst i, true) else s).1 i
    ∧ s.1.keepsLive (if c then (s.1.KillInst i, true) else s).1
    ∧ ∀ z, s.1.insts1[i]? = some z →
        ∃ z1, (if c then (s.1.KillInst i, true) else s).1.insts1[i]? = some z1
          ∧ z1.bare = z.bare ∧ (z1.live = z.live ∨ c) := by
  by_cases hc : c
  · rw [if_pos hc]
    refine ⟨KillInst_keepsBut _ _, KillInst_keepsLive _ _ (hgood hc), ?_⟩
    intro z hz
    obtain ⟨z1, hz1, e1, _⟩ := KillInst_self s.1 i z hz
    exact ⟨z1, hz1, e1, Or.inr hc⟩
  · rw [if_neg hc]
    exact ⟨keepsBut_refl _ _, keepsLive_refl _, fun z hz => ⟨z, hz, rfl, Or.inl rfl⟩⟩

/-- One round of the loop of `PruneUnused`, for an instruction that has no targets if it is a
store to or a load from the interpreter frame. -/
theorem pruneAt_keeps (zm : ZInstMethods) (an : Analyses) (tb : OpTables) (s : ZAM × Bool)
    (i : Nat) (r : ZAM × Bool)
    (hw : ∀ inst0, s.1.insts1[i]? = some inst0 → ∀ w : ZInst, w.bare = inst0.bare →
      (zm.IsFrameStore w = true ∨ zm.IsLoad w = true) →
      inst0.target = none ∧ inst0.target2 = none)
    (h : ZAM.pruneAt zm an tb s i = some r) :
    s.1.keepsBut r.1 i ∧ s.1.keepsLive r.1 := by
  unfold ZAM.pruneAt at h
  cases hi : s.1.insts1[i]? with
  | none =>
    simp only [hi, Option.some.injEq] at h
    rw [← h]
    exact ⟨keepsBut_refl _ _, keepsLive_refl _⟩
  | some inst0 =>
    simp only [hi] at h
    by_cases hl0 : inst0.live = false
    · rw [if_pos hl0] at h
      simp only [Option.some.injEq] at h
      rw [← h]
      exact ⟨keepsBut_refl _ _, keepsLive_refl _⟩
    · rw [if_neg hl0] at h
      have hl : inst0.live = true := by
        cases hz : inst0.live
        · exact absurd hz hl0
        · rfl
      obtain ⟨k1, l1, k1a⟩ := condKill_keeps
        (zm.IsFrameStore inst0 = true ∧ s.1.VarIsAssigned zm inst0.v1 = false) s i
        (fun _ z hz => by rw [hi] at hz; cases hz; exact Or.inl hl)
      generalize hs1 : (if zm.IsFrameStore inst0 = true ∧ s.1.VarIsAssigned zm inst0.v1 = false
          then (s.1.KillInst i, true) else s) = s1 at h k1 l1 k1a
      obtain ⟨w1, hw1, ew1, lw1⟩ := k1a inst0 hi
      have hg1 : (s1.1.insts1[i]?).getD inst0 = w1 := by rw [hw1]; rfl
      rw [hg1] at h
      obtain ⟨k2, l2, k2a⟩ := condKill_keeps
        (zm.IsLoad w1 = true ∧ s1.1.VarIsUsed zm w1.v1 = false) s1 i
        (fun hc z hz => by
          rw [hw1] at hz
          cases hz
          obtain ⟨q1, q2⟩ := hw inst0 hi w1 ew1 (Or.inr hc.1)
          obtain ⟨b1, b2⟩ := bare_targets inst0 w1 ew1
          exact Or.inr ⟨b1.trans q1, b2.trans q2⟩)
      generalize hs2 : (if zm.IsLoad w1 = true ∧ s1.1.VarIsUsed zm w1.v1 = false
          then (s1.1.KillInst i, true) else s1) = s2 at h k2 l2 k2a
      obtain ⟨w2, hw2, ew2, lw2⟩ := k2a w1 hw1
      have hg2 : (s2.1.insts1[i]?).getD w1 = w2 := by rw [hw2]; rfl
      rw [hg2] at h
      have k12 : s.1.keepsBut s2.1 i := keepsBut_trans k1 k2
      have l12 : s.1.keepsLive s2.1 := keepsLive_trans l1 l2
      have eb : w2.bare = inst0.bare := ew2.trans ew1
      have hgood2 : w2.live = true ∨ (w2.target = none ∧ w2.target2 = none) := by
        obtain ⟨b1, b2⟩ := bare_targets inst0 w2 eb
        rcases lw2 with e2 | c2
        · rcases lw1 with e1 | c1
          · exact Or.inl (e2.trans (e1.trans hl))
          · obtain ⟨q1, q2⟩ := hw inst0 hi inst0 rfl (Or.inl c1.1)
            exact Or.inr ⟨b1.trans q1, b2.trans q2⟩
        · obtain ⟨q1, q2⟩ := hw inst0 hi w1 ew1 (Or.inr c2.1)
          exact Or.inr ⟨b1.trans q1, b2.trans q2⟩
      by_cases hA : zm.AssignsToSlot1 w2 = false
      · rw [if_pos hA] at h
        simp only [Option.some.injEq] at h
        rw [← h]
        exact ⟨k12, l12⟩
      · rw [if_neg hA] at h
        by_cases hG : (s2.1.denizen_ending w2.v1).isSome = true
            ∨ an.IsGlobal (s2.1.denizen w2.v1) = true
        · rw [if_pos hG] at h
          simp only [Option.some.injEq] at h
          rw [← h]
          exact ⟨k12, l12⟩
        · rw [if_neg hG] at h
          by_cases hS : zm.HasSideEffects w2 = false
          · rw [if_pos hS] at h
            simp only [Option.some.injEq] at h
            rw [← h]
            refine ⟨keepsBut_trans k12 (KillInst_keepsBut _ _),
              keepsLive_trans l12 (KillInst_keepsLive _ _ ?_)⟩
            intro z hz
            rw [hw2] at hz
            cases hz
            exact hgood2
          · rw [if_neg hS] at h
            cases hrf : reflavor tb w2 with
            | none => rw [hrf] at h; cases h
            | some inst3 =>
              rw [hrf] at h
              simp only [Option.some.injEq] at h
              rw [← h]
              exact ⟨keepsBut_trans k12 (set_keepsBut _ _ _),
                keepsLive_trans l12 (set_keepsLive _ i w2 inst3 hw2 (reflavor_keeps tb _ _ hrf))⟩

/-- The member function `PruneUnused` keeps the label counts of the live instructions in step
with the branches to them, when no store to or load from the interpreter frame has a
target. -/
theorem PruneUnused_keepsLive (m : ZAM) (zm : ZInstMethods) (an : Analyses) (tb : OpTables)
    (hbare : ∀ a b : ZInst, a.bare = b.bare →
      zm.IsFrameStore a = zm.IsFrameStore b ∧ zm.IsLoad a = zm.IsLoad b)
    (hnt : ∀ z ∈ m.insts1, (zm.IsFrameStore z = true ∨ zm.IsLoad z = true) →
      z.target = none ∧ z.target2 = none)
    (n : Nat) (r : ZAM × Bool)
    (h : foldPositions (ZAM.pruneAt zm an tb) (List.range n) (m, false) = some r) :
    m.keepsLive r.1
    ∧ ∀ (j : Nat) (z : ZInst), n ≤ j → m.insts1[j]? = some z →
        ∃ z1, r.1.insts1[j]? = some z1 ∧ z1.unlabelled = z.unlabelled := by
  induction n generalizing r with
  | zero =>
    simp only [List.range_zero, foldPositions, Option.some.injEq] at h
    rw [← h]
    exact ⟨keepsLive_refl _, fun j z _ hz => ⟨z, hz, rfl⟩⟩
  | succ n ih =>
    rw [List.range_succ, foldPositions_append] at h
    cases hs : foldPositions (ZAM.pruneAt zm an tb) (List.range n) (m, false) with
    | none => rw [hs] at h; cases h
    | some s =>
      rw [hs] at h
      simp only [foldPositions] at h
      cases hp : ZAM.pruneAt zm an tb s n with
      | none => rw [hp] at h; cases h
      | some r1 =>
        rw [hp] at h
        simp only [Option.some.injEq] at h
        subst h
        obtain ⟨a1, a2⟩ := ih s hs
        have hw : ∀ inst0, s.1.insts1[n]? = some inst0 → ∀ w : ZInst, w.bare = inst0.bare →
            (zm.IsFrameStore w = true ∨ zm.IsLoad w = true) →
            inst0.target = none ∧ inst0.target2 = none := by
          intro inst0 hi0 w hwb hfl
          cases hm : m.insts1[n]? with
          | none =>
            have hlen : m.insts1.length ≤ n := List.getElem?_eq_none_iff.1 hm
            have hlen2 : s.1.insts1.length ≤ n := by rw [a1.1]; exact hlen
            rw [List.getElem?_eq_none hlen2] at hi0
            cases hi0
          | some z0 =>
            obtain ⟨z1, hz1, e1⟩ := a2 n z0 (Nat.le_refl _) hm
            rw [hi0] at hz1
            cases hz1
            have eb : w.bare = z0.bare := hwb.trans (bare_of_unlabelled_eq _ _ e1)
            obtain ⟨f1, f2⟩ := hbare w z0 eb
            rw [f1, f2] at hfl
            obtain ⟨q1, q2⟩ := hnt z0 (List.getElem?_mem hm) hfl
            obtain ⟨_, _, _, _, _, _, t1, t2, _⟩ := unlabelled_fields _ _ e1
            exact ⟨t1.trans q1, t2.trans q2⟩
        obtain ⟨⟨_, _, _, k4⟩, l1⟩ := pruneAt_keeps zm an tb s n r1 hw hp
        refine ⟨keepsLive_trans a1 l1, ?_⟩
        intro j z hj hz
        obtain ⟨z1, hz1, e1⟩ := a2 j z (by omega) hz
        obtain ⟨z2, hz2, e2⟩ := k4 j z1 (by omega) hz1
        exact ⟨z2, hz2, e2.trans e1⟩

/-! ## The label-count invariant through the passes of the optimizer -/

/-- Counterexample for C26 as stated.  For the body `if ( c ) y = 2; x = 1;` the first round of
the loop of `OptimizeInsts` prunes the two assignments, and the invariant holds for every
instruction; `CollapseGoTos` of the next round finds that the conditional branch goes into dead
code with no live instruction behind it, takes the label of its target and leaves the branch
as it is: the dead target has the label count 0 and one live branch to it. -/
theorem CollapseGoTos_dead_target_counterexample :
    ∃ m1 r, condExample.tallyLabels.optimizeRound exampleMethods exampleAnalyses
          exampleTables 10 = some (m1, true)
      ∧ m1.labelsExact
      ∧ m1.CollapseGoTos exampleMethods 10 = some r
      ∧ r.1.insts1.map (fun z => (z.live, z.target, z.num_labels))
          = [(true, some (InstRef.inst 2), 0), (false, none, 0), (false, none, 0)]
      ∧ ¬ r.1.labelsExact := by
  refine ⟨((condExample.tallyLabels.optimizeRound exampleMethods exampleAnalyses
      exampleTables 10).getD (condExample, false)).1,
    ((((condExample.tallyLabels.optimizeRound exampleMethods exampleAnalyses
      exampleTables 10).getD (condExample, false)).1.CollapseGoTos exampleMethods 10).getD
        (condExample, false)), rfl, ?_, rfl, ?_, ?_⟩
  · decide
  · decide
  · decide

/-- C26, for the live instructions: when the label count of every live instruction of
`insts1` is the number of the live instructions whose `target` is that instruction, plus the
number of those whose `target2` is, plus the number of the switch-table entries that map to
it, then the same holds after `KillInst` of a live instruction, after `RemoveDeadCode`, after
`CollapseGoTos` and after `PruneUnused`.  The member functions of `ZInst` defined outside
`ZAM.cc` are taken as follows: `IsUnconditionalBranch` depends on the opcode only, and an
unconditional branch of `insts1` has no second target; `IsFrameStore` and `IsLoad` read
neither the label count nor the `live` flag, and a store to or a load from the interpreter
frame in `insts1` has no target. -/
theorem passes_keep_live_labels (m : ZAM) (zm : ZInstMethods) (an : Analyses) (tb : OpTables)
    (fuel : Nat)
    (hop : ∀ a b : ZInst, a.op = b.op → zm.IsUnconditionalBranch a = zm.IsUnconditionalBranch b)
    (hub : ∀ z ∈ m.insts1, zm.IsUnconditionalBranch z = true → z.target2 = none)
    (hbare : ∀ a b : ZInst, a.bare = b.bare →
      zm.IsFrameStore a = zm.IsFrameStore b ∧ zm.IsLoad a = zm.IsLoad b)
    (hnt : ∀ z ∈ m.insts1, (zm.IsFrameStore z = true ∨ zm.IsLoad z = true) →
      z.target = none ∧ z.target2 = none)
    (hL : m.liveLabelsExact) :
    (∀ i, m.liveAt i = true → (m.KillInst i).liveLabelsExact)
    ∧ (m.RemoveDeadCode zm).1.liveLabelsExact
    ∧ (∀ r, m.CollapseGoTos zm fuel = some r → r.1.liveLabelsExact)
    ∧ (∀ r, m.PruneUnused zm an tb = some r → r.1.liveLabelsExact) := by
  refine ⟨?_, ?_, ?_, ?_⟩
  · intro i hi
    apply liveLabelsExact_of_keepsLive (KillInst_keepsLive m i ?_) hL
    intro z hz
    rw [liveAt_of_getElem? m i z hz] at hi
    exact Or.inl hi
  · exact liveLabelsExact_of_keepsLive (RemoveDeadCode_keepsLive m zm) hL
  · intro r hr
    exact liveLabelsExact_of_keepsLive (CollapseGoTos_keepsLive m zm fuel r hop hub hr) hL
  · intro r hr
    exact liveLabelsExact_of_keepsLive
      (PruneUnused_keepsLive m zm an tb hbare hnt m.insts1.length r hr).1 hL

/-- Witness for C26, for the live instructions: after the tally for the body `switch ( x )
{ case 1: break; case 2: break; } return;` the invariant holds, and it holds after each pass;
`CollapseGoTos` marks the second `break` dead and takes its label from the return. -/
theorem passes_keep_live_labels_witness :
    switchBreakExample.tallyLabels.liveLabelsExact
    ∧ ((∀ i, switchBreakExample.tallyLabels.liveAt i = true →
          (switchBreakExample.tallyLabels.KillInst i).liveLabelsExact)
      ∧ (switchBreakExample.tallyLabels.RemoveDeadCode exampleMethods).1.liveLabelsExact
      ∧ (∀ r, switchBreakExample.tallyLabels.CollapseGoTos exampleMethods 10 = some r →
          r.1.liveLabelsExact)
      ∧ (∀ r, switchBreakExample.tallyLabels.PruneUnused exampleMethods exampleAnalyses
          exampleTables = some r → r.1.liveLabelsExact))
    ∧ (switchBreakExample.tallyLabels.CollapseGoTos exampleMethods 10).map
        (fun r => r.1.insts1.map (fun z => (z.live, z.num_labels)))
        = some [(true, 0), (true, 1), (false, 1), (true, 2)] :=
  ⟨by decide,
   passes_keep_live_labels switchBreakExample.tallyLabels exampleMethods exampleAnalyses
    exampleTables 10 exampleMethods_branch_op (by decide) (fun _ _ _ => ⟨rfl, rfl⟩)
    (by decide) (by decide),
   by decide⟩

/-! ## Evaluations of the code at inputs that decide claims -/

/-- Evaluation of `Switch` at the input that decides C32.  For `switch k { case 1: switch j
{ case 5: return "a"; default: return "b"; } default: return "z"; }`, two switches over
integers, the head of the outer switch (position 0) and the head of the inner one (position 1)
both hold the table index 0 as operand 2: `ValueSwitch` reads `int_cases.size()` before it
compiles the bodies, and pushes its table after them.  The table at the index 0 of `int_cases`
is that of the inner switch (5 to position 2), that of the outer switch (1 to position 1) is at
the index 1. -/
theorem ValueSwitch_nested_table_index :
    (nestedSwitchState.Switch exampleIDs exampleFlavors outerSwitch (some 34) none
        InternalTypeTag.TYPE_INTERNAL_INT).map
      (fun r => (r.1.insts1.map (fun z => (z.op, z.v1, z.v2)), r.1.int_cases))
      = some ([(ZOp.OP_SWITCHI_VVV, 4, 0), (ZOp.OP_SWITCHI_VVV, 5, 0), (ZOp.OP_other 51, 0, 0),
               (ZOp.OP_other 52, 0, 0), (ZOp.OP_other 53, 0, 0)],
              [[(5, InstRef.inst 2)], [(1, InstRef.inst 1)]]) := by
  decide

/-- Evaluation of `ReMapInterpreterFrame` at the input that decides C39.  The locals `a` and
`b` share a post-optimization slot and get the interpreter slot 0; the local `w`, which is in
no shared slot, gets the interpreter slot 1 in `interpreter_slots`, and the size 2 is recorded
for the function; but only the loop over the shared slots calls `SetOffset`, so `w` keeps its
offset 2, which is not below the recorded size. -/
theorem ReMapInterpreterFrame_interpreter_only :
    (intrpOnlyExample.intrpLocals exampleAnalyses intrpOnlyProcess.offset).1.interpreter_slots
      = [(10, 0), (11, 0), (12, 1)]
    ∧ (intrpOnlyExample.ReMapInterpreterFrame exampleAnalyses
        intrpOnlyProcess).2.remapped_intrp_frame_sizes.lookup 7 = some 2
    ∧ intrpOnlyExample.interpreter_locals.map
        (intrpOnlyExample.ReMapInterpreterFrame exampleAnalyses intrpOnlyProcess).2.offset
      = [0, 0, 2] := by
  decide

/-- Evaluation of `CompileBody` from the optimizer on at the input that decides C40.  In
`local a = 1; local b = a; return b;` the lifetime of `a` ends where that of `b` begins, so
`ReMapFrame` gives both the slot 0, with the `id_start` 0 and 1, and marks the assignment
`b = a` at the position 1 dead; `insts2` holds the two other instructions, `inst1_to_inst2`
maps the dead instruction to -1, and the `id_start` of `b` in `shared_frame_denizens_final` is
-1. -/
theorem CompileBody_id_start_of_removed_assignment :
    (selfAssignExample.optimizeAndAssemble directMethods exampleAnalyses exampleTables false 10
        exampleProcess).map
      (fun r => (r.1.insts2, r.1.insts1.map ZInst.live,
        r.1.shared_frame_denizens_final.map (fun s => (s.ids, s.id_start))))
      = some ([0, 2], [true, false, true], [([10, 11], [0, -1])]) := by
  rfl

/-- Evaluation of `CollapseGoTos` at the input that decides C37.  In `L: goto M; M: x;
if ( c ) goto L; return;` every live branch targets a live instruction.  The round for the
position 0 finds a branch to the next statement and marks the `goto` dead, though the branch at
the position 2 targets it; when the loop reaches the position 2, its target is that dead
unconditional branch, and the assertion `ASSERT(t->live)` of the chain-following loop fails in
its first round. -/
theorem CollapseGoTos_chain_assertion_fails :
    backBranchExample.liveBranchesToLive = true
    ∧ (backBranchExample.collapseBefore exampleMethods 10 2).map
        (fun s => s.1.insts1.map (fun z => (z.live, z.target)))
      = some [(false, some (InstRef.inst 1)), (true, none), (true, some (InstRef.inst 0)),
              (true, none)]
    ∧ (backBranchExample.collapseBefore exampleMethods 10 2).bind
        (fun s => s.1.collapseAsserts exampleMethods 10 2) = some false
    ∧ (backBranchExample.CollapseGoTos exampleMethods 10).map
        (fun s => s.1.insts1.map (fun z => (z.live, z.target, z.num_labels)))
      = some [(false, some (InstRef.inst 1), 0), (true, none, 1),
              (true, some (InstRef.inst 1), 0), (true, none, 0)] := by
  decide

/-- Evaluation of the loop-depth computation of `CompileBody` at the input that decides C34.
In `for ( k in t ) { for ( j in u ) { } if ( c ) next; foo(); }` the outer loop, the
positions 1 to 9, has two backward branches, the `next` at the position 7 and the end of the
body at the position 9, and encloses the inner loop, the positions 3 and 4.  The round for the
position 9 extends the outer loop: it looks for its current end from the position 1 on, stops
at the position 3, where the inner loop has another depth, fails the assertion
`ASSERT(insts1[j]->loop_depth == depth - 1)`, and bumps the depths from there.  The
instructions 5 to 7, which one loop encloses, get the depth 2, and those of the inner loop,
which two loops enclose, the depth 3. -/
theorem CompileBody_loop_depths_nested :
    nestedLoopExample.computeLoopDepths.insts1.map ZInst.loop_depth
      = [0, 1, 1, 3, 3, 2, 2, 2, 1, 1, 0]
    ∧ (List.range 11).map nestedLoopExample.loopsEnclosing
      = [0, 1, 1, 2, 2, 1, 1, 1, 1, 1, 0]
    ∧ (nestedLoopExample.loopDepthsBefore 9).loopDepthAssert 9 = false
    ∧ (List.range 9).map (fun i => (nestedLoopExample.loopDepthsBefore i).loopDepthAssert i)
      = [true, true, true, true, true, true, true, true, true] := by
  decide

/-! ## How far `ComputeFrameLifetimes` extends a lifetime -/

theorem lifetimesExtend_refl (m : ZAM) : m.lifetimesExtend m :=
  ⟨sameCode_refl m, fun _ _ h => h, fun _ e h => ⟨e, h, le_refl _⟩⟩

theorem lifetimesExtend_trans {m0 m1 m2 : ZAM} (h1 : m0.lifetimesExtend m1)
    (h2 : m1.lifetimesExtend m2) : m0.lifetimesExtend m2 := by
  refine ⟨sameCode_trans h1.1 h2.1, fun s b h => h2.2.1 s b (h1.2.1 s b h), ?_⟩
  intro s e h
  obtain ⟨e1, a1, a2⟩ := h1.2.2 s e h
  obtain ⟨e2, b1, b2⟩ := h2.2.2 s e1 a1
  rw [sameCode_numAt h1.1, sameCode_numAt h1.1] at b2
  exact ⟨e2, b1, le_trans a2 b2⟩

/-- The member function `ExtendLifetime(slot, inst)`: afterwards the lifetime of the slot
ends at `inst` or later, and no lifetime has become shorter. -/
theorem ExtendLifetime_extends (m : ZAM) (an : Analyses) (slot : Int) (p : Nat) :
    m.lifetimesExtend (m.ExtendLifetime an slot p)
    ∧ ∃ e, (m.ExtendLifetime an slot p).denizen_ending slot = some e
        ∧ m.numAt p ≤ m.numAt e := by
  obtain ⟨c1, c2⟩ := ExtendLifetime_same m an slot p
  unfold ZAM.lifetimesExtend
  refine ⟨⟨c1, fun s b h => by rw [c2.1]; exact h, ?_⟩, ?_⟩
  · intro s e h
    unfold ZAM.ExtendLifetime
    cases hd : m.denizen_ending slot with
    | none =>
      simp only
      by_cases hs : s = slot
      · rw [hs, hd] at h; cases h
      · rw [if_neg hs]; exact ⟨e, h, le_refl _⟩
    | some old =>
      simp only
      split
      · exact ⟨e, h, le_refl _⟩
      · split
        · rename_i hlt
          simp only
          by_cases hs : s = slot
          · rw [if_pos hs]
            rw [hs, hd] at h
            cases h
            exact ⟨p, rfl, le_of_lt hlt⟩
          · rw [if_neg hs]; exact ⟨e, h, le_refl _⟩
        · exact ⟨e, h, le_refl _⟩
  · unfold ZAM.ExtendLifetime
    cases hd : m.denizen_ending slot with
    | none => simp only; exact ⟨p, by simp, le_refl _⟩
    | some old =>
      simp only
      split
      · rename_i hc
        exact ⟨old, hd, hc.2.2⟩
      · split
        · simp only
          exact ⟨p, by simp, le_refl _⟩
        · rename_i hlt
          exact ⟨old, hd, by omega⟩

theorem SetLifetimeStart_extends (m : ZAM) (slot : Int) (p : Nat) :
    m.lifetimesExtend (m.SetLifetimeStart slot p) := by
  obtain ⟨c1, c2⟩ := SetLifetimeStart_same m slot p
  refine ⟨c1, ?_, fun s e h => ⟨e, by rw [c2]; exact h, le_refl _⟩⟩
  intro s b hs
  unfold ZAM.SetLifetimeStart
  cases hb : m.denizen_beginning slot with
  | some b0 => exact hs
  | none =>
    simp only
    have : s ≠ slot := by intro e; rw [e, hb] at hs; cases hs
    rw [if_neg this]
    exact hs

theorem CheckSlotAssignment_extends (m : ZAM) (an : Analyses) (slot : Int) (p : Nat) :
    m.lifetimesExtend (m.CheckSlotAssignment an slot p) := by
  unfold ZAM.CheckSlotAssignment
  exact SetLifetimeStart_extends m slot _

theorem CheckSlotUse_extends (m : ZAM) (an : Analyses) (slot : Int) (p : Nat) :
    m.lifetimesExtend (m.CheckSlotUse an slot p) := by
  unfold ZAM.CheckSlotUse
  split
  · exact lifetimesExtend_refl m
  · exact (ExtendLifetime_extends m an slot _).1

theorem usedSlotLifetimes_extends (m : ZAM) (zm : ZInstMethods) (an : Analyses) (inst : ZInst)
    (p : Nat) : m.lifetimesExtend (m.usedSlotLifetimes zm an inst p) := by
  unfold ZAM.usedSlotLifetimes
  cases zm.UsesSlots inst with
  | none => exact lifetimesExtend_refl m
  | some t =>
    obtain ⟨s1, s2, s3, s4⟩ := t
    simp only
    exact lifetimesExtend_trans (lifetimesExtend_trans (lifetimesExtend_trans
      (CheckSlotUse_extends m an s1 p) (CheckSlotUse_extends _ an s2 p))
      (CheckSlotUse_extends _ an s3 p)) (CheckSlotUse_extends _ an s4 p)

theorem auxLifetimes_extends (an : Analyses) (p : Nat) (slots : List Int) (m : ZAM) :
    m.lifetimesExtend (m.auxLifetimes an p slots) := by
  induction slots generalizing m with
  | nil => exact lifetimesExtend_refl m
  | cons s rest ih =>
    unfold ZAM.auxLifetimes
    simp only
    split
    · exact ih m
    · exact lifetimesExtend_trans (ExtendLifetime_extends m an s _).1 (ih _)

theorem syncGlobalLifetimes_extends (an : Analyses) (p : Nat) (gs : List ID) (m : ZAM) :
    m.lifetimesExtend (m.syncGlobalLifetimes an p gs) := by
  induction gs generalizing m with
  | nil => exact lifetimesExtend_refl m
  | cons g rest ih =>
    unfold ZAM.syncGlobalLifetimes
    simp only
    split
    · exact lifetimesExtend_trans (ExtendLifetime_extends m an _ _).1 (ih _)
    · exact ih m

theorem sameCode_EndOfLoop {m0 m : ZAM} (h : m0.sameCode m) (p : Nat) (d : Int) :
    m.EndOfLoop p d = m0.EndOfLoop p d := by
  have e : ∀ k, m.liveAt k = m0.liveAt k := fun k => by unfold ZAM.liveAt; rw [h.1]
  have hd : ∀ n, m.downToLive (m.numAt p).toNat n = m0.downToLive (m0.numAt p).toNat n := by
    intro n
    rw [sameCode_numAt h]
    induction n with
    | zero => rfl
    | succ n ih =>
      unfold ZAM.downToLive
      rw [e, ih]
  unfold ZAM.EndOfLoop ZAM.forthWhileDeep
  simp only
  rw [sameCode_numAt h, h.1]
  split
  · rfl
  · have := hd (((m0.numAt p).toNat
      + (m0.insts1.drop (m0.numAt p).toNat).findIdx
          (fun z => decide (¬ (z.loop_depth ≥ d)))) - 1)
    rw [sameCode_numAt h] at this
    exact this

/-- The special-casing of `ComputeFrameLifetimes` for the loop variables of a table
iteration: every loop variable has a beginning afterwards, and a lifetime that ends at
`EndOfLoop(inst, depth)` or later. -/
theorem iterVarLifetimes_extends (an : Analyses) (p : Nat) (depth : Int) (vs : List Int)
    (m : ZAM) :
    m.lifetimesExtend (m.iterVarLifetimes an p depth vs)
    ∧ ∀ v ∈ vs, ((m.iterVarLifetimes an p depth vs).denizen_beginning v).isSome = true
        ∧ ∃ e, (m.iterVarLifetimes an p depth vs).denizen_ending v = some e
            ∧ m.numAt (m.EndOfLoop p depth) ≤ m.numAt e := by
  induction vs generalizing m with
  | nil => exact ⟨lifetimesExtend_refl m, fun v hv => by cases hv⟩
  | cons v rest ih =>
    unfold ZAM.iterVarLifetimes
    simp only
    have h1 := CheckSlotAssignment_extends m an v p
    obtain ⟨h2, e0, h3, h4⟩ := ExtendLifetime_extends (m.CheckSlotAssignment an v p) an v
      ((m.CheckSlotAssignment an v p).EndOfLoop p depth)
    have h12 := lifetimesExtend_trans h1 h2
    obtain ⟨h5, h6⟩ := ih ((m.CheckSlotAssignment an v p).ExtendLifetime an v
      ((m.CheckSlotAssignment an v p).EndOfLoop p depth))
    refine ⟨lifetimesExtend_trans h12 h5, ?_⟩
    intro w hw
    rcases List.mem_cons.1 hw with hwv | hwr
    · subst hwv
      have hb : ((m.CheckSlotAssignment an w p).denizen_beginning w).isSome = true := by
        unfold ZAM.CheckSlotAssignment ZAM.SetLifetimeStart
        simp only
        cases hb0 : m.denizen_beginning w with
        | some b => simp [hb0]
        | none => simp
      constructor
      · cases hb1 : (m.CheckSlotAssignment an w p).denizen_beginning w with
        | none => rw [hb1] at hb; cases hb
        | some b =>
          rw [h5.2.1 w b (h2.2.1 w b hb1)]
          rfl
      · obtain ⟨e1, a1, a2⟩ := h5.2.2 w e0 h3
        refine ⟨e1, a1, ?_⟩
        rw [sameCode_numAt h12.1, sameCode_numAt h12.1] at a2
        rw [sameCode_numAt h1.1, sameCode_numAt h1.1, sameCode_EndOfLoop h1.1] at h4
        exact le_trans h4 a2
    · obtain ⟨b1, e1, b2, b3⟩ := h6 w hwr
      refine ⟨b1, e1, b2, ?_⟩
      rw [sameCode_numAt h12.1, sameCode_numAt h12.1, sameCode_EndOfLoop h12.1] at b3
      exact b3

/-- One round of the loop of `ComputeFrameLifetimes` makes no lifetime shorter. -/
theorem lifetimesAt_extends (m : ZAM) (zm : ZInstMethods) (an : Analyses) (i : Nat) :
    m.lifetimesExtend (m.lifetimesAt zm an i) := by
  unfold ZAM.lifetimesAt
  cases hi : m.insts1[i]? with
  | none => exact lifetimesExtend_refl m
  | some inst =>
    simp only
    split
    · exact lifetimesExtend_refl m
    · have h1 : m.lifetimesExtend
          (if zm.AssignsToSlot1 inst = true then m.CheckSlotAssignment an inst.v1 i else m) := by
        split
        · exact CheckSlotAssignment_extends m an _ _
        · exact lifetimesExtend_refl m
      generalize (if zm.AssignsToSlot1 inst = true then m.CheckSlotAssignment an inst.v1 i
        else m) = m1 at h1
      split
      · refine lifetimesExtend_trans h1 (lifetimesExtend_trans (lifetimesExtend_trans
          (iterVarLifetimes_extends an i inst.loop_depth inst.loop_vars m1).1 ?_)
          (usedSlotLifetimes_extends _ zm an inst i))
        split
        · exact (ExtendLifetime_extends _ an _ _).1
        · exact lifetimesExtend_refl _
      · split
        · exact lifetimesExtend_trans h1 (lifetimesExtend_trans
            (syncGlobalLifetimes_extends an i _ m1) (usedSlotLifetimes_extends _ zm an inst i))
        · split
          · exact lifetimesExtend_trans h1 (ExtendLifetime_extends m1 an _ _).1
          · refine lifetimesExtend_trans h1 (lifetimesExtend_trans ?_
              (usedSlotLifetimes_extends _ zm an inst i))
            cases inst.aux with
            | none => exact lifetimesExtend_refl _
            | some slots => exact auxLifetimes_extends an i slots m1

theorem foldl_lifetimesAt_extends (zm : ZInstMethods) (an : Analyses) (l : List Nat) (m : ZAM) :
    m.lifetimesExtend (l.foldl (fun m1 i => m1.lifetimesAt zm an i) m) := by
  induction l generalizing m with
  | nil => exact lifetimesExtend_refl m
  | cons i l ih =>
    exact lifetimesExtend_trans (lifetimesAt_extends m zm an i) (ih _)

/-- The lifetimes that `ComputeFrameLifetimes` has when its loop has visited the position
`i` are extended, never shortened, by the rest of the loop. -/
theorem ComputeFrameLifetimes_extends (m : ZAM) (zm : ZInstMethods) (an : Analyses) (k : Nat)
    (hk : k ≤ m.insts1.length) :
    (m.lifetimesBefore zm an k).lifetimesExtend (m.ComputeFrameLifetimes zm an) := by
  have e : m.ComputeFrameLifetimes zm an
      = (List.range' k (m.insts1.length - k)).foldl (fun m1 i => m1.lifetimesAt zm an i)
          (m.lifetimesBefore zm an k) := by
    have hr : List.range m.insts1.length
        = List.range k ++ List.range' k (m.insts1.length - k) := by
      rw [List.range_eq_range', List.range_eq_range']
      have := List.range'_append 0 k (m.insts1.length - k) 1
      simp only [Nat.zero_add, Nat.one_mul] at this
      rw [this]
      congr 1
      omega
    show (List.range m.insts1.length).foldl (fun m1 i => m1.lifetimesAt zm an i)
      m.clearLifetimes = _
    rw [hr, List.foldl_append]
    rfl
  rw [e]
  exact foldl_lifetimesAt_extends zm an _ _

theorem lifetimesBefore_sameCode (m : ZAM) (zm : ZInstMethods) (an : Analyses) (k : Nat) :
    m.sameCode (m.lifetimesBefore zm an k) := by
  have h := (foldl_lifetimesAt_extends zm an (List.range k) m.clearLifetimes).1
  have h0 : m.sameCode m.clearLifetimes := ⟨rfl, rfl, rfl, rfl, rfl, rfl⟩
  exact sameCode_trans h0 h

theorem lifetimesBefore_succ (m : ZAM) (zm : ZInstMethods) (an : Analyses) (k : Nat) :
    m.lifetimesBefore zm an (k + 1) = (m.lifetimesBefore zm an k).lifetimesAt zm an k := by
  unfold ZAM.lifetimesBefore
  rw [List.range_succ, List.foldl_append]
  rfl

theorem numAt_of_numbered (m : ZAM) (hnum : m.numbered) (k : Nat)
    (hk : k < m.insts1.length) : m.numAt k = (k : Int) := by
  unfold ZAM.numAt
  rw [List.getElem?_eq_getElem hk]
  exact hnum k _ (List.getElem?_eq_getElem hk)

theorem depthAt_of_getElem? (m : ZAM) (k : Nat) (z : ZInst) (h : m.insts1[k]? = some z) :
    m.depthAt k = z.loop_depth := by
  simp [ZAM.depthAt, h]

/-- The member function `EndOfLoop(inst, depth)` returns `inst` itself when `inst` is not as
deep in loops as `depth`. -/
theorem EndOfLoop_outside (m : ZAM) (p : Nat) (d : Int) (inst : ZInst)
    (hp : m.insts1[p]? = some inst) (hn : inst.inst_num = (p : Int))
    (hd : inst.loop_depth < d) : m.EndOfLoop p d = p := by
  have hnum : m.numAt p = (p : Int) := by simp [ZAM.numAt, hp, hn]
  have hlt : p < m.insts1.length := by
    rcases Nat.lt_or_ge p m.insts1.length with h | h
    · exact h
    · rw [List.getElem?_eq_none h] at hp; cases hp
  unfold ZAM.EndOfLoop ZAM.forthWhileDeep
  simp only [hnum, Int.toNat_ofNat]
  have hdrop : m.insts1.drop p = inst :: m.insts1.drop (p + 1) := by
    have h1 := List.drop_eq_getElem_cons hlt
    rw [h1]
    have h2 : m.insts1[p] = inst := by
      have := List.getElem?_eq_getElem hlt
      rw [hp] at this
      exact (Option.some.inj this).symm
    rw [h2]
  rw [hdrop, List.findIdx_cons]
  have hP : decide (¬ (inst.loop_depth ≥ d)) = true := decide_eq_true (by omega)
  rw [hP]
  simp

theorem downToLive_ge (m : ZAM) (stop : Nat) (n q : Nat) (hq : q ≤ n)
    (hl : m.liveAt q = true) : q ≤ m.downToLive stop n ∧ m.downToLive stop n ≤ n := by
  induction n with
  | zero =>
    unfold ZAM.downToLive
    exact ⟨hq, le_refl _⟩
  | succ n ih =>
    unfold ZAM.downToLive
    split
    · rename_i hc
      have hne : q ≠ n + 1 := by
        intro e
        rw [e, hc.2] at hl
        cases hl
      obtain ⟨a, b⟩ := ih (by omega)
      exact ⟨a, by omega⟩
    · exact ⟨hq, le_refl _⟩

/-- The member function `EndOfLoop(inst, depth)` returns an instruction at or after every live
instruction `q` such that the instructions from `inst` to `q` are all at least `depth` deep in
loops. -/
theorem EndOfLoop_ge (m : ZAM) (i q : Nat) (d : Int) (hnum : m.numAt i = (i : Int))
    (hiq : i ≤ q) (hq : q < m.insts1.length)
    (hdeep : ∀ k, i ≤ k → k ≤ q → d ≤ m.depthAt k) (hl : m.liveAt q = true) :
    q ≤ m.EndOfLoop i d ∧ m.EndOfLoop i d < m.insts1.length := by
  unfold ZAM.EndOfLoop ZAM.forthWhileDeep
  simp only [hnum, Int.toNat_ofNat]
  have hlen : (m.insts1.drop i).length = m.insts1.length - i := List.length_drop _ _
  have hfi : q - i < (m.insts1.drop i).findIdx (fun z => decide (¬ (z.loop_depth ≥ d))) := by
    apply List.lt_findIdx_of_not (by rw [hlen]; omega)
    intro j hj
    have hjl : i + j < m.insts1.length := by omega
    have hg : (m.insts1.drop i).get ⟨j, by rw [hlen]; omega⟩ = m.insts1[i + j] := by
      show (m.insts1.drop i)[j] = _
      exact List.getElem_drop _
    rw [hg]
    have hk := hdeep (i + j) (by omega) (by omega)
    rw [depthAt_of_getElem? m (i + j) _ (List.getElem?_eq_getElem hjl)] at hk
    simp only [decide_eq_true_eq, not_not]
    exact hk
  have hfl : (m.insts1.drop i).findIdx (fun z => decide (¬ (z.loop_depth ≥ d)))
      ≤ (m.insts1.drop i).length := List.findIdx_le_length _
  rw [hlen] at hfl
  have hne : ¬ (i + (m.insts1.drop i).findIdx (fun z => decide (¬ (z.loop_depth ≥ d))) = i) := by
    omega
  rw [if_neg hne]
  obtain ⟨a, b⟩ := downToLive_ge m i
    (i + (m.insts1.drop i).findIdx (fun z => decide (¬ (z.loop_depth ≥ d))) - 1) q
    (by omega) hl
  exact ⟨a, by omega⟩

/-! ## Lifetimes of loop variables and of modified globals (C35, C36) -/

theorem lifetimesExtend_covers {m0 m : ZAM} (h : m0.lifetimesExtend m) (v : Int) (x : Int)
    (hb : (m0.denizen_beginning v).isSome = true)
    (he : ∃ e, m0.denizen_ending v = some e ∧ x ≤ m0.numAt e) :
    (m.denizen_beginning v).isSome = true
    ∧ ∃ e, m.denizen_ending v = some e ∧ x ≤ m.numAt e := by
  constructor
  · cases hb1 : m0.denizen_beginning v with
    | none => rw [hb1] at hb; cases hb
    | some b => rw [h.2.1 v b hb1]; rfl
  · obtain ⟨e, a1, a2⟩ := he
    obtain ⟨e1, b1, b2⟩ := h.2.2 v e a1
    refine ⟨e1, b1, ?_⟩
    rw [sameCode_numAt h.1]
    exact le_trans a2 b2

theorem CheckSlotAssignment_begins (m : ZAM) (an : Analyses) (w : Int) (p : Nat) :
    ((m.CheckSlotAssignment an w p).denizen_beginning w).isSome = true := by
  unfold ZAM.CheckSlotAssignment ZAM.SetLifetimeStart
  simp only
  cases hb0 : m.denizen_beginning w with
  | some b => simp [hb0]
  | none => simp

/-- The round of `ComputeFrameLifetimes` for a live table-iteration instruction leaves each
loop variable, and the value variable, with a beginning and with an ending at or after the
end of the loop. -/
theorem lifetimesAt_table_iter (S : ZAM) (zm : ZInstMethods) (an : Analyses) (i : Nat)
    (inst : ZInst) (hi : S.insts1[i]? = some inst) (hl : inst.live = true)
    (hop : inst.op.isTableIter)
    (hval : inst.op = ZOp.OP_NEXT_TABLE_ITER_VAL_VAR_VVV → zm.AssignsToSlot1 inst = true)
    (v : Int)
    (hv : v ∈ inst.loop_vars ∨ (inst.op = ZOp.OP_NEXT_TABLE_ITER_VAL_VAR_VVV ∧ v = inst.v1)) :
    ((S.lifetimesAt zm an i).denizen_beginning v).isSome = true
    ∧ ∃ e, (S.lifetimesAt zm an i).denizen_ending v = some e
        ∧ S.numAt (S.EndOfLoop i inst.loop_depth) ≤ (S.lifetimesAt zm an i).numAt e := by
  unfold ZAM.lifetimesAt
  rw [hi]
  simp only
  rw [if_neg (by rw [hl]; simp)]
  have hop1 : inst.op = ZOp.OP_NEXT_TABLE_ITER_VV
      ∨ inst.op = ZOp.OP_NEXT_TABLE_ITER_VAL_VAR_VVV := hop
  rw [if_pos hop1]
  have h1 : S.lifetimesExtend
      (if zm.AssignsToSlot1 inst = true then S.CheckSlotAssignment an inst.v1 i else S) := by
    split
    · exact CheckSlotAssignment_extends S an _ _
    · exact lifetimesExtend_refl S
  have h1b : (inst.op = ZOp.OP_NEXT_TABLE_ITER_VAL_VAR_VVV ∧ v = inst.v1) →
      ((if zm.AssignsToSlot1 inst = true then S.CheckSlotAssignment an inst.v1 i
        else S).denizen_beginning v).isSome = true := by
    intro hh
    rw [if_pos (hval hh.1), hh.2]
    exact CheckSlotAssignment_begins S an _ _
  generalize (if zm.AssignsToSlot1 inst = true then S.CheckSlotAssignment an inst.v1 i
    else S) = m1 at h1 h1b
  obtain ⟨h2, h2b⟩ := iterVarLifetimes_extends an i inst.loop_depth inst.loop_vars m1
  generalize m1.iterVarLifetimes an i inst.loop_depth inst.loop_vars = m2 at h2 h2b
  have h12 := lifetimesExtend_trans h1 h2
  have h4 := usedSlotLifetimes_extends
    (if inst.op = ZOp.OP_NEXT_TABLE_ITER_VAL_VAR_VVV then
      m2.ExtendLifetime an inst.v1 (m2.EndOfLoop i inst.loop_depth) else m2) zm an inst i
  have h3 : m2.lifetimesExtend
      (if inst.op = ZOp.OP_NEXT_TABLE_ITER_VAL_VAR_VVV then
        m2.ExtendLifetime an inst.v1 (m2.EndOfLoop i inst.loop_depth) else m2) := by
    split
    · exact (ExtendLifetime_extends _ an _ _).1
    · exact lifetimesExtend_refl _
  rcases hv with hv | hv
  · obtain ⟨b1, e, b2, b3⟩ := h2b v hv
    rw [sameCode_EndOfLoop h1.1, sameCode_numAt h1.1, sameCode_numAt h1.1 e,
      ← sameCode_numAt h12.1 e] at b3
    exact lifetimesExtend_covers (lifetimesExtend_trans h3 h4) v _ b1 ⟨e, b2, b3⟩
  · obtain ⟨hvo, rfl⟩ := hv
    rw [if_pos hvo] at h4
    rw [if_pos hvo]
    obtain ⟨h3e, e, he, hle⟩ := ExtendLifetime_extends m2 an inst.v1
      (m2.EndOfLoop i inst.loop_depth)
    have hb3 : ((m2.ExtendLifetime an inst.v1
        (m2.EndOfLoop i inst.loop_depth)).denizen_beginning inst.v1).isSome = true := by
      cases hb1 : m1.denizen_beginning inst.v1 with
      | none => have := h1b ⟨hvo, rfl⟩; rw [hb1] at this; cases this
      | some b => rw [h3e.2.1 _ b (h2.2.1 _ b hb1)]; rfl
    rw [sameCode_EndOfLoop h12.1, sameCode_numAt h12.1, sameCode_numAt h12.1 e,
      ← sameCode_numAt (lifetimesExtend_trans h12 h3e).1 e] at hle
    exact lifetimesExtend_covers h4 inst.v1 _ hb3 ⟨e, he, hle⟩

/-- The lifetimes of the variables of a live table-iteration instruction after
`ComputeFrameLifetimes`: each begins at or before the instruction and ends at or after every
live instruction `q` such that all the instructions from the iteration instruction to `q` are
at least as deep in loops as the iteration instruction. -/
theorem lifetimes_table_iter_region (m : ZAM) (zm : ZInstMethods) (an : Analyses) (i : Nat)
    (inst : ZInst) (hnum : m.numbered) (hvalid : m.assignedSlotsValid zm)
    (hi : m.insts1[i]? = some inst) (hl : inst.live = true) (hop : inst.op.isTableIter)
    (hval : inst.op = ZOp.OP_NEXT_TABLE_ITER_VAL_VAR_VVV → zm.AssignsToSlot1 inst = true)
    (v : Int)
    (hv : v ∈ inst.loop_vars ∨ (inst.op = ZOp.OP_NEXT_TABLE_ITER_VAL_VAR_VVV ∧ v = inst.v1)) :
    (∃ b, (m.ComputeFrameLifetimes zm an).denizen_beginning v = some b ∧ b ≤ i)
    ∧ ∃ e, (m.ComputeFrameLifetimes zm an).denizen_ending v = some e
        ∧ ∀ q, i ≤ q → m.liveAt q = true →
            (∀ k, i ≤ k → k ≤ q → inst.loop_depth ≤ m.depthAt k) → (q : Int) ≤ m.numAt e := by
  have hlt : i < m.insts1.length := by
    rcases Nat.lt_or_ge i m.insts1.length with h | h
    · exact h
    · rw [List.getElem?_eq_none h] at hi; cases hi
  have hS := lifetimesBefore_sameCode m zm an i
  have hS1 := lifetimesBefore_sameCode m zm an (i + 1)
  have hSi : (m.lifetimesBefore zm an i).insts1[i]? = some inst := by rw [hS.1]; exact hi
  obtain ⟨a1, e0, a2, a3⟩ := lifetimesAt_table_iter (m.lifetimesBefore zm an i) zm an i inst hSi
    hl hop hval v hv
  rw [← lifetimesBefore_succ] at a1 a2 a3
  rw [sameCode_EndOfLoop hS, sameCode_numAt hS] at a3
  have hext := ComputeFrameLifetimes_extends m zm an (i + 1) hlt
  obtain ⟨c1, e, c2, c3⟩ := lifetimesExtend_covers hext v _ a1 ⟨e0, a2, a3⟩
  have hpre := lifetimes_prefix m zm an hnum hvalid (i + 1)
  have hinv := hpre.2.1
  constructor
  · cases hb : (m.lifetimesBefore zm an (i + 1)).denizen_beginning v with
    | none => rw [hb] at a1; cases a1
    | some b =>
      have hb1 := (hinv.1 v b hb).2.1
      exact ⟨b, hext.2.1 v b hb, by omega⟩
  · refine ⟨e, c2, ?_⟩
    intro q hq hlq hdeep
    have hql : q < m.insts1.length := by
      unfold ZAM.liveAt at hlq
      rcases Nat.lt_or_ge q m.insts1.length with h | h
      · exact h
      · rw [List.getElem?_eq_none h] at hlq; cases hlq
    obtain ⟨d1, d2⟩ := EndOfLoop_ge m i q inst.loop_depth (numAt_of_numbered m hnum i hlt) hq hql
      hdeep hlq
    rw [numAt_of_numbered m hnum _ d2] at c3
    rw [sameCode_numAt (sameCode_trans hS1 hext.1)] at c3
    have : (q : Int) ≤ ((m.EndOfLoop i inst.loop_depth : Nat) : Int) := by exact_mod_cast d1
    exact le_trans this c3

/-- C36: after `ComputeFrameLifetimes` (instructions numbered by position, assigned slots in
the frame), for every live table-iteration `NEXT` instruction, at the position `i`, each of
its loop variables, and its value variable `v1` when the instruction has the form with a value
variable (which then assigns to its slot 1), has a lifetime that begins at or before `i` and
ends at or after every live instruction of the loop of the `NEXT` instruction, the
instructions from `i` to the last backward branch to `i`, all of which are at least as deep
in loops as the `NEXT` instruction. -/
theorem ComputeFrameLifetimes_loop_vars_span_loop (m : ZAM) (zm : ZInstMethods)
    (an : Analyses) (i : Nat) (inst : ZInst) (hnum : m.numbered)
    (hvalid : m.assignedSlotsValid zm) (hi : m.insts1[i]? = some inst)
    (hl : inst.live = true) (hop : inst.op.isTableIter)
    (hval : inst.op = ZOp.OP_NEXT_TABLE_ITER_VAL_VAR_VVV → zm.AssignsToSlot1 inst = true)
    (hdepth : ∀ k, m.inLoopOf i k = true → inst.loop_depth ≤ m.depthAt k) :
    ∀ v, (v ∈ inst.loop_vars ∨ (inst.op = ZOp.OP_NEXT_TABLE_ITER_VAL_VAR_VVV ∧ v = inst.v1)) →
      (∃ b, (m.ComputeFrameLifetimes zm an).denizen_beginning v = some b ∧ b ≤ i)
      ∧ ∃ e, (m.ComputeFrameLifetimes zm an).denizen_ending v = some e
          ∧ (i : Int) ≤ m.numAt e
          ∧ ∀ q, m.inLoopOf i q = true → m.liveAt q = true → (q : Int) ≤ m.numAt e := by
  intro v hv
  obtain ⟨h1, e, h2, h3⟩ := lifetimes_table_iter_region m zm an i inst hnum hvalid hi hl hop
    hval v hv
  refine ⟨h1, e, h2, ?_, ?_⟩
  · refine h3 i (le_refl _) (by simp [ZAM.liveAt, hi, hl]) ?_
    intro k hk1 hk2
    have : k = i := by omega
    rw [this, depthAt_of_getElem? m i inst hi]
  · intro q hq hlq
    have hin : ∀ k, i ≤ k → k ≤ q → m.inLoopOf i k = true := by
      intro k hk1 hk2
      unfold ZAM.inLoopOf at hq ⊢
      cases hb : (m.backBranchesTo i).getLast? with
      | none => rw [hb] at hq; cases hq
      | some e1 =>
        rw [hb] at hq
        simp only [decide_eq_true_eq] at hq ⊢
        omega
    have hiq : i ≤ q := by
      unfold ZAM.inLoopOf at hq
      cases hb : (m.backBranchesTo i).getLast? with
      | none => rw [hb] at hq; cases hq
      | some e1 =>
        rw [hb] at hq
        simp only [decide_eq_true_eq] at hq
        exact hq.1
    exact h3 q hiq hlq (fun k hk1 hk2 => hdepth k (hin k hk1 hk2))

/-- Witness for C36: in the body `tableLoopExample` the loop variable `k`, in the slot 1, of
the `NEXT` instruction at the position 2 has a lifetime from the position 2 to the position 4,
the `goto` that closes the loop. -/
theorem ComputeFrameLifetimes_loop_vars_span_loop_witness :
    (∃ b, (tableLoopExample.ComputeFrameLifetimes exampleMethods exampleAnalyses).denizen_beginning
        1 = some b ∧ b ≤ 2)
    ∧ ∃ e, (tableLoopExample.ComputeFrameLifetimes exampleMethods exampleAnalyses).denizen_ending
          1 = some e
        ∧ ((2 : Nat) : Int) ≤ tableLoopExample.numAt e
        ∧ ∀ q, tableLoopExample.inLoopOf 2 q = true → tableLoopExample.liveAt q = true →
            (q : Int) ≤ tableLoopExample.numAt e := by
  have hnum : tableLoopExample.numbered := by
    intro i z hz
    simp only [tableLoopExample, ZAM.empty, ZInst.new] at hz
    match i with
    | 0 => simp at hz; subst hz; rfl
    | 1 => simp at hz; subst hz; rfl
    | 2 => simp at hz; subst hz; rfl
    | 3 => simp at hz; subst hz; rfl
    | 4 => simp at hz; subst hz; rfl
    | 5 => simp at hz; subst hz; rfl
    | 6 => simp at hz; subst hz; rfl
    | (k + 7) => simp at hz
  have hvalid : tableLoopExample.assignedSlotsValid exampleMethods := by
    intro z hz _
    simp only [tableLoopExample, ZAM.empty, ZInst.new, List.mem_cons, List.mem_singleton,
      List.not_mem_nil, or_false] at hz
    rcases hz with rfl | rfl | rfl | rfl | rfl | rfl | rfl <;>
      simp [ZAM.validSlot, tableLoopExample, ZAM.empty, ZOp.isTableIter, exampleMethods]
  have hdepth : ∀ k, tableLoopExample.inLoopOf 2 k = true →
      (1 : Int) ≤ tableLoopExample.depthAt k := by
    intro k hk
    have hb : tableLoopExample.backBranchesTo 2 = [4] := by decide
    unfold ZAM.inLoopOf at hk
    rw [hb] at hk
    simp only [List.getLast?_singleton, decide_eq_true_eq] at hk
    have : k = 2 ∨ k = 3 ∨ k = 4 := by omega
    rcases this with rfl | rfl | rfl <;> decide
  exact ComputeFrameLifetimes_loop_vars_span_loop tableLoopExample exampleMethods
    exampleAnalyses 2 _ hnum hvalid rfl rfl (Or.inl rfl) (fun h => by cases h) hdepth 1
    (Or.inl (List.Mem.head _))

theorem ExtendLifetime_ending_eq (m : ZAM) (an : Analyses) (slot : Int) (p : Nat)
    (hd : ¬ (m.depthAt p > 0)) (s : Int) :
    (m.ExtendLifetime an slot p).denizen_ending s
      = if s = slot then m.extendedTo p (m.denizen_ending slot) else m.denizen_ending s := by
  unfold ZAM.ExtendLifetime ZAM.extendedTo
  cases he : m.denizen_ending slot with
  | none => simp
  | some old =>
    simp only
    rw [if_neg (fun h => hd h.1)]
    by_cases h1 : m.numAt old < m.numAt p
    · simp [h1]
    · simp only [h1, if_false]
      by_cases hs : s = slot
      · simp [hs, he]
      · simp [hs]

theorem extendedTo_idem (m : ZAM) (p : Nat) (x : Option Nat) :
    m.extendedTo p (m.extendedTo p x) = m.extendedTo p x := by
  unfold ZAM.extendedTo
  cases x with
  | none => simp
  | some e => by_cases h : m.numAt e < m.numAt p <;> simp [h]

theorem sameCode_extendedTo {m0 m : ZAM} (h : m0.sameCode m) (p : Nat) (x : Option Nat) :
    m.extendedTo p x = m0.extendedTo p x := by
  unfold ZAM.extendedTo
  cases x with
  | none => rfl
  | some e => simp only [sameCode_numAt h]

theorem sameCode_depthAt {m0 m : ZAM} (h : m0.sameCode m) (p : Nat) :
    m.depthAt p = m0.depthAt p := by
  unfold ZAM.depthAt
  rw [h.1]

theorem sameCode_layoutSlot {m0 m : ZAM} (h : m0.sameCode m) (g : ID) :
    m.layoutSlot g = m0.layoutSlot g := by
  unfold ZAM.layoutSlot
  rw [h.2.2.1]

/-- The special-casing of `ComputeFrameLifetimes` for a `SYNC_GLOBALS` instruction `p` outside
every loop: the ending of the lifetime of the slot of a modified global that has been loaded
becomes `p` when it was earlier than `p`, or when there was none, and is kept otherwise. -/
theorem syncGlobalLifetimes_ending (an : Analyses) (p : Nat) (s0 : Int) (gs : List ID)
    (m : ZAM) (he : m.EndOfLoop p 1 = p) (hd : ¬ (m.depthAt p > 0)) :
    ((m.syncGlobalLifetimes an p gs).denizen_ending s0 = m.denizen_ending s0
      ∨ (m.syncGlobalLifetimes an p gs).denizen_ending s0
          = m.extendedTo p (m.denizen_ending s0))
    ∧ ((∃ g ∈ gs, m.layoutSlot g = s0) → (m.denizen_beginning s0).isSome = true →
        (m.syncGlobalLifetimes an p gs).denizen_ending s0
          = m.extendedTo p (m.denizen_ending s0)) := by
  induction gs generalizing m with
  | nil =>
    refine ⟨Or.inl rfl, ?_⟩
    rintro ⟨g, hg, _⟩
    cases hg
  | cons g rest ih =>
    unfold ZAM.syncGlobalLifetimes
    simp only
    by_cases hb : (m.denizen_beginning (m.layoutSlot g)).isSome = true
    · rw [if_pos hb, he]
      obtain ⟨c1, c2⟩ := ExtendLifetime_same m an (m.layoutSlot g) p
      have he1 : (m.ExtendLifetime an (m.layoutSlot g) p).EndOfLoop p 1 = p := by
        rw [sameCode_EndOfLoop c1]; exact he
      have hd1 : ¬ ((m.ExtendLifetime an (m.layoutSlot g) p).depthAt p > 0) := by
        rw [sameCode_depthAt c1]; exact hd
      obtain ⟨i1, i2⟩ := ih (m.ExtendLifetime an (m.layoutSlot g) p) he1 hd1
      rw [sameCode_extendedTo c1, ExtendLifetime_ending_eq m an _ p hd s0] at i1 i2
      rw [c2.1] at i2
      by_cases hs : s0 = m.layoutSlot g
      · rw [if_pos hs, extendedTo_idem] at i1 i2
        have : ((m.ExtendLifetime an (m.layoutSlot g) p).syncGlobalLifetimes an p
            rest).denizen_ending s0 = m.extendedTo p (m.denizen_ending s0) := by
          rw [congrArg m.denizen_ending hs]
          rcases i1 with h | h <;> exact h
        exact ⟨Or.inr this, fun _ _ => this⟩
      · rw [if_neg hs] at i1 i2
        refine ⟨i1, ?_⟩
        rintro ⟨g1, hg1, hg2⟩ hb1
        rcases List.mem_cons.1 hg1 with rfl | hr
        · exact absurd hg2.symm hs
        · exact i2 ⟨g1, hr, by rw [sameCode_layoutSlot c1]; exact hg2⟩ hb1
    · rw [if_neg hb]
      obtain ⟨i1, i2⟩ := ih m he hd
      refine ⟨i1, ?_⟩
      rintro ⟨g1, hg1, hg2⟩ hb1
      rcases List.mem_cons.1 hg1 with rfl | hr
      · rw [hg2] at hb; exact absurd hb1 hb
      · exact i2 ⟨g1, hr, hg2⟩ hb1

/-- Counterexample to C35 as stated: in the body `syncExample` the `SYNC_GLOBALS` instruction
at the position 1 is live and outside every loop, and the modified global `g` = 30 has been
loaded before it; after `ComputeFrameLifetimes` the lifetime of the slot of `g` ends at the
position 1, the `SYNC_GLOBALS` instruction itself, and the last live instruction is at the
position 3. -/
theorem ComputeFrameLifetimes_sync_globals_counterexample :
    (syncExample.ComputeFrameLifetimes exampleMethods exampleAnalyses).denizen_ending
        (syncExample.layoutSlot 30) = some 1
    ∧ syncExample.lastLive = 3
    ∧ syncExample.EndOfLoop 1 1 = 1
    ∧ ¬ syncExample.syncExtendsToEnd exampleMethods exampleAnalyses := by
  have e1 : (syncExample.ComputeFrameLifetimes exampleMethods exampleAnalyses).denizen_ending
      (syncExample.layoutSlot 30) = some 1 := by decide
  have e2 : syncExample.lastLive = 3 := by decide
  refine ⟨e1, e2, by decide, ?_⟩
  intro h
  have h1 := h 1 _ 30 rfl rfl rfl rfl (List.Mem.head _) (by decide)
  rw [e1, e2] at h1
  cases h1

/-- C35, as the code has it: in `ComputeFrameLifetimes` (instructions numbered by position),
when the loop reaches a live `SYNC_GLOBALS` instruction at the position `i` that lies outside
every loop (loop depth 0) and that neither assigns nor uses a slot, `EndOfLoop(inst, 1)` is
the instruction itself, and the lifetime of each modified global that has already been loaded
is extended to the `SYNC_GLOBALS` instruction: its ending becomes `i` when it was earlier or
when there was none, and is kept otherwise; after `ComputeFrameLifetimes` the lifetime ends at
or after `i`. -/
theorem ComputeFrameLifetimes_sync_globals_outside_loop (m : ZAM) (zm : ZInstMethods)
    (an : Analyses) (i : Nat) (inst : ZInst) (g : ID) (hnum : m.numbered)
    (hi : m.insts1[i]? = some inst) (hl : inst.live = true)
    (hop : inst.op = ZOp.OP_SYNC_GLOBALS_X) (hd : inst.loop_depth = 0)
    (ha : zm.AssignsToSlot1 inst = false) (hu : zm.UsesSlots inst = none)
    (hg : g ∈ an.setOrder m.modified_globals)
    (hb : ((m.lifetimesBefore zm an i).denizen_beginning (m.layoutSlot g)).isSome = true) :
    m.EndOfLoop i 1 = i
    ∧ (m.lifetimesBefore zm an (i + 1)).denizen_ending (m.layoutSlot g)
        = m.extendedTo i ((m.lifetimesBefore zm an i).denizen_ending (m.layoutSlot g))
    ∧ ∃ e, (m.ComputeFrameLifetimes zm an).denizen_ending (m.layoutSlot g) = some e
        ∧ (i : Int) ≤ m.numAt e := by
  have hlt : i < m.insts1.length := by
    rcases Nat.lt_or_ge i m.insts1.length with h | h
    · exact h
    · rw [List.getElem?_eq_none h] at hi; cases hi
  have hend : m.EndOfLoop i 1 = i :=
    EndOfLoop_outside m i 1 inst hi (hnum i inst hi) (by rw [hd]; decide)
  have hS := lifetimesBefore_sameCode m zm an i
  have hSi : (m.lifetimesBefore zm an i).insts1[i]? = some inst := by rw [hS.1]; exact hi
  have hmid : (m.lifetimesBefore zm an (i + 1)).denizen_ending (m.layoutSlot g)
      = m.extendedTo i ((m.lifetimesBefore zm an i).denizen_ending (m.layoutSlot g)) := by
    rw [lifetimesBefore_succ]
    have hstep : (m.lifetimesBefore zm an i).lifetimesAt zm an i
        = (m.lifetimesBefore zm an i).syncGlobalLifetimes an i
            (an.setOrder (m.lifetimesBefore zm an i).modified_globals) := by
      unfold ZAM.lifetimesAt
      rw [hSi]
      simp [hl, ha, hop, ZAM.usedSlotLifetimes, hu]
    rw [hstep, hS.2.2.2.1]
    have hSe : (m.lifetimesBefore zm an i).EndOfLoop i 1 = i := by
      rw [sameCode_EndOfLoop hS]; exact hend
    have hSd : ¬ ((m.lifetimesBefore zm an i).depthAt i > 0) := by
      rw [sameCode_depthAt hS, depthAt_of_getElem? m i inst hi, hd]; decide
    have h2 := (syncGlobalLifetimes_ending an i (m.layoutSlot g) (an.setOrder m.modified_globals)
      (m.lifetimesBefore zm an i) hSe hSd).2 ⟨g, hg, sameCode_layoutSlot hS g⟩ hb
    rw [h2, sameCode_extendedTo hS]
  refine ⟨hend, hmid, ?_⟩
  have hext := ComputeFrameLifetimes_extends m zm an (i + 1) hlt
  have hS1 := lifetimesBefore_sameCode m zm an (i + 1)
  have hni := numAt_of_numbered m hnum i hlt
  have h0 : ∃ e0, (m.lifetimesBefore zm an (i + 1)).denizen_ending (m.layoutSlot g) = some e0
      ∧ (i : Int) ≤ m.numAt e0 := by
    rw [hmid]
    unfold ZAM.extendedTo
    cases (m.lifetimesBefore zm an i).denizen_ending (m.layoutSlot g) with
    | none => exact ⟨i, rfl, by rw [hni]⟩
    | some e =>
      simp only
      by_cases hlt1 : m.numAt e < m.numAt i
      · rw [if_pos hlt1]; exact ⟨i, rfl, by rw [hni]⟩
      · rw [if_neg hlt1]; exact ⟨e, rfl, by rw [hni] at hlt1; omega⟩
  obtain ⟨e0, a1, a2⟩ := h0
  obtain ⟨e1, b1, b2⟩ := hext.2.2 _ e0 a1
  rw [sameCode_numAt hS1, sameCode_numAt hS1] at b2
  exact ⟨e1, b1, le_trans a2 b2⟩

/-- Witness for C35: in the body `syncExample` the `SYNC_GLOBALS` instruction at the position 1
meets the hypotheses for the modified global `g` = 30. -/
theorem ComputeFrameLifetimes_sync_globals_outside_loop_witness :
    syncExample.EndOfLoop 1 1 = 1
    ∧ (syncExample.lifetimesBefore exampleMethods exampleAnalyses (1 + 1)).denizen_ending
          (syncExample.layoutSlot 30)
        = syncExample.extendedTo 1
            ((syncExample.lifetimesBefore exampleMethods exampleAnalyses 1).denizen_ending
              (syncExample.layoutSlot 30))
    ∧ ∃ e, (syncExample.ComputeFrameLifetimes exampleMethods exampleAnalyses).denizen_ending
          (syncExample.layoutSlot 30) = some e
        ∧ ((1 : Nat) : Int) ≤ syncExample.numAt e := by
  have hnum : syncExample.numbered := by
    intro i z hz
    simp only [syncExample, ZAM.empty, ZInst.new] at hz
    match i with
    | 0 => simp at hz; subst hz; rfl
    | 1 => simp at hz; subst hz; rfl
    | 2 => simp at hz; subst hz; rfl
    | 3 => simp at hz; subst hz; rfl
    | (k + 4) => simp at hz
  exact ComputeFrameLifetimes_sync_globals_outside_loop syncExample exampleMethods
    exampleAnalyses 1 _ 30 hnum rfl rfl rfl rfl rfl rfl (List.Mem.head _) (by decide)

/-! ## The offsets of `ReMapInterpreterFrame` (C31) -/

theorem nodup_of_index_fn (l : List ID) (f : ID → Int)
    (h : ∀ (k : Nat) (a : ID), l[k]? = some a → f a = (k : Int)) : l.Nodup := by
  rw [List.nodup_iff_getElem?_ne_getElem?]
  intro i j hij hj h1
  have hi : i < l.length := by omega
  have a1 := h i l[i] (List.getElem?_eq_getElem hi)
  have a2 := h j l[i] (by rw [← h1]; exact List.getElem?_eq_getElem hi)
  rw [a1] at a2
  omega

/-- The loop "track function parameters": the k-th parameter gets the slot `k`, no other
identifier gets one, and `next_interp_slot` is the number of the parameters. -/
theorem paramSlots_spec (offset : ID → Int) (rest : List ID) :
    ∀ (n : Int) (L : IntrpLocals) (pre : List ID), (pre ++ rest.take n.toNat).Nodup →
      (L.next_interp_slot = (pre.length : Int)
        ∧ (∀ (k : Nat) (a : ID), pre[k]? = some a →
            L.interpreter_slots.lookup a = some (k : Int))
        ∧ ∀ (a : ID), (L.interpreter_slots.lookup a).isSome = true → a ∈ pre) →
      ((paramSlots offset rest n L).next_interp_slot = ((pre ++ rest.take n.toNat).length : Int)
        ∧ (∀ (k : Nat) (a : ID), (pre ++ rest.take n.toNat)[k]? = some a →
            (paramSlots offset rest n L).interpreter_slots.lookup a = some (k : Int))
        ∧ ∀ (a : ID), ((paramSlots offset rest n L).interpreter_slots.lookup a).isSome = true →
            a ∈ pre ++ rest.take n.toNat) := by
  induction rest with
  | nil =>
    intro n L pre _ h
    simpa [paramSlots] using h
  | cons a r ih =>
    intro n L pre hnd h
    unfold paramSlots
    by_cases hn : n - 1 < 0
    · rw [if_pos hn]
      have : n.toNat = 0 := by omega
      rw [this]
      simpa using h
    · rw [if_neg hn]
      have hn1 : n.toNat = (n - 1).toNat + 1 := by omega
      rw [hn1, List.take_succ_cons] at hnd ⊢
      have happ : pre ++ a :: r.take (n - 1).toNat = (pre ++ [a]) ++ r.take (n - 1).toNat := by
        simp
      rw [happ] at hnd ⊢
      have hap : a ∉ pre := by
        intro hmem
        have := List.nodup_append.1 (List.nodup_append.1 hnd).1
        exact (List.disjoint_left.1 this.2.2) hmem (List.mem_singleton.2 rfl)
      apply ih (n - 1) _ (pre ++ [a]) hnd
      obtain ⟨h1, h2, h3⟩ := h
      refine ⟨?_, ?_, ?_⟩
      · simp only [List.length_append, List.length_singleton, h1]
        push_cast
        rfl
      · intro k b hk
        simp only [lookup_mapSet]
        rcases Nat.lt_or_ge k pre.length with hlt | hge
        · rw [List.getElem?_append_left hlt] at hk
          have hb : b ≠ a := by
            intro e
            rw [e] at hk
            exact hap (List.getElem?_mem hk)
          rw [if_neg hb]
          exact h2 k b hk
        · rw [List.getElem?_append_right hge] at hk
          have hk0 : k - pre.length = 0 := by
            rcases Nat.eq_zero_or_pos (k - pre.length) with h0 | h0
            · exact h0
            · rw [List.getElem?_eq_none (by simp; omega)] at hk; cases hk
          rw [hk0] at hk
          simp only [List.getElem?_cons_zero, Option.some.injEq] at hk
          rw [if_pos hk.symm, h1]
          congr 1
          have : k = pre.length := by omega
          rw [this]
      · intro b hb
        simp only [lookup_mapSet] at hb
        by_cases hba : b = a
        · rw [hba]; simp
        · rw [if_neg hba] at hb
          exact List.mem_append_left _ (h3 b hb)

/-- One round of the second loop over the identifiers of a shared slot: the slot of the cohort
stays what it is, and the round changes the slot and the offset of at most the identifier it
visits, an interpreter local without a slot, to the slot of the cohort. -/
theorem cohortStep_spec (locals : List ID) (s : Int × IntrpLocals × (ID → Int)) (id : ID)
    (c : Int) (hc : cohortHas s c) (h0 : 0 ≤ s.2.1.next_interp_slot) :
    cohortHas (cohortStep locals s id) c
    ∧ s.2.1.next_interp_slot ≤ (cohortStep locals s id).2.1.next_interp_slot
    ∧ (∀ x : ID,
        ((cohortStep locals s id).2.1.interpreter_slots.lookup x
            = s.2.1.interpreter_slots.lookup x
          ∧ (cohortStep locals s id).2.2 x = s.2.2 x)
        ∨ (x = id ∧ id ∈ locals ∧ s.2.1.interpreter_slots.lookup x = none
          ∧ (cohortStep locals s id).2.1.interpreter_slots.lookup x = some c
          ∧ (cohortStep locals s id).2.2 x = c ∧ 0 ≤ c
          ∧ c < (cohortStep locals s id).2.1.next_interp_slot))
    ∧ (id ∈ locals →
        ((cohortStep locals s id).2.1.interpreter_slots.lookup id).isSome = true) := by
  obtain ⟨cs, L, off⟩ := s
  unfold cohortStep
  unfold cohortHas at hc ⊢
  simp only at hc h0 ⊢
  by_cases h1 : id ∉ locals
  · rw [if_pos h1]
    exact ⟨hc, le_refl _, fun x => Or.inl ⟨rfl, rfl⟩, fun h => absurd h h1⟩
  · rw [if_neg h1]
    by_cases h2 : (L.interpreter_slots.lookup id).isSome = true
    · rw [if_pos h2]
      exact ⟨hc, le_refl _, fun x => Or.inl ⟨rfl, rfl⟩, fun _ => h2⟩
    · rw [if_neg h2]
      have hnone : L.interpreter_slots.lookup id = none := by
        cases h : L.interpreter_slots.lookup id with
        | none => rfl
        | some v => rw [h] at h2; exact absurd rfl h2
      have hin : id ∈ locals := by
        by_contra h
        exact h1 h
      simp only [lookup_mapSet]
      rcases hc with ⟨a1, a2⟩ | ⟨a1, a2, a3⟩
      · simp only [if_pos a1, ← a2]
        refine ⟨Or.inr ⟨by trivial, by omega, by omega⟩, by omega, ?_, by simp⟩
        intro x
        by_cases hx : x = id
        · right
          rw [hx]
          exact ⟨rfl, hin, hnone, by simp, by simp, by omega, by omega⟩
        · left
          simp [hx]
      · subst a1
        have a4 : ¬ cs < 0 := by omega
        simp only [if_neg a4]
        refine ⟨Or.inr ⟨by trivial, a2, a3⟩, le_refl _, ?_, by simp⟩
        intro x
        by_cases hx : x = id
        · right
          rw [hx]
          exact ⟨rfl, hin, hnone, by simp, by simp, a2, a3⟩
        · left
          simp [hx]

/-- The second loop over the identifiers of a shared slot: it changes the slot and the offset
of the interpreter locals of the shared slot that have no slot, to the slot of the cohort, and
of no other identifier; afterwards every interpreter local of the shared slot has a slot. -/
theorem cohortFold_spec (locals : List ID) (c : Int) (ids : List ID) :
    ∀ (s : Int × IntrpLocals × (ID → Int)), cohortHas s c → 0 ≤ s.2.1.next_interp_slot →
      s.2.1.next_interp_slot ≤ (ids.foldl (cohortStep locals) s).2.1.next_interp_slot
      ∧ (∀ x : ID,
          ((ids.foldl (cohortStep locals) s).2.1.interpreter_slots.lookup x
              = s.2.1.interpreter_slots.lookup x
            ∧ (ids.foldl (cohortStep locals) s).2.2 x = s.2.2 x)
          ∨ (x ∈ ids ∧ x ∈ locals ∧ s.2.1.interpreter_slots.lookup x = none
            ∧ (ids.foldl (cohortStep locals) s).2.1.interpreter_slots.lookup x = some c
            ∧ (ids.foldl (cohortStep locals) s).2.2 x = c ∧ 0 ≤ c
            ∧ c < (ids.foldl (cohortStep locals) s).2.1.next_interp_slot))
      ∧ (∀ x ∈ ids, x ∈ locals →
          ((ids.foldl (cohortStep locals) s).2.1.interpreter_slots.lookup x).isSome = true) := by
  induction ids with
  | nil =>
    intro s _ _
    exact ⟨le_refl _, fun x => Or.inl ⟨rfl, rfl⟩, fun x hx => by cases hx⟩
  | cons id rest ih =>
    intro s hc h0
    obtain ⟨b1, b2, b3, b4⟩ := cohortStep_spec locals s id c hc h0
    obtain ⟨c2, c3, c4⟩ := ih (cohortStep locals s id) b1 (le_trans h0 b2)
    rw [List.foldl_cons]
    refine ⟨le_trans b2 c2, ?_, ?_⟩
    · intro x
      rcases c3 x with ⟨d1, d2⟩ | ⟨d1, d2, d3, d4, d5, d6, d7⟩
      · rcases b3 x with ⟨e1, e2⟩ | ⟨e1, e2, e3, e4, e5, e6, e7⟩
        · exact Or.inl ⟨d1.trans e1, d2.trans e2⟩
        · right
          refine ⟨by rw [e1]; exact List.mem_cons_self _ _, by rw [e1]; exact e2, e3,
            d1.trans e4, d2.trans e5, e6, lt_of_lt_of_le e7 c2⟩
      · rcases b3 x with ⟨e1, e2⟩ | ⟨e1, e2, e3, e4, e5, e6, e7⟩
        · exact Or.inr ⟨List.mem_cons_of_mem _ d1, d2, e1 ▸ d3, d4, d5, d6, d7⟩
        · rw [e4] at d3; cases d3
    · intro x hx hl
      rcases List.mem_cons.1 hx with rfl | hr
      · rcases c3 x with ⟨d1, d2⟩ | ⟨d1, d2, d3, d4, d5, d6, d7⟩
        · rw [d1]; exact b4 hl
        · rw [d4]; rfl
      · exact c4 x hr hl

/-- The first loop over the identifiers of a shared slot finds no slot when no identifier of
the shared slot has one. -/
theorem cohortSlot_none (slots : List (ID × Int)) (ids : List ID)
    (h : ∀ id ∈ ids, slots.lookup id = none) : cohortSlot slots ids = -1 := by
  unfold cohortSlot
  generalize (-1 : Int) = init
  induction ids generalizing init with
  | nil => rfl
  | cons id rest ih =>
    rw [List.foldl_cons, h id (List.mem_cons_self _ _)]
    exact ih (fun x hx => h x (List.mem_cons_of_mem _ hx)) init

/-- The first loop over the identifiers of a shared slot finds the slot `v` when an identifier
of the shared slot has it and no identifier of the shared slot has another. -/
theorem cohortSlot_some (slots : List (ID × Int)) (ids : List ID) (v : Int)
    (h1 : ∃ id ∈ ids, slots.lookup id = some v)
    (h2 : ∀ id ∈ ids, ∀ w, slots.lookup id = some w → w = v) : cohortSlot slots ids = v := by
  unfold cohortSlot
  have key : ∀ (l : List ID) (init : Int), (∀ id ∈ l, ∀ w, slots.lookup id = some w → w = v) →
      (init = v ∨ ∃ id ∈ l, slots.lookup id = some v) →
      l.foldl (fun cohort_slot id =>
        match slots.lookup id with
        | some s => s
        | none => cohort_slot) init = v := by
    intro l
    induction l with
    | nil =>
      intro init _ h
      rcases h with h | ⟨id, hid, _⟩
      · exact h
      · cases hid
    | cons id rest ih =>
      intro init ha hb
      rw [List.foldl_cons]
      apply ih _ (fun x hx => ha x (List.mem_cons_of_mem _ hx))
      cases hl : slots.lookup id with
      | some w => exact Or.inl (ha id (List.mem_cons_self _ _) w hl)
      | none =>
        rcases hb with hb | ⟨x, hx, hxv⟩
        · exact Or.inl hb
        · rcases List.mem_cons.1 hx with rfl | hr
          · rw [hl] at hxv; cases hxv
          · exact Or.inr ⟨x, hr, hxv⟩
  exact key ids (-1) h2 (Or.inr h1)

theorem lookup_kept_of_some (locals : List ID) (c : Int) (ids : List ID)
    (s : Int × IntrpLocals × (ID → Int)) (hc : cohortHas s c)
    (h0 : 0 ≤ s.2.1.next_interp_slot) (x : ID) (v : Int)
    (hx : s.2.1.interpreter_slots.lookup x = some v) :
    (ids.foldl (cohortStep locals) s).2.1.interpreter_slots.lookup x = some v := by
  rcases (cohortFold_spec locals c ids s hc h0).2.1 x with ⟨d1, _⟩ | ⟨_, _, d3, _⟩
  · rw [d1]; exact hx
  · rw [hx] at d3; cases d3

/-- One round of the loop of `ReMapInterpreterFrame` over `shared_frame_denizens` keeps the
invariant `intrpInv`, for a shared slot that has no identifier in common with the shared
slots visited before and holds at most one parameter. -/
theorem sharedSlotStep_inv (params locals : List ID) (done : List FrameSharingInfo)
    (sf : FrameSharingInfo) (s : IntrpLocals × (ID → Int))
    (hinv : intrpInv params locals done s)
    (hdis : ∀ sf1 ∈ done, ∀ id ∈ sf1.ids, id ∉ sf.ids)
    (hone : ∀ a ∈ sf.ids, ∀ b ∈ sf.ids, a ∈ params → b ∈ params → a = b) :
    intrpInv params locals (done ++ [sf]) (sharedSlotStep locals s sf) := by
  obtain ⟨J1, J3, J4, J5, R, D⟩ := hinv
  have hK : ∀ id ∈ sf.ids, (s.1.interpreter_slots.lookup id).isSome = true → id ∈ params := by
    intro id hid hs
    rcases J3 id hs with h | ⟨sf1, h1, h2⟩
    · exact h
    · exact absurd hid (hdis sf1 h1 id h2)
  have hidx : ∀ a ∈ params, ∃ k : Nat, params[k]? = some a ∧ k < params.length := by
    intro a ha
    obtain ⟨k, hk, hk2⟩ := List.getElem_of_mem ha
    exact ⟨k, by rw [List.getElem?_eq_getElem hk, hk2], hk⟩
  have hnext0 : 0 ≤ s.1.next_interp_slot := le_trans (Int.ofNat_nonneg _) J5
  have hmain : ∃ c : Int, cohortHas (cohortSlot s.1.interpreter_slots sf.ids, s.1, s.2) c
      ∧ (∀ id ∈ sf.ids, ∀ w, s.1.interpreter_slots.lookup id = some w → w = c)
      ∧ (c = s.1.next_interp_slot
          ∨ (c < (params.length : Int) ∧ ∃ a ∈ sf.ids, a ∈ params)) := by
    by_cases hkey : ∃ id ∈ sf.ids, (s.1.interpreter_slots.lookup id).isSome = true
    · obtain ⟨id0, hid0, hs0⟩ := hkey
      cases hv : s.1.interpreter_slots.lookup id0 with
      | none => rw [hv] at hs0; cases hs0
      | some v =>
        have hp0 := hK id0 hid0 hs0
        have hall : ∀ id ∈ sf.ids, ∀ w, s.1.interpreter_slots.lookup id = some w → w = v := by
          intro id hid w hw
          have hp := hK id hid (by rw [hw]; rfl)
          have := hone id hid id0 hid0 hp hp0
          rw [this, hv] at hw
          exact (Option.some.inj hw).symm
        have hcs := cohortSlot_some s.1.interpreter_slots sf.ids v ⟨id0, hid0, hv⟩ hall
        obtain ⟨k, hk, hk2⟩ := hidx id0 hp0
        have hvk : v = (k : Int) := by
          have := J4 k id0 hk
          rw [hv] at this
          exact Option.some.inj this
        refine ⟨v, Or.inr ⟨hcs, (J1 id0 v hv).2.1, (J1 id0 v hv).2.2⟩, hall,
          Or.inr ⟨by rw [hvk]; exact_mod_cast hk2, id0, hid0, hp0⟩⟩
    · have hnone : ∀ id ∈ sf.ids, s.1.interpreter_slots.lookup id = none := by
        intro id hid
        cases h : s.1.interpreter_slots.lookup id with
        | none => rfl
        | some v => exact absurd ⟨id, hid, by rw [h]; rfl⟩ hkey
      have hcs := cohortSlot_none s.1.interpreter_slots sf.ids hnone
      refine ⟨s.1.next_interp_slot, Or.inl ⟨by rw [hcs]; exact (by decide : (-1 : Int) < 0), rfl⟩, ?_, Or.inl rfl⟩
      intro id hid w hw
      rw [hnone id hid] at hw
      cases hw
  obtain ⟨c, hHas, hkv, hshape⟩ := hmain
  obtain ⟨f1, f2, f3⟩ := cohortFold_spec locals c sf.ids
    (cohortSlot s.1.interpreter_slots sf.ids, s.1, s.2) hHas hnext0
  have fk := lookup_kept_of_some locals c sf.ids
    (cohortSlot s.1.interpreter_slots sf.ids, s.1, s.2) hHas hnext0
  have hless : (∀ a ∈ sf.ids, a ∉ params) → (params.length : Int) ≤ c := by
    intro hp
    rcases hshape with h | ⟨_, a, ha1, ha2⟩
    · rw [h]; exact J5
    · exact absurd ha2 (hp a ha1)
  have hnew : ∀ id ∈ sf.ids, id ∈ locals ∨ id ∈ params →
      (sharedSlotStep locals s sf).1.interpreter_slots.lookup id = some c := by
    intro id hid hor
    rcases hor with hl | hp
    · have hs := f3 id hid hl
      rcases f2 id with ⟨d1, _⟩ | ⟨_, _, _, d4, _⟩
      · cases hw : s.1.interpreter_slots.lookup id with
        | none =>
          have e1 : (sharedSlotStep locals s sf).1.interpreter_slots.lookup id
              = s.1.interpreter_slots.lookup id := d1
          have e2 : ((sharedSlotStep locals s sf).1.interpreter_slots.lookup id).isSome
              = true := hs
          rw [e1, hw] at e2
          cases e2
        | some w =>
          have := hkv id hid w hw
          rw [this] at hw
          exact fk id c hw
      · exact d4
    · obtain ⟨k, hk, _⟩ := hidx id hp
      have hw := J4 k id hk
      have := hkv id hid _ hw
      rw [this] at hw
      exact fk id c hw
  refine ⟨?_, ?_, ?_, ?_, ?_, ?_⟩
  · intro id v hv
    rcases f2 id with ⟨d1, d2⟩ | ⟨_, _, _, d4, d5, d6, d7⟩
    · have e1 : (sharedSlotStep locals s sf).1.interpreter_slots.lookup id
          = s.1.interpreter_slots.lookup id := d1
      rw [e1] at hv
      obtain ⟨a1, a2, a3⟩ := J1 id v hv
      exact ⟨d2.trans a1, a2, lt_of_lt_of_le a3 f1⟩
    · have e1 : (sharedSlotStep locals s sf).1.interpreter_slots.lookup id = some c := d4
      rw [e1] at hv
      cases hv
      exact ⟨d5, d6, d7⟩
  · intro id hs
    rcases f2 id with ⟨d1, _⟩ | ⟨d1, _⟩
    · have e1 : (sharedSlotStep locals s sf).1.interpreter_slots.lookup id
          = s.1.interpreter_slots.lookup id := d1
      rw [e1] at hs
      rcases J3 id hs with h | ⟨sf1, h1, h2⟩
      · exact Or.inl h
      · exact Or.inr ⟨sf1, List.mem_append_left _ h1, h2⟩
    · exact Or.inr ⟨sf, List.mem_append_right _ (List.mem_singleton.2 rfl), d1⟩
  · intro k a hk
    exact fk a _ (J4 k a hk)
  · exact le_trans J5 f1
  · intro sf1 hsf1
    rcases List.mem_append.1 hsf1 with h | h
    · obtain ⟨c1, r1, r2⟩ := R sf1 h
      exact ⟨c1, fun id hid hor => fk id c1 (r1 id hid hor), r2⟩
    · rw [List.mem_singleton.1 h]
      exact ⟨c, hnew, hless⟩
  · intro j1 j2 sf1 sf2 hj h1 h2 hor id1 hid1 id2 hid2 hl1 hl2
    rcases Nat.lt_or_ge j2 done.length with hlt | hge
    · rw [List.getElem?_append_left hlt] at h2
      rw [List.getElem?_append_left (by omega)] at h1
      have hm1 := List.getElem?_mem h1
      have hm2 := List.getElem?_mem h2
      obtain ⟨c1, r1, _⟩ := R sf1 hm1
      obtain ⟨c2, r2, _⟩ := R sf2 hm2
      have e1 := fk id1 c1 (r1 id1 hid1 (Or.inl hl1))
      have e2 := fk id2 c2 (r2 id2 hid2 (Or.inl hl2))
      have e1s : (sharedSlotStep locals s sf).1.interpreter_slots.lookup id1 = some c1 := e1
      have e2s : (sharedSlotStep locals s sf).1.interpreter_slots.lookup id2 = some c2 := e2
      rw [e1s, e2s]
      have := D j1 j2 sf1 sf2 hj h1 h2 hor id1 hid1 id2 hid2 hl1 hl2
      rw [r1 id1 hid1 (Or.inl hl1), r2 id2 hid2 (Or.inl hl2)] at this
      exact this
    · rw [List.getElem?_append_right hge] at h2
      have hj2 : j2 - done.length = 0 := by
        rcases Nat.eq_zero_or_pos (j2 - done.length) with h0 | h0
        · exact h0
        · rw [List.getElem?_eq_none (by simp; omega)] at h2; cases h2
      rw [hj2] at h2
      simp only [List.getElem?_cons_zero, Option.some.injEq] at h2
      subst h2
      rw [List.getElem?_append_left (by omega)] at h1
      have hm1 := List.getElem?_mem h1
      obtain ⟨c1, r1, r1b⟩ := R sf1 hm1
      have e0 := r1 id1 hid1 (Or.inl hl1)
      have e1 := fk id1 c1 e0
      have e1s : (sharedSlotStep locals s sf).1.interpreter_slots.lookup id1 = some c1 := e1
      rw [e1s, hnew id2 hid2 (Or.inl hl2)]
      intro heq
      have hcc : c1 = c := Option.some.inj heq
      have hc1 := (J1 id1 c1 e0).2.2
      rcases hshape with h | ⟨hlt2, a, ha1, ha2⟩
      · omega
      · rcases hor with hp | hp
        · have := r1b hp
          omega
        · exact absurd ha2 (hp a ha1)

/-- The loop of `ReMapInterpreterFrame` over `shared_frame_denizens` keeps the invariant
`intrpInv`, when no identifier is in two shared slots and no shared slot holds two
parameters. -/
theorem sharedSlots_inv (params locals : List ID) (todo : List FrameSharingInfo) :
    ∀ (done : List FrameSharingInfo) (s : IntrpLocals × (ID → Int)),
      intrpInv params locals done s →
      (done ++ todo).Pairwise (fun a b => ∀ id ∈ a.ids, id ∉ b.ids) →
      (∀ sf ∈ todo, ∀ a ∈ sf.ids, ∀ b ∈ sf.ids, a ∈ params → b ∈ params → a = b) →
      intrpInv params locals (done ++ todo) (todo.foldl (sharedSlotStep locals) s) := by
  induction todo with
  | nil =>
    intro done s h _ _
    simpa using h
  | cons sf rest ih =>
    intro done s h hp hone
    have happ : done ++ sf :: rest = (done ++ [sf]) ++ rest := by simp
    rw [List.foldl_cons, happ]
    rw [happ] at hp
    apply ih (done ++ [sf]) _ _ hp (fun x hx => hone x (List.mem_cons_of_mem _ hx))
    apply sharedSlotStep_inv params locals done sf s h _ (hone sf (List.mem_cons_self _ _))
    intro sf1 h1 id hid
    have h2 := (List.pairwise_append.1 (List.pairwise_append.1 hp).1).2.2 sf1 h1 sf
      (List.mem_singleton.2 rfl)
    exact h2 id hid

/-- The invariant `intrpInv` holds when `ReMapInterpreterFrame` enters its loop over
`shared_frame_denizens`, if the offset of the k-th parameter is `k`. -/
theorem paramSlots_inv (m : ZAM) (offset : ID → Int)
    (hparams : ∀ (k : Nat) (a : ID), m.params[k]? = some a → offset a = (k : Int)) :
    intrpInv m.params m.interpreter_locals []
      (paramSlots offset m.args m.nparam
        { interpreter_slots := [], old_intrp_slot_to_new := [], next_interp_slot := 0 },
       offset) := by
  have hnd : m.params.Nodup := nodup_of_index_fn m.params offset hparams
  obtain ⟨p1, p2, p3⟩ := paramSlots_spec offset m.args m.nparam
    { interpreter_slots := [], old_intrp_slot_to_new := [], next_interp_slot := 0 } []
    (by simpa [ZAM.params] using hnd)
    ⟨rfl, fun k a h => by simp at h, fun a h => by simp at h⟩
  simp only [List.nil_append] at p1 p2 p3
  have e : m.args.take m.nparam.toNat = m.params := rfl
  rw [e] at p1 p2 p3
  refine ⟨?_, ?_, p2, by simp only; rw [p1], ?_, ?_⟩
  · intro id v hv
    simp only at hv ⊢
    have hmem := p3 id (by rw [hv]; rfl)
    obtain ⟨k, hk, hk2⟩ := List.getElem_of_mem hmem
    have hk3 : m.params[k]? = some id := by rw [List.getElem?_eq_getElem hk, hk2]
    have := p2 k id hk3
    rw [hv] at this
    have hvk : v = (k : Int) := Option.some.inj this
    rw [p1, hvk]
    exact ⟨hparams k id hk3, Int.ofNat_nonneg _, by exact_mod_cast hk⟩
  · intro id hs
    exact Or.inl (p3 id hs)
  · intro sf hsf
    cases hsf
  · intro j1 j2 sf1 sf2 _ h1
    simp at h1

/-- C31: after `ReMapInterpreterFrame`, when the offset of the k-th parameter is `k` on entry
(the assertion of the first loop), no identifier is in two shared slots and no shared slot
holds two parameters (the assertion of the loop over a cohort), every parameter has kept its
offset, the k-th the offset `k`; and for each shared post-optimization slot there is one
offset `c` that all of its identifiers that are interpreter locals, or parameters, have: the
offset of the parameter if the shared slot holds one, and otherwise, if the shared slot has an
interpreter local at all, an offset beyond those of the parameters that no interpreter local
of another shared slot has. -/
theorem ReMapInterpreterFrame_cohort_offsets (m : ZAM) (an : Analyses) (p : Process)
    (hparams : ∀ (k : Nat) (a : ID), m.params[k]? = some a → p.offset a = (k : Int))
    (hdisj : m.shared_frame_denizens.Pairwise (fun a b => ∀ id ∈ a.ids, id ∉ b.ids))
    (hone : ∀ sf ∈ m.shared_frame_denizens, ∀ a ∈ sf.ids, ∀ b ∈ sf.ids,
      a ∈ m.params → b ∈ m.params → a = b) :
    (∀ (k : Nat) (a : ID), m.params[k]? = some a →
      (m.ReMapInterpreterFrame an p).2.offset a = (k : Int)
      ∧ (m.ReMapInterpreterFrame an p).2.offset a = p.offset a)
    ∧ ∀ (j : Nat) (sf : FrameSharingInfo), m.shared_frame_denizens[j]? = some sf →
        ∃ c : Int,
          (∀ id ∈ sf.ids, id ∈ m.interpreter_locals ∨ id ∈ m.params →
            (m.ReMapInterpreterFrame an p).2.offset id = c)
          ∧ ((∀ a ∈ sf.ids, a ∉ m.params) → (∃ id ∈ sf.ids, id ∈ m.interpreter_locals) →
              (m.params.length : Int) ≤ c
              ∧ ∀ (j2 : Nat) (sf2 : FrameSharingInfo), j2 ≠ j →
                  m.shared_frame_denizens[j2]? = some sf2 →
                  ∀ id2 ∈ sf2.ids, id2 ∈ m.interpreter_locals →
                    (m.ReMapInterpreterFrame an p).2.offset id2 ≠ c) := by
  have hinv := sharedSlots_inv m.params m.interpreter_locals m.shared_frame_denizens [] _
    (paramSlots_inv m p.offset hparams) (by simpa using hdisj) hone
  simp only [List.nil_append] at hinv
  have hoff : (m.ReMapInterpreterFrame an p).2.offset
      = (m.shared_frame_denizens.foldl (sharedSlotStep m.interpreter_locals)
          (paramSlots p.offset m.args m.nparam
            { interpreter_slots := [], old_intrp_slot_to_new := [], next_interp_slot := 0 },
           p.offset)).2 := rfl
  rw [hoff]
  obtain ⟨J1, J3, J4, J5, R, D⟩ := hinv
  constructor
  · intro k a hk
    have h1 := (J1 a k (J4 k a hk)).1
    exact ⟨h1, by rw [h1, hparams k a hk]⟩
  · intro j sf hj
    obtain ⟨c, r1, r2⟩ := R sf (List.getElem?_mem hj)
    refine ⟨c, fun id hid hor => (J1 id c (r1 id hid hor)).1, ?_⟩
    intro hless ⟨id1, hid1, hl1⟩
    refine ⟨r2 hless, ?_⟩
    intro j2 sf2 hne hj2 id2 hid2 hl2
    obtain ⟨c2, q1, _⟩ := R sf2 (List.getElem?_mem hj2)
    rw [(J1 id2 c2 (q1 id2 hid2 (Or.inl hl2))).1]
    intro hcc
    rcases Nat.lt_or_ge j j2 with hlt | hge
    · have := D j j2 sf sf2 hlt hj hj2 (Or.inl hless) id1 hid1 id2 hid2 hl1 hl2
      rw [r1 id1 hid1 (Or.inl hl1), q1 id2 hid2 (Or.inl hl2), hcc] at this
      exact this rfl
    · have hlt : j2 < j := by omega
      have := D j2 j sf2 sf hlt hj2 hj (Or.inr hless) id2 hid2 id1 hid1 hl2 hl1
      rw [r1 id1 hid1 (Or.inl hl1), q1 id2 hid2 (Or.inl hl2), hcc] at this
      exact this rfl

/-- Witness for C31: the body `cohortExample` in the process `cohortProcess` meets the
hypotheses; its parameter `x` keeps the offset 0, which `a` gets too, and `b` and `c` get the
new offset 1. -/
theorem ReMapInterpreterFrame_cohort_offsets_witness :
    (∀ (k : Nat) (a : ID), cohortExample.params[k]? = some a →
      (cohortExample.ReMapInterpreterFrame exampleAnalyses cohortProcess).2.offset a = (k : Int)
      ∧ (cohortExample.ReMapInterpreterFrame exampleAnalyses cohortProcess).2.offset a
          = cohortProcess.offset a)
    ∧ (∀ (j : Nat) (sf : FrameSharingInfo), cohortExample.shared_frame_denizens[j]? = some sf →
        ∃ c : Int,
          (∀ id ∈ sf.ids, id ∈ cohortExample.interpreter_locals ∨ id ∈ cohortExample.params →
            (cohortExample.ReMapInterpreterFrame exampleAnalyses cohortProcess).2.offset id = c)
          ∧ ((∀ a ∈ sf.ids, a ∉ cohortExample.params) →
              (∃ id ∈ sf.ids, id ∈ cohortExample.interpreter_locals) →
              (cohortExample.params.length : Int) ≤ c
              ∧ ∀ (j2 : Nat) (sf2 : FrameSharingInfo), j2 ≠ j →
                  cohortExample.shared_frame_denizens[j2]? = some sf2 →
                  ∀ id2 ∈ sf2.ids, id2 ∈ cohortExample.interpreter_locals →
                    (cohortExample.ReMapInterpreterFrame exampleAnalyses
                      cohortProcess).2.offset id2 ≠ c))
    ∧ [20, 10, 11, 12].map
        (cohortExample.ReMapInterpreterFrame exampleAnalyses cohortProcess).2.offset
        = [0, 0, 1, 1] := by
  have hp : cohortExample.params = [20] := rfl
  have h := ReMapInterpreterFrame_cohort_offsets cohortExample exampleAnalyses cohortProcess
    (by
      intro k a hk
      rw [hp] at hk
      match k with
      | 0 => simp at hk; subst hk; rfl
      | (k + 1) => simp at hk)
    (by decide)
    (by decide)
  exact ⟨h.1, h.2, by decide⟩

/-! ## Dead pairs at the exit of the optimisation loop (C38) -/

theorem getElem?_modifyInst (m : ZAM) (x : InstRef) (f : ZInst → ZInst) (k : Nat) :
    (m.modifyInst x f).insts1[k]?
      = if InstRef.inst k = x then (m.insts1[k]?).map f else m.insts1[k]? :=
  deref_modifyInst m x (InstRef.inst k) f

/-- The loop `while ( j < insts1.size() && ! insts1[j]->live )` of `CollapseGoTos`: it ends at
or after its start, the instructions it passes are dead, and it reports a branch into dead code
only for a target among them. -/
theorem scanDead_spec (t : InstRef) :
    ∀ (l : List ZInst) (j0 : Nat) (b : Bool),
      j0 ≤ (scanDead t l j0 b).1
      ∧ (∀ n, j0 + n < (scanDead t l j0 b).1 → ∃ z, l[n]? = some z ∧ z.live = false)
      ∧ ((scanDead t l j0 b).2 = true →
          b = true ∨ ∃ n, j0 + n < (scanDead t l j0 b).1 ∧ t = InstRef.inst (j0 + n)) := by
  intro l
  induction l with
  | nil =>
    intro j0 b
    refine ⟨le_refl _, ?_, fun h => Or.inl h⟩
    intro n hn
    simp only [scanDead] at hn
    omega
  | cons z rest ih =>
    intro j0 b
    unfold scanDead
    by_cases hl : z.live = true
    · rw [if_pos hl]
      refine ⟨le_refl _, ?_, fun h => Or.inl h⟩
      intro n hn
      simp only at hn
      omega
    · rw [if_neg hl]
      obtain ⟨a1, a2, a3⟩ := ih (j0 + 1) (b || decide (t = InstRef.inst j0))
      refine ⟨by omega, ?_, ?_⟩
      · intro n hn
        cases n with
        | zero => exact ⟨z, by simp, by simpa using hl⟩
        | succ n =>
          obtain ⟨w, hw1, hw2⟩ := a2 n (by omega)
          exact ⟨w, by simpa using hw1, hw2⟩
      · intro h
        rcases a3 h with h1 | ⟨n, h1, h2⟩
        · rcases Bool.or_eq_true_iff.1 h1 with h2 | h2
          · exact Or.inl h2
          · exact Or.inr ⟨0, by omega, of_decide_eq_true h2⟩
        · exact Or.inr ⟨n + 1, by omega, by rw [h2]; congr 1; omega⟩

/-- The part "Collapse branch-to-next-statement" of `CollapseGoTos`, instruction by
instruction: it keeps the opcodes, makes no dead instruction live, changes the target of the
visited instruction only, to the next instruction or across a dead one, and changes the label
count only of an instruction that is dead, or that follows a dead instruction. -/
theorem collapseToNext_pointwise (m : ZAM) (zm : ZInstMethods) (i : Nat) (t : InstRef)
    (k : Nat) (z : ZInst) (hz : m.insts1[k]? = some z) :
    ∃ z1, (m.collapseToNext zm i t).insts1[k]? = some z1 ∧ z1.op = z.op
      ∧ (z1.live = true → z.live = true)
      ∧ (z1.target = z.target
          ∨ (k = i ∧ ∃ j, z1.target = some (InstRef.inst j)
              ∧ (j = i + 1 ∨ m.liveAt (i + 1) = false)))
      ∧ (z1.num_labels = z.num_labels ∨ z.live = false
          ∨ (1 ≤ k ∧ m.liveAt (k - 1) = false)
          ∨ (k = i + 1 ∧ (m.collapseToNext zm i t).liveAt i = false)) := by
  have hklt : k < m.insts1.length := by
    rcases Nat.lt_or_ge k m.insts1.length with h | h
    · exact h
    · rw [List.getElem?_eq_none h] at hz; cases hz
  obtain ⟨G, D0, F0⟩ := scanDead_spec t (m.insts1.drop (i + 1)) (i + 1) false
  have D : ∀ q, i + 1 ≤ q → q < (scanDead t (m.insts1.drop (i + 1)) (i + 1) false).1 →
      m.liveAt q = false := by
    intro q h1 h2
    obtain ⟨w, hw1, hw2⟩ := D0 (q - (i + 1)) (by omega)
    rw [List.getElem?_drop] at hw1
    have : i + 1 + (q - (i + 1)) = q := by omega
    rw [this] at hw1
    rw [liveAt_of_getElem? m q w hw1, hw2]
  have F : (scanDead t (m.insts1.drop (i + 1)) (i + 1) false).2 = true →
      ∃ q, i + 1 ≤ q ∧ q < (scanDead t (m.insts1.drop (i + 1)) (i + 1) false).1
        ∧ t = InstRef.inst q := by
    intro h
    rcases F0 h with h1 | ⟨n, h1, h2⟩
    · cases h1
    · exact ⟨i + 1 + n, by omega, h1, h2⟩
  have hm1 : ∃ w, (if t ≠ InstRef.pending then
        m.modifyInst t (fun z => { z with num_labels := z.num_labels - 1 })
      else m).insts1[k]? = some w ∧ w.op = z.op ∧ w.live = z.live ∧ w.target = z.target
        ∧ ((¬ t = InstRef.inst k ∧ w.num_labels = z.num_labels)
            ∨ (t = InstRef.inst k ∧ w.num_labels = z.num_labels - 1)) := by
    by_cases hp : t = InstRef.pending
    · rw [if_neg (not_not.2 hp)]
      exact ⟨z, hz, rfl, rfl, rfl, Or.inl ⟨(by rw [hp]; intro c; cases c), rfl⟩⟩
    · rw [if_pos hp, getElem?_modifyInst, hz]
      by_cases hq : t = InstRef.inst k
      · rw [if_pos hq.symm]
        exact ⟨_, rfl, rfl, rfl, rfl, Or.inr ⟨hq, rfl⟩⟩
      · rw [if_neg (fun c => hq c.symm)]
        exact ⟨z, rfl, rfl, rfl, rfl, Or.inl ⟨hq, rfl⟩⟩
  have hlen1 : (if t ≠ InstRef.pending then
        m.modifyInst t (fun z => { z with num_labels := z.num_labels - 1 })
      else m).insts1.length = m.insts1.length := (decLabel_facts m t).1
  unfold ZAM.collapseToNext
  simp only []
  generalize scanDead t (m.insts1.drop (i + 1)) (i + 1) false = r at G D F
  generalize (if t ≠ InstRef.pending then
      m.modifyInst t (fun z => { z with num_labels := z.num_labels - 1 }) else m) = m1
    at hm1 hlen1
  obtain ⟨w, hw, wo, wl, wt, wn⟩ := hm1
  by_cases hc : r.2 = true ∨ (r.1 < m.insts1.length ∧ t = InstRef.inst r.1)
      ∨ (r.1 = m.insts1.length ∧ t = InstRef.pending)
  · rw [if_pos hc]
    have hdec : t = InstRef.inst k →
        z.live = false ∨ (1 ≤ k ∧ m.liveAt (k - 1) = false) ∨ (k = i + 1 ∧ k = r.1) := by
      intro e
      rcases hc with c | ⟨c1, c2⟩ | ⟨_, c⟩
      · obtain ⟨q, q1, q2, q3⟩ := F c
        rw [e] at q3
        have hkq : k = q := InstRef.inst.inj q3
        left
        rw [← liveAt_of_getElem? m k z hz, hkq]
        exact D q q1 q2
      · rw [e] at c2
        have hkr : k = r.1 := InstRef.inst.inj c2
        by_cases hk1 : k = i + 1
        · exact Or.inr (Or.inr ⟨hk1, hkr⟩)
        · exact Or.inr (Or.inl ⟨by omega, D (k - 1) (by omega) (by omega)⟩)
      · rw [c] at e
        cases e
    have hlab : ∀ (X : Prop), (k = i + 1 → k = r.1 → X) →
        w.num_labels = z.num_labels ∨ z.live = false
          ∨ (1 ≤ k ∧ m.liveAt (k - 1) = false) ∨ (k = i + 1 ∧ X) := by
      intro X hX
      rcases wn with ⟨_, h⟩ | ⟨e, _⟩
      · exact Or.inl h
      · rcases hdec e with h | h | ⟨h1, h2⟩
        · exact Or.inr (Or.inl h)
        · exact Or.inr (Or.inr (Or.inl h))
        · exact Or.inr (Or.inr (Or.inr ⟨h1, hX h1 h2⟩))
    cases hi1 : m1.insts1[i]? with
    | none =>
      simp only
      have hige : m.insts1.length ≤ i := by
        rcases Nat.lt_or_ge i m1.insts1.length with h | h
        · rw [List.getElem?_eq_getElem h] at hi1; cases hi1
        · rw [← hlen1]; exact h
      exact ⟨w, hw, wo, (fun h => by rw [← wl]; exact h), Or.inl wt,
        hlab _ (fun h1 _ => by omega)⟩
    | some i1 =>
      simp only
      by_cases hu : zm.IsUnconditionalBranch i1 = true
      · rw [if_pos hu]
        have hkill : (m1.modifyInst (InstRef.inst i)
            (fun z => { z with live := false })).liveAt i = false := by
          rw [liveAt_setDead]
          simp
        rw [getElem?_modifyInst, hw]
        by_cases hki : k = i
        · rw [if_pos (by rw [hki])]
          exact ⟨_, rfl, wo, (fun h => by cases h), Or.inl wt, hlab _ (fun _ _ => hkill)⟩
        · rw [if_neg (fun c => hki (InstRef.inst.inj c))]
          exact ⟨w, rfl, wo, (fun h => by rw [← wl]; exact h), Or.inl wt,
            hlab _ (fun _ _ => hkill)⟩
      · rw [if_neg hu]
        by_cases hj : r.1 < m1.insts1.length
        · rw [if_pos hj]
          have htar : r.1 = i + 1 ∨ m.liveAt (i + 1) = false := by
            by_cases h : r.1 = i + 1
            · exact Or.inl h
            · exact Or.inr (D (i + 1) (le_refl _) (by omega))
          rw [getElem?_modifyInst, getElem?_modifyInst, hw]
          have hinc : k = r.1 →
              w.num_labels + 1 = z.num_labels ∨ (1 ≤ k ∧ m.liveAt (k - 1) = false) := by
            intro e1
            rcases wn with ⟨h1, _⟩ | ⟨_, h⟩
            · rcases hc with c | ⟨_, c2⟩ | ⟨c1, _⟩
              · obtain ⟨q, q1, q2, q3⟩ := F c
                exact Or.inr ⟨by omega, D (k - 1) (by omega) (by omega)⟩
              · rw [← e1] at c2
                exact absurd c2 h1
              · rw [hlen1] at hj
                omega
            · left
              omega
          by_cases hki : k = i
          · have hkj : ¬ InstRef.inst k = InstRef.inst r.1 := by
              intro c
              have := InstRef.inst.inj c
              omega
            rw [if_neg hkj, if_pos (by rw [hki])]
            exact ⟨_, rfl, wo, (fun h => by rw [← wl]; exact h), Or.inr ⟨hki, r.1, rfl, htar⟩,
              hlab _ (fun h1 _ => by omega)⟩
          · rw [if_neg (fun c => hki (InstRef.inst.inj c))]
            by_cases hkj : k = r.1
            · rw [if_pos (by rw [hkj])]
              refine ⟨_, rfl, wo, (fun h => by rw [← wl]; exact h), Or.inl wt, ?_⟩
              rcases hinc hkj with h | h
              · exact Or.inl h
              · exact Or.inr (Or.inr (Or.inl h))
            · rw [if_neg (fun c => hkj (InstRef.inst.inj c))]
              exact ⟨w, rfl, wo, (fun h => by rw [← wl]; exact h), Or.inl wt,
                hlab _ (fun _ h2 => absurd h2 hkj)⟩
        · rw [if_neg hj]
          exact ⟨w, hw, wo, (fun h => by rw [← wl]; exact h), Or.inl wt,
            hlab _ (fun _ h2 => by rw [hlen1] at hj; omega)⟩
  · rw [if_neg hc]
    exact ⟨z, hz, rfl, fun h => h, Or.inl rfl, Or.inl rfl⟩

theorem collapseToNext_length (m : ZAM) (zm : ZInstMethods) (i : Nat) (t : InstRef) :
    (m.collapseToNext zm i t).insts1.length = m.insts1.length := by
  have hlen1 := (decLabel_facts m t).1
  unfold ZAM.collapseToNext
  simp only []
  generalize (if t ≠ InstRef.pending then
      m.modifyInst t (fun z => { z with num_labels := z.num_labels - 1 }) else m) = m1
    at hlen1
  split
  · cases m1.insts1[i]? with
    | none => exact hlen1
    | some i1 =>
      simp only
      split
      · rw [modifyInst_length]; exact hlen1
      · split
        · rw [modifyInst_length, modifyInst_length]; exact hlen1
        · exact hlen1
  · rfl

theorem deadPair_iff (m : ZAM) (zm : ZInstMethods) (k : Nat) :
    m.deadPair zm k = true ↔
      ∃ a b, m.insts1[k]? = some a ∧ m.insts1[k + 1]? = some b ∧ a.live = true
        ∧ b.live = true ∧ zm.DoesNotContinue a = true
        ∧ a.target ≠ some (InstRef.inst (k + 1)) ∧ b.num_labels = 0 := by
  unfold ZAM.deadPair
  cases h0 : m.insts1[k]? with
  | none => simp
  | some a =>
    cases h1 : m.insts1[k + 1]? with
    | none => simp
    | some b => simp [and_assoc]

theorem deadPair_congr (m m1 : ZAM) (zm : ZInstMethods) (h : m1.insts1 = m.insts1) (k : Nat) :
    m1.deadPair zm k = m.deadPair zm k := by
  unfold ZAM.deadPair
  rw [h]

/-- The part "Collapse branch-to-next-statement" of `CollapseGoTos` makes no pair of adjacent
instructions one whose second instruction is dead code. -/
theorem collapseToNext_noDeadPair (m : ZAM) (zm : ZInstMethods) (i : Nat) (t : InstRef)
    (hdnc : ∀ z z1 : ZInst, z.op = z1.op → zm.DoesNotContinue z = zm.DoesNotContinue z1)
    (h : ∀ k, m.deadPair zm k = false) :
    ∀ k, (m.collapseToNext zm i t).deadPair zm k = false := by
  intro k
  cases hd : (m.collapseToNext zm i t).deadPair zm k with
  | false => rfl
  | true =>
    exfalso
    obtain ⟨a1, b1, ha1, hb1, c1, c2, c3, c4, c5⟩ := (deadPair_iff _ zm k).1 hd
    have hlen := collapseToNext_length m zm i t
    have hk1 : k + 1 < m.insts1.length := by
      rcases Nat.lt_or_ge (k + 1) (m.collapseToNext zm i t).insts1.length with h1 | h1
      · rw [← hlen]; exact h1
      · rw [List.getElem?_eq_none h1] at hb1; cases hb1
    obtain ⟨a2, ea, p1, p2, p3, _⟩ := collapseToNext_pointwise m zm i t k _
      (List.getElem?_eq_getElem (by omega))
    obtain ⟨b2, eb, q1, q2, _, q4⟩ := collapseToNext_pointwise m zm i t (k + 1) _
      (List.getElem?_eq_getElem hk1)
    rw [ha1] at ea
    rw [hb1] at eb
    cases ea
    cases eb
    have hla := p2 c1
    have hlb := q2 c2
    have hmb : m.liveAt (k + 1) = true := by
      rw [liveAt_of_getElem? m (k + 1) _ (List.getElem?_eq_getElem hk1)]; exact hlb
    have hma : m.liveAt k = true := by
      rw [liveAt_of_getElem? m k _ (List.getElem?_eq_getElem (by omega))]; exact hla
    have hold : m.deadPair zm k = true := by
      rw [deadPair_iff]
      refine ⟨_, _, List.getElem?_eq_getElem (by omega), List.getElem?_eq_getElem hk1, hla, hlb,
        ?_, ?_, ?_⟩
      · rw [← hdnc _ _ p1]; exact c3
      · rcases p3 with e | ⟨e1, j, e2, e3⟩
        · rw [← e]; exact c4
        · exfalso
          rcases e3 with e3 | e3
          · rw [e2, e3, e1] at c4
            exact c4 rfl
          · rw [← e1, hmb] at e3
            cases e3
      · rcases q4 with e | e | ⟨_, e⟩ | ⟨e1, e2⟩
        · rw [← e]; exact c5
        · rw [hlb] at e; cases e
        · rw [Nat.add_sub_cancel, hma] at e; cases e
        · have hki : i = k := by omega
          subst hki
          rw [liveAt_of_getElem? _ _ _ ha1, c1] at e2
          cases e2
    rw [h k] at hold
    cases hold

/-- One round of the loop of `CollapseGoTos` that leaves `did_collapse` false found it false
and makes no pair of adjacent instructions one whose second instruction is dead code. -/
theorem collapseAt_noDeadPair (zm : ZInstMethods) (fuel : Nat) (s r : ZAM × Bool) (i : Nat)
    (hdnc : ∀ z z1 : ZInst, z.op = z1.op → zm.DoesNotContinue z = zm.DoesNotContinue z1)
    (h : ZAM.collapseAt zm fuel s i = some r) (hr : r.2 = false) :
    s.2 = false ∧ ((∀ k, s.1.deadPair zm k = false) → ∀ k, r.1.deadPair zm k = false) := by
  unfold ZAM.collapseAt at h
  cases hi : s.1.insts1[i]? with
  | none =>
    simp only [hi, Option.some.injEq] at h
    rw [← h] at hr ⊢
    exact ⟨hr, fun x => x⟩
  | some i0 =>
    simp only [hi] at h
    by_cases hl0 : i0.live = false
    · rw [if_pos hl0] at h
      cases h
      exact ⟨hr, fun x => x⟩
    · rw [if_neg hl0] at h
      cases ht : i0.target with
      | none =>
        simp only [ht] at h
        cases h
        exact ⟨hr, fun x => x⟩
      | some t =>
        simp only [ht] at h
        cases hd : s.1.deref t with
        | none => simp only [hd] at h; cases h
        | some tz =>
          simp only [hd] at h
          by_cases hu : zm.IsUnconditionalBranch tz = true
          · rw [if_pos hu] at h
            cases hch : s.1.collapseChain zm i fuel t with
            | none => simp only [hch] at h; cases h
            | some p =>
              obtain ⟨m1, t1⟩ := p
              simp only [hch] at h
              cases h
              cases hr
          · rw [if_neg hu] at h
            cases h
            exact ⟨hr, collapseToNext_noDeadPair s.1 zm i t hdnc⟩

theorem foldPositions_flag_inv (P : ZAM → Prop) (f : ZAM × Bool → Nat → Option (ZAM × Bool))
    (hstep : ∀ s i r, f s i = some r → r.2 = false → s.2 = false ∧ (P s.1 → P r.1)) :
    ∀ (l : List Nat) (s r : ZAM × Bool), foldPositions f l s = some r → r.2 = false →
      s.2 = false ∧ (P s.1 → P r.1) := by
  intro l
  induction l with
  | nil =>
    intro s r h hr
    simp only [foldPositions, Option.some.injEq] at h
    rw [← h] at hr ⊢
    exact ⟨hr, fun x => x⟩
  | cons i l ih =>
    intro s r h hr
    simp only [foldPositions] at h
    cases hf : f s i with
    | none => rw [hf] at h; cases h
    | some s1 =>
      rw [hf] at h
      obtain ⟨a1, a2⟩ := ih s1 r h hr
      obtain ⟨b1, b2⟩ := hstep s i s1 hf a1
      exact ⟨b1, fun x => a2 (b2 x)⟩

/-- A pass of `CollapseGoTos` that returns false makes no pair of adjacent instructions one
whose second instruction is dead code. -/
theorem CollapseGoTos_noDeadPair (m : ZAM) (zm : ZInstMethods) (fuel : Nat) (r : ZAM)
    (hdnc : ∀ z z1 : ZInst, z.op = z1.op → zm.DoesNotContinue z = zm.DoesNotContinue z1)
    (h : m.CollapseGoTos zm fuel = some (r, false)) (hm : ∀ k, m.deadPair zm k = false) :
    ∀ k, r.deadPair zm k = false :=
  (foldPositions_flag_inv (fun s => ∀ k, s.deadPair zm k = false) (ZAM.collapseAt zm fuel)
    (fun s i r1 h1 h2 => collapseAt_noDeadPair zm fuel s r1 i hdnc h1 h2)
    (List.range m.insts1.length) (m, false) (r, false) h rfl).2 hm

/-- A pass of `RemoveDeadCode` that returns false found no pair of adjacent instructions whose
second instruction is dead code, and changed nothing. -/
theorem RemoveDeadCode_false (m : ZAM) (zm : ZInstMethods)
    (h : (m.RemoveDeadCode zm).2 = false) :
    (m.RemoveDeadCode zm).1 = m ∧ ∀ k, m.deadPair zm k = false := by
  have key : ∀ n, (m.removeDeadBefore zm n).2 = false →
      (m.removeDeadBefore zm n).1 = m ∧ ∀ k, k < n → m.deadPair zm k = false := by
    intro n
    induction n with
    | zero =>
      intro _
      exact ⟨rfl, fun k hk => by omega⟩
    | succ n ih =>
      intro hn
      rw [removeDeadBefore_succ, removeDeadAt_eq] at hn ⊢
      by_cases hd : (m.removeDeadBefore zm n).1.deadPair zm n = true
      · rw [if_pos hd] at hn
        cases hn
      · rw [if_neg hd] at hn ⊢
        obtain ⟨a1, a2⟩ := ih hn
        refine ⟨a1, ?_⟩
        intro k hk
        rcases Nat.lt_or_ge k n with h1 | h1
        · exact a2 k h1
        · have : k = n := by omega
          rw [this]
          rw [a1] at hd
          simpa using hd
  have hR : m.RemoveDeadCode zm = m.removeDeadBefore zm (m.insts1.length - 1) := rfl
  rw [hR] at h ⊢
  obtain ⟨a1, a2⟩ := key _ h
  refine ⟨a1, ?_⟩
  intro k
  rcases Nat.lt_or_ge k (m.insts1.length - 1) with h1 | h1
  · exact a2 k h1
  · unfold ZAM.deadPair
    rw [List.getElem?_eq_none (show m.insts1.length ≤ k + 1 by omega)]
    cases m.insts1[k]? <;> rfl

theorem condKill_false (c : Prop) [Decidable c] (s : ZAM × Bool) (i : Nat)
    (h : (if c then (s.1.KillInst i, true) else s).2 = false) :
    (if c then (s.1.KillInst i, true) else s) = s := by
  by_cases hc : c
  · rw [if_pos hc] at h; cases h
  · rw [if_neg hc]

/-- One round of the loop of `PruneUnused` that leaves `did_prune` false found it false and
changed nothing. -/
theorem pruneAt_false (zm : ZInstMethods) (an : Analyses) (tb : OpTables) (s r : ZAM × Bool)
    (i : Nat) (h : ZAM.pruneAt zm an tb s i = some r) (hr : r.2 = false) : r = s := by
  unfold ZAM.pruneAt at h
  cases hi : s.1.insts1[i]? with
  | none => simp only [hi, Option.some.injEq] at h; rw [← h]
  | some inst0 =>
    simp only [hi] at h
    split at h
    · simp only [Option.some.injEq] at h; rw [← h]
    · have e1 := condKill_false
        (zm.IsFrameStore inst0 = true ∧ s.1.VarIsAssigned zm inst0.v1 = false) s i
      generalize hs1 : (if zm.IsFrameStore inst0 = true ∧ s.1.VarIsAssigned zm inst0.v1 = false
          then (s.1.KillInst i, true) else s) = s1 at h e1
      have e2 := condKill_false
        (zm.IsLoad ((s1.1.insts1[i]?).getD inst0) = true
          ∧ s1.1.VarIsUsed zm ((s1.1.insts1[i]?).getD inst0).v1 = false) s1 i
      generalize hs2 : (if zm.IsLoad ((s1.1.insts1[i]?).getD inst0) = true
          ∧ s1.1.VarIsUsed zm ((s1.1.insts1[i]?).getD inst0).v1 = false
          then (s1.1.KillInst i, true) else s1) = s2 at h e2
      have fin : r = s2 → r = s := by
        intro e
        rw [e] at hr
        have a2 := e2 hr
        rw [a2] at hr
        rw [e, a2, e1 hr]
      split at h
      · simp only [Option.some.injEq] at h; exact fin h.symm
      · split at h
        · simp only [Option.some.injEq] at h; exact fin h.symm
        · split at h
          · simp only [Option.some.injEq] at h; rw [← h] at hr; cases hr
          · split at h
            · cases h
            · simp only [Option.some.injEq] at h; rw [← h] at hr; cases hr

theorem foldPositions_false (f : ZAM × Bool → Nat → Option (ZAM × Bool))
    (hstep : ∀ s i r, f s i = some r → r.2 = false → r = s) :
    ∀ (l : List Nat) (s r : ZAM × Bool), foldPositions f l s = some r → r.2 = false →
      r = s := by
  intro l
  induction l with
  | nil =>
    intro s r h _
    simp only [foldPositions, Option.some.injEq] at h
    exact h.symm
  | cons i l ih =>
    intro s r h hr
    simp only [foldPositions] at h
    cases hf : f s i with
    | none => rw [hf] at h; cases h
    | some s1 =>
      rw [hf] at h
      have a1 := ih s1 r h hr
      rw [a1] at hr
      rw [a1, hstep s i s1 hf hr]

/-- A pass of `PruneUnused` that returns false changed nothing. -/
theorem PruneUnused_false (m : ZAM) (zm : ZInstMethods) (an : Analyses) (tb : OpTables)
    (r : ZAM) (h : m.PruneUnused zm an tb = some (r, false)) : r = m :=
  congrArg Prod.fst (foldPositions_false (ZAM.pruneAt zm an tb)
    (fun s i r1 h1 h2 => pruneAt_false zm an tb s r1 i h1 h2)
    (List.range m.insts1.length) (m, false) (r, false) h rfl)

theorem repeatPass_false (pass : ZAM → Option (ZAM × Bool)) (fuel : Nat) (m r : ZAM)
    (h : repeatPass pass fuel m = some (r, false)) : pass m = some (r, false) := by
  cases fuel with
  | zero => simp only [repeatPass] at h; cases h
  | succ fuel =>
    simp only [repeatPass] at h
    cases hp : pass m with
    | none => rw [hp] at h; cases h
    | some q =>
      obtain ⟨m1, b⟩ := q
      rw [hp] at h
      cases b with
      | false => exact h
      | true =>
        simp only at h
        cases hq : repeatPass pass fuel m1 with
        | none => rw [hq] at h; cases h
        | some q2 =>
          rw [hq] at h
          cases h

theorem ComputeFrameLifetimes_insts1 (m : ZAM) (zm : ZInstMethods) (an : Analyses) :
    (m.ComputeFrameLifetimes zm an).insts1 = m.insts1 := by
  have h := (ComputeFrameLifetimes_extends m zm an 0 (Nat.zero_le _)).1
  have h0 := lifetimesBefore_sameCode m zm an 0
  rw [h.1, h0.1]

/-- A round of the loop of `OptimizeInsts` that reports no change leaves no pair of adjacent
live instructions of which the first does not continue and does not target the second and the
second has no label. -/
theorem optimizeRound_noDeadPair (m : ZAM) (zm : ZInstMethods) (an : Analyses) (tb : OpTables)
    (fuel : Nat) (r : ZAM)
    (hdnc : ∀ z z1 : ZInst, z.op = z1.op → zm.DoesNotContinue z = zm.DoesNotContinue z1)
    (h : m.optimizeRound zm an tb fuel = some (r, false)) :
    ∀ k, r.deadPair zm k = false := by
  unfold ZAM.optimizeRound at h
  cases h1 : repeatPass (fun m1 => some (m1.RemoveDeadCode zm)) fuel m with
  | none => rw [h1] at h; cases h
  | some q1 =>
    obtain ⟨m1, c1⟩ := q1
    rw [h1] at h
    simp only at h
    cases h2 : repeatPass (fun m2 => m2.CollapseGoTos zm fuel) fuel m1 with
    | none => rw [h2] at h; cases h
    | some q2 =>
      obtain ⟨m2, c2⟩ := q2
      rw [h2] at h
      simp only at h
      cases h3 : (m2.ComputeFrameLifetimes zm an).PruneUnused zm an tb with
      | none => rw [h3] at h; cases h
      | some q3 =>
        obtain ⟨m3, c3⟩ := q3
        rw [h3] at h
        simp only [Option.some.injEq, Prod.mk.injEq] at h
        obtain ⟨hm3, hflag⟩ := h
        have hc1 : c1 = false := by cases c1 <;> simp at hflag ⊢
        have hc2 : c2 = false := by cases c2 <;> simp at hflag ⊢
        have hc3 : c3 = false := by cases c3 <;> simp at hflag ⊢
        subst hc1 hc2 hc3
        have a1 := repeatPass_false _ fuel m m1 h1
        simp only [Option.some.injEq] at a1
        have a1f : (m.RemoveDeadCode zm).2 = false := by rw [a1]
        obtain ⟨b1, b2⟩ := RemoveDeadCode_false m zm a1f
        have hm1 : m1 = m := by
          have := congrArg Prod.fst a1
          rw [b1] at this
          exact this.symm
        have a2 := repeatPass_false _ fuel m1 m2 h2
        have d2 := CollapseGoTos_noDeadPair m1 zm fuel m2 hdnc a2 (by rw [hm1]; exact b2)
        have a3 := PruneUnused_false _ zm an tb m3 h3
        intro k
        rw [← hm3, a3, deadPair_congr _ _ zm (ComputeFrameLifetimes_insts1 m2 zm an) k]
        exact d2 k

/-- Counterexample to C38 as stated: for the body `deadTailExample`, in which two instructions
follow a return, the optimisation loop of `OptimizeInsts` terminates with the first of the two
dead and the second live: the instruction at the position 3 is live and has no label, and its
closest preceding live instruction is the return at the position 1, which does not continue
and does not target it. -/
theorem OptimizeInsts_unreachable_counterexample :
    (ZAM.optimizeLoop exampleMethods exampleAnalyses exampleTables 10 10
        deadTailExample.tallyLabels).map
      (fun r => (r.insts1.map ZInst.live, r.insts1.map ZInst.num_labels, r.prevLive 3,
        r.unreachableAt exampleMethods 3))
      = some ([true, true, false, true], [0, 0, 0, 0], some 1, true) := by
  decide

/-- C38, as the code has it: when the optimisation loop of `OptimizeInsts` terminates, with
`DoesNotContinue` a property of the opcode, there is no live instruction with
`num_labels = 0` whose immediately preceding instruction, the one at the previous position of
`insts1`, is live, does not continue and does not target it. -/
theorem OptimizeInsts_no_dead_pair (zm : ZInstMethods) (an : Analyses) (tb : OpTables)
    (fuel rounds : Nat) (m r : ZAM)
    (hdnc : ∀ z z1 : ZInst, z.op = z1.op → zm.DoesNotContinue z = zm.DoesNotContinue z1)
    (h : ZAM.optimizeLoop zm an tb fuel rounds m = some r) :
    ∀ k, r.deadPair zm k = false := by
  induction rounds generalizing m with
  | zero => simp only [ZAM.optimizeLoop] at h; cases h
  | succ rounds ih =>
    simp only [ZAM.optimizeLoop] at h
    cases h1 : m.optimizeRound zm an tb fuel with
    | none => rw [h1] at h; cases h
    | some q =>
      obtain ⟨m1, b⟩ := q
      rw [h1] at h
      cases b with
      | true => exact ih m1 h
      | false =>
        simp only [Option.some.injEq] at h
        rw [← h]
        exact optimizeRound_noDeadPair m zm an tb fuel m1 hdnc h1

/-- Witness for C38: the optimisation loop terminates for the body `deadTailExample`, and it
leaves no pair of adjacent live instructions of which the second is dead code. -/
theorem OptimizeInsts_no_dead_pair_witness :
    ∃ r, ZAM.optimizeLoop exampleMethods exampleAnalyses exampleTables 10 10
        deadTailExample.tallyLabels = some r
      ∧ ∀ k, r.deadPair exampleMethods k = false := by
  have hs : (ZAM.optimizeLoop exampleMethods exampleAnalyses exampleTables 10 10
      deadTailExample.tallyLabels).isSome = true := by decide
  cases h : ZAM.optimizeLoop exampleMethods exampleAnalyses exampleTables 10 10
      deadTailExample.tallyLabels with
  | none => rw [h] at hs; cases hs
  | some r =>
    exact ⟨r, rfl, OptimizeInsts_no_dead_pair exampleMethods exampleAnalyses exampleTables 10 10
      deadTailExample.tallyLabels r
      (fun z z1 e => by simp only [exampleMethods, e]) h⟩

/-! ## The lowering of a loop: `FinishLoop` (C33) -/

/-- Counterexample to C33 as stated: for `for ( y in n ) print y;` the lowering gives `INIT`,
`NEXT`, the body, the `goto` back to `NEXT` and `END_LOOP`, at the positions 0 to 4, and the
exit branch of `NEXT` goes to the position 4, the `END_LOOP` instruction itself, not to the
instruction following it, the position 5. -/
theorem FinishLoop_exit_counterexample :
    (loopExample.FinishLoop loopExample.StartingBlock iterExample (simpleStmt 5) 4).map
      (fun r => (r.1.insts1.map (fun z => (z.op, z.target)), r.1.exitTarget 1,
        r.1.endLoopAfter 1, r.2.stmt_num))
      = some ([(ZOp.OP_INIT_TABLE_LOOP_VVC, none),
               (ZOp.OP_NEXT_TABLE_ITER_VV, some (InstRef.inst 4)),
               (ZOp.OP_other 5, none),
               (ZOp.OP_GOTO_V, some (InstRef.inst 1)),
               (ZOp.OP_END_LOOP_V, none)],
              some (InstRef.inst 4), some 4, 4) := by
  decide

theorem AddInst_clean (m : ZAM) (z : ZInst) (h : m.mark_dirty < 0) :
    m.AddInst z = (m.pushInst z, { stmt_num := (m.insts1.length : Int) }) := by
  unfold ZAM.AddInst
  have : (m.pushInst z).mark_dirty < 0 := h
  simp only [this, if_true]
  rfl

theorem SetTarget_op (inst : ZInst) (l : InstRef) (slot : Int) :
    (SetTarget inst l slot).op = inst.op := by
  unfold SetTarget
  split <;> rfl

theorem SetV1_ok (m : ZAM) (g : Int) (l : InstRef) (h0 : 0 ≤ g)
    (h1 : g < (m.insts1.length : Int)) :
    ∃ inst inst1, m.insts1[g.toNat]? = some inst ∧ inst1.op = inst.op
      ∧ m.SetV1 { stmt_num := g } l = some { m with insts1 := m.insts1.set g.toNat inst1 } := by
  have hlt : g.toNat < m.insts1.length := by omega
  refine ⟨m.insts1[g.toNat], { SetTarget m.insts1[g.toNat] l 1 with op_type := ZAMOpType.OP_V_I1 },
    List.getElem?_eq_getElem hlt, SetTarget_op _ _ _, ?_⟩
  unfold ZAM.SetV1
  have hneg : ¬ g < 0 := by omega
  simp only [hneg, if_false, List.getElem?_eq_getElem hlt]

/-- The loop of `ResolveGoTos` over a set of branches that are instructions of `insts1`: it
succeeds, changes the instructions of the set only, keeps the opcodes, and leaves the stacks
alone. -/
theorem resolveSet_ok (l : InstRef) (gs : List Int) :
    ∀ m : ZAM, (∀ g ∈ gs, 0 ≤ g ∧ g < (m.insts1.length : Int)) →
      ∃ m1, m.resolveSet l gs = some m1 ∧ m1.insts1.length = m.insts1.length
        ∧ (∀ p : Nat, (∀ g ∈ gs, g ≠ (p : Int)) → m1.insts1[p]? = m.insts1[p]?)
        ∧ (∀ (p : Nat) (z : ZInst), m.insts1[p]? = some z →
            ∃ z1, m1.insts1[p]? = some z1 ∧ z1.op = z.op)
        ∧ m1.nexts = m.nexts ∧ m1.breaks = m.breaks := by
  induction gs with
  | nil =>
    intro m _
    exact ⟨m, rfl, rfl, fun _ _ => rfl, fun p z hz => ⟨z, hz, rfl⟩, rfl, rfl⟩
  | cons g gs ih =>
    intro m hv
    obtain ⟨h0, h1⟩ := hv g (List.mem_cons_self _ _)
    obtain ⟨inst, inst1, e1, e2, e3⟩ := SetV1_ok m g l h0 h1
    unfold ZAM.resolveSet ZAM.SetGoTo
    rw [e3]
    simp only
    obtain ⟨m1, a1, a2, a3, a4, a5, a6⟩ := ih { m with insts1 := m.insts1.set g.toNat inst1 }
      (fun x hx => by
        have := hv x (List.mem_cons_of_mem _ hx)
        simpa using this)
    refine ⟨m1, a1, ?_, ?_, ?_, a5, a6⟩
    · rw [a2]; simp
    · intro p hp
      rw [a3 p (fun x hx => hp x (List.mem_cons_of_mem _ hx))]
      have hne : g.toNat ≠ p := by
        have := hp g (List.mem_cons_self _ _)
        omega
      simp [List.getElem?_set_ne hne]
    · intro p z hz
      by_cases hp : g.toNat = p
      · have hz2 : ({ m with insts1 := m.insts1.set g.toNat inst1 } : ZAM).insts1[p]?
            = some inst1 := by
          show (m.insts1.set g.toNat inst1)[p]? = some inst1
          rw [← hp, List.getElem?_set_self (by omega)]
        obtain ⟨z1, b1, b2⟩ := a4 p inst1 hz2
        rw [← hp, e1] at hz
        cases hz
        exact ⟨z1, b1, b2.trans e2⟩
      · have hz2 : ({ m with insts1 := m.insts1.set g.toNat inst1 } : ZAM).insts1[p]?
            = some z := by
          show (m.insts1.set g.toNat inst1)[p]? = some z
          rw [List.getElem?_set_ne hp]
          exact hz
        exact a4 p z hz2

theorem SetV23_ok (m : ZAM) (p : Nat) (inst : ZInst) (l : InstRef) (b : Prop) [Decidable b]
    (hi : m.insts1[p]? = some inst) (ht : inst.target = none) :
    ∃ inst1, (if b then m.SetV3 { stmt_num := (p : Int) } l
        else m.SetV2 { stmt_num := (p : Int) } l)
        = some { m with insts1 := m.insts1.set p inst1 }
      ∧ inst1.op = inst.op ∧ inst1.target = some l
      ∧ inst1.target_slot = (if b then 3 else 2) := by
  have hneg : ¬ ((p : Int) < 0) := by omega
  have hst : SetTarget inst l 3 = { inst with target := some l, target_slot := 3 } := by
    unfold SetTarget
    rw [ht]
    rfl
  have hst2 : SetTarget inst l 2 = { inst with target := some l, target_slot := 2 } := by
    unfold SetTarget
    rw [ht]
    rfl
  by_cases hb : b
  · rw [if_pos hb]
    unfold ZAM.SetV3
    simp only [hneg, if_false, Int.toNat_ofNat, hi, hst]
    refine ⟨_, rfl, ?_, ?_, ?_⟩
    · split <;> rfl
    · split <;> rfl
    · rw [if_pos hb]
      split <;> rfl
  · rw [if_neg hb]
    unfold ZAM.SetV2
    simp only [hneg, if_false, Int.toNat_ofNat, hi, hst2]
    refine ⟨_, rfl, ?_, ?_, ?_⟩
    · split
      · rfl
      · split <;> rfl
    · split
      · rfl
      · split <;> rfl
    · rw [if_neg hb]
      split
      · rfl
      · split <;> rfl

theorem ResolveNexts_ok (m : ZAM) (l : InstRef) (N : List (List Int)) (ns : List Int)
    (hN : m.nexts = N ++ [ns]) (hv : ∀ g ∈ ns, 0 ≤ g ∧ g < (m.insts1.length : Int)) :
    ∃ m1, m.ResolveNexts l = some m1 ∧ m1.insts1.length = m.insts1.length
      ∧ (∀ p : Nat, (∀ g ∈ ns, g ≠ (p : Int)) → m1.insts1[p]? = m.insts1[p]?)
      ∧ (∀ (p : Nat) (z : ZInst), m.insts1[p]? = some z →
          ∃ z1, m1.insts1[p]? = some z1 ∧ z1.op = z.op)
      ∧ m1.nexts = N ∧ m1.breaks = m.breaks := by
  obtain ⟨m1, a1, a2, a3, a4, a5, a6⟩ := resolveSet_ok l ns m hv
  unfold ZAM.ResolveNexts
  rw [hN, getLast?_concat_single]
  simp only [a1]
  refine ⟨_, rfl, a2, a3, a4, ?_, a6⟩
  simp only
  rw [a5, hN]
  simp

theorem ResolveBreaks_ok (m : ZAM) (l : InstRef) (B : List (List Int)) (bs : List Int)
    (hB : m.breaks = B ++ [bs]) (hv : ∀ g ∈ bs, 0 ≤ g ∧ g < (m.insts1.length : Int)) :
    ∃ m1, m.ResolveBreaks l = some m1 ∧ m1.insts1.length = m.insts1.length
      ∧ (∀ p : Nat, (∀ g ∈ bs, g ≠ (p : Int)) → m1.insts1[p]? = m.insts1[p]?)
      ∧ (∀ (p : Nat) (z : ZInst), m.insts1[p]? = some z →
          ∃ z1, m1.insts1[p]? = some z1 ∧ z1.op = z.op)
      ∧ m1.nexts = m.nexts ∧ m1.breaks = B := by
  obtain ⟨m1, a1, a2, a3, a4, a5, a6⟩ := resolveSet_ok l bs m hv
  unfold ZAM.ResolveBreaks
  rw [hB, getLast?_concat_single]
  simp only [a1]
  refine ⟨_, rfl, a2, a3, a4, a5, ?_⟩
  simp only
  rw [a6, hB]
  simp

theorem loop_parts (A : List ZInst) (x : ZInst) (added : List ZInst) (g e : ZInst) :
    (A ++ [x] ++ added ++ [g] ++ [e])[A.length]? = some x
    ∧ (∀ j, j < added.length →
        (A ++ [x] ++ added ++ [g] ++ [e])[A.length + 1 + j]? = added[j]?)
    ∧ (A ++ [x] ++ added ++ [g] ++ [e])[A.length + added.length + 1]? = some g
    ∧ (A ++ [x] ++ added ++ [g] ++ [e])[A.length + added.length + 2]? = some e
    ∧ (A ++ [x] ++ added ++ [g] ++ [e]).length = A.length + added.length + 3 := by
  have e0 : A ++ [x] ++ added ++ [g] ++ [e] = A ++ (x :: (added ++ [g, e])) := by simp
  rw [e0]
  refine ⟨?_, ?_, ?_, ?_, ?_⟩
  · rw [List.getElem?_append_right (le_refl _), Nat.sub_self]
    simp
  · intro j hj
    rw [List.getElem?_append_right (by omega)]
    have : A.length + 1 + j - A.length = j + 1 := by omega
    rw [this, List.getElem?_cons_succ, List.getElem?_append_left hj]
  · rw [List.getElem?_append_right (by omega)]
    have : A.length + added.length + 1 - A.length = added.length + 1 := by omega
    rw [this, List.getElem?_cons_succ, List.getElem?_append_right (le_refl _), Nat.sub_self]
    simp
  · rw [List.getElem?_append_right (by omega)]
    have : A.length + added.length + 2 - A.length = (added.length + 1) + 1 := by omega
    rw [this, List.getElem?_cons_succ, List.getElem?_append_right (by omega)]
    have : added.length + 1 - added.length = 1 := by omega
    rw [this]
    simp
  · simp
    omega

/-- C33, as the code has it: `FinishLoop`, called as `For` and the `LoopOver` functions call
it (`iter_head` the position of the next instruction, a set of nexts and a set of breaks
pushed, whose earlier entries are instructions of `insts1`, no marker of a dirty global
pending, an iteration instruction without a target) for a body that meets `loopBodyContract`
and compiles, succeeds and appends the iteration instruction, the `k` instructions of the
body, a `goto` back to the iteration instruction and an `END_LOOP` instruction; the exit
branch of the iteration instruction, its operand 3 or 2, is resolved to the `END_LOOP`
instruction itself; the statement returned is the `END_LOOP` instruction, and the sets of
nexts and breaks are popped. -/
theorem FinishLoop_layout (m : ZAM) (iter_head : CompiledStmt) (iter_stmt : ZInst)
    (body : StmtCompile) (info_slot : Int) (k : Nat) (N B : List (List Int))
    (n0 b0 : List Int) (rb : ZAM × CompiledStmt)
    (hhead : iter_head.stmt_num = (m.insts1.length : Int))
    (hdirty : m.mark_dirty < 0)
    (hN : m.nexts = N ++ [n0]) (hB : m.breaks = B ++ [b0])
    (hold : ∀ g ∈ n0 ++ b0, 0 ≤ g ∧ g < (m.insts1.length : Int))
    (htarget : iter_stmt.target = none)
    (hbody : loopBodyContract body k)
    (hrun : body (m.AddInst iter_stmt).1 = some rb) :
    ∃ (r : ZAM × CompiledStmt) (iter1 : ZInst),
      m.FinishLoop iter_head iter_stmt body info_slot = some r
      ∧ r.1.insts1.length = m.insts1.length + k + 3
      ∧ r.1.insts1[m.insts1.length]? = some iter1
      ∧ iter1.op = iter_stmt.op
      ∧ iter1.target = some (InstRef.inst (m.insts1.length + k + 2))
      ∧ iter1.target_slot = (if iter_stmt.op_type = ZAMOpType.OP_VVV_I3 then 3 else 2)
      ∧ (∀ j, j < k → ∃ z z1, rb.1.insts1[m.insts1.length + 1 + j]? = some z
          ∧ r.1.insts1[m.insts1.length + 1 + j]? = some z1 ∧ z1.op = z.op)
      ∧ r.1.insts1[m.insts1.length + k + 1]?
          = some { ZInst.mkV ZOp.OP_GOTO_V 0 with
                   target := some (InstRef.inst m.insts1.length), target_slot := 1,
                   op_type := ZAMOpType.OP_V_I1 }
      ∧ r.1.insts1[m.insts1.length + k + 2]? = some (ZInst.mkV ZOp.OP_END_LOOP_V info_slot)
      ∧ r.2.stmt_num = ((m.insts1.length + k + 2 : Nat) : Int)
      ∧ r.1.nexts = N ∧ r.1.breaks = B := by
  have e1 := AddInst_clean m iter_stmt hdirty
  rw [e1] at hrun
  obtain ⟨added, nx, bs, c1, c2, c3, c4, c5, c6⟩ :=
    hbody (m.pushInst iter_stmt) rb N B n0 b0 hdirty hN hB hrun
  have hL1 : (m.pushInst iter_stmt).insts1 = m.insts1 ++ [iter_stmt] := rfl
  rw [hL1] at c2 c5
  have hlen2 : rb.1.insts1.length = m.insts1.length + 1 + k := by
    rw [c2]; simp [c1]; omega
  have hlen1 : ((m.insts1 ++ [iter_stmt]).length : Int) = (m.insts1.length : Int) + 1 := by
    simp
  rw [hlen1, hlen2] at c5
  have e2 : rb.1.GoToTarget iter_head = some (InstRef.inst m.insts1.length) := by
    unfold ZAM.GoToTarget
    rw [hhead, if_pos ⟨by omega, by omega⟩]
    simp
  have e3 : rb.1.GoTo (InstRef.inst m.insts1.length)
      = (rb.1.pushInst { ZInst.mkV ZOp.OP_GOTO_V 0 with
            target := some (InstRef.inst m.insts1.length), target_slot := 1,
            op_type := ZAMOpType.OP_V_I1 },
         { stmt_num := (rb.1.insts1.length : Int) }) := by
    unfold ZAM.GoTo
    exact AddInst_clean _ _ c6
  generalize hgo : ({ ZInst.mkV ZOp.OP_GOTO_V 0 with
      target := some (InstRef.inst m.insts1.length), target_slot := 1,
      op_type := ZAMOpType.OP_V_I1 } : ZInst) = goto at e3 ⊢
  have e4 : (rb.1.pushInst goto).AddInst (ZInst.mkV ZOp.OP_END_LOOP_V info_slot)
      = ((rb.1.pushInst goto).pushInst (ZInst.mkV ZOp.OP_END_LOOP_V info_slot),
         { stmt_num := ((rb.1.pushInst goto).insts1.length : Int) }) :=
    AddInst_clean _ _ c6
  have hi4 : ((rb.1.pushInst goto).pushInst (ZInst.mkV ZOp.OP_END_LOOP_V info_slot)).insts1
      = m.insts1 ++ [iter_stmt] ++ added ++ [goto]
          ++ [ZInst.mkV ZOp.OP_END_LOOP_V info_slot] := by
    show rb.1.insts1 ++ [goto] ++ [ZInst.mkV ZOp.OP_END_LOOP_V info_slot] = _
    rw [c2]
  have hn4 : ((rb.1.pushInst goto).pushInst (ZInst.mkV ZOp.OP_END_LOOP_V info_slot)).nexts
      = N ++ [n0 ++ nx] := c3
  have hb4 : ((rb.1.pushInst goto).pushInst (ZInst.mkV ZOp.OP_END_LOOP_V info_slot)).breaks
      = B ++ [b0 ++ bs] := c4
  have hl3 : ((rb.1.pushInst goto).insts1.length : Int) = ((m.insts1.length + k + 2 : Nat) : Int) := by
    show ((rb.1.insts1 ++ [goto]).length : Int) = _
    rw [List.length_append, hlen2]
    simp
    omega
  generalize (rb.1.pushInst goto).pushInst (ZInst.mkV ZOp.OP_END_LOOP_V info_slot) = m4
    at e4 hi4 hn4 hb4
  have hlen4 : m4.insts1.length = m.insts1.length + k + 3 := by
    rw [hi4, (loop_parts m.insts1 iter_stmt added goto
      (ZInst.mkV ZOp.OP_END_LOOP_V info_slot)).2.2.2.2, c1]
  have e5 : m4.GoToTarget { stmt_num := ((rb.1.pushInst goto).insts1.length : Int) }
      = some (InstRef.inst (m.insts1.length + k + 2)) := by
    unfold ZAM.GoToTarget
    simp only [hl3]
    rw [if_pos ⟨by omega, by omega⟩]
    simp
    omega
  obtain ⟨p1, p2, p3, p4, p5⟩ := loop_parts m.insts1 iter_stmt added goto
    (ZInst.mkV ZOp.OP_END_LOOP_V info_slot)
  rw [← hi4] at p1 p2 p3 p4 p5
  rw [c1] at p2 p3 p4 p5
  have hiL : m4.insts1[m.insts1.length]? = some iter_stmt := p1
  obtain ⟨iter1, f1, f2, f3, f4⟩ := SetV23_ok m4 m.insts1.length iter_stmt
    (InstRef.inst (m.insts1.length + k + 2)) (iter_stmt.op_type = ZAMOpType.OP_VVV_I3) hiL
    htarget
  have e6 : ({ m4 with insts1 := m4.insts1.set m.insts1.length iter1 } : ZAM).GoToTarget
      iter_head = some (InstRef.inst m.insts1.length) := by
    unfold ZAM.GoToTarget
    simp only [List.length_set]
    rw [hhead, if_pos ⟨by omega, by omega⟩]
    simp
  have hvn : ∀ g ∈ n0 ++ nx, 0 ≤ g
      ∧ g < (({ m4 with insts1 := m4.insts1.set m.insts1.length iter1 } : ZAM).insts1.length
          : Int) := by
    intro g hg
    simp only [List.length_set, hlen4]
    rcases List.mem_append.1 hg with h | h
    · have := hold g (List.mem_append_left _ h)
      omega
    · have := c5 g (List.mem_append_left _ h)
      omega
  obtain ⟨m6, g1, g2, g3, g4, g5, g6⟩ := ResolveNexts_ok
    { m4 with insts1 := m4.insts1.set m.insts1.length iter1 } (InstRef.inst m.insts1.length)
    N (n0 ++ nx) hn4 hvn
  simp only [List.length_set] at g2
  have e7 : m6.GoToTarget { stmt_num := ((rb.1.pushInst goto).insts1.length : Int) }
      = some (InstRef.inst (m.insts1.length + k + 2)) := by
    unfold ZAM.GoToTarget
    simp only [hl3, g2]
    rw [if_pos ⟨by omega, by omega⟩]
    simp
    omega
  have hvb : ∀ g ∈ b0 ++ bs, 0 ≤ g ∧ g < (m6.insts1.length : Int) := by
    intro g hg
    rw [g2, hlen4]
    rcases List.mem_append.1 hg with h | h
    · have := hold g (List.mem_append_right _ h)
      omega
    · have := c5 g (List.mem_append_right _ h)
      omega
  obtain ⟨m7, h1, h2, h3, h4, h5, h6⟩ := ResolveBreaks_ok m6
    (InstRef.inst (m.insts1.length + k + 2)) B (b0 ++ bs) (g6.trans hb4) hvb
  have hkeep : ∀ p : Nat, p = m.insts1.length ∨ m.insts1.length + k < p →
      m7.insts1[p]? = (m4.insts1.set m.insts1.length iter1)[p]? := by
    intro p hp
    rw [h3 p, g3 p]
    · intro g hg
      rcases List.mem_append.1 hg with h | h
      · have := hold g (List.mem_append_left _ h)
        omega
      · have := c5 g (List.mem_append_left _ h)
        omega
    · intro g hg
      rcases List.mem_append.1 hg with h | h
      · have := hold g (List.mem_append_right _ h)
        omega
      · have := c5 g (List.mem_append_right _ h)
        omega
  refine ⟨(m7, { stmt_num := ((rb.1.pushInst goto).insts1.length : Int) }), iter1, ?_,
    ?_, ?_, f2, f3, f4, ?_, ?_, ?_, hl3, h5.trans g5, h6⟩
  · unfold ZAM.FinishLoop
    simp only [e1, hrun, e2, e3, e4, e5, f1, e6, g1, e7, h1]
  · show m7.insts1.length = _
    rw [h2, g2, hlen4]
  · show m7.insts1[m.insts1.length]? = _
    rw [hkeep _ (Or.inl rfl), List.getElem?_set_self (by omega)]
  · intro j hj
    have hz : rb.1.insts1[m.insts1.length + 1 + j]? = added[j]? := by
      rw [c2, List.append_assoc, List.getElem?_append_right (by omega)]
      have : m.insts1.length + 1 + j - m.insts1.length = j + 1 := by omega
      rw [this]
      simp
    have hz4 : (m4.insts1.set m.insts1.length iter1)[m.insts1.length + 1 + j]?
        = added[j]? := by
      rw [List.getElem?_set_ne (by omega)]
      exact p2 j hj
    rw [List.getElem?_eq_getElem (show j < added.length by omega)] at hz hz4
    obtain ⟨z6, q1, q2⟩ := g4 _ _ hz4
    obtain ⟨z7, q3, q4⟩ := h4 _ _ q1
    exact ⟨_, z7, hz, q3, q4.trans q2⟩
  · show m7.insts1[m.insts1.length + k + 1]? = _
    rw [hkeep _ (Or.inr (by omega)), List.getElem?_set_ne (by omega)]
    exact p3
  · show m7.insts1[m.insts1.length + k + 2]? = _
    rw [hkeep _ (Or.inr (by omega)), List.getElem?_set_ne (by omega)]
    exact p4

theorem simpleStmt_contract (code : Nat) : loopBodyContract (simpleStmt code) 1 := by
  intro m r N B n0 b0 hmd hN hB h
  simp only [simpleStmt, Option.some.injEq] at h
  rw [AddInst_clean m _ hmd] at h
  rw [← h]
  refine ⟨[ZInst.mkV (ZOp.OP_other code) 2], [], [], rfl, rfl, ?_, ?_, by simp, hmd⟩
  · show m.nexts = _
    rw [hN]; simp
  · show m.breaks = _
    rw [hB]; simp

/-- Witness for C33: `FinishLoop` for `for ( y in n ) print y;` in the state `loopExample`
meets the hypotheses, with a body of one instruction. -/
theorem FinishLoop_layout_witness :
    ∃ (r : ZAM × CompiledStmt) (iter1 : ZInst),
      loopExample.FinishLoop loopExample.StartingBlock iterExample (simpleStmt 5) 4 = some r
      ∧ r.1.insts1.length = loopExample.insts1.length + 1 + 3
      ∧ r.1.insts1[loopExample.insts1.length]? = some iter1
      ∧ iter1.op = iterExample.op
      ∧ iter1.target = some (InstRef.inst (loopExample.insts1.length + 1 + 2))
      ∧ iter1.target_slot = (if iterExample.op_type = ZAMOpType.OP_VVV_I3 then 3 else 2)
      ∧ (∀ j, j < 1 → ∃ z z1,
          ((simpleStmt 5 (loopExample.AddInst iterExample).1).getD
            (loopExample, { stmt_num := 0 })).1.insts1[loopExample.insts1.length + 1 + j]?
            = some z
          ∧ r.1.insts1[loopExample.insts1.length + 1 + j]? = some z1 ∧ z1.op = z.op)
      ∧ r.1.insts1[loopExample.insts1.length + 1 + 1]?
          = some { ZInst.mkV ZOp.OP_GOTO_V 0 with
                   target := some (InstRef.inst loopExample.insts1.length), target_slot := 1,
                   op_type := ZAMOpType.OP_V_I1 }
      ∧ r.1.insts1[loopExample.insts1.length + 1 + 2]? = some (ZInst.mkV ZOp.OP_END_LOOP_V 4)
      ∧ r.2.stmt_num = ((loopExample.insts1.length + 1 + 2 : Nat) : Int)
      ∧ r.1.nexts = [] ∧ r.1.breaks = [] :=
  FinishLoop_layout loopExample loopExample.StartingBlock iterExample (simpleStmt 5) 4 1
    [] [] [] []
    ((simpleStmt 5 (loopExample.AddInst iterExample).1).getD (loopExample, { stmt_num := 0 }))
    rfl (by decide) rfl rfl (fun g hg => by cases hg) rfl (simpleStmt_contract 5) rfl

/-! ## The jump table of a value switch -/

theorem backWhileDeep_spec (m : ZAM) (depth : Int) (n : Nat) :
    (0 ≤ m.backWhileDeep depth n → ¬ m.depthAt (m.backWhileDeep depth n).toNat ≥ depth)
    ∧ ∀ q : Nat, m.backWhileDeep depth n < (q : Int) → q ≤ n → m.depthAt q ≥ depth := by
  induction n with
  | zero =>
    unfold ZAM.backWhileDeep
    split
    · rename_i h
      refine ⟨fun h0 => absurd h0 (by decide), ?_⟩
      intro q _ hq
      have : q = 0 := by omega
      subst this
      exact h
    · rename_i h
      refine ⟨fun _ => by simpa using h, ?_⟩
      intro q h1 h2
      omega
  | succ n ih =>
    unfold ZAM.backWhileDeep
    split
    · rename_i h
      refine ⟨ih.1, ?_⟩
      intro q h1 h2
      rcases Nat.lt_or_ge q (n + 1) with h3 | h3
      · exact ih.2 q h1 (by omega)
      · have : q = n + 1 := by omega
        subst this
        exact h
    · rename_i h
      refine ⟨fun _ => by simpa using h, ?_⟩
      intro q h1 h2
      omega

theorem upToLive_spec (m : ZAM) (stop fuel i : Nat) (h : i ≤ stop) (hf : stop - i ≤ fuel) :
    i ≤ m.upToLive stop fuel i ∧ m.upToLive stop fuel i ≤ stop
    ∧ (m.upToLive stop fuel i = stop ∨ m.liveAt (m.upToLive stop fuel i) = true)
    ∧ ∀ q, i ≤ q → q < m.upToLive stop fuel i → m.liveAt q = false := by
  induction fuel generalizing i with
  | zero =>
    unfold ZAM.upToLive
    refine ⟨le_refl _, h, Or.inl (by omega), ?_⟩
    intro q h1 h2
    omega
  | succ fuel ih =>
    unfold ZAM.upToLive
    split
    · rename_i hc
      obtain ⟨a1, a2, a3, a4⟩ := ih (i + 1) (by omega) (by omega)
      refine ⟨by omega, a2, a3, ?_⟩
      intro q h1 h2
      rcases Nat.lt_or_ge i q with h3 | h3
      · exact a4 q h3 h2
      · have : q = i := by omega
        subst this
        exact hc.2
    · rename_i hc
      refine ⟨le_refl _, h, ?_, ?_⟩
      · by_cases e : i = stop
        · exact Or.inl e
        · right
          by_contra hl
          exact hc ⟨e, by simpa using hl⟩
      · intro q h1 h2
        omega

/-- The beginning of the loop around an instruction is not after the beginning of the loop
around a later one. -/
theorem BeginningOfLoop_mono (m : ZAM) (depth : Int) (p p1 : Nat)
    (hp : m.numAt p = (p : Int)) (hp1 : m.numAt p1 = (p1 : Int)) (hle : p ≤ p1) :
    m.BeginningOfLoop p depth ≤ m.BeginningOfLoop p1 depth := by
  have hB := BeginningOfLoop_le m p depth hp
  obtain ⟨b1, b2⟩ := backWhileDeep_bounds m depth p
  obtain ⟨b3, b4⟩ := backWhileDeep_bounds m depth p1
  obtain ⟨s1, s2⟩ := backWhileDeep_spec m depth p
  obtain ⟨s3, s4⟩ := backWhileDeep_spec m depth p1
  unfold ZAM.BeginningOfLoop at hB ⊢
  simp only [hp, hp1, Int.toNat_ofNat] at hB ⊢
  generalize m.backWhileDeep depth p = r at *
  generalize m.backWhileDeep depth p1 = r1 at *
  by_cases h1 : r1 = (p1 : Int)
  · rw [if_pos h1]
    exact le_trans hB hle
  · rw [if_neg h1]
    obtain ⟨u1, u2, u3, u4⟩ := upToLive_spec m p1 (p1 - (r1 + 1).toNat) (r1 + 1).toNat
      (by omega) (le_refl _)
    by_cases h2 : (p : Int) ≤ r1
    · have : p < (r1 + 1).toNat := by omega
      exact le_trans hB (by omega)
    · have hq : m.depthAt p ≥ depth := s4 p (by omega) hle
      have hrp : r ≠ (p : Int) := by
        intro e
        apply s1 (by omega)
        rw [e]
        simpa using hq
      have hrr : r = r1 := by
        rcases lt_trichotomy r r1 with h | h | h
        · exfalso
          have h5 := s2 r1.toNat (by omega) (by omega)
          exact s3 (by omega) h5
        · exact h
        · exfalso
          have h5 := s4 r.toNat (by omega) (by omega)
          exact s1 (by omega) h5
      subst hrr
      rw [if_neg hrp]
      obtain ⟨v1, v2, v3, v4⟩ := upToLive_spec m p (p - (r + 1).toNat) (r + 1).toNat
        (by omega) (le_refl _)
      by_contra hc
      have hc1 := Nat.lt_of_not_le hc
      have h6 := v4 _ u1 hc1
      rcases u3 with e | e
      · omega
      · rw [h6] at e
        cases e

theorem sameCode_BeginningOfLoop {m0 m : ZAM} (h : m0.sameCode m) (p : Nat) (d : Int) :
    m.BeginningOfLoop p d = m0.BeginningOfLoop p d := by
  have e : ∀ k, m.liveAt k = m0.liveAt k := fun k => by unfold ZAM.liveAt; rw [h.1]
  have ed : ∀ k, m.depthAt k = m0.depthAt k := fun k => by unfold ZAM.depthAt; rw [h.1]
  have hb : ∀ n, m.backWhileDeep d n = m0.backWhileDeep d n := by
    intro n
    induction n with
    | zero =>
      unfold ZAM.backWhileDeep
      rw [ed]
    | succ n ih =>
      unfold ZAM.backWhileDeep
      rw [ed, ih]
  have hu : ∀ stop fuel i, m.upToLive stop fuel i = m0.upToLive stop fuel i := by
    intro stop fuel
    induction fuel with
    | zero => intro i; rfl
    | succ f ih =>
      intro i
      unfold ZAM.upToLive
      rw [e, ih]
  unfold ZAM.BeginningOfLoop
  simp only
  rw [sameCode_numAt h, hb, hu]

theorem sameCode_lifetimeStart {m0 m : ZAM} (h : m0.sameCode m) (an : Analyses) (s : Int)
    (p : Nat) : m.lifetimeStart an s p = m0.lifetimeStart an s p := by
  unfold ZAM.lifetimeStart ZAM.denizen
  rw [sameCode_BeginningOfLoop h, h.2.1]

/-- The lifetime that an assignment begins does not begin after the instruction, and not
after the lifetime that a later assignment would begin. -/
theorem lifetimeStart_mono (m : ZAM) (an : Analyses) (s : Int) (p p1 : Nat)
    (hp : m.numAt p = (p : Int)) (hp1 : m.numAt p1 = (p1 : Int)) (hle : p ≤ p1) :
    m.lifetimeStart an s p ≤ p ∧ m.lifetimeStart an s p ≤ m.lifetimeStart an s p1 := by
  unfold ZAM.lifetimeStart
  split
  · exact ⟨BeginningOfLoop_le m p 1 hp, BeginningOfLoop_mono m 1 p p1 hp hp1 hle⟩
  · exact ⟨le_refl _, hle⟩

theorem beginsVia_refl (m : ZAM) (an : Analyses) (p : Nat) : m.beginsVia m an p :=
  fun _ _ h => Or.inl h

theorem beginsVia_of_same {m0 m : ZAM} (an : Analyses) (p : Nat) (h : m0.sameBeginnings m) :
    m0.beginsVia m an p := by
  intro s b hb
  rw [h.1] at hb
  exact Or.inl hb

theorem beginsVia_trans {m0 m1 m2 : ZAM} (an : Analyses) (p : Nat) (hc : m0.sameCode m1)
    (h1 : m0.beginsVia m1 an p) (h2 : m1.beginsVia m2 an p) : m0.beginsVia m2 an p := by
  intro s b hb
  rcases h2 s b hb with h | h
  · exact h1 s b h
  · rw [sameCode_lifetimeStart hc] at h
    exact Or.inr h

theorem CheckSlotAssignment_beginsVia (m : ZAM) (an : Analyses) (slot : Int) (p : Nat) :
    m.beginsVia (m.CheckSlotAssignment an slot p) an p := by
  intro s b hb
  unfold ZAM.CheckSlotAssignment ZAM.SetLifetimeStart at hb
  simp only at hb
  cases h0 : m.denizen_beginning slot with
  | some b0 =>
    rw [h0] at hb
    exact Or.inl hb
  | none =>
    rw [h0] at hb
    simp only at hb
    by_cases e : s = slot
    · subst e
      simp only [if_true, Option.some.injEq] at hb
      right
      rw [← hb]
      rfl
    · simp only [e, if_false] at hb
      exact Or.inl hb

theorem iterVarLifetimes_beginsVia (an : Analyses) (p : Nat) (depth : Int) (vs : List Int)
    (m : ZAM) : m.beginsVia (m.iterVarLifetimes an p depth vs) an p := by
  induction vs generalizing m with
  | nil => exact beginsVia_refl m an p
  | cons v rest ih =>
    unfold ZAM.iterVarLifetimes
    simp only
    have h1 := CheckSlotAssignment_beginsVia m an v p
    have c1 := (CheckSlotAssignment_extends m an v p).1
    obtain ⟨c2, h2⟩ := ExtendLifetime_same (m.CheckSlotAssignment an v p) an v
      ((m.CheckSlotAssignment an v p).EndOfLoop p depth)
    have h12 := beginsVia_trans an p c1 h1 (beginsVia_of_same an p h2)
    exact beginsVia_trans an p (sameCode_trans c1 c2) h12 (ih _)

/-- One round of the loop of `ComputeFrameLifetimes` begins lifetimes only as
`CheckSlotAssignment` does for the instruction of the round. -/
theorem lifetimesAt_beginsVia (m : ZAM) (zm : ZInstMethods) (an : Analyses) (i : Nat) :
    m.beginsVia (m.lifetimesAt zm an i) an i := by
  unfold ZAM.lifetimesAt
  cases hi : m.insts1[i]? with
  | none => exact beginsVia_refl m an i
  | some inst =>
    simp only
    split
    · exact beginsVia_refl m an i
    · have h1 : m.sameCode
          (if zm.AssignsToSlot1 inst = true then m.CheckSlotAssignment an inst.v1 i else m)
          ∧ m.beginsVia
          (if zm.AssignsToSlot1 inst = true then m.CheckSlotAssignment an inst.v1 i else m)
            an i := by
        split
        · exact ⟨(CheckSlotAssignment_extends m an _ _).1,
            CheckSlotAssignment_beginsVia m an _ _⟩
        · exact ⟨sameCode_refl m, beginsVia_refl m an i⟩
      generalize (if zm.AssignsToSlot1 inst = true then m.CheckSlotAssignment an inst.v1 i
        else m) = m1 at h1
      have fin : ∀ m2 : ZAM, m1.sameCode m2 → m1.beginsVia m2 an i →
          m.beginsVia (m2.usedSlotLifetimes zm an inst i) an i := by
        intro m2 c2 b2
        obtain ⟨c3, b3⟩ := usedSlotLifetimes_same m2 zm an inst i
        exact beginsVia_trans an i (sameCode_trans h1.1 c2)
          (beginsVia_trans an i h1.1 h1.2 b2) (beginsVia_of_same an i b3)
      split
      · have c2 := (iterVarLifetimes_extends an i inst.loop_depth inst.loop_vars m1).1.1
        have b2 := iterVarLifetimes_beginsVia an i inst.loop_depth inst.loop_vars m1
        split
        · obtain ⟨c3, b3⟩ := ExtendLifetime_same
            (m1.iterVarLifetimes an i inst.loop_depth inst.loop_vars) an inst.v1
            ((m1.iterVarLifetimes an i inst.loop_depth inst.loop_vars).EndOfLoop i
              inst.loop_depth)
          exact fin _ (sameCode_trans c2 c3)
            (beginsVia_trans an i c2 b2 (beginsVia_of_same an i b3))
        · exact fin _ c2 b2
      · split
        · obtain ⟨c2, b2⟩ := syncGlobalLifetimes_same an i (an.setOrder m1.modified_globals) m1
          exact fin _ c2 (beginsVia_of_same an i b2)
        · split
          · obtain ⟨c2, b2⟩ := ExtendLifetime_same m1 an inst.v2
              (m1.EndOfLoop (i + 1) (m1.depthAt (i + 1)))
            exact beginsVia_trans an i h1.1 h1.2 (beginsVia_of_same an i b2)
          · cases inst.aux with
            | none => exact fin _ (sameCode_refl m1) (beginsVia_refl m1 an i)
            | some slots =>
              obtain ⟨c2, b2⟩ := auxLifetimes_same an i slots m1
              exact fin _ c2 (beginsVia_of_same an i b2)

theorem isSome_of_extend {m0 m : ZAM} (h : m0.lifetimesExtend m) :
    (∀ s, (m0.denizen_beginning s).isSome = true → (m.denizen_beginning s).isSome = true)
    ∧ (∀ s, (m0.denizen_ending s).isSome = true → (m.denizen_ending s).isSome = true) := by
  constructor
  · intro s hs
    cases hb : m0.denizen_beginning s with
    | none => rw [hb] at hs; cases hs
    | some b => rw [h.2.1 s b hb]; rfl
  · intro s hs
    cases hb : m0.denizen_ending s with
    | none => rw [hb] at hs; cases hs
    | some e =>
      obtain ⟨e1, he1, _⟩ := h.2.2 s e hb
      rw [he1]; rfl

theorem auxLifetimes_isSome (an : Analyses) (p : Nat) (slots : List Int) (m : ZAM) :
    ∀ s ∈ slots, 0 ≤ s → ((m.auxLifetimes an p slots).denizen_ending s).isSome = true := by
  induction slots generalizing m with
  | nil => intro s hs; cases hs
  | cons s0 rest ih =>
    intro s hs h0
    unfold ZAM.auxLifetimes
    simp only
    rcases List.mem_cons.1 hs with h1 | h1
    · subst h1
      rw [if_neg (by omega)]
      exact (isSome_of_extend (auxLifetimes_extends an p rest _)).2 s
        (ExtendLifetime_ending m an s _).2
    · exact ih _ s h1 h0

theorem syncGlobalLifetimes_isSome (an : Analyses) (p : Nat) (gs : List ID) (m : ZAM) :
    ∀ g ∈ gs, (m.denizen_beginning (m.layoutSlot g)).isSome = true →
      ((m.syncGlobalLifetimes an p gs).denizen_ending (m.layoutSlot g)).isSome = true := by
  induction gs generalizing m with
  | nil => intro g hg; cases hg
  | cons g0 rest ih =>
    intro g hg hb
    unfold ZAM.syncGlobalLifetimes
    simp only
    rcases List.mem_cons.1 hg with h1 | h1
    · subst h1
      rw [if_pos hb]
      exact (isSome_of_extend (syncGlobalLifetimes_extends an p rest _)).2 _
        (ExtendLifetime_ending m an _ _).2
    · have c : m.sameCode
          (if (m.denizen_beginning (m.layoutSlot g0)).isSome = true then
            m.ExtendLifetime an (m.layoutSlot g0) (m.EndOfLoop p 1) else m)
          ∧ m.sameBeginnings
          (if (m.denizen_beginning (m.layoutSlot g0)).isSome = true then
            m.ExtendLifetime an (m.layoutSlot g0) (m.EndOfLoop p 1) else m) := by
        split
        · exact ExtendLifetime_same m an _ _
        · exact ⟨sameCode_refl m, sameBeginnings_refl m⟩
      generalize (if (m.denizen_beginning (m.layoutSlot g0)).isSome = true then
        m.ExtendLifetime an (m.layoutSlot g0) (m.EndOfLoop p 1) else m) = m1 at c
      have := ih m1 g h1 (by rw [sameCode_layoutSlot c.1, c.2.1]; exact hb)
      rw [sameCode_layoutSlot c.1] at this
      exact this

theorem iterVarLifetimes_isSome (an : Analyses) (p : Nat) (depth : Int) (vs : List Int)
    (m : ZAM) : ∀ v ∈ vs,
      ((m.iterVarLifetimes an p depth vs).denizen_beginning v).isSome = true
      ∧ ((m.iterVarLifetimes an p depth vs).denizen_ending v).isSome = true := by
  intro v hv
  obtain ⟨h1, e, h2, _⟩ := (iterVarLifetimes_extends an p depth vs m).2 v hv
  exact ⟨h1, by rw [h2]; rfl⟩

/-- What one round of the loop of `ComputeFrameLifetimes` records for a live instruction:
every slot that the instruction assigns has a beginning, and every slot that it uses has an
ending. -/
theorem lifetimesAt_records (m : ZAM) (zm : ZInstMethods) (an : Analyses)
    (hperm : ∀ x, (an.setOrder x).Perm x) (i : Nat) (inst : ZInst)
    (hi : m.insts1[i]? = some inst) (hl : inst.live = true) :
    (∀ s, zm.assignsSlot inst s →
      ((m.lifetimesAt zm an i).denizen_beginning s).isSome = true)
    ∧ (¬ inst.op.isInitLoop → ∀ s ∈ zm.usedSlots inst, 0 ≤ s →
        ((m.lifetimesAt zm an i).denizen_ending s).isSome = true)
    ∧ (inst.op.isInitLoop → ((m.lifetimesAt zm an i).denizen_ending inst.v2).isSome = true)
    ∧ (inst.op.isTableIter → ∀ s,
        s ∈ inst.loop_vars ∨ (inst.op = ZOp.OP_NEXT_TABLE_ITER_VAL_VAR_VVV ∧ inst.v1 = s) →
        ((m.lifetimesAt zm an i).denizen_ending s).isSome = true)
    ∧ (¬ inst.op.isTableIter → inst.op ≠ ZOp.OP_SYNC_GLOBALS_X → ¬ inst.op.isInitLoop →
        ∀ slots, inst.aux = some slots → ∀ s ∈ slots, 0 ≤ s →
        ((m.lifetimesAt zm an i).denizen_ending s).isSome = true)
    ∧ (inst.op = ZOp.OP_SYNC_GLOBALS_X → ∀ g ∈ m.modified_globals,
        (m.denizen_beginning (m.layoutSlot g)).isSome = true
          ∨ zm.assignsSlot inst (m.layoutSlot g) →
        ((m.lifetimesAt zm an i).denizen_ending (m.layoutSlot g)).isSome = true) := by
  unfold ZAM.lifetimesAt
  simp only [hi]
  rw [if_neg (by rw [hl]; simp)]
  have h1 : m.lifetimesExtend
      (if zm.AssignsToSlot1 inst = true then m.CheckSlotAssignment an inst.v1 i else m)
      ∧ (zm.AssignsToSlot1 inst = true →
        ((if zm.AssignsToSlot1 inst = true then m.CheckSlotAssignment an inst.v1 i
          else m).denizen_beginning inst.v1).isSome = true) := by
    split
    · exact ⟨CheckSlotAssignment_extends m an _ _, fun _ => CheckSlotAssignment_begins m an _ _⟩
    · rename_i hn
      exact ⟨lifetimesExtend_refl m, fun h => absurd h hn⟩
  generalize (if zm.AssignsToSlot1 inst = true then m.CheckSlotAssignment an inst.v1 i
    else m) = m1 at h1
  obtain ⟨x1, x2⟩ := h1
  by_cases hiter : inst.op = ZOp.OP_NEXT_TABLE_ITER_VV
      ∨ inst.op = ZOp.OP_NEXT_TABLE_ITER_VAL_VAR_VVV
  · rw [if_pos hiter]
    have hninit : ¬ inst.op.isInitLoop := by
      intro h
      rcases hiter with e | e <;> rw [e] at h <;> rcases h with h | h | h <;> cases h
    have hnsync : inst.op ≠ ZOp.OP_SYNC_GLOBALS_X := by
      intro h
      rcases hiter with e | e <;> rw [e] at h <;> cases h
    obtain ⟨y1, y2⟩ := iterVarLifetimes_extends an i inst.loop_depth inst.loop_vars m1
    have y3 := iterVarLifetimes_isSome an i inst.loop_depth inst.loop_vars m1
    generalize m1.iterVarLifetimes an i inst.loop_depth inst.loop_vars = m2 at y1 y2 y3
    have z1 : m2.lifetimesExtend
        (if inst.op = ZOp.OP_NEXT_TABLE_ITER_VAL_VAR_VVV then
          m2.ExtendLifetime an inst.v1 (m2.EndOfLoop i inst.loop_depth) else m2)
        ∧ (inst.op = ZOp.OP_NEXT_TABLE_ITER_VAL_VAR_VVV →
          ((if inst.op = ZOp.OP_NEXT_TABLE_ITER_VAL_VAR_VVV then
            m2.ExtendLifetime an inst.v1 (m2.EndOfLoop i inst.loop_depth)
              else m2).denizen_ending inst.v1).isSome = true) := by
      split
      · exact ⟨(ExtendLifetime_extends m2 an _ _).1, fun _ => (ExtendLifetime_ending m2 an _ _).2⟩
      · rename_i hn
        exact ⟨lifetimesExtend_refl m2, fun h => absurd h hn⟩
    generalize (if inst.op = ZOp.OP_NEXT_TABLE_ITER_VAL_VAR_VVV then
      m2.ExtendLifetime an inst.v1 (m2.EndOfLoop i inst.loop_depth) else m2) = m3 at z1
    obtain ⟨z2, z3⟩ := z1
    have w1 := usedSlotLifetimes_extends m3 zm an inst i
    obtain ⟨_, w2⟩ := usedSlotLifetimes_stepOK 0 m3 zm an inst i
    have g3 := isSome_of_extend w1
    have g2 := isSome_of_extend z2
    have g1 := isSome_of_extend y1
    refine ⟨?_, fun _ => w2, fun h => absurd h hninit, ?_, fun h => absurd hiter h,
      fun h => absurd h hnsync⟩
    · intro s hs
      rcases hs with ⟨a1, a2⟩ | ⟨_, a2⟩
      · rw [← a2]
        exact g3.1 _ (g2.1 _ (g1.1 _ (x2 a1)))
      · exact g3.1 _ (g2.1 _ (y3 s a2).1)
    · intro _ s hs
      rcases hs with a2 | ⟨a1, a2⟩
      · exact g3.2 _ (g2.2 _ (y3 s a2).2)
      · rw [← a2]
        exact g3.2 _ (z3 a1)
  · rw [if_neg hiter]
    have assign : ∀ m2 : ZAM, m1.lifetimesExtend m2 → ∀ s, zm.assignsSlot inst s →
        (m2.denizen_beginning s).isSome = true := by
      intro m2 h2 s hs
      rcases hs with ⟨a1, a2⟩ | ⟨a1, _⟩
      · rw [← a2]
        exact (isSome_of_extend h2).1 _ (x2 a1)
      · exact absurd a1 hiter
    by_cases hsync : inst.op = ZOp.OP_SYNC_GLOBALS_X
    · rw [if_pos hsync]
      have hninit : ¬ inst.op.isInitLoop := by
        intro h
        rw [hsync] at h
        rcases h with h | h | h <;> cases h
      have y1 := syncGlobalLifetimes_extends an i (an.setOrder m1.modified_globals) m1
      have y2 := syncGlobalLifetimes_isSome an i (an.setOrder m1.modified_globals) m1
      generalize m1.syncGlobalLifetimes an i (an.setOrder m1.modified_globals) = m2 at y1 y2
      have w1 := usedSlotLifetimes_extends m2 zm an inst i
      obtain ⟨_, w2⟩ := usedSlotLifetimes_stepOK 0 m2 zm an inst i
      refine ⟨assign _ (lifetimesExtend_trans y1 w1), fun _ => w2, fun h => absurd h hninit,
        fun h => absurd h hiter, fun _ h => absurd hsync h, ?_⟩
      intro _ g hg hb
      have hg1 : g ∈ an.setOrder m1.modified_globals := by
        rw [(hperm _).mem_iff, x1.1.2.2.2.1]
        exact hg
      have hb1 : (m1.denizen_beginning (m1.layoutSlot g)).isSome = true := by
        rw [sameCode_layoutSlot x1.1]
        rcases hb with h | h
        · exact (isSome_of_extend x1).1 _ h
        · rcases h with ⟨a1, a2⟩ | ⟨a1, _⟩
          · rw [← a2]
            exact x2 a1
          · exact absurd a1 hiter
      have := y2 g hg1 hb1
      rw [sameCode_layoutSlot x1.1] at this
      exact (isSome_of_extend w1).2 _ this
    · rw [if_neg hsync]
      by_cases hinit : inst.op = ZOp.OP_INIT_TABLE_LOOP_VVC
          ∨ inst.op = ZOp.OP_INIT_VECTOR_LOOP_VV ∨ inst.op = ZOp.OP_INIT_STRING_LOOP_VV
      · rw [if_pos hinit]
        refine ⟨assign _ (ExtendLifetime_extends m1 an _ _).1, fun h => absurd hinit h,
          fun _ => (ExtendLifetime_ending m1 an _ _).2, fun h => absurd h hiter,
          fun _ _ h => absurd hinit h, fun h => absurd h hsync⟩
      · rw [if_neg hinit]
        cases haux : inst.aux with
        | none =>
          dsimp only
          have w1 := usedSlotLifetimes_extends m1 zm an inst i
          obtain ⟨_, w2⟩ := usedSlotLifetimes_stepOK 0 m1 zm an inst i
          refine ⟨assign _ w1, fun _ => w2, fun h => absurd h hinit, fun h => absurd h hiter,
            ?_, fun h => absurd h hsync⟩
          intro _ _ _ slots hs
          cases hs
        | some sl =>
          dsimp only
          have y1 := auxLifetimes_extends an i sl m1
          have y2 := auxLifetimes_isSome an i sl m1
          generalize m1.auxLifetimes an i sl = m2 at y1 y2
          have w1 := usedSlotLifetimes_extends m2 zm an inst i
          obtain ⟨_, w2⟩ := usedSlotLifetimes_stepOK 0 m2 zm an inst i
          refine ⟨assign _ (lifetimesExtend_trans y1 w1), fun _ => w2,
            fun h => absurd h hinit, fun h => absurd h hiter, ?_, fun h => absurd h hsync⟩
          intro _ _ _ slots hs s hm h0
          cases hs
          exact (isSome_of_extend w1).2 _ (y2 s hm h0)

/-- The state of `ComputeFrameLifetimes` when its loop reaches the position `k`: a recorded
beginning is not after the lifetime that an assignment at `k` or later begins; every slot
that a live instruction before `k` assigns has a beginning, not after the lifetime that the
assignment begins; and every slot that a live instruction before `k` uses has an ending. -/
theorem lifetimesBefore_wide (m : ZAM) (zm : ZInstMethods) (an : Analyses)
    (hperm : ∀ x, (an.setOrder x).Perm x) (hnum : m.numbered) (k : Nat) :
    (∀ s b, (m.lifetimesBefore zm an k).denizen_beginning s = some b →
        ∀ j, k ≤ j → j < m.insts1.length → b ≤ m.lifetimeStart an s j)
    ∧ (∀ i0 a, i0 < k → m.insts1[i0]? = some a → a.live = true → ∀ s, zm.assignsSlot a s →
        ∃ b, (m.lifetimesBefore zm an k).denizen_beginning s = some b
          ∧ b ≤ m.lifetimeStart an s i0)
    ∧ (∀ i1 r, i1 < k → m.insts1[i1]? = some r → r.live = true → ∀ s, m.usedAt zm s i1 r →
        ((m.lifetimesBefore zm an k).denizen_ending s).isSome = true) := by
  induction k with
  | zero =>
    refine ⟨?_, ?_, ?_⟩
    · intro s b h
      simp [ZAM.lifetimesBefore, ZAM.clearLifetimes] at h
    · intro i0 a h
      omega
    · intro i1 r h
      omega
  | succ k ih =>
    obtain ⟨p1, p2, p3⟩ := ih
    have hsc := lifetimesBefore_sameCode m zm an k
    have hext := lifetimesAt_extends (m.lifetimesBefore zm an k) zm an k
    have hvia := lifetimesAt_beginsVia (m.lifetimesBefore zm an k) zm an k
    have hg := isSome_of_extend hext
    rw [lifetimesBefore_succ]
    generalize m.lifetimesBefore zm an k = mk at p1 p2 p3 hsc hext hvia hg
    have q1 : ∀ s b, (mk.lifetimesAt zm an k).denizen_beginning s = some b →
        ∀ j, k ≤ j → j < m.insts1.length → b ≤ m.lifetimeStart an s j := by
      intro s b hb j hj hlen
      rcases hvia s b hb with h | h
      · exact p1 s b h j hj hlen
      · rw [h, sameCode_lifetimeStart hsc]
        exact (lifetimeStart_mono m an s k j (numAt_of_numbered m hnum k (by omega))
          (numAt_of_numbered m hnum j hlen) hj).2
    refine ⟨fun s b hb j hj hlen => q1 s b hb j (by omega) hlen, ?_, ?_⟩
    · intro i0 a hi0 ha hl s hs
      rcases Nat.lt_or_ge i0 k with h | h
      · obtain ⟨b, hb, hle⟩ := p2 i0 a h ha hl s hs
        exact ⟨b, hext.2.1 s b hb, hle⟩
      · have hik : i0 = k := by omega
        subst hik
        have hlen : i0 < m.insts1.length := by
          rcases Nat.lt_or_ge i0 m.insts1.length with h1 | h1
          · exact h1
          · rw [List.getElem?_eq_none h1] at ha
            cases ha
        have hsome := (lifetimesAt_records mk zm an hperm i0 a (by rw [hsc.1]; exact ha) hl).1
          s hs
        cases hb : (mk.lifetimesAt zm an i0).denizen_beginning s with
        | none => rw [hb] at hsome; cases hsome
        | some b => exact ⟨b, rfl, q1 s b hb i0 (le_refl _) hlen⟩
    · intro i1 r hi1 hr hl s hs
      rcases Nat.lt_or_ge i1 k with h | h
      · exact hg.2 s (p3 i1 r h hr hl s hs)
      · have hik : i1 = k := by omega
        subst hik
        obtain ⟨_, r2, r3, r4, r5, r6⟩ :=
          lifetimesAt_records mk zm an hperm i1 r (by rw [hsc.1]; exact hr) hl
        rcases hs with ⟨a1, a2, a3⟩ | ⟨a1, a2, _⟩ | ⟨a1, a2⟩ | ⟨a1, a2, a3, sl, a4, a5, a6⟩
            | ⟨a1, ⟨g, a2, a3⟩, i0, a, a4, a5, a6, a7⟩
        · exact r2 a1 s a2 a3
        · rw [← a2]
          exact r3 a1
        · exact r4 a1 s a2
        · exact r5 a1 a2 a3 sl a4 s a5 a6
        · have := r6 a1 g (by rw [hsc.2.2.2.1]; exact a2) (by
            rw [sameCode_layoutSlot hsc, a3]
            rcases Nat.lt_or_ge i0 i1 with h1 | h1
            · obtain ⟨b, hb, _⟩ := p2 i0 a h1 a5 a6 s a7
              left
              rw [hb]; rfl
            · have e : i0 = i1 := by omega
              subst e
              rw [hr] at a5
              cases a5
              exact Or.inr a7)
          rw [sameCode_layoutSlot hsc, a3] at this
          exact this

/-- C3, as the code has it: after `ComputeFrameLifetimes` and `ReMapFrame`, run on a numbered
instruction list whose assigned slots are slots of a consistent frame layout, every slot that
some live instruction assigns, with a lifetime that begins at or before the position `i`, and
that some live instruction uses is covered at `i`: `frame1_to_frame2` maps it to a
post-optimization slot (a value >= 0) whose `ids` list holds the slot's identifier with an
`id_start` not after `i`.  An assignment is one to the first operand or to a loop variable of
a table iteration; a use is one that `UsesSlots` reports, one of an auxiliary slot, of the
aggregate that a loop runs over, of a loop variable or of the value variable of a table
iteration, or that of a modified global at an `OP_SYNC_GLOBALS_X`.  So a live instruction that
assigns a slot finds it covered when the value is used somewhere, and a live instruction that
reads a slot finds it covered when the slot is assigned at or before it, or later in a loop
around it for a slot that is not a temporary. -/
theorem ReMapFrame_covers_live_slots (m : ZAM) (zm : ZInstMethods) (an : Analyses)
    (hperm : ∀ x, (an.setOrder x).Perm x) (hnum : m.numbered) (hc : m.frameConsistent)
    (hvalid : m.assignedSlotsValid zm) (h0 : m.shared_frame_denizens = []) :
    ∀ (s : Int) (i : Nat), m.assignedBy zm an s i → m.usedSomewhere zm s →
      ((m.ComputeFrameLifetimes zm an).ReMapFrame zm an).slotCovered m s i := by
  intro s i ⟨i0, a, ha, hal, haa, hle⟩ ⟨i1, r, hr, hrl, hru⟩
  obtain ⟨h1, h2, _⟩ := ComputeFrameLifetimes_spec m zm an hnum hvalid
  have hc1 := sameCode_frameConsistent h1 hc
  obtain ⟨_, w2, w3⟩ := lifetimesBefore_wide m zm an hperm hnum m.insts1.length
  have hlt : ∀ (j : Nat) (z : ZInst), m.insts1[j]? = some z → j < m.insts1.length := by
    intro j z hz
    rcases Nat.lt_or_ge j m.insts1.length with h | h
    · exact h
    · rw [List.getElem?_eq_none h] at hz
      cases hz
  have hfin : m.lifetimesBefore zm an m.insts1.length = m.ComputeFrameLifetimes zm an := rfl
  rw [hfin] at w2 w3
  obtain ⟨b, hb, hbl⟩ := w2 i0 a (hlt i0 a ha) ha hal s haa
  have he := w3 i1 r (hlt i1 r hr) hr hrl s hru
  have hden : (m.ComputeFrameLifetimes zm an).denizen s = m.denizen s := by
    simp [ZAM.denizen, h1.2.1]
  unfold ZAM.slotCovered
  rw [(ReMapFrame_frame _ zm an).1, (ReMapFrame_frame _ zm an).2.1]
  generalize m.ComputeFrameLifetimes zm an = l at h1 h2 hc1 hb he hden
  obtain ⟨k, pos, sh, q1, q2, q3, q4⟩ := remapVars_mapped l an hperm hc1
    (by rw [h1.1]; exact h2) (by rw [h1.2.2.2.2.1]; exact h0) s b hb he
  rw [hden] at q3
  exact ⟨k, pos, sh, (b : Int), q1, q2, q3, q4, by omega⟩

/-- Witness for C3: in the body `tableLoopExample` the loop variable `k`, in the slot 1, is
assigned by the `NEXT` instruction at the position 2 as a loop variable and is in use
throughout the loop, so it is covered at the positions 2 and 3; the table `t`, in the slot 0,
is assigned at the position 0 and is the aggregate of the loop that starts at the position 1,
so it is covered at the position 1. -/
theorem ReMapFrame_covers_live_slots_witness :
    ((tableLoopExample.ComputeFrameLifetimes exampleMethods exampleAnalyses).ReMapFrame
        exampleMethods exampleAnalyses).slotCovered tableLoopExample 1 2
    ∧ ((tableLoopExample.ComputeFrameLifetimes exampleMethods exampleAnalyses).ReMapFrame
        exampleMethods exampleAnalyses).slotCovered tableLoopExample 1 3
    ∧ ((tableLoopExample.ComputeFrameLifetimes exampleMethods exampleAnalyses).ReMapFrame
        exampleMethods exampleAnalyses).slotCovered tableLoopExample 0 1 := by
  have hnum : tableLoopExample.numbered := by
    intro i z hz
    simp only [tableLoopExample, ZAM.empty, ZInst.new] at hz
    match i with
    | 0 => simp at hz; subst hz; rfl
    | 1 => simp at hz; subst hz; rfl
    | 2 => simp at hz; subst hz; rfl
    | 3 => simp at hz; subst hz; rfl
    | 4 => simp at hz; subst hz; rfl
    | 5 => simp at hz; subst hz; rfl
    | 6 => simp at hz; subst hz; rfl
    | (k + 7) => simp at hz
  have hc : tableLoopExample.frameConsistent := by
    refine ⟨rfl, ?_⟩
    intro s v hv
    simp only [tableLoopExample, ZAM.empty] at hv
    match s with
    | 0 => simp at hv; subst hv; rfl
    | 1 => simp at hv; subst hv; rfl
    | 2 => simp at hv; subst hv; rfl
    | (k + 3) => simp at hv
  have hvalid : tableLoopExample.assignedSlotsValid exampleMethods := by
    intro z hz _
    simp only [tableLoopExample, ZAM.empty, ZInst.new, List.mem_cons, List.mem_singleton,
      List.not_mem_nil, or_false] at hz
    rcases hz with rfl | rfl | rfl | rfl | rfl | rfl | rfl <;>
      simp [ZAM.validSlot, tableLoopExample, ZAM.empty, ZOp.isTableIter, exampleMethods]
  have h := ReMapFrame_covers_live_slots tableLoopExample exampleMethods exampleAnalyses
    (fun x => List.Perm.refl x) hnum hc hvalid rfl
  have hk : tableLoopExample.usedSomewhere exampleMethods 1 :=
    ⟨2, _, rfl, rfl, Or.inr (Or.inr (Or.inl ⟨Or.inl rfl, Or.inl (List.Mem.head _)⟩))⟩
  have ht : tableLoopExample.usedSomewhere exampleMethods 0 :=
    ⟨1, _, rfl, rfl, Or.inr (Or.inl ⟨Or.inl rfl, rfl, _, rfl, rfl⟩)⟩
  exact ⟨h 1 2 ⟨2, _, rfl, rfl, Or.inr ⟨Or.inl rfl, List.Mem.head _⟩, by decide⟩ hk,
    h 1 3 ⟨2, _, rfl, rfl, Or.inr ⟨Or.inl rfl, List.Mem.head _⟩, by decide⟩ hk,
    h 0 1 ⟨0, _, rfl, rfl, Or.inl ⟨rfl, rfl⟩, by decide⟩ ht⟩

/-! ## A second run of the optimizer -/

/-- For the straight-line body `remapExample` a second run of the optimizer and the
concretization, on the optimized body, gives the `insts2` of the first run. -/
theorem rerunCode_remapExample :
    remapExample.rerunCode exampleMethods exampleAnalyses exampleTables 10 exampleProcess
      = some ([some (ZOp.OP_other 1, 0, 0, 0, 0), some (ZOp.OP_other 1, 1, 0, 0, 0),
          some (ZOp.OP_other 2, 0, 0, 1, 0), some (ZOp.OP_other 3, 0, 0, 0, 0)],
        [some (ZOp.OP_other 1, 0, 0, 0, 0), some (ZOp.OP_other 1, 1, 0, 0, 0),
          some (ZOp.OP_other 2, 0, 0, 1, 0), some (ZOp.OP_other 3, 0, 0, 0, 0)]) := rfl

/-- C13: for the body `local y = 1; local x = 2; switch ( x ) { case 1: break; case 2: break; }
return y;` the first run of the optimizer and the concretization places `y` in the slot 0 and
`x` in the slot 1 and leaves five instructions in `insts2`: the two assignments, the head,
whose default branch goes to the position 4, the `break` of the first case, a branch to the
position 4, which is the instruction that follows it, and the return.  The optimized body
holds these five instructions, the two branches pointing to the return at the position 4, with
the jump table `1 -> position 3, 2 -> position 4`, the frame of `y` and `x` and an empty
`insts2`.  The second run, on the optimized body, leaves four instructions in `insts2`: the
two assignments, the head, whose default branch goes to the position 3, and the return; it has
removed the branch. -/
theorem OptimizeInsts_second_run_differs :
    (assignSwitchExample.optimizeAndAssemble switchMethods exampleAnalyses exampleTables false
        10 exampleProcess).map
          (fun r => (r.1.optimizedBody.insts1.map ZInst.operands,
            r.1.optimizedBody.insts1.map (fun z => z.target),
            r.1.optimizedBody.int_cases, r.1.optimizedBody.frame_denizens,
            r.1.optimizedBody.insts2))
      = some ([(ZOp.OP_other 1, 0, 0, 0, 0), (ZOp.OP_other 1, 1, 0, 0, 0),
          (ZOp.OP_SWITCHI_VVV, 1, 0, 4, 0), (ZOp.OP_GOTO_V, 4, 0, 0, 0),
          (ZOp.OP_other 3, 0, 0, 0, 0)],
        [none, none, some (InstRef.inst 4), some (InstRef.inst 4), none],
        [[(1, InstRef.inst 3), (2, InstRef.inst 4)]], [11, 10], [])
    ∧ assignSwitchExample.rerunCode switchMethods exampleAnalyses exampleTables 10 exampleProcess
      = some ([some (ZOp.OP_other 1, 0, 0, 0, 0), some (ZOp.OP_other 1, 1, 0, 0, 0),
          some (ZOp.OP_SWITCHI_VVV, 1, 0, 4, 0), some (ZOp.OP_GOTO_V, 4, 0, 0, 0),
          some (ZOp.OP_other 3, 0, 0, 0, 0)],
        [some (ZOp.OP_other 1, 0, 0, 0, 0), some (ZOp.OP_other 1, 1, 0, 0, 0),
          some (ZOp.OP_SWITCHI_VVV, 1, 0, 3, 0), some (ZOp.OP_other 3, 0, 0, 0, 0)]) :=
  ⟨rfl, rfl⟩

end Zeek
